import Mathlib

/-!
# ASCII video codec (`codec.h`): a shallow embedding and its verification

The C++ functions of `src/src/codec.h` are transcribed as Lean functions of the same
name.  Conventions of the embedding:

* `char` / `unsigned char` / one byte of a file is a `Byte` (`Fin 256`);
* `int` is a Lean `Int` kept inside the 32-bit two's-complement range by `toInt32`
  at every arithmetic operation and narrowing conversion of the source, as the
  two's-complement machines do; the sum `bitCount + 7` of `readBitsAsString` is left
  undefined when it exceeds `INT_MAX`, as the C++ standard has it (an optimising compiler
  does not wrap it);
* `size_t` quantities (container sizes, loop counters over containers) are `Nat`;
* `std::string` is a `List Char`; reading `s[s.size()]` yields the terminating NUL and
  reading further out is undefined behaviour;
* an output stream is the list of bytes written, an input stream the list of bytes
  not yet consumed (a read past the end fails and leaves the destination untouched);
* a `Node*` is a value of `Node`: `Node.null` is `nullptr`;
* `std::unordered_map<char, T>` is a partial function on `Byte`; its iteration order and
  the heap algorithms of `<algorithm>` are not part of the repository and are taken as a
  parameter (`StdImpl`) constrained by the contract of the C++ standard (`StdImpl.Lawful`);
* a C++ exception or undefined behaviour is an `Except.error` carrying a `Fault`;
* a loop whose trip count is not structural runs on fuel, and the function that starts it
  supplies an upper bound of the trip count.
-/

namespace Codec

/-- One byte: a `char`, an `unsigned char`, or one byte of the artifact. -/
abbrev Byte := Fin 256

/-- The ways an operation of the codec can fail to return normally. -/
inductive Fault where
  /-- The exception `std::out_of_range` (`at`, `substr`, `stoi`, the explicit bound check). -/
  | out_of_range
  /-- The exception `std::invalid_argument` (`stoi` finds no digit). -/
  | invalid_argument
  /-- The exception `std::length_error` (`resize` / `reserve` beyond `max_size`). -/
  | length_error
  /-- The exception `std::filesystem::filesystem_error` (`fs::exists` cannot read the status
  of a path). -/
  | filesystem_error
  /-- No exception: the C++ standard leaves the behaviour undefined (null dereference,
  use of an uninitialised variable, out-of-bounds access). -/
  | undefined_behaviour
  /-- Not a behaviour of the program: a loop of the embedding used up its fuel.  The fuel
  each function supplies is an upper bound on the iterations the C++ loop can make. -/
  | fuel_exhausted
deriving DecidableEq, Repr

instance instDecidableEqExcept {ε α : Type} [DecidableEq ε] [DecidableEq α] :
    DecidableEq (Except ε α)
  | .ok a, .ok b => if h : a = b then isTrue (by rw [h]) else isFalse (fun h2 => h (by cases h2; rfl))
  | .error a, .error b =>
    if h : a = b then isTrue (by rw [h]) else isFalse (fun h2 => h (by cases h2; rfl))
  | .ok _, .error _ => isFalse (fun h => by cases h)
  | .error _, .ok _ => isFalse (fun h => by cases h)

/-- Reduction of an integer to the range of a 32-bit two's-complement `int`: the value
modulo `2^32`, read as signed. -/
def toInt32 (x : Int) : Int :=
  let u : Nat := (x % 4294967296).toNat
  if u < 2147483648 then (u : Int) else (u : Int) - 4294967296

/-- The four bytes `out.write(reinterpret_cast<const char*>(&x), sizeof(int))` puts on the
stream for an `int` (little-endian, as on the platforms the repository targets). -/
def writeInt (x : Int) : List Byte :=
  let u := (x % 4294967296).toNat
  [Fin.ofNat u, Fin.ofNat (u / 256), Fin.ofNat (u / 65536), Fin.ofNat (u / 16777216)]

/-- The statement `in.read(reinterpret_cast<char*>(&x), sizeof(int))` followed by a use of
`x`: when fewer than four bytes are left the read fails, `x` stays uninitialised and its use
is undefined behaviour. -/
def readInt : List Byte → Except Fault (Int × List Byte)
  | b0 :: b1 :: b2 :: b3 :: rest =>
    .ok (toInt32 (b0.val + 256 * b1.val + 65536 * b2.val + 16777216 * b3.val), rest)
  | _ => .error .undefined_behaviour

/-- The expression `s[idx]` on a `std::string` with an `int` index. -/
def stringAt (s : List Char) (idx : Int) : Except Fault Char :=
  if idx < 0 then .error .undefined_behaviour
  else
    match s.get? idx.toNat with
    | some c => .ok c
    | none => if idx.toNat = s.length then .ok (Char.ofNat 0) else .error .undefined_behaviour

/-- The `for` loop of `stringToByte`: `n` iterations remain, `i` is the loop counter and
`byte` the accumulator. -/
def stringToByteLoop (bits : List Char) (start : Int) : Nat → Nat → Nat → Except Fault Nat
  | 0, _, byte => .ok byte
  | n + 1, i, byte =>
    if toInt32 (start + i) > toInt32 bits.length then .ok byte
    else
      match stringAt bits (toInt32 (start + i)) with
      | .error e => .error e
      | .ok c =>
        if c = '1' then stringToByteLoop bits start n (i + 1) (byte ||| (128 >>> i))
        else stringToByteLoop bits start n (i + 1) byte

/-- `stringToByte(bits, start)`. -/
def stringToByte (bits : List Char) (start : Int) : Except Fault Byte :=
  match stringToByteLoop bits start 8 0 0 with
  | .error e => .error e
  | .ok b => .ok (Fin.ofNat b)

/-- The `for` loop of `byteToString`: `n` iterations remain. -/
def byteToStringLoop (byte : Nat) : Nat → Nat → List Char → List Char
  | 0, _, bits => bits
  | n + 1, byteMask, bits =>
    byteToStringLoop byte n (byteMask >>> 1)
      (if byte &&& byteMask ≠ 0 then bits ++ ['1'] else bits ++ ['0'])

/-- `byteToString(byte)`. -/
def byteToString (byte : Byte) : List Char := byteToStringLoop byte.val 8 128 []

/-- The `for (int i = 0; i < bitCount; i += 8)` loop of `writeBitString`; `fuel` bounds the
number of iterations and `out` is what the loop has written so far. -/
def writeBitStringLoop (bits : List Char) (bitCount : Int) :
    Nat → Int → List Byte → Except Fault (List Byte)
  | 0, _, _ => .error .fuel_exhausted
  | fuel + 1, i, out =>
    if i < bitCount then
      match stringToByte bits i with
      | .error e => .error e
      | .ok byte => writeBitStringLoop bits bitCount fuel (toInt32 (i + 8)) (out ++ [byte])
    else .ok out

/-- `writeBitString(out, bits)`: the bytes put on the stream.  The `int` counter steps by 8
until it reaches `bitCount`, or wraps to a negative offset, where `stringToByte` is
undefined; either way the loop test is evaluated at most `bits.length / 8 + 2` times, the
fuel given. -/
def writeBitString (bits : List Char) : Except Fault (List Byte) :=
  let bitCount := toInt32 bits.length
  let remainder : Byte := Fin.ofNat (Int.tmod bitCount 8 % 256).toNat
  match writeBitStringLoop bits bitCount (bits.length / 8 + 2) 0 [] with
  | .error e => .error e
  | .ok data => .ok (writeInt bitCount ++ data ++ [remainder])

/-- The `while (count > 0 && in.read(&byte, 1))` loop of `readBitsAsString`: returns the
characters gathered and the bytes left on the stream. -/
def readBitsLoop : List Byte → Int → List Char → List Char × List Byte
  | [], _, bits => (bits, [])
  | byte :: rest, count, bits =>
    if count > 0 then readBitsLoop rest (count - 1) (bits ++ byteToString byte)
    else (bits, byte :: rest)

/-- The call `s.resize(n)` on a `std::string` with an `int` argument: a negative `n`
converts to a `size_t` beyond `max_size()` and throws. -/
def stringResize (s : List Char) (n : Int) : Except Fault (List Char) :=
  if n < 0 then .error .length_error
  else .ok (s.take n.toNat ++ List.replicate (n.toNat - s.length) (Char.ofNat 0))

/-- `readBitsAsString(in, bitCount)`: the string returned and the bytes left on the stream.
The sum `bitCount + 7` is computed in `int`: above `INT_MAX` it overflows and the behaviour
is undefined. -/
def readBitsAsString (stream : List Byte) (bitCount : Int) :
    Except Fault (List Char × List Byte) :=
  if bitCount + 7 > 2147483647 then .error .undefined_behaviour
  else
    let count := Int.tdiv (bitCount + 7) 8
    let r := readBitsLoop stream count []
    match stringResize r.1 bitCount with
    | .error e => .error e
    | .ok bits => .ok (bits, r.2)

/-- The struct `Node`; a value of this type is a `Node*`, with `null` for `nullptr`. -/
inductive Node where
  | null : Node
  | mk (character : Byte) (freq : Int) (l r : Node) : Node
deriving DecidableEq, Repr

/-- The member access `p->freq` (only ever applied to pointers obtained from `new`). -/
def Node.freq : Node → Int
  | .null => 0
  | .mk _ f _ _ => f

/-- The test `!p` on a pointer. -/
def Node.isNull : Node → Bool
  | .null => true
  | .mk _ _ _ _ => false

/-- The test `!root->l && !root->r` on the two child pointers of a node. -/
def isLeafPair (l r : Node) : Bool := l.isNull && r.isNull

/-- A `std::unordered_map<char, int>`: at most one count per symbol. -/
abbrev FreqTable := Byte → Option Int

/-- A `std::unordered_map<char, std::string>`: at most one code per symbol. -/
abbrev CodeTable := Byte → Option (List Char)

/-- The entries of a frequency table, listed by ascending key. -/
def FreqTable.entries (m : FreqTable) : List (Byte × Int) :=
  (List.finRange 256).filterMap (fun c => (m c).map (fun f => (c, f)))

/-- The assignment `codes[c] = code`. -/
def CodeTable.set (codes : CodeTable) (c : Byte) (code : List Char) : CodeTable :=
  fun k => if k = c then some code else codes k

/-- The lookup `codes.at(c)`, which throws `std::out_of_range` on a missing key. -/
def CodeTable.at (codes : CodeTable) (c : Byte) : Except Fault (List Char) :=
  match codes c with
  | some code => .ok code
  | none => .error .out_of_range

/-- The lambda `[](Node* a, Node* b) { return a->freq > b->freq; }` passed to the heap
algorithms. -/
def heapCompare (a b : Node) : Bool := decide (a.freq > b.freq)

/-- The part of the C++ standard library whose result the standard does not fix: the order
in which an `unordered_map` is iterated and the arrangement the heap algorithms of
`<algorithm>` produce. -/
structure StdImpl where
  /-- Iteration order of an `unordered_map<char, int>`, given its entries by ascending key. -/
  mapOrder : List (Byte × Int) → List (Byte × Int)
  /-- The call `std::make_heap(v.begin(), v.end(), comp)`. -/
  make_heap : (Node → Node → Bool) → List Node → List Node
  /-- The call `std::pop_heap(v.begin(), v.end(), comp)`. -/
  pop_heap : (Node → Node → Bool) → List Node → List Node
  /-- The call `std::push_heap(v.begin(), v.end(), comp)`. -/
  push_heap : (Node → Node → Bool) → List Node → List Node

/-- The predicate `std::is_heap(v.begin(), v.end(), comp)`: no element compares below its
child, the children of position `p` being `2p+1` and `2p+2`. -/
def IsHeap (comp : Node → Node → Bool) (v : List Node) : Prop :=
  ∀ i : Nat, 0 < i → ∀ a b : Node, v.get? ((i - 1) / 2) = some a → v.get? i = some b →
    comp a b = false

/-- The contract the C++ standard gives for the operations of `StdImpl`, at the comparator
the source passes. -/
structure StdImpl.Lawful (S : StdImpl) : Prop where
  /-- Iterating a map visits every entry exactly once. -/
  mapOrder_perm : ∀ l, (S.mapOrder l).Perm l
  /-- The range is rearranged into a heap. -/
  make_heap_spec : ∀ v, (S.make_heap heapCompare v).Perm v ∧ IsHeap heapCompare (S.make_heap heapCompare v)
  /-- On a non-empty heap the first element is moved to the end and the others are
  rearranged into a heap. -/
  pop_heap_spec : ∀ x v, IsHeap heapCompare (x :: v) →
    ∃ w, S.pop_heap heapCompare (x :: v) = w ++ [x] ∧ w.Perm v ∧ IsHeap heapCompare w
  /-- When all but the last element form a heap, the range is rearranged into a heap. -/
  push_heap_spec : ∀ v x, IsHeap heapCompare v →
    (S.push_heap heapCompare (v ++ [x])).Perm (v ++ [x]) ∧
      IsHeap heapCompare (S.push_heap heapCompare (v ++ [x]))

/-- A reference implementation of `StdImpl`: maps are iterated by ascending key and a heap
is kept sorted (a sorted range is a heap). -/
def refStd : StdImpl where
  mapOrder := fun l => l
  make_heap := fun comp v => v.insertionSort (fun a b => comp a b = false)
  pop_heap := fun comp v =>
    match v with
    | [] => []
    | x :: w => w.insertionSort (fun a b => comp a b = false) ++ [x]
  push_heap := fun comp v => v.insertionSort (fun a b => comp a b = false)

/-- The `while (heap.size() != 1)` loop of `buildHuffmanTree` followed by `return heap[0]`;
every iteration shortens the heap by one, so `fuel = heap.size()` is enough. -/
def buildHuffmanTreeLoop (S : StdImpl) : Nat → List Node → Except Fault Node
  | 0, _ => .error .fuel_exhausted
  | fuel + 1, heap =>
    if heap.length ≠ 1 then
      let heap1 := S.pop_heap heapCompare heap
      match heap1.getLast? with
      | none => .error .undefined_behaviour
      | some l =>
        let heap2 := S.pop_heap heapCompare heap1.dropLast
        match heap2.getLast? with
        | none => .error .undefined_behaviour
        | some r =>
          let top := Node.mk 0 (toInt32 (l.freq + r.freq)) l r
          buildHuffmanTreeLoop S fuel (S.push_heap heapCompare (heap2.dropLast ++ [top]))
    else
      match heap.head? with
      | none => .error .undefined_behaviour
      | some root => .ok root

/-- `buildHuffmanTree(uniqueChars)`. -/
def buildHuffmanTree (S : StdImpl) (uniqueChars : FreqTable) : Except Fault Node :=
  if uniqueChars.entries = [] then .ok Node.null
  else
    let heap := (S.mapOrder uniqueChars.entries).map (fun e => Node.mk e.1 e.2 Node.null Node.null)
    let heap := S.make_heap heapCompare heap
    buildHuffmanTreeLoop S heap.length heap

/-- `writeHuffmanTree(out, root)`: the bytes put on the stream (`sizeof(bool) = 1`,
`true` is written as 1). -/
def writeHuffmanTree : Node → List Byte
  | .null => []
  | .mk character _ l r =>
    if isLeafPair l r then [1, character]
    else [0] ++ writeHuffmanTree l ++ writeHuffmanTree r

/-- `readHuffmanTree(in)` with a bound `fuel` on the recursion depth: the tree and the
bytes left on the stream.  A flag byte other than 0 is read as `true`; when the stream ends
before the flag or the symbol, the variable read into stays uninitialised. -/
def readHuffmanTreeAux : Nat → List Byte → Except Fault (Node × List Byte)
  | 0, _ => .error .fuel_exhausted
  | _ + 1, [] => .error .undefined_behaviour
  | fuel + 1, isLeaf :: stream =>
    if isLeaf ≠ 0 then
      match stream with
      | [] => .error .undefined_behaviour
      | character :: rest => .ok (Node.mk character 0 Node.null Node.null, rest)
    else
      match readHuffmanTreeAux fuel stream with
      | .error e => .error e
      | .ok (l, stream1) =>
        match readHuffmanTreeAux fuel stream1 with
        | .error e => .error e
        | .ok (r, stream2) => .ok (Node.mk 0 0 l r, stream2)

/-- `readHuffmanTree(in)`: every call consumes a byte before it recurses, so the depth of
the recursion never exceeds the number of bytes on the stream. -/
def readHuffmanTree (stream : List Byte) : Except Fault (Node × List Byte) :=
  readHuffmanTreeAux (stream.length + 1) stream

/-- `generateCodes(root, code, codes)`: the table `codes` after the call. -/
def generateCodes : Node → List Char → CodeTable → CodeTable
  | .null, _, codes => codes
  | .mk character _ l r, code, codes =>
    if isLeafPair l r then codes.set character (if code = [] then ['0'] else code)
    else generateCodes r (code ++ ['1']) (generateCodes l (code ++ ['0']) codes)

/-- The `for (char bit : code)` loop of `findCharFromCode` followed by
`return current->character`. -/
def findCharFromCodeLoop : Node → List Char → Except Fault Byte
  | .null, _ => .error .undefined_behaviour
  | .mk character _ _ _, [] => .ok character
  | .mk _ _ l r, bit :: rest =>
    if bit = '0' then findCharFromCodeLoop l rest else findCharFromCodeLoop r rest

/-- `findCharFromCode(root, code)`. -/
def findCharFromCode (root : Node) (code : List Char) : Except Fault Byte :=
  match root with
  | .null => .error .undefined_behaviour
  | .mk character _ l r =>
    if isLeafPair l r then .ok character else findCharFromCodeLoop root code

/-- The type `rgb = std::array<unsigned int, 3>`: the elements `color[0]`, `color[1]` and
`color[2]`, each an `unsigned int`. -/
structure rgb where
  c0 : Nat
  c1 : Nat
  c2 : Nat
deriving DecidableEq, Repr

/-- One cell `std::pair<char, rgb>` of a frame. -/
abbrev Pixel := Byte × rgb

/-- One frame `std::vector<std::pair<char, rgb>>`. -/
abbrev Frame := List Pixel

/-- The type `ASCIIVideo = std::unordered_map<int, Frame>`, as the list of its entries
(a well-formed value has no key twice). -/
abbrev ASCIIVideo := List (Int × Frame)

/-- The lookup `video.find(k)`. -/
def ASCIIVideo.find (video : ASCIIVideo) (k : Int) : Option Frame :=
  match video with
  | [] => none
  | e :: rest => if e.1 = k then some e.2 else ASCIIVideo.find rest k

/-- The assignment `video[k] = frame`. -/
def ASCIIVideo.set (video : ASCIIVideo) (k : Int) (frame : Frame) : ASCIIVideo :=
  match video with
  | [] => [(k, frame)]
  | e :: rest => if e.1 = k then (k, frame) :: rest else e :: ASCIIVideo.set rest k frame

/-- The string `std::bitset<n>(v).to_string()`: the `n` low-order bits of `v`, most
significant first. -/
def bitsetToString : Nat → Nat → List Char
  | 0, _ => []
  | n + 1, v => bitsetToString n (v / 2) ++ [if v % 2 = 1 then '1' else '0']

/-- The call `s.substr(pos, count)` with `int` arguments (a negative `int` converts to a
huge `size_t`): throws `std::out_of_range` when `pos > s.size()`. -/
def substr (s : List Char) (pos count : Int) : Except Fault (List Char) :=
  if pos < 0 ∨ s.length < pos.toNat then .error .out_of_range
  else if count < 0 then .ok (s.drop pos.toNat)
  else .ok ((s.drop pos.toNat).take count.toNat)

/-- The predicate `isspace` of the C locale. -/
def isSpace (c : Char) : Bool :=
  c = ' ' || (9 ≤ c.toNat && c.toNat ≤ 13)

/-- The test for a digit of base 2. -/
def isBinDigit (c : Char) : Bool := c = '0' || c = '1'

/-- Value of a run of binary digits, most significant first. -/
def binaryValue (digits : List Char) : Nat :=
  digits.foldl (fun acc c => 2 * acc + (if c = '1' then 1 else 0)) 0

/-- The call `std::stoi(s, nullptr, 2)`: skips white space, takes an optional sign and the
longest run of binary digits; throws `std::invalid_argument` when there is no digit and
`std::out_of_range` when the value does not fit an `int`. -/
def stoi (s : List Char) : Except Fault Int :=
  let s1 := s.dropWhile isSpace
  let negative := decide (s1.head? = some '-')
  let s2 := if s1.head? = some '-' ∨ s1.head? = some '+' then s1.tail else s1
  let digits := s2.takeWhile isBinDigit
  if digits = [] then .error .invalid_argument
  else
    let v : Int := if negative then -(binaryValue digits : Int) else (binaryValue digits : Int)
    if v < -2147483648 ∨ 2147483647 < v then .error .out_of_range else .ok v

/-- The five `bitString.append` calls that `compressFrame` makes for one cell (the same in
both branches): code length, code, and the three channels, each field in 8 bits. -/
def appendPixel (huffmanCodes : CodeTable) (bitString : List Char) (p : Pixel) :
    Except Fault (List Char) :=
  match huffmanCodes.at p.1 with
  | .error e => .error e
  | .ok code =>
    .ok (bitString ++ bitsetToString 8 code.length ++ code ++ bitsetToString 8 p.2.c0 ++
      bitsetToString 8 p.2.c1 ++ bitsetToString 8 p.2.c2)

/-- The `for (const auto& [ch, color] : frame)` loop of the full-frame branch of
`compressFrame`: the final `bitString`. -/
def fullFrameLoop (huffmanCodes : CodeTable) : Frame → List Char → Except Fault (List Char)
  | [], bitString => .ok bitString
  | p :: rest, bitString =>
    match appendPixel huffmanCodes bitString p with
    | .error e => .error e
    | .ok bitString1 => fullFrameLoop huffmanCodes rest bitString1

/-- The test `i >= prevFrame.size() || frame[i].first != prevFrame[i].first ||
frame[i].second != prevFrame[i].second` of the delta branch of `compressFrame`, for the
cell `p = frame[i]`. -/
def cellChanged (prevFrame : Frame) (i : Nat) (p : Pixel) : Bool :=
  match prevFrame.get? i with
  | none => true
  | some q => decide (p.1 ≠ q.1) || decide (p.2 ≠ q.2)

/-- The `for (size_t i = 0; i < frame.size(); ++i)` loop of the delta branch of
`compressFrame`, from position `i` on (the first argument is `frame` from `i`): the final
`bitString` and `numChanges`. -/
def deltaFrameLoop (huffmanCodes : CodeTable) (prevFrame : Frame) :
    Frame → Nat → List Char → Int → Except Fault (List Char × Int)
  | [], _, bitString, numChanges => .ok (bitString, numChanges)
  | p :: rest, i, bitString, numChanges =>
    if cellChanged prevFrame i p then
      match appendPixel huffmanCodes (bitString ++ bitsetToString 32 i) p with
      | .error e => .error e
      | .ok bitString1 =>
        deltaFrameLoop huffmanCodes prevFrame rest (i + 1) bitString1 (toInt32 (numChanges + 1))
    else deltaFrameLoop huffmanCodes prevFrame rest (i + 1) bitString numChanges

/-- `compressFrame(out, frame, huffmanCodes, useDelta, prevFrame)`: the bytes put on the
stream. -/
def compressFrame (frame : Frame) (huffmanCodes : CodeTable) (useDelta : Bool)
    (prevFrame : Frame) : Except Fault (List Byte) :=
  if !useDelta then
    let frameSize := toInt32 frame.length
    match fullFrameLoop huffmanCodes frame [] with
    | .error e => .error e
    | .ok bitString =>
      match writeBitString bitString with
      | .error e => .error e
      | .ok packed => .ok (writeInt frameSize ++ packed)
  else
    match deltaFrameLoop huffmanCodes prevFrame frame 0 [] 0 with
    | .error e => .error e
    | .ok (bitString, numChanges) =>
      match writeBitString bitString with
      | .error e => .error e
      | .ok packed => .ok (writeInt numChanges ++ packed)

/-- The conversion `static_cast<unsigned int>(x)` of an `int`. -/
def toUInt32 (x : Int) : Nat := (x % 4294967296).toNat

/-- `parsePixel(huffmanTree, frameBits, start)`: the cell and the new value of `start`. -/
def parsePixel (huffmanTree : Node) (frameBits : List Char) (start : Int) :
    Except Fault (Pixel × Int) := do
  let codeLen ← (substr frameBits start 8) >>= stoi
  let start := toInt32 (start + 8)
  let code ← substr frameBits start codeLen
  let character ← findCharFromCode huffmanTree code
  let start := toInt32 (start + codeLen)
  let c0 ← (substr frameBits start 8) >>= stoi
  let c1 ← (substr frameBits (toInt32 (start + 8)) 8) >>= stoi
  let c2 ← (substr frameBits (toInt32 (start + 16)) 8) >>= stoi
  let start := toInt32 (start + 24)
  pure ((character, ⟨toUInt32 c0, toUInt32 c1, toUInt32 c2⟩), start)

/-- The `for (int p = 0; p < frameSize; ++p)` loop of the full-frame branch of
`decompressASCIIVideo`, with `n` iterations left: the final `frame` and `start`. -/
def fullDecodeLoop (huffmanTree : Node) (frameBits : List Char) :
    Nat → Int → Frame → Except Fault (Frame × Int)
  | 0, start, frame => .ok (frame, start)
  | n + 1, start, frame =>
    match parsePixel huffmanTree frameBits start with
    | .error e => .error e
    | .ok (pixel, start1) => fullDecodeLoop huffmanTree frameBits n start1 (frame ++ [pixel])

/-- The `for (int c = 0; c < numChanges; c++)` loop of the delta branch of
`decompressASCIIVideo`, with `n` iterations left: the final `frame` and `start`. -/
def deltaDecodeLoop (huffmanTree : Node) (frameBits : List Char) :
    Nat → Int → Frame → Except Fault (Frame × Int)
  | 0, start, frame => .ok (frame, start)
  | n + 1, start, frame =>
    match (substr frameBits start 32) >>= stoi with
    | .error e => .error e
    | .ok index =>
      let start1 := toInt32 (start + 32)
      if index ≥ toInt32 frame.length then .error .out_of_range
      else
        match parsePixel huffmanTree frameBits start1 with
        | .error e => .error e
        | .ok (pixel, start2) =>
          if index < 0 then .error .undefined_behaviour
          else deltaDecodeLoop huffmanTree frameBits n start2 (frame.set index.toNat pixel)

/-- One iteration of the `for (int i = 0; i < numframes; i++)` loop of
`decompressASCIIVideo`: the stream and the video after frame `i` has been decoded.  The
one-byte read of `remainder` may fail without consequence (the variable is never used);
`frame.reserve` throws on a negative size. -/
def decodeFrame (huffmanTree : Node) (i : Int) (packedBits : List Byte) (video : ASCIIVideo) :
    Except Fault (List Byte × ASCIIVideo) :=
  if i = 0 then do
    let (frameSize, s1) ← readInt packedBits
    let (bitCount, s2) ← readInt s1
    let (frameBits, s3) ← readBitsAsString s2 bitCount
    let s4 := s3.tail
    if frameSize < 0 then .error .length_error
    else do
      let (frame, _) ← fullDecodeLoop huffmanTree frameBits frameSize.toNat 0 []
      pure (s4, video.set 0 frame)
  else do
    let (numChanges, s1) ← readInt packedBits
    let (bitCount, s2) ← readInt s1
    let (frameBits, s3) ← readBitsAsString s2 bitCount
    let s4 := s3.tail
    let frame := (video.find (i - 1)).getD []
    let (frame1, _) ← deltaDecodeLoop huffmanTree frameBits numChanges.toNat 0 frame
    pure (s4, video.set i frame1)

/-- The `for (int i = 0; i < numframes; i++)` loop of `decompressASCIIVideo`, with `n`
iterations left: the final `video`. -/
def decodeFramesLoop (huffmanTree : Node) :
    Nat → Int → List Byte → ASCIIVideo → Except Fault ASCIIVideo
  | 0, _, _, video => .ok video
  | n + 1, i, packedBits, video =>
    match decodeFrame huffmanTree i packedBits video with
    | .error e => .error e
    | .ok (s, video1) => decodeFramesLoop huffmanTree n (i + 1) s video1

/-- The body of the `try` block of `decompressASCIIVideo`, run on the bytes of the file. -/
def decompressStream (packedBits : List Byte) : Except Fault ASCIIVideo := do
  let (numframes, s1) ← readInt packedBits
  let (huffmanTree, s2) ← readHuffmanTree s1
  if huffmanTree.isNull then .ok []
  else decodeFramesLoop huffmanTree numframes.toNat 0 s2 []

/-- What the file system answers about the path given to `decompressASCIIVideo`. -/
inductive PathStatus where
  /-- The status of the path cannot be read (a component that is too long, a directory that
  may not be searched): `fs::exists` throws `fs::filesystem_error`. -/
  | unreadable
  /-- The path names no file: `fs::exists` returns `false`. -/
  | missing
  /-- The path exists but the stream on it does not open: `is_open` returns `false`. -/
  | unopened
  /-- The path names a file, and the stream opened on it yields `bytes`. -/
  | file (bytes : List Byte)
deriving DecidableEq, Repr

/-- `decompressASCIIVideo(inPathStr)`: `extension` is the extension of the path and `source`
what the file system answers about it.  The test `inPath.extension() != ".bin" ||
!fs::exists(inPath)` stands before the `try` block: `fs::exists` is called only for the
extension `.bin`, and an exception it throws reaches the caller.  Every C++ exception
raised in the `try` block is caught and turned into the empty video. -/
def decompressASCIIVideo (extension : String) (source : PathStatus) :
    Except Fault ASCIIVideo :=
  if extension ≠ ".bin" then .ok []
  else
    match source with
    | .unreadable => .error .filesystem_error
    | .missing => .ok []
    | .unopened => .ok []
    | .file packedBits =>
      match decompressStream packedBits with
      | .ok video => .ok video
      | .error .undefined_behaviour => .error .undefined_behaviour
      | .error .fuel_exhausted => .error .fuel_exhausted
      | .error _ => .ok []

/-- The statement `charFreq[ch]++`. -/
def FreqTable.increment (charFreq : FreqTable) (ch : Byte) : FreqTable :=
  fun k => if k = ch then some (toInt32 ((charFreq k).getD 0 + 1)) else charFreq k

/-- The two nested counting loops at the start of `compressASCIIVideo`. -/
def countChars (video : ASCIIVideo) (charFreq : FreqTable) : FreqTable :=
  video.foldl (fun acc e => e.2.foldl (fun acc2 p => acc2.increment p.1) acc) charFreq

/-- The lookup `video.at(i)`, which throws `std::out_of_range` on a missing key. -/
def ASCIIVideo.at (video : ASCIIVideo) (i : Int) : Except Fault Frame :=
  match video.find i with
  | some frame => .ok frame
  | none => .error .out_of_range

/-- The `for (int i = 0; i < numFrames; ++i)` loop of `compressASCIIVideo`, with `n`
iterations left: the bytes the loop puts on the stream. -/
def compressFramesLoop (video : ASCIIVideo) (huffmanCodes : CodeTable) :
    Nat → Int → Frame → Except Fault (List Byte)
  | 0, _, _ => .ok []
  | n + 1, i, prevFrame =>
    match video.at i with
    | .error e => .error e
    | .ok frame =>
      match compressFrame frame huffmanCodes (decide (i ≠ 0)) prevFrame with
      | .error e => .error e
      | .ok bytes =>
        match compressFramesLoop video huffmanCodes n (i + 1) frame with
        | .error e => .error e
        | .ok more => .ok (bytes ++ more)

/-- `compressASCIIVideo(video, outPathStr)`: the content of the file written (the handling
of the path is left out). -/
def compressASCIIVideo (S : StdImpl) (video : ASCIIVideo) : Except Fault (List Byte) :=
  let charFreq := countChars video (fun _ => none)
  match buildHuffmanTree S charFreq with
  | .error e => .error e
  | .ok huffmanTree =>
    let huffmanCodes := generateCodes huffmanTree [] (fun _ => none)
    let numFrames := toInt32 video.length
    match compressFramesLoop video huffmanCodes numFrames.toNat 0 [] with
    | .error e => .error e
    | .ok frames => .ok (writeInt numFrames ++ writeHuffmanTree huffmanTree ++ frames)

/-- `compareFrames(frame1, frame2)` of `test_codec.cpp`. -/
def compareFrames (frame1 frame2 : Frame) : Bool :=
  decide (frame1.length = frame2.length) &&
    (List.zip frame1 frame2).all (fun pq => decide (pq.1.1 = pq.2.1) && decide (pq.1.2 = pq.2.2))

/-- `compareVideos(video1, video2)` of `test_codec.cpp`. -/
def compareVideos (video1 video2 : ASCIIVideo) : Bool :=
  decide (video1.length = video2.length) &&
    video1.all (fun e =>
      match video2.find e.1 with
      | none => false
      | some frame2 => compareFrames e.2 frame2)

/-! ### Closed forms used by the proofs -/

/-- The accumulator of `stringToByte` after it has gone through the flags `c == '1'` of a
chunk, starting at loop counter `i`. -/
def orBits : List Bool → Nat → Nat → Nat
  | [], _, byte => byte
  | b :: rest, i, byte => orBits rest (i + 1) (if b then byte ||| (128 >>> i) else byte)

/-- The byte `stringToByte` makes of a chunk of at most eight characters. -/
def packByte (chunk : List Char) : Byte :=
  Fin.ofNat (orBits (chunk.map (fun c => decide (c = '1'))) 0 0)

/-- The data bytes of `writeBitString`: `n` chunks of eight characters, one byte each. -/
def chunkBytes : Nat → List Char → List Byte
  | 0, _ => []
  | n + 1, bits => packByte (bits.take 8) :: chunkBytes n (bits.drop 8)

/-- A string of the characters `'0'` and `'1'` only. -/
abbrev IsBits (s : List Char) : Prop := ∀ c ∈ s, c = '0' ∨ c = '1'

/-- The character `'1'` or `'0'` for a flag. -/
def boolChar (b : Bool) : Char := if b then '1' else '0'

/-- A well-formed tree: every node is a leaf or has two well-formed children. -/
def Node.proper : Node → Bool
  | .null => false
  | .mk _ _ l r => isLeafPair l r || (Node.proper l && Node.proper r)

/-- The symbols on the leaves of a tree, from left to right. -/
def Node.leaves : Node → List Byte
  | .null => []
  | .mk character _ l r => if isLeafPair l r then [character] else Node.leaves l ++ Node.leaves r

/-- The number of internal nodes (nodes with a child) of a tree. -/
def Node.internalCount : Node → Nat
  | .null => 0
  | .mk _ _ l r => if isLeafPair l r then 0 else 1 + Node.internalCount l + Node.internalCount r

/-- The tree without what the serialisation drops: the frequencies and the character of
the internal nodes. -/
def Node.strip : Node → Node
  | .null => .null
  | .mk character _ l r =>
    if isLeafPair l r then .mk character 0 .null .null
    else .mk 0 0 (Node.strip l) (Node.strip r)

/-- Two trees have the same shape and the same symbol on corresponding leaves. -/
def Node.sameShape : Node → Node → Bool
  | .null, .null => true
  | .mk c1 _ l1 r1, .mk c2 _ l2 r2 =>
    if isLeafPair l1 r1 then isLeafPair l2 r2 && decide (c1 = c2)
    else !isLeafPair l2 r2 && Node.sameShape l1 l2 && Node.sameShape r1 r2
  | _, _ => false

/-- The assignments `generateCodes(root, code, codes)` makes, in the order it makes them:
one pair (symbol, code) per leaf. -/
def Node.codeList : Node → List Char → List (Byte × List Char)
  | .null, _ => []
  | .mk character _ l r, code =>
    if isLeafPair l r then [(character, if code = [] then ['0'] else code)]
    else Node.codeList l (code ++ ['0']) ++ Node.codeList r (code ++ ['1'])

/-- The node reached from `root` by following `code` (`'0'` left, anything else right);
`null` once the walk has stepped below a leaf. -/
def Node.walk : Node → List Char → Node
  | .null, _ => .null
  | .mk character freq l r, [] => .mk character freq l r
  | .mk _ _ l r, bit :: rest => if bit = '0' then Node.walk l rest else Node.walk r rest

/-- The per-cell encoding `compressFrame` appends for a cell whose symbol has the code
`code`: code length, code, and the three channels, each field in 8 bits. -/
def cellBits (code : List Char) (p : Pixel) : List Char :=
  bitsetToString 8 code.length ++ code ++ bitsetToString 8 p.2.c0 ++
    bitsetToString 8 p.2.c1 ++ bitsetToString 8 p.2.c2

/-- The cell as `parsePixel` recovers it: each channel reduced to its 8 low-order bits. -/
def lowByteCell (p : Pixel) : Pixel := (p.1, ⟨p.2.c0 % 256, p.2.c1 % 256, p.2.c2 % 256⟩)

/-- The code of a symbol in a code table (the empty string when it has none). -/
def codeOf (codes : CodeTable) (s : Byte) : List Char := (codes s).getD []

/-- The bit string of a full frame: the per-cell encodings of its cells, in order. -/
def fullBits (codes : CodeTable) (frame : Frame) : List Char :=
  frame.flatMap (fun p => cellBits (codeOf codes p.1) p)

/-- The bit string of a delta frame, for the cells from position `i` on: for every
changed position, in ascending order, its index in 32 bits and the per-cell encoding. -/
def deltaBits (codes : CodeTable) (prevFrame : Frame) : Frame → Nat → List Char
  | [], _ => []
  | p :: rest, i =>
    (if cellChanged prevFrame i p then bitsetToString 32 i ++ cellBits (codeOf codes p.1) p
      else []) ++ deltaBits codes prevFrame rest (i + 1)

/-- The number of changed positions among the cells from position `i` on. -/
def deltaCount (prevFrame : Frame) : Frame → Nat → Nat
  | [], _ => 0
  | p :: rest, i => (if cellChanged prevFrame i p then 1 else 0) + deltaCount prevFrame rest (i + 1)

/-- The working frame after the updates of a delta frame (cells from position `i` on) have
been applied to it. -/
def applyDelta (prevFrame : Frame) : Frame → Nat → Frame → Frame
  | [], _, work => work
  | p :: rest, i, work =>
    applyDelta prevFrame rest (i + 1)
      (if cellChanged prevFrame i p then work.set i (lowByteCell p) else work)

/-- The tree decodes the code that the table gives to the symbol `s`, and that code fits
the 8-bit length field. -/
def Decodes (T : Node) (codes : CodeTable) (s : Byte) : Prop :=
  ∃ code, codes s = some code ∧ findCharFromCode T code = .ok s ∧ code.length ≤ 255 ∧
    IsBits code

/-- The video whose frames are `frames`, under the indices `0, 1, 2, ...`, as
`decompressASCIIVideo` builds it. -/
def videoOfFrames (frames : List Frame) : ASCIIVideo :=
  (List.range frames.length).map (fun (k : Nat) => ((k : Int), (frames.get? k).getD []))

/-- The frame a video holds under index `i` (the empty frame when it holds none). -/
def frameAt (video : ASCIIVideo) (i : Nat) : Frame := (video.find (i : Int)).getD []

/-- The frames of a video under the indices `0 .. n-1`. -/
def framesOf (video : ASCIIVideo) (n : Nat) : List Frame :=
  (List.range n).map (frameAt video)

/-- The code table `compressASCIIVideo` builds for a video. -/
def videoCodes (S : StdImpl) (video : ASCIIVideo) : CodeTable :=
  match buildHuffmanTree S (countChars video (fun _ => none)) with
  | .ok huffmanTree => generateCodes huffmanTree [] (fun _ => none)
  | .error _ => fun _ => none

/-- The bit string `compressFrame` hands to `writeBitString` for frame `i` of a video:
the full encoding for frame 0, the delta against frame `i - 1` for the others. -/
def frameBitString (S : StdImpl) (video : ASCIIVideo) (i : Nat) : List Char :=
  if i = 0 then fullBits (videoCodes S video) (frameAt video 0)
  else deltaBits (videoCodes S video) (frameAt video (i - 1)) (frameAt video i) 0

/-- The bytes the frame loop of `compressASCIIVideo` writes for the frame indices of a
list, as a recursion over the list (a closed form of `compressFramesLoop`). -/
def compressFramesOver (video : ASCIIVideo) (codes : CodeTable) :
    List Nat → Except Fault (List Byte)
  | [] => .ok []
  | i :: more =>
    match compressFrame (frameAt video i) codes (decide (i ≠ 0))
        (if i = 0 then [] else frameAt video (i - 1)) with
    | .error e => .error e
    | .ok bytes =>
      match compressFramesOver video codes more with
      | .error e => .error e
      | .ok rest => .ok (bytes ++ rest)

/-! ### The specification's own words, for comparison with the code -/

/-- A position `i` of `frame` is changed against `prevFrame` when `i` is not a valid
position of `prevFrame` or the two cells differ in symbol or in a colour channel. -/
def isChangedAt (prevFrame frame : Frame) (i : Nat) : Bool :=
  match frame.get? i, prevFrame.get? i with
  | some p, some q =>
    decide (p.1 ≠ q.1) || decide (p.2.c0 ≠ q.2.c0) || decide (p.2.c1 ≠ q.2.c1) ||
      decide (p.2.c2 ≠ q.2.c2)
  | _, _ => true

/-- The changed positions of `frame` against `prevFrame`, in ascending order. -/
def changedPositions (prevFrame frame : Frame) : List Nat :=
  (List.range frame.length).filter (isChangedAt prevFrame frame)

/-- The delta encoding in the words of the specification: for each changed position, in
ascending order, the 32-bit binary of the index followed by the per-cell encoding of the
cell at that index. -/
def deltaEncoding (codes : CodeTable) (prevFrame frame : Frame) : List Char :=
  (changedPositions prevFrame frame).flatMap (fun i =>
    match frame.get? i with
    | some p => bitsetToString 32 i ++ cellBits (codeOf codes p.1) p
    | none => [])

/-- The value of the bit at position `p` of a bit sequence: `B[p]` for a position of the
sequence, 0 beyond its end. -/
def bitAt (B : List Char) (p : Nat) : Nat := if B.get? p = some '1' then 1 else 0

/-- The value the specification gives to data byte `j` of a packed bit sequence: the sum
over `k` in `0..7` of `bit(8j + k) * 2^(7 - k)`. -/
def dataByteValue (B : List Char) (j : Nat) : Nat :=
  ((List.range 8).map (fun k => bitAt B (8 * j + k) * 2 ^ (7 - k))).sum

/-- The stream and the video after the first `k` iterations of the frame loop of
`decompressASCIIVideo`, started at frame `i`. -/
def decodeFramesState (huffmanTree : Node) :
    Nat → Int → List Byte → ASCIIVideo → Except Fault (List Byte × ASCIIVideo)
  | 0, _, packedBits, video => .ok (packedBits, video)
  | k + 1, i, packedBits, video =>
    match decodeFrame huffmanTree i packedBits video with
    | .error e => .error e
    | .ok (s, video1) => decodeFramesState huffmanTree k (i + 1) s video1

/-- The preorder encoding of a tree in the words of the specification: a leaf carrying `s`
is the flag 1 followed by `s`, an internal node is the flag 0 followed by the encodings
of its left and right subtrees. -/
def treeEncoding : Node → List Byte
  | .null => []
  | .mk s _ .null .null => [1, s]
  | .mk _ _ l r => [0] ++ treeEncoding l ++ treeEncoding r

/-- The frequencies on the leaves of a tree, from left to right. -/
def Node.leafWeights : Node → List Int
  | .null => []
  | .mk _ freq l r =>
    if isLeafPair l r then [freq] else Node.leafWeights l ++ Node.leafWeights r

/-- The number of cells of a video, over all its frames, that carry the symbol `s`. -/
def occurrences (video : ASCIIVideo) (s : Byte) : Nat :=
  ((video.flatMap (fun e => e.2)).map Prod.fst).count s

/-- The four bytes of a 32-bit field that holds `x`, the least significant byte first. -/
def le32 (x : Nat) : List Byte :=
  [Fin.ofNat (x % 256), Fin.ofNat (x / 256 % 256), Fin.ofNat (x / 65536 % 256),
    Fin.ofNat (x / 16777216 % 256)]

/-- The packed form of a bit sequence in the words of the specification: the 32-bit bit
count, the `ceil(count / 8)` data bytes, and the remainder byte `count mod 8`. -/
def packedLayout (B : List Char) : List Byte :=
  le32 B.length ++
    (List.range ((B.length + 7) / 8)).map (fun j => Fin.ofNat (dataByteValue B j)) ++
    [Fin.ofNat (B.length % 8)]

/-- A full frame in the words of the specification: the 32-bit cell count, then the packed
bits of every cell in positional order. -/
def fullFrameLayout (codes : CodeTable) (frame : Frame) : List Byte :=
  le32 frame.length ++ packedLayout (frame.flatMap (fun p => cellBits (codeOf codes p.1) p))

/-- A delta frame in the words of the specification: the 32-bit number of changed
positions, then the packed delta encoding. -/
def deltaFrameLayout (codes : CodeTable) (prevFrame frame : Frame) : List Byte :=
  le32 (changedPositions prevFrame frame).length ++
    packedLayout (deltaEncoding codes prevFrame frame)

/-- The container in the words of the specification, for the tree `T` and its code table:
the 32-bit frame count `n`, the serialised tree, frame 0 as a full frame, then for
`i = 1 .. n-1` the delta frame of frame `i` against the original frame `i - 1`. -/
def containerLayout (T : Node) (codes : CodeTable) (video : ASCIIVideo) (n : Nat) :
    List Byte :=
  le32 n ++ treeEncoding T ++ fullFrameLayout codes (frameAt video 0) ++
    (List.range (n - 1)).flatMap
      (fun j => deltaFrameLayout codes (frameAt video j) (frameAt video (j + 1)))

/-- The symbol counts aggregated over every cell of every frame: the number of
occurrences of each symbol that occurs. -/
def symbolCounts (video : ASCIIVideo) : FreqTable :=
  fun s => if occurrences video s = 0 then none else some (occurrences video s : Int)

/-! ### Weighted path length and total code length, in the words of the specification -/

/-- The symbols on the leaves of a tree, each with its depth, the root being at depth `d`;
from left to right. -/
def Node.leafDepths : Node → Nat → List (Byte × Nat)
  | .null, _ => []
  | .mk character _ l r, d =>
    if isLeafPair l r then [(character, d)]
    else Node.leafDepths l (d + 1) ++ Node.leafDepths r (d + 1)

/-- The count a frequency table holds for a symbol; 0 for a symbol it has no entry for. -/
def weightOf (f : FreqTable) (s : Byte) : Int := (f s).getD 0

/-- The weighted path length of a tree under a frequency table: the sum, over the leaves,
of the count of the leaf's symbol times the depth of the leaf. -/
def weightedPathLength (f : FreqTable) (T : Node) : Int :=
  ((T.leafDepths 0).map (fun e => weightOf f e.1 * (e.2 : Int))).sum

/-- The total length of a code under a frequency table: the sum, over the symbols of the
table, of the count of the symbol times the length of its code word. -/
def totalCodeLength (f : FreqTable) (code : Byte → List Char) : Int :=
  (f.entries.map (fun e => e.2 * ((code e.1).length : Int))).sum

/-- A code is prefix-free on a list of symbols: the code word of no symbol of the list is
a prefix of the code word of another one. -/
def PrefixFreeOn (symbols : List Byte) (code : Byte → List Char) : Prop :=
  ∀ s ∈ symbols, ∀ t ∈ symbols, s ≠ t → ¬ code s <+: code t

/-! ### Depth assignments used by the optimality proof -/

/-- The sum, over the leaves of a tree whose root is at depth `d`, of the weight of the
leaf's symbol times the depth of the leaf. -/
def Node.costAt (w : Byte → Int) (T : Node) (d : Nat) : Int :=
  ((T.leafDepths d).map (fun e => w e.1 * (e.2 : Int))).sum

/-- The multisets of leaf depths of the trees in which every node has two children or
none: a lone leaf is at depth 0, and replacing a leaf at depth `d` by a node with two
leaves puts two leaves at depth `d + 1`. -/
inductive FullDepths : Multiset Nat → Prop
  | leaf : FullDepths {0}
  | split (d : Nat) (D : Multiset Nat) :
      FullDepths (d ::ₘ D) → FullDepths ((d + 1) ::ₘ (d + 1) ::ₘ D)

/-- The cost of an assignment of weights to depths: the sum of depth times weight. -/
def assignmentCost (P : Multiset (Nat × Int)) : Int :=
  (P.map (fun e => (e.1 : Int) * e.2)).sum

/-- The assignment of weights to depths a tree makes under a weight function. -/
def Node.assignment (w : Byte → Int) (T : Node) : Multiset (Nat × Int) :=
  Multiset.ofList ((T.leafDepths 0).map (fun e => (e.2, w e.1)))

/-! ### Inputs taken from the tests of the repository -/

/-- The bit string of `simple_test.cpp`, test 2. -/
def testBits : List Char := "101011001110101010110011101010101100111010".toList

/-- The cell `{'A', {255, 0, 0}}` of `test_codec.cpp`. -/
def cellA : Pixel := (65, ⟨255, 0, 0⟩)

/-- The cell `{'B', {0, 255, 0}}` of `test_codec.cpp`. -/
def cellB : Pixel := (66, ⟨0, 255, 0⟩)

/-- The cell `{'C', {0, 0, 255}}` of `test_codec.cpp`. -/
def cellC : Pixel := (67, ⟨0, 0, 255⟩)

/-- The video of `testSimpleVideo`: the frames AAA, ABA, ABC. -/
def simpleVideo : ASCIIVideo :=
  [(0, [cellA, cellA, cellA]), (1, [cellA, cellB, cellA]), (2, [cellA, cellB, cellC])]

/-- The frequency table `compressASCIIVideo` counts for `simpleVideo`: A 6, B 2, C 1. -/
def simpleTable : FreqTable :=
  fun c => if c = 65 then some 6 else if c = 66 then some 2 else if c = 67 then some 1 else none

/-- The tree `buildHuffmanTree` makes of `simpleTable` with the reference library. -/
def simpleTree : Node :=
  .mk 0 9 (.mk 0 3 (.mk 67 1 .null .null) (.mk 66 2 .null .null)) (.mk 65 6 .null .null)

/-- The file `compressASCIIVideo` writes for `simpleVideo` with the reference library. -/
def simpleArtifact : List Byte :=
  [3, 0, 0, 0, 0, 0, 1, 67, 1, 66, 1, 65,
    3, 0, 0, 0, 99, 0, 0, 0, 1, 255, 128, 0, 0, 255, 192, 0, 0, 127, 224, 0, 0, 3,
    1, 0, 0, 0, 66, 0, 0, 0, 0, 0, 0, 1, 2, 64, 63, 192, 0, 2,
    1, 0, 0, 0, 66, 0, 0, 0, 0, 0, 0, 2, 2, 0, 0, 63, 192, 2]

/-- A crafted file of two frames: the header, tree and frame 0 (AAA) of `simpleArtifact`,
then a delta frame of one change whose index field holds 5. -/
def craftedArtifact : List Byte :=
  [2, 0, 0, 0, 0, 0, 1, 67, 1, 66, 1, 65,
    3, 0, 0, 0, 99, 0, 0, 0, 1, 255, 128, 0, 0, 255, 192, 0, 0, 127, 224, 0, 0, 3,
    1, 0, 0, 0, 66, 0, 0, 0, 0, 0, 0, 5, 2, 64, 63, 192, 0, 2]

/-! ## Machine integers -/

theorem toInt32_of_range (x : Int) (h1 : -2147483648 ≤ x) (h2 : x < 2147483648) :
    toInt32 x = x := by
  unfold toInt32; simp only []; split <;> omega

theorem toInt32_natCast (n : Nat) (h : n < 2147483648) : toInt32 (n : Int) = (n : Int) :=
  toInt32_of_range _ (by omega) (by omega)

theorem byte_ofNat_val (n : Nat) : ((Fin.ofNat n : Byte) : Nat) = n % 256 := rfl

theorem le_bytes_value (x : Int) :
    toInt32 ((((x % 4294967296).toNat % 256 : Nat) : Int)
      + 256 * ((((x % 4294967296).toNat / 256 % 256 : Nat)) : Int)
      + 65536 * ((((x % 4294967296).toNat / 65536 % 256 : Nat)) : Int)
      + 16777216 * ((((x % 4294967296).toNat / 16777216 % 256 : Nat)) : Int)) = toInt32 x := by
  unfold toInt32
  simp only []
  split <;> split <;> omega

theorem readInt_writeInt (x : Int) (rest : List Byte) :
    readInt (writeInt x ++ rest) = .ok (toInt32 x, rest) := by
  unfold writeInt
  show readInt (_ :: _ :: _ :: _ :: rest) = _
  unfold readInt
  simp only [byte_ofNat_val]
  rw [le_bytes_value]

theorem writeInt_length (x : Int) : (writeInt x).length = 4 := rfl

/-! ## Bit packer -/

theorem nul_ne_one : Char.ofNat 0 ≠ '1' := by decide

theorem stringToByteLoop_eq (bits : List Char) (start : Nat) (hL : bits.length < 2147483648)
    (hs : start + 8 ≤ 2147483648) :
    ∀ (n i byte : Nat), i + n ≤ 8 →
      stringToByteLoop bits start n i byte =
        .ok (orBits (((bits.drop (start + i)).take n).map (fun c => decide (c = '1'))) i byte) := by
  intro n
  induction n with
  | zero => intro i byte _; simp [stringToByteLoop, orBits]
  | succ n ih =>
    intro i byte hin
    rw [stringToByteLoop]
    have e1 : toInt32 ((start : Int) + (i : Int)) = ((start + i : Nat) : Int) := by
      rw [toInt32_of_range] <;> omega
    have e2 : toInt32 (bits.length : Int) = (bits.length : Int) := by
      rw [toInt32_of_range] <;> omega
    rw [e1, e2]
    by_cases hgt : bits.length < start + i
    · have : ((start + i : Nat) : Int) > (bits.length : Int) := by omega
      have hd : bits.drop (start + i) = [] := List.drop_of_length_le (by omega)
      rw [if_pos this, hd]
      simp [orBits]
    · have : ¬ ((start + i : Nat) : Int) > (bits.length : Int) := by omega
      rw [if_neg this]
      rw [stringAt]
      have hneg : ¬ ((start + i : Nat) : Int) < 0 := by omega
      rw [if_neg hneg, Int.toNat_ofNat]
      rcases Nat.lt_or_ge (start + i) bits.length with hlt | hge
      · have hget : bits.get? (start + i) = some (bits.get ⟨start + i, hlt⟩) :=
          List.get?_eq_get hlt
        rw [hget]
        have hdrop : bits.drop (start + i) =
            bits.get ⟨start + i, hlt⟩ :: bits.drop (start + i + 1) :=
          (List.drop_eq_getElem_cons hlt)
        rw [hdrop, List.take_succ_cons, List.map_cons, orBits]
        have ih1 := ih (i + 1)
        simp only [← Nat.add_assoc] at ih1
        by_cases hc : bits.get ⟨start + i, hlt⟩ = '1'
        · simp only [hc, if_true, decide_True]
          rw [ih1 _ (by omega)]
        · simp only [hc, if_false, decide_False]
          rw [ih1 _ (by omega)]
          rfl
      · have heq : start + i = bits.length := by omega
        have hget : bits.get? (start + i) = none := List.get?_eq_none.mpr (by omega)
        rw [hget]
        simp only
        rw [if_pos heq]
        simp only
        rw [if_neg nul_ne_one]
        have ih1 := ih (i + 1) byte (by omega)
        have hd1 : bits.drop (start + (i + 1)) = [] := List.drop_of_length_le (by omega)
        have hd2 : bits.drop (start + i) = [] := List.drop_of_length_le (by omega)
        rw [ih1, hd1, hd2]
        simp [orBits]

theorem stringToByte_eq (bits : List Char) (start : Nat) (hL : bits.length < 2147483648)
    (hs : start + 8 ≤ 2147483648) :
    stringToByte bits start = .ok (packByte ((bits.drop start).take 8)) := by
  rw [stringToByte, stringToByteLoop_eq bits start hL hs 8 0 0 (by omega)]
  rfl

set_option maxRecDepth 100000 in

theorem byteToString_eq_bitset : ∀ b : Byte, byteToString b = bitsetToString 8 b.val := by
  decide

set_option maxRecDepth 100000 in

theorem byteToString_length : ∀ b : Byte, (byteToString b).length = 8 := by
  decide

set_option maxRecDepth 100000 in

theorem unpack_orBits : ∀ l : List Bool, l.length ≤ 8 →
    byteToString (Fin.ofNat (orBits l 0 0)) = l.map boolChar ++ List.replicate (8 - l.length) '0'
  | [], _ => by decide
  | [a], _ => by revert a; decide
  | [a, b], _ => by revert a b; decide
  | [a, b, c], _ => by revert a b c; decide
  | [a, b, c, d], _ => by revert a b c d; decide
  | [a, b, c, d, e], _ => by revert a b c d e; decide
  | [a, b, c, d, e, f], _ => by revert a b c d e f; decide
  | [a, b, c, d, e, f, g], _ => by revert a b c d e f g; decide
  | [a, b, c, d, e, f, g, h], _ => by revert a b c d e f g h; decide
  | _ :: _ :: _ :: _ :: _ :: _ :: _ :: _ :: _ :: _, h => by simp at h

theorem map_boolChar_of_isBits (s : List Char) (h : IsBits s) :
    (s.map (fun c => decide (c = '1'))).map boolChar = s := by
  induction s with
  | nil => rfl
  | cons c rest ih =>
    have hc := h c (List.mem_cons_self _ _)
    have hr : IsBits rest := fun x hx => h x (List.mem_cons_of_mem _ hx)
    rw [List.map_cons, List.map_cons, ih hr]
    rcases hc with hc | hc <;> subst hc <;> rfl

theorem byteToString_packByte (chunk : List Char) (h : IsBits chunk) (hlen : chunk.length ≤ 8) :
    byteToString (packByte chunk) = chunk ++ List.replicate (8 - chunk.length) '0' := by
  rw [packByte, unpack_orBits _ (by simpa using hlen), map_boolChar_of_isBits chunk h]
  simp

theorem chunkBytes_length (n : Nat) : ∀ bits : List Char, (chunkBytes n bits).length = n := by
  induction n with
  | zero => intro _; rfl
  | succ n ih => intro bits; simp [chunkBytes, ih]

theorem writeBitStringLoop_eq (bits : List Char) (hL : bits.length + 8 ≤ 2147483648) :
    ∀ (n j fuel : Nat) (out : List Byte), n = (bits.length + 7 - 8 * j) / 8 →
      8 * j ≤ bits.length + 7 → n < fuel →
      writeBitStringLoop bits (bits.length : Int) fuel ((8 * j : Nat) : Int) out =
        .ok (out ++ chunkBytes n (bits.drop (8 * j))) := by
  intro n
  induction n with
  | zero =>
    intro j fuel out hn hj hf
    obtain ⟨fuel, rfl⟩ : ∃ k, fuel = k + 1 := ⟨fuel - 1, by omega⟩
    rw [writeBitStringLoop]
    have : ¬ (((8 * j : Nat) : Int) < (bits.length : Int)) := by omega
    rw [if_neg this]
    simp [chunkBytes]
  | succ n ih =>
    intro j fuel out hn hj hf
    obtain ⟨fuel, rfl⟩ : ∃ k, fuel = k + 1 := ⟨fuel - 1, by omega⟩
    rw [writeBitStringLoop]
    have : (((8 * j : Nat) : Int) < (bits.length : Int)) := by omega
    rw [if_pos this, stringToByte_eq bits (8 * j) (by omega) (by omega)]
    simp only
    have e : toInt32 (((8 * j : Nat) : Int) + 8) = ((8 * (j + 1) : Nat) : Int) := by
      rw [toInt32_of_range] <;> omega
    rw [e, ih (j + 1) fuel _ (by omega) (by omega) (by omega)]
    have hd : List.drop (8 * (j + 1)) bits = List.drop 8 (List.drop (8 * j) bits) := by
      rw [List.drop_drop]; congr 1
    simp [chunkBytes, hd]

theorem writeBitString_eq (bits : List Char) (hL : bits.length + 8 ≤ 2147483648) :
    writeBitString bits =
      .ok (writeInt bits.length ++ chunkBytes ((bits.length + 7) / 8) bits ++
        [Fin.ofNat (bits.length % 8)]) := by
  have e : toInt32 (bits.length : Int) = (bits.length : Int) := toInt32_natCast _ (by omega)
  have h := writeBitStringLoop_eq bits hL ((bits.length + 7) / 8) 0 (bits.length / 8 + 2) []
    (by simp) (by omega) (by omega)
  simp only [Nat.mul_zero, Nat.cast_zero, List.drop_zero, List.nil_append] at h
  unfold writeBitString
  simp only [e]
  rw [h]
  simp only
  have hr : (Int.tmod (bits.length : Int) 8 % 256).toNat = bits.length % 8 := by
    have : Int.tmod (bits.length : Int) 8 = ((bits.length % 8 : Nat) : Int) := by
      rw [Int.tmod_eq_emod (by omega) (by omega)]; omega
    rw [this]; omega
  rw [hr]

theorem readBitsLoop_eq : ∀ (stream : List Byte) (count : Int) (acc : List Char),
    readBitsLoop stream count acc =
      (acc ++ (stream.take count.toNat).flatMap byteToString, stream.drop count.toNat)
  | [], count, acc => by simp [readBitsLoop]
  | byte :: rest, count, acc => by
    rw [readBitsLoop]
    by_cases hc : count > 0
    · rw [if_pos hc, readBitsLoop_eq rest (count - 1) _]
      obtain ⟨k, hk⟩ : ∃ k : Nat, count.toNat = k + 1 := ⟨count.toNat - 1, by omega⟩
      have hk2 : (count - 1).toNat = k := by omega
      rw [hk, hk2]
      simp [List.flatMap_cons, List.append_assoc]
    · rw [if_neg hc]
      have : count.toNat = 0 := by omega
      simp [this]

theorem flatMap_byteToString_length (data : List Byte) :
    (data.flatMap byteToString).length = 8 * data.length := by
  induction data with
  | nil => rfl
  | cons b rest ih => simp [List.flatMap_cons, byteToString_length, ih]; omega

theorem isBits_take (s : List Char) (h : IsBits s) (n : Nat) : IsBits (s.take n) :=
  fun c hc => h c (List.mem_of_mem_take hc)

theorem isBits_drop (s : List Char) (h : IsBits s) (n : Nat) : IsBits (s.drop n) :=
  fun c hc => h c (List.mem_of_mem_drop hc)

theorem take_unpack_chunkBytes : ∀ (n : Nat) (bits : List Char), IsBits bits →
    bits.length ≤ 8 * n → ((chunkBytes n bits).flatMap byteToString).take bits.length = bits := by
  intro n
  induction n with
  | zero =>
    intro bits _ hlen
    have : bits = [] := List.length_eq_zero.mp (by omega)
    subst this; rfl
  | succ n ih =>
    intro bits hb hlen
    rw [chunkBytes, List.flatMap_cons,
      byteToString_packByte _ (isBits_take bits hb 8) (by simp)]
    by_cases h8 : bits.length ≤ 8
    · rw [List.take_of_length_le h8, List.append_assoc, List.take_left']
      rfl
    · have ht : (bits.take 8).length = 8 := by simp; omega
      rw [ht]
      simp only [Nat.sub_self, List.replicate_zero, List.append_nil]
      rw [List.take_append_eq_append_take, ht]
      have h1 : List.take bits.length (List.take 8 bits) = List.take 8 bits := by
        rw [List.take_take]; congr 1; omega
      have h2 := ih (bits.drop 8) (isBits_drop bits hb 8) (by simp; omega)
      rw [List.length_drop] at h2
      rw [h1, h2, List.take_append_drop]

theorem stringResize_eq_take (s : List Char) (n : Nat) (h : n ≤ s.length) :
    stringResize s (n : Int) = .ok (s.take n) := by
  rw [stringResize]
  have : ¬ ((n : Int) < 0) := by omega
  rw [if_neg this, Int.toNat_ofNat, Nat.sub_eq_zero_of_le h]
  simp

theorem readBitsAsString_eq (stream : List Byte) (bitCount : Nat)
    (h : bitCount + 8 ≤ 2147483648) :
    readBitsAsString stream (bitCount : Int) =
      (stringResize ((stream.take ((bitCount + 7) / 8)).flatMap byteToString) (bitCount : Int)).map
        (fun bits => (bits, stream.drop ((bitCount + 7) / 8))) := by
  unfold readBitsAsString
  have h0 : ¬ ((bitCount : Int) + 7 > 2147483647) := by omega
  rw [if_neg h0]
  have e : (bitCount : Int) + 7 = ((bitCount + 7 : Nat) : Int) := by omega
  have e2 : (Int.tdiv ((bitCount + 7 : Nat) : Int) 8).toNat = (bitCount + 7) / 8 := by
    rw [Int.tdiv_eq_ediv (by omega) (by omega)]; omega
  simp only [e, readBitsLoop_eq, e2, List.nil_append]
  cases stringResize _ _ <;> rfl

theorem stringToByte_neg (bits : List Char) (start : Int) (h1 : start < 0)
    (h2 : -2147483648 ≤ start) (hL : bits.length < 2147483648) :
    stringToByte bits start = .error .undefined_behaviour := by
  have e1 : toInt32 (start + ((0 : Nat) : Int)) = start := by
    rw [toInt32_of_range] <;> omega
  have e2 : toInt32 (bits.length : Int) = (bits.length : Int) := toInt32_natCast _ hL
  unfold stringToByte
  rw [stringToByteLoop, e1, e2]
  have : ¬ (start > (bits.length : Int)) := by omega
  rw [if_neg this, stringAt, if_pos h1]

theorem writeBitStringLoop_overflow (bits : List Char) (hL1 : 2147483648 < bits.length + 8)
    (hL2 : bits.length < 2147483648) :
    ∀ (k j fuel : Nat) (out : List Byte), j + k = 268435456 → k < fuel →
      writeBitStringLoop bits (bits.length : Int) fuel (toInt32 ((8 * j : Nat) : Int)) out =
        .error .undefined_behaviour := by
  intro k
  induction k with
  | zero =>
    intro j fuel out hj hf
    obtain ⟨fuel, rfl⟩ : ∃ m, fuel = m + 1 := ⟨fuel - 1, by omega⟩
    have hj2 : j = 268435456 := by omega
    subst hj2
    have e : toInt32 ((8 * 268435456 : Nat) : Int) = -2147483648 := by
      unfold toInt32; simp only []; split <;> omega
    rw [e, writeBitStringLoop]
    have : (-2147483648 : Int) < (bits.length : Int) := by omega
    rw [if_pos this, stringToByte_neg bits _ (by omega) (by omega) hL2]
  | succ k ih =>
    intro j fuel out hj hf
    obtain ⟨fuel, rfl⟩ : ∃ m, fuel = m + 1 := ⟨fuel - 1, by omega⟩
    have e : toInt32 ((8 * j : Nat) : Int) = ((8 * j : Nat) : Int) :=
      toInt32_natCast _ (by omega)
    rw [e, writeBitStringLoop]
    have : (((8 * j : Nat) : Int) < (bits.length : Int)) := by omega
    rw [if_pos this, stringToByte_eq bits (8 * j) hL2 (by omega)]
    simp only
    have e3 : ((8 * j : Nat) : Int) + 8 = ((8 * (j + 1) : Nat) : Int) := by omega
    rw [e3]
    exact ih (j + 1) fuel _ (by omega) (by omega)

theorem writeBitString_overflow (bits : List Char) (hL1 : 2147483648 < bits.length + 8)
    (hL2 : bits.length < 2147483648) :
    writeBitString bits = .error .undefined_behaviour := by
  have e : toInt32 (bits.length : Int) = (bits.length : Int) := toInt32_natCast _ hL2
  have e0 : toInt32 ((8 * 0 : Nat) : Int) = 0 := by unfold toInt32; simp only []; split <;> omega
  have h := writeBitStringLoop_overflow bits hL1 hL2 268435456 0 (bits.length / 8 + 2) []
    (by omega) (by omega)
  rw [e0] at h
  unfold writeBitString
  simp only [e]
  rw [h]

theorem readBitsAsString_overflow (stream : List Byte) (c : Int) (h : 2147483648 < c + 8) :
    readBitsAsString stream c = .error .undefined_behaviour := by
  unfold readBitsAsString
  have h0 : c + 7 > 2147483647 := by omega
  rw [if_pos h0]

/-! ## Huffman tree: serialisation -/

theorem isLeafPair_true_iff (l r : Node) :
    isLeafPair l r = true ↔ l = Node.null ∧ r = Node.null := by
  cases l <;> cases r <;> simp [isLeafPair, Node.isNull]

theorem proper_children (c : Byte) (f : Int) (l r : Node) (h : (Node.mk c f l r).proper = true)
    (hl : isLeafPair l r = false) : l.proper = true ∧ r.proper = true := by
  simpa [Node.proper, hl] using h

theorem writeHuffmanTree_length_pos (T : Node) (h : T.proper = true) :
    2 ≤ (writeHuffmanTree T).length := by
  cases T with
  | null => simp [Node.proper] at h
  | mk c f l r =>
    rw [writeHuffmanTree]
    by_cases hl : isLeafPair l r = true
    · simp [hl]
    · have hl2 : isLeafPair l r = false := by simpa using hl
      have hp := proper_children c f l r h hl2
      cases l with
      | null => simp [Node.proper] at hp
      | mk c1 f1 l1 r1 =>
        rw [writeHuffmanTree]
        simp [hl2]
        split <;> simp <;> omega

theorem readHuffmanTreeAux_write : ∀ (T : Node), T.proper = true →
    ∀ (fuel : Nat) (rest : List Byte), (writeHuffmanTree T).length ≤ fuel + 1 →
      readHuffmanTreeAux fuel (writeHuffmanTree T ++ rest) = .ok (T.strip, rest) := by
  intro T
  induction T with
  | null => intro h; simp [Node.proper] at h
  | mk c f l r ihl ihr =>
    intro h fuel rest hf
    by_cases hl : isLeafPair l r = true
    · rw [writeHuffmanTree, if_pos hl] at hf ⊢
      rw [Node.strip, if_pos hl]
      obtain ⟨fuel, rfl⟩ : ∃ k, fuel = k + 1 := ⟨fuel - 1, by simp at hf; omega⟩
      simp [readHuffmanTreeAux]
    · have hl2 : isLeafPair l r = false := by simpa using hl
      have hp := proper_children c f l r h hl2
      rw [writeHuffmanTree, if_neg hl] at hf ⊢
      rw [Node.strip, if_neg hl]
      have h1 := writeHuffmanTree_length_pos l hp.1
      have h2 := writeHuffmanTree_length_pos r hp.2
      simp only [List.length_append, List.length_cons, List.length_nil] at hf
      obtain ⟨fuel, rfl⟩ : ∃ k, fuel = k + 1 := ⟨fuel - 1, by omega⟩
      have e : [(0 : Byte)] ++ writeHuffmanTree l ++ writeHuffmanTree r ++ rest =
          0 :: (writeHuffmanTree l ++ (writeHuffmanTree r ++ rest)) := by simp
      have h0 : ¬ ((0 : Byte) ≠ 0) := by simp
      rw [e]
      simp only [readHuffmanTreeAux, if_neg h0]
      rw [ihl hp.1 fuel _ (by omega)]
      simp only
      rw [ihr hp.2 fuel _ (by omega)]

theorem readHuffmanTree_write (T : Node) (h : T.proper = true) (rest : List Byte) :
    readHuffmanTree (writeHuffmanTree T ++ rest) = .ok (T.strip, rest) := by
  unfold readHuffmanTree
  exact readHuffmanTreeAux_write T h _ rest (by simp; omega)

theorem sameShape_strip : ∀ (T : Node), T.proper = true → T.sameShape T.strip = true := by
  intro T
  induction T with
  | null => intro h; simp [Node.proper] at h
  | mk c f l r ihl ihr =>
    intro h
    by_cases hl : isLeafPair l r = true
    · obtain ⟨rfl, rfl⟩ := (isLeafPair_true_iff l r).mp hl
      simp [Node.strip, Node.sameShape, isLeafPair, Node.isNull]
    · have hl2 : isLeafPair l r = false := by simpa using hl
      have hp := proper_children c f l r h hl2
      have hs : isLeafPair l.strip r.strip = false := by
        cases l with
        | null => simp [Node.proper] at hp
        | mk c1 f1 l1 r1 =>
          simp only [Node.strip]
          split <;> simp [isLeafPair, Node.isNull]
      simp [Node.strip, hl2, Node.sameShape, hs, ihl hp.1, ihr hp.2]

theorem strip_proper : ∀ (T : Node), T.proper = true → T.strip.proper = true := by
  intro T
  induction T with
  | null => intro h; simp [Node.proper] at h
  | mk c f l r ihl ihr =>
    intro h
    by_cases hl : isLeafPair l r = true
    · obtain ⟨rfl, rfl⟩ := (isLeafPair_true_iff l r).mp hl
      simp [Node.strip, Node.proper, isLeafPair, Node.isNull]
    · have hl2 : isLeafPair l r = false := by simpa using hl
      have hp := proper_children c f l r h hl2
      simp [Node.strip, hl2, Node.proper, ihl hp.1, ihr hp.2]

theorem strip_isLeafPair (c : Byte) (f : Int) (l r : Node)
    (h : (Node.mk c f l r).proper = true) (hl : isLeafPair l r = false) :
    isLeafPair l.strip r.strip = false := by
  have hp := proper_children c f l r h hl
  cases l with
  | null => simp [Node.proper] at hp
  | mk c1 f1 l1 r1 =>
    simp only [Node.strip]
    split <;> simp [isLeafPair, Node.isNull]

theorem codeList_strip : ∀ (T : Node), T.proper = true → ∀ code : List Char,
    T.strip.codeList code = T.codeList code := by
  intro T
  induction T with
  | null => intro h; simp [Node.proper] at h
  | mk c f l r ihl ihr =>
    intro h code
    by_cases hl : isLeafPair l r = true
    · obtain ⟨rfl, rfl⟩ := (isLeafPair_true_iff l r).mp hl
      simp [Node.strip, Node.codeList, isLeafPair, Node.isNull]
    · have hl2 : isLeafPair l r = false := by simpa using hl
      have hp := proper_children c f l r h hl2
      have hs := strip_isLeafPair c f l r h hl2
      simp [Node.strip, hl2, Node.codeList, hs, ihl hp.1, ihr hp.2]

theorem leaves_strip : ∀ (T : Node), T.proper = true → T.strip.leaves = T.leaves := by
  intro T
  induction T with
  | null => intro h; simp [Node.proper] at h
  | mk c f l r ihl ihr =>
    intro h
    by_cases hl : isLeafPair l r = true
    · obtain ⟨rfl, rfl⟩ := (isLeafPair_true_iff l r).mp hl
      simp [Node.strip, Node.leaves, isLeafPair, Node.isNull]
    · have hl2 : isLeafPair l r = false := by simpa using hl
      have hp := proper_children c f l r h hl2
      have hs := strip_isLeafPair c f l r h hl2
      simp [Node.strip, hl2, Node.leaves, hs, ihl hp.1, ihr hp.2]

/-! ## Huffman tree: construction -/

theorem entries_mem (f : FreqTable) (c : Byte) (v : Int) :
    (c, v) ∈ f.entries ↔ f c = some v := by
  unfold FreqTable.entries
  simp only [List.mem_filterMap, List.mem_finRange, true_and, Option.map_eq_some']
  constructor
  · rintro ⟨a, b, hb, he⟩
    cases he
    exact hb
  · intro h
    exact ⟨c, v, h, rfl⟩

theorem entries_keys (f : FreqTable) :
    f.entries.map Prod.fst = (List.finRange 256).filter (fun c => (f c).isSome) := by
  unfold FreqTable.entries
  induction (List.finRange 256) with
  | nil => rfl
  | cons a l ih =>
    cases h : f a with
    | none => simp [List.filterMap_cons, h, ih, List.filter_cons]
    | some v => simp [List.filterMap_cons, h, ih, List.filter_cons]

theorem entries_keys_nodup (f : FreqTable) : (f.entries.map Prod.fst).Nodup := by
  rw [entries_keys]
  exact (List.nodup_finRange 256).filter _

theorem entries_keys_mem (f : FreqTable) (c : Byte) :
    c ∈ f.entries.map Prod.fst ↔ (f c).isSome = true := by
  rw [entries_keys]
  simp

theorem proper_ne_null (x : Node) (h : x.proper = true) : x.isNull = false := by
  cases x with
  | null => simp [Node.proper] at h
  | mk c f l r => rfl

theorem isLeafPair_of_proper (x y : Node) (hx : x.proper = true) : isLeafPair x y = false := by
  simp [isLeafPair, proper_ne_null x hx]

theorem buildHuffmanTreeLoop_spec (S : StdImpl) (hS : S.Lawful) :
    ∀ (fuel : Nat) (heap : List Node), heap.length = fuel → 0 < fuel →
      IsHeap heapCompare heap → (∀ x ∈ heap, x.proper = true) →
      ∃ root, buildHuffmanTreeLoop S fuel heap = .ok root ∧ root.proper = true ∧
        root.leaves.Perm (heap.flatMap Node.leaves) := by
  intro fuel
  induction fuel with
  | zero => intro heap _ h; omega
  | succ n ih =>
    intro heap hlen _ hheap hprop
    rw [buildHuffmanTreeLoop]
    by_cases h1 : heap.length = 1
    · have hne : ¬ (heap.length ≠ 1) := by simpa using h1
      rw [if_neg hne]
      obtain ⟨x, rfl⟩ := List.length_eq_one.mp h1
      refine ⟨x, rfl, hprop x (by simp), ?_⟩
      simp
    · rw [if_pos h1]
      obtain ⟨x, v, rfl⟩ : ∃ x v, heap = x :: v := by
        cases heap with
        | nil => simp at hlen
        | cons x v => exact ⟨x, v, rfl⟩
      obtain ⟨w, hw1, hw2, hw3⟩ := hS.pop_heap_spec x v hheap
      have hvlen : v.length = n := by simpa using hlen
      have hwlen : w.length = n := by rw [hw2.length_eq, hvlen]
      obtain ⟨y, v', rfl⟩ : ∃ y v', w = y :: v' := by
        cases w with
        | nil =>
          exfalso
          have : v = [] := List.length_eq_zero.mp (by simp at hwlen; omega)
          exact h1 (by simp [this])
        | cons y v' => exact ⟨y, v', rfl⟩
      obtain ⟨w', hw1', hw2', hw3'⟩ := hS.pop_heap_spec y v' hw3
      simp only [hw1, List.getLast?_concat, List.dropLast_concat, hw1']
      have hps := hS.push_heap_spec w'
        (Node.mk 0 (toInt32 (x.freq + y.freq)) x y) hw3'
      have hxp : x.proper = true := hprop x (by simp)
      have hyv : y ∈ v := hw2.mem_iff.mp (by simp)
      have hyp : y.proper = true := hprop y (by simp [hyv])
      have hlen' : (S.push_heap heapCompare
          (w' ++ [Node.mk 0 (toInt32 (x.freq + y.freq)) x y])).length = n := by
        rw [hps.1.length_eq, List.length_append, hw2'.length_eq]
        simp at hwlen ⊢
        omega
      have hn : 0 < n := by
        cases n with
        | zero => simp at hwlen
        | succ k => omega
      have hprop' : ∀ z ∈ S.push_heap heapCompare
          (w' ++ [Node.mk 0 (toInt32 (x.freq + y.freq)) x y]), z.proper = true := by
        intro z hz
        have hz2 := hps.1.mem_iff.mp hz
        rcases List.mem_append.mp hz2 with hz3 | hz3
        · have hz4 : z ∈ v' := hw2'.mem_iff.mp hz3
          have hz5 : z ∈ v := hw2.mem_iff.mp (by simp [hz4])
          exact hprop z (by simp [hz5])
        · have hz4 : z = Node.mk 0 (toInt32 (x.freq + y.freq)) x y := by simpa using hz3
          subst hz4
          simp [Node.proper, hxp, hyp]
      obtain ⟨root, hr1, hr2, hr3⟩ := ih _ hlen' hn hps.2 hprop'
      refine ⟨root, hr1, hr2, hr3.trans ?_⟩
      refine (hps.1.flatMap_right Node.leaves).trans ?_
      have e1 : (Node.mk 0 (toInt32 (x.freq + y.freq)) x y).leaves = x.leaves ++ y.leaves := by
        rw [Node.leaves, isLeafPair_of_proper x y hxp]; rfl
      have p1 : (v.flatMap Node.leaves).Perm (y.leaves ++ w'.flatMap Node.leaves) := by
        refine (hw2.symm.flatMap_right Node.leaves).trans ?_
        rw [List.flatMap_cons]
        exact (hw2'.symm.flatMap_right Node.leaves).append_left _
      rw [List.flatMap_append, List.flatMap_cons, List.flatMap_cons, List.flatMap_nil,
        List.append_nil, e1]
      refine List.Perm.trans ?_ (p1.symm.append_left _)
      rw [← List.append_assoc x.leaves]
      exact List.perm_append_comm

theorem buildHuffmanTree_spec (S : StdImpl) (hS : S.Lawful) (f : FreqTable)
    (hf : f.entries ≠ []) :
    ∃ root, buildHuffmanTree S f = .ok root ∧ root.proper = true ∧
      root.leaves.Perm (f.entries.map Prod.fst) := by
  unfold buildHuffmanTree
  rw [if_neg hf]
  simp only
  have hm := hS.make_heap_spec
    ((S.mapOrder f.entries).map (fun e => Node.mk e.1 e.2 Node.null Node.null))
  have hlen : 0 < (S.make_heap heapCompare
      ((S.mapOrder f.entries).map (fun e => Node.mk e.1 e.2 Node.null Node.null))).length := by
    rw [hm.1.length_eq, List.length_map, (hS.mapOrder_perm _).length_eq]
    exact List.length_pos.mpr hf
  have hprop : ∀ x ∈ S.make_heap heapCompare
      ((S.mapOrder f.entries).map (fun e => Node.mk e.1 e.2 Node.null Node.null)),
      x.proper = true := by
    intro x hx
    have hx2 := hm.1.mem_iff.mp hx
    obtain ⟨e, _, rfl⟩ := List.mem_map.mp hx2
    rfl
  obtain ⟨root, h1, h2, h3⟩ := buildHuffmanTreeLoop_spec S hS _ _ rfl hlen hm.2 hprop
  refine ⟨root, h1, h2, h3.trans ?_⟩
  refine (hm.1.flatMap_right Node.leaves).trans ?_
  have e : ∀ l : List (Byte × Int),
      (l.map (fun e => Node.mk e.1 e.2 Node.null Node.null)).flatMap Node.leaves =
        l.map Prod.fst := by
    intro l
    induction l with
    | nil => rfl
    | cons a l ih => simp [List.flatMap_cons, Node.leaves, isLeafPair, Node.isNull, ih]
  rw [e]
  exact (hS.mapOrder_perm _).map _

theorem buildHuffmanTree_empty (S : StdImpl) (f : FreqTable) (hf : f.entries = []) :
    buildHuffmanTree S f = .ok Node.null := by
  unfold buildHuffmanTree
  rw [if_pos hf]

/-! ## The reference implementation of the library contract -/

theorem pairwise_get? {α : Type} (r : α → α → Prop) : ∀ (l : List α), l.Pairwise r →
    ∀ (i j : Nat) (a b : α), i < j → l.get? i = some a → l.get? j = some b → r a b := by
  intro l h
  induction h with
  | nil => intro i j a b _ hi; simp at hi
  | cons hx _ ih =>
    intro i j a b hij hi hj
    cases j with
    | zero => omega
    | succ j =>
      cases i with
      | zero =>
        simp only [List.get?_cons_zero, Option.some.injEq] at hi
        subst hi
        exact hx b (List.get?_mem hj)
      | succ i => exact ih i j a b (by omega) hi hj

theorem isHeap_insertionSort (v : List Node) :
    IsHeap heapCompare (v.insertionSort (fun a b => heapCompare a b = false)) := by
  have htot : IsTotal Node (fun a b => heapCompare a b = false) :=
    ⟨fun a b => by simp only [heapCompare, decide_eq_false_iff_not]; omega⟩
  have htr : IsTrans Node (fun a b => heapCompare a b = false) :=
    ⟨fun a b c => by simp only [heapCompare, decide_eq_false_iff_not]; omega⟩
  have hs := List.sorted_insertionSort (fun a b => heapCompare a b = false) v
  intro i hi a b ha hb
  exact pairwise_get? _ _ hs ((i - 1) / 2) i a b (by omega) ha hb

theorem refStd_lawful : refStd.Lawful where
  mapOrder_perm := fun l => List.Perm.refl l
  make_heap_spec := fun v => ⟨List.perm_insertionSort _ v, isHeap_insertionSort v⟩
  pop_heap_spec := fun _ v _ =>
    ⟨v.insertionSort (fun a b => heapCompare a b = false), rfl,
      List.perm_insertionSort _ v, isHeap_insertionSort v⟩
  push_heap_spec := fun v x _ =>
    ⟨List.perm_insertionSort _ (v ++ [x]), isHeap_insertionSort (v ++ [x])⟩

/-! ## Code table -/

theorem generateCodes_eq_foldl : ∀ (T : Node) (code : List Char) (codes : CodeTable),
    generateCodes T code codes =
      (T.codeList code).foldl (fun m e => CodeTable.set m e.1 e.2) codes := by
  intro T
  induction T with
  | null => intro code codes; rfl
  | mk c f l r ihl ihr =>
    intro code codes
    rw [generateCodes, Node.codeList]
    by_cases hl : isLeafPair l r = true
    · rw [if_pos hl, if_pos hl]; rfl
    · rw [if_neg hl, if_neg hl, List.foldl_append, ← ihl, ← ihr]

theorem codeList_map_fst : ∀ (T : Node) (code : List Char),
    (T.codeList code).map Prod.fst = T.leaves := by
  intro T
  induction T with
  | null => intro code; rfl
  | mk c f l r ihl ihr =>
    intro code
    rw [Node.codeList, Node.leaves]
    by_cases hl : isLeafPair l r = true
    · rw [if_pos hl, if_pos hl]; rfl
    · rw [if_neg hl, if_neg hl, List.map_append, ihl, ihr]

theorem foldl_set_not_mem : ∀ (L : List (Byte × List Char)) (codes : CodeTable) (s : Byte),
    s ∉ L.map Prod.fst → (L.foldl (fun m e => CodeTable.set m e.1 e.2) codes) s = codes s := by
  intro L
  induction L with
  | nil => intro codes s _; rfl
  | cons e L ih =>
    intro codes s hs
    simp only [List.map_cons, List.mem_cons, not_or] at hs
    rw [List.foldl_cons, ih _ s hs.2, CodeTable.set, if_neg hs.1]

theorem foldl_set_mem : ∀ (L : List (Byte × List Char)) (codes : CodeTable) (s : Byte)
    (c : List Char), (L.map Prod.fst).Nodup → (s, c) ∈ L →
    (L.foldl (fun m e => CodeTable.set m e.1 e.2) codes) s = some c := by
  intro L
  induction L with
  | nil => intro codes s c _ h; simp at h
  | cons e L ih =>
    intro codes s c hnd hm
    simp only [List.map_cons, List.nodup_cons] at hnd
    rw [List.foldl_cons]
    rcases List.mem_cons.mp hm with h | h
    · subst h
      rw [foldl_set_not_mem L _ _ hnd.1, CodeTable.set, if_pos rfl]
    · exact ih _ s c hnd.2 h

theorem generateCodes_lookup (T : Node) (hnd : T.leaves.Nodup) (s : Byte) (c : List Char) :
    generateCodes T [] (fun _ => none) s = some c ↔ (s, c) ∈ T.codeList [] := by
  rw [generateCodes_eq_foldl]
  have hnd2 : ((T.codeList []).map Prod.fst).Nodup := by rw [codeList_map_fst]; exact hnd
  constructor
  · intro h
    by_cases hs : s ∈ (T.codeList []).map Prod.fst
    · obtain ⟨e, he, rfl⟩ := List.mem_map.mp hs
      have := foldl_set_mem _ (fun _ => none) e.1 e.2 hnd2 he
      rw [this] at h
      cases h
      exact he
    · rw [foldl_set_not_mem _ _ _ hs] at h
      cases h
  · exact foldl_set_mem _ _ s c hnd2

theorem generateCodes_isSome (T : Node) (s : Byte) :
    (generateCodes T [] (fun _ => none) s).isSome = true ↔ s ∈ T.leaves := by
  rw [generateCodes_eq_foldl, ← codeList_map_fst T []]
  generalize T.codeList [] = L
  constructor
  · intro h
    by_contra hs
    rw [foldl_set_not_mem _ _ _ hs] at h
    simp at h
  · intro hs
    have key : ∀ (L : List (Byte × List Char)) (codes : CodeTable),
        (s ∈ L.map Prod.fst ∨ (codes s).isSome = true) →
        ((L.foldl (fun m e => CodeTable.set m e.1 e.2) codes) s).isSome = true := by
      intro L
      induction L with
      | nil => intro codes h; simpa using h
      | cons e L ih =>
        intro codes h
        rw [List.foldl_cons]
        apply ih
        by_cases he : s = e.1
        · right; simp [CodeTable.set, he]
        · rcases h with h | h
          · left; simpa [he] using h
          · right; simp [CodeTable.set, he, h]
    exact key L _ (Or.inl hs)

theorem leaves_length_pos : ∀ (T : Node), T.proper = true → 0 < T.leaves.length := by
  intro T
  induction T with
  | null => intro h; simp [Node.proper] at h
  | mk c f l r ihl _ =>
    intro h
    rw [Node.leaves]
    by_cases hl : isLeafPair l r = true
    · rw [if_pos hl]; simp
    · have hl2 : isLeafPair l r = false := by simpa using hl
      have hp := proper_children c f l r h hl2
      rw [if_neg hl, List.length_append]
      have := ihl hp.1
      omega

theorem codeList_spec : ∀ (T : Node), T.proper = true → ∀ (code : List Char),
    (code ≠ [] ∨ T.leaves.length ≠ 1) → ∀ e ∈ T.codeList code,
      ∃ path, e.2 = code ++ path ∧ findCharFromCodeLoop T path = .ok e.1 ∧
        path.length + 1 ≤ T.leaves.length ∧ IsBits path := by
  intro T
  induction T with
  | null => intro h; simp [Node.proper] at h
  | mk c f l r ihl ihr =>
    intro h code hc e he
    rw [Node.codeList] at he
    by_cases hl : isLeafPair l r = true
    · rw [if_pos hl] at he
      have hne : code ≠ [] := by
        rcases hc with hc | hc
        · exact hc
        · exfalso; apply hc; rw [Node.leaves, if_pos hl]; rfl
      rw [if_neg hne] at he
      have he2 : e = (c, code) := by simpa using he
      subst he2
      refine ⟨[], by simp, by simp [findCharFromCodeLoop], ?_, by intro x hx; simp at hx⟩
      rw [Node.leaves, if_pos hl]; simp
    · have hl2 : isLeafPair l r = false := by simpa using hl
      have hp := proper_children c f l r h hl2
      rw [if_neg hl] at he
      have hll := leaves_length_pos l hp.1
      have hlr := leaves_length_pos r hp.2
      rw [Node.leaves, if_neg hl, List.length_append]
      rcases List.mem_append.mp he with he1 | he1
      · obtain ⟨path, h1, h2, h3, h4⟩ := ihl hp.1 (code ++ ['0']) (Or.inl (by simp)) e he1
        refine ⟨'0' :: path, by simp [h1], ?_, by simp; omega, ?_⟩
        · simp [findCharFromCodeLoop, h2]
        · intro x hx
          rcases List.mem_cons.mp hx with hx | hx
          · left; exact hx
          · exact h4 x hx
      · obtain ⟨path, h1, h2, h3, h4⟩ := ihr hp.2 (code ++ ['1']) (Or.inl (by simp)) e he1
        refine ⟨'1' :: path, by simp [h1], ?_, by simp; omega, ?_⟩
        · have : ¬ ('1' = '0') := by decide
          simp [findCharFromCodeLoop, h2]
        · intro x hx
          rcases List.mem_cons.mp hx with hx | hx
          · right; exact hx
          · exact h4 x hx

theorem codeList_prefix_free : ∀ (T : Node), T.proper = true → ∀ (code : List Char),
    (T.codeList code).Pairwise (fun e1 e2 => ¬ e1.2 <+: e2.2 ∧ ¬ e2.2 <+: e1.2) := by
  intro T
  induction T with
  | null => intro h; simp [Node.proper] at h
  | mk c f l r ihl ihr =>
    intro h code
    rw [Node.codeList]
    by_cases hl : isLeafPair l r = true
    · rw [if_pos hl]; simp
    · have hl2 : isLeafPair l r = false := by simpa using hl
      have hp := proper_children c f l r h hl2
      rw [if_neg hl, List.pairwise_append]
      refine ⟨ihl hp.1 _, ihr hp.2 _, ?_⟩
      intro e1 he1 e2 he2
      obtain ⟨p1, h1, _⟩ := codeList_spec l hp.1 (code ++ ['0']) (Or.inl (by simp)) e1 he1
      obtain ⟨p2, h2, _⟩ := codeList_spec r hp.2 (code ++ ['1']) (Or.inl (by simp)) e2 he2
      have key : ∀ (a b : List Char), ¬ (code ++ ['0'] ++ a) <+: (code ++ ['1'] ++ b) ∧
          ¬ (code ++ ['1'] ++ b) <+: (code ++ ['0'] ++ a) := by
        intro a b
        constructor
        · rintro ⟨t, ht⟩
          simp only [List.append_assoc, List.append_cancel_left_eq, List.singleton_append,
            List.cons_append, List.cons.injEq] at ht
          exact absurd ht.1 (by decide)
        · rintro ⟨t, ht⟩
          simp only [List.append_assoc, List.append_cancel_left_eq, List.singleton_append,
            List.cons_append, List.cons.injEq] at ht
          exact absurd ht.1 (by decide)
      rw [h1, h2]
      exact key p1 p2

theorem findCharFromCode_codeList (T : Node) (hT : T.proper = true) (e : Byte × List Char)
    (he : e ∈ T.codeList []) : findCharFromCode T e.2 = .ok e.1 := by
  cases T with
  | null => simp [Node.proper] at hT
  | mk c f l r =>
    rw [findCharFromCode]
    by_cases hl : isLeafPair l r = true
    · rw [Node.codeList, if_pos hl] at he
      have he2 : e = (c, ['0']) := by simpa using he
      subst he2
      simp [hl]
    · have hl2 : isLeafPair l r = false := by simpa using hl
      have hp := proper_children c f l r hT hl2
      have hll := leaves_length_pos l hp.1
      have hlr := leaves_length_pos r hp.2
      have hlen : (Node.mk c f l r).leaves.length ≠ 1 := by
        rw [Node.leaves, if_neg hl, List.length_append]; omega
      obtain ⟨path, h1, h2, _⟩ := codeList_spec _ hT [] (Or.inr hlen) e he
      simp only [List.nil_append] at h1
      simp only [hl2]
      rw [h1]
      exact h2

theorem codeList_code_length (T : Node) (hT : T.proper = true) (e : Byte × List Char)
    (he : e ∈ T.codeList []) : 1 ≤ e.2.length ∧ e.2.length + 1 ≤ max 2 T.leaves.length ∧
      IsBits e.2 := by
  cases T with
  | null => simp [Node.proper] at hT
  | mk c f l r =>
    by_cases hl : isLeafPair l r = true
    · rw [Node.codeList, if_pos hl] at he
      have he2 : e = (c, ['0']) := by simpa using he
      subst he2
      refine ⟨by simp, by simp, ?_⟩
      intro x hx
      left; simpa using hx
    · have hl2 : isLeafPair l r = false := by simpa using hl
      have hp := proper_children c f l r hT hl2
      have hll := leaves_length_pos l hp.1
      have hlr := leaves_length_pos r hp.2
      have hlen : (Node.mk c f l r).leaves.length ≠ 1 := by
        rw [Node.leaves, if_neg hl, List.length_append]; omega
      obtain ⟨path, h1, h2, h3, h4⟩ := codeList_spec _ hT [] (Or.inr hlen) e he
      simp only [List.nil_append] at h1
      rw [h1]
      refine ⟨?_, by omega, h4⟩
      cases path with
      | nil =>
        simp [findCharFromCodeLoop] at h2
        rw [Node.codeList, if_neg hl] at he
        rcases List.mem_append.mp he with he1 | he1
        · obtain ⟨p, hp1, _⟩ := codeList_spec l hp.1 _ (Or.inl (by simp)) e he1
          rw [h1] at hp1; simp at hp1
        · obtain ⟨p, hp1, _⟩ := codeList_spec r hp.2 _ (Or.inl (by simp)) e he1
          rw [h1] at hp1; simp at hp1
      | cons a p => simp

/-! ## Further facts on trees and tables -/

theorem internalCount_add_one : ∀ (T : Node), T.proper = true →
    T.internalCount + 1 = T.leaves.length := by
  intro T
  induction T with
  | null => intro h; simp [Node.proper] at h
  | mk c f l r ihl ihr =>
    intro h
    rw [Node.internalCount, Node.leaves]
    by_cases hl : isLeafPair l r = true
    · rw [if_pos hl, if_pos hl]; rfl
    · have hl2 : isLeafPair l r = false := by simpa using hl
      have hp := proper_children c f l r h hl2
      rw [if_neg hl, if_neg hl, List.length_append, ← ihl hp.1, ← ihr hp.2]
      omega

theorem eq_singleton_of_nodup {α : Type} (l : List α) (a : α) (hnd : l.Nodup)
    (hall : ∀ x ∈ l, x = a) (hmem : a ∈ l) : l = [a] := by
  cases l with
  | nil => simp at hmem
  | cons x t =>
    have hx : x = a := hall x (by simp)
    subst hx
    have ht : t = [] := by
      cases t with
      | nil => rfl
      | cons y t2 =>
        have hy : y = x := hall y (by simp)
        subst hy
        simp at hnd
    rw [ht]

theorem entries_nodup (f : FreqTable) : f.entries.Nodup :=
  List.Nodup.of_map Prod.fst (entries_keys_nodup f)

theorem entries_single (f : FreqTable) (s : Byte) (n : Int) (hs : f s = some n)
    (ho : ∀ k, k ≠ s → f k = none) : f.entries = [(s, n)] := by
  apply eq_singleton_of_nodup _ _ (entries_nodup f)
  · rintro ⟨k, v⟩ hk
    have h1 := (entries_mem f k v).mp hk
    by_cases hks : k = s
    · subst hks; rw [hs] at h1; cases h1; rfl
    · rw [ho k hks] at h1; cases h1
  · exact (entries_mem f s n).mpr hs

theorem buildHuffmanTree_single (S : StdImpl) (hS : S.Lawful) (f : FreqTable) (s : Byte)
    (n : Int) (hf : f.entries = [(s, n)]) :
    buildHuffmanTree S f = .ok (Node.mk s n Node.null Node.null) := by
  unfold buildHuffmanTree
  rw [if_neg (by rw [hf]; simp)]
  have h1 : S.mapOrder f.entries = [(s, n)] := by
    have := hS.mapOrder_perm f.entries
    rw [hf] at this ⊢
    exact List.perm_singleton.mp this
  have h2 := (hS.make_heap_spec [Node.mk s n Node.null Node.null]).1
  have h3 := List.perm_singleton.mp h2
  simp only [h1, List.map_cons, List.map_nil, h3, List.length_singleton]
  rfl

theorem increment_isSome (cf : FreqTable) (ch k : Byte) :
    ((cf.increment ch) k).isSome = true ↔ ((cf k).isSome = true ∨ k = ch) := by
  unfold FreqTable.increment
  by_cases h : k = ch
  · simp [h]
  · simp [h]

theorem countFrame_isSome : ∀ (frame : Frame) (cf : FreqTable) (k : Byte),
    ((frame.foldl (fun acc2 p => FreqTable.increment acc2 p.1) cf) k).isSome = true ↔
      ((cf k).isSome = true ∨ ∃ p ∈ frame, p.1 = k) := by
  intro frame
  induction frame with
  | nil => intro cf k; simp
  | cons p rest ih =>
    intro cf k
    rw [List.foldl_cons, ih, increment_isSome]
    constructor
    · rintro ((h | h) | ⟨q, hq, hqk⟩)
      · exact Or.inl h
      · exact Or.inr ⟨p, by simp, h.symm⟩
      · exact Or.inr ⟨q, by simp [hq], hqk⟩
    · rintro (h | ⟨q, hq, hqk⟩)
      · exact Or.inl (Or.inl h)
      · rcases List.mem_cons.mp hq with h2 | h2
        · subst h2; exact Or.inl (Or.inr hqk.symm)
        · exact Or.inr ⟨q, h2, hqk⟩

theorem countChars_isSome : ∀ (video : ASCIIVideo) (cf : FreqTable) (k : Byte),
    ((countChars video cf) k).isSome = true ↔
      ((cf k).isSome = true ∨ ∃ e ∈ video, ∃ p ∈ e.2, p.1 = k) := by
  intro video
  induction video with
  | nil => intro cf k; simp [countChars]
  | cons e rest ih =>
    intro cf k
    have hstep : countChars (e :: rest) cf =
        countChars rest (e.2.foldl (fun acc2 p => FreqTable.increment acc2 p.1) cf) := rfl
    rw [hstep, ih, countFrame_isSome]
    constructor
    · rintro ((h | ⟨p, hp, hpk⟩) | ⟨e2, he2, h2⟩)
      · exact Or.inl h
      · exact Or.inr ⟨e, by simp, p, hp, hpk⟩
      · exact Or.inr ⟨e2, by simp [he2], h2⟩
    · rintro (h | ⟨e2, he2, h2⟩)
      · exact Or.inl (Or.inl h)
      · rcases List.mem_cons.mp he2 with h3 | h3
        · subst h3; exact Or.inl (Or.inr h2)
        · exact Or.inr ⟨e2, h3, h2⟩

theorem readHuffmanTreeAux_prefix : ∀ (T : Node), T.proper = true →
    ∀ (fuel : Nat) (p : List Byte), p <+: writeHuffmanTree T → p ≠ writeHuffmanTree T →
      p.length + 1 ≤ fuel → readHuffmanTreeAux fuel p = .error .undefined_behaviour := by
  intro T
  induction T with
  | null => intro h; simp [Node.proper] at h
  | mk c f l r ihl ihr =>
    intro h fuel p hp hne hf
    obtain ⟨fuel, rfl⟩ : ∃ k, fuel = k + 1 := ⟨fuel - 1, by omega⟩
    rw [writeHuffmanTree] at hp hne
    by_cases hl : isLeafPair l r = true
    · rw [if_pos hl] at hp hne
      cases p with
      | nil => simp [readHuffmanTreeAux]
      | cons a q =>
        have ha : a = 1 := by
          obtain ⟨t, ht⟩ := hp
          simp at ht
          exact ht.1
        subst ha
        cases q with
        | nil => simp [readHuffmanTreeAux]
        | cons b q2 =>
          exfalso
          obtain ⟨t, ht⟩ := hp
          simp at ht
          obtain ⟨hb, hq2, _⟩ := ht
          subst hb; subst hq2
          exact hne rfl
    · have hl2 : isLeafPair l r = false := by simpa using hl
      have hpr := proper_children c f l r h hl2
      rw [if_neg hl] at hp hne
      cases p with
      | nil => simp [readHuffmanTreeAux]
      | cons a q =>
        have e : [(0 : Byte)] ++ writeHuffmanTree l ++ writeHuffmanTree r =
            0 :: (writeHuffmanTree l ++ writeHuffmanTree r) := by simp
        rw [e] at hp hne
        obtain ⟨t, ht⟩ := hp
        simp only [List.cons_append, List.cons.injEq] at ht
        obtain ⟨ha, hq⟩ := ht
        subst ha
        have h0 : ¬ ((0 : Byte) ≠ 0) := by simp
        simp only [readHuffmanTreeAux, if_neg h0]
        have hqne : q ≠ writeHuffmanTree l ++ writeHuffmanTree r := by
          intro hq2; apply hne; rw [hq2]
        simp only [List.length_cons] at hf
        rcases Nat.lt_or_ge q.length (writeHuffmanTree l).length with hlt | hge
        · have hq1 : q <+: writeHuffmanTree l := by
            have : q <+: writeHuffmanTree l ++ writeHuffmanTree r := ⟨t, hq⟩
            exact List.prefix_of_prefix_length_le this (List.prefix_append _ _) (by omega)
          rw [ihl hpr.1 fuel q hq1 (by intro h2; rw [h2] at hlt; omega) (by omega)]
        · have hq1 : writeHuffmanTree l <+: q := by
            have : q <+: writeHuffmanTree l ++ writeHuffmanTree r := ⟨t, hq⟩
            exact List.prefix_of_prefix_length_le (List.prefix_append _ _) this hge
          obtain ⟨q', rfl⟩ := hq1
          rw [readHuffmanTreeAux_write l hpr.1 fuel q' (by simp at hf hge ⊢; omega)]
          simp only
          have hq2 : q' <+: writeHuffmanTree r := by
            rw [List.append_assoc] at hq
            exact ⟨t, List.append_cancel_left hq⟩
          rw [ihr hpr.2 fuel q' hq2 (by intro h2; apply hqne; rw [h2])
            (by simp at hf ⊢; omega)]

theorem findCharFromCodeLoop_eq_walk : ∀ (code : List Char) (root : Node),
    findCharFromCodeLoop root code =
      match root.walk code with
      | .null => .error .undefined_behaviour
      | .mk character _ _ _ => .ok character := by
  intro code
  induction code with
  | nil => intro root; cases root <;> rfl
  | cons bit rest ih =>
    intro root
    cases root with
    | null => rfl
    | mk c f l r =>
      rw [findCharFromCodeLoop, Node.walk]
      by_cases hb : bit = '0'
      · rw [if_pos hb, if_pos hb, ih]
      · rw [if_neg hb, if_neg hb, ih]

/-! ## Bit fields: `bitset`, `stoi`, `substr` -/

theorem ok_bind {α β : Type} (a : α) (f : α → Except Fault β) :
    (Except.ok a >>= f) = f a := rfl

theorem error_bind {α β : Type} (e : Fault) (f : α → Except Fault β) :
    ((Except.error e : Except Fault α) >>= f) = Except.error e := rfl

theorem bitsetToString_length : ∀ (n v : Nat), (bitsetToString n v).length = n := by
  intro n
  induction n with
  | zero => intro v; rfl
  | succ n ih => intro v; simp [bitsetToString, ih]

theorem isBits_bitsetToString : ∀ (n v : Nat), IsBits (bitsetToString n v) := by
  intro n
  induction n with
  | zero => intro v c hc; simp [bitsetToString] at hc
  | succ n ih =>
    intro v c hc
    rw [bitsetToString, List.mem_append] at hc
    rcases hc with hc | hc
    · exact ih _ c hc
    · simp only [List.mem_singleton] at hc
      subst hc
      by_cases h : v % 2 = 1
      · right; simp [h]
      · left; simp [h]

theorem binaryValue_append_singleton (ds : List Char) (d : Char) :
    binaryValue (ds ++ [d]) = 2 * binaryValue ds + (if d = '1' then 1 else 0) := by
  simp [binaryValue, List.foldl_append]

theorem binaryValue_bitsetToString : ∀ (n v : Nat),
    binaryValue (bitsetToString n v) = v % 2 ^ n := by
  intro n
  induction n with
  | zero => intro v; simp [bitsetToString, binaryValue, Nat.mod_one]
  | succ n ih =>
    intro v
    rw [bitsetToString, binaryValue_append_singleton, ih]
    have h1 : v % 2 ^ (n + 1) = 2 * (v / 2 % 2 ^ n) + v % 2 := by
      rw [Nat.pow_succ, Nat.mul_comm, Nat.mod_mul]
      omega
    rw [h1]
    by_cases h : v % 2 = 1
    · simp [h]
    · have h0 : v % 2 = 0 := by omega
      have hc : ¬ ((if v % 2 = 1 then '1' else '0') = '1') := by
        rw [if_neg h]; decide
      rw [if_neg hc, h0]

theorem isSpace_of_bit (c : Char) (h : c = '0' ∨ c = '1') : isSpace c = false := by
  rcases h with h | h <;> subst h <;> decide

theorem isBinDigit_of_bit (c : Char) (h : c = '0' ∨ c = '1') : isBinDigit c = true := by
  rcases h with h | h <;> subst h <;> decide

theorem stoi_bits (s : List Char) (hs : IsBits s) (hne : s ≠ [])
    (hv : binaryValue s < 2147483648) : stoi s = .ok (binaryValue s : Int) := by
  obtain ⟨c, t, rfl⟩ : ∃ c t, s = c :: t := by
    cases s with
    | nil => exact absurd rfl hne
    | cons c t => exact ⟨c, t, rfl⟩
  have hc := hs c (List.mem_cons_self _ _)
  have h1 : (c :: t).dropWhile isSpace = c :: t := by
    rw [List.dropWhile_cons, isSpace_of_bit c hc]; rfl
  have h2 : ¬ ((c :: t).head? = some '-' ∨ (c :: t).head? = some '+') := by
    rw [List.head?_cons]
    rcases hc with hc | hc <;> subst hc <;> decide
  have h3 : (c :: t).takeWhile isBinDigit = c :: t := by
    rw [List.takeWhile_eq_self_iff]
    intro x hx
    exact isBinDigit_of_bit x (hs x hx)
  have h4 : decide ((c :: t).head? = some '-') = false := by
    rw [List.head?_cons]
    rcases hc with hc | hc <;> subst hc <;> decide
  unfold stoi
  simp only [h1, if_neg h2, h3, h4]
  rw [if_neg (by simp)]
  simp only [Bool.false_eq_true, if_false]
  rw [if_neg (by omega)]

theorem stoi_bitset8 (v : Nat) : stoi (bitsetToString 8 v) = .ok ((v % 256 : Nat) : Int) := by
  have h := binaryValue_bitsetToString 8 v
  have h2 : (2 : Nat) ^ 8 = 256 := by norm_num
  rw [h2] at h
  rw [stoi_bits _ (isBits_bitsetToString 8 v)
    (by intro h3; have := bitsetToString_length 8 v; rw [h3] at this; simp at this)
    (by rw [h]; omega), h]

theorem stoi_bitset32 (v : Nat) (hv : v < 2147483648) :
    stoi (bitsetToString 32 v) = .ok (v : Int) := by
  have h := binaryValue_bitsetToString 32 v
  have h2 : (2 : Nat) ^ 32 = 4294967296 := by norm_num
  rw [h2, Nat.mod_eq_of_lt (by omega)] at h
  rw [stoi_bits _ (isBits_bitsetToString 32 v)
    (by intro h3; have := bitsetToString_length 32 v; rw [h3] at this; simp at this)
    (by rw [h]; exact hv), h]

theorem substr_eq (s : List Char) (pos count : Nat) (h : pos ≤ s.length) :
    substr s (pos : Int) (count : Int) = .ok ((s.drop pos).take count) := by
  unfold substr
  have h1 : ¬ ((pos : Int) < 0 ∨ s.length < (pos : Int).toNat) := by
    simp only [Int.toNat_ofNat]; omega
  have h2 : ¬ ((count : Int) < 0) := by omega
  rw [if_neg h1, if_neg h2]
  simp

theorem substr_mid (pre mid post : List Char) :
    substr (pre ++ mid ++ post) (pre.length : Int) (mid.length : Int) = .ok mid := by
  rw [substr_eq _ _ _ (by simp), List.append_assoc, List.drop_left, List.take_left]

theorem toUInt32_natCast (v : Nat) (h : v < 4294967296) : toUInt32 (v : Int) = v := by
  unfold toUInt32
  omega

/-! ## Per-cell encoding and `parsePixel` -/

theorem cellBits_length (code : List Char) (p : Pixel) :
    (cellBits code p).length = 32 + code.length := by
  simp [cellBits, bitsetToString_length]
  omega

theorem appendPixel_eq (codes : CodeTable) (bs : List Char) (p : Pixel) (code : List Char)
    (h : codes p.1 = some code) : appendPixel codes bs p = .ok (bs ++ cellBits code p) := by
  unfold appendPixel CodeTable.at
  rw [h]
  simp [cellBits, List.append_assoc]

theorem appendPixel_none (codes : CodeTable) (bs : List Char) (p : Pixel)
    (h : codes p.1 = none) : appendPixel codes bs p = .error .out_of_range := by
  unfold appendPixel CodeTable.at
  rw [h]

theorem substr_at (bits a m b : List Char) (h : bits = a ++ m ++ b) (pos cnt : Int)
    (hp : pos = (a.length : Int)) (hc : cnt = (m.length : Int)) :
    substr bits pos cnt = .ok m := by
  rw [h, hp, hc]
  exact substr_mid a m b

theorem parsePixel_cellBits (T : Node) (pre post code : List Char) (p : Pixel)
    (hfind : findCharFromCode T code = .ok p.1) (hlen : code.length ≤ 255)
    (hb : pre.length + 32 + code.length < 2147483648) :
    parsePixel T (pre ++ cellBits code p ++ post) (pre.length : Int) =
      .ok (lowByteCell p, ((pre.length + 32 + code.length : Nat) : Int)) := by
  generalize hbits : pre ++ cellBits code p ++ post = bits
  have hs1 : substr bits (pre.length : Int) 8 = .ok (bitsetToString 8 code.length) :=
    substr_at bits pre _ (code ++ bitsetToString 8 p.2.c0 ++ bitsetToString 8 p.2.c1 ++
      bitsetToString 8 p.2.c2 ++ post) (by rw [← hbits]; simp [cellBits]) _ _ rfl
      (by rw [bitsetToString_length]; rfl)
  have hs2 : substr bits ((pre.length + 8 : Nat) : Int) (code.length : Int) = .ok code :=
    substr_at bits (pre ++ bitsetToString 8 code.length) _ (bitsetToString 8 p.2.c0 ++
      bitsetToString 8 p.2.c1 ++ bitsetToString 8 p.2.c2 ++ post)
      (by rw [← hbits]; simp [cellBits]) _ _
      (by rw [List.length_append, bitsetToString_length]) rfl
  have hs3 : substr bits ((pre.length + 8 + code.length : Nat) : Int) 8 =
      .ok (bitsetToString 8 p.2.c0) :=
    substr_at bits (pre ++ bitsetToString 8 code.length ++ code) _
      (bitsetToString 8 p.2.c1 ++ bitsetToString 8 p.2.c2 ++ post)
      (by rw [← hbits]; simp [cellBits]) _ _
      (by rw [List.length_append, List.length_append, bitsetToString_length])
      (by rw [bitsetToString_length]; rfl)
  have hs4 : substr bits ((pre.length + 8 + code.length + 8 : Nat) : Int) 8 =
      .ok (bitsetToString 8 p.2.c1) :=
    substr_at bits (pre ++ bitsetToString 8 code.length ++ code ++ bitsetToString 8 p.2.c0) _
      (bitsetToString 8 p.2.c2 ++ post)
      (by rw [← hbits]; simp [cellBits]) _ _
      (by rw [List.length_append, List.length_append, List.length_append,
        bitsetToString_length, bitsetToString_length])
      (by rw [bitsetToString_length]; rfl)
  have hs5 : substr bits ((pre.length + 8 + code.length + 16 : Nat) : Int) 8 =
      .ok (bitsetToString 8 p.2.c2) :=
    substr_at bits (pre ++ bitsetToString 8 code.length ++ code ++ bitsetToString 8 p.2.c0 ++
      bitsetToString 8 p.2.c1) _ post
      (by rw [← hbits]; simp [cellBits]) _ _
      (by rw [List.length_append, List.length_append, List.length_append, List.length_append,
        bitsetToString_length, bitsetToString_length, bitsetToString_length])
      (by rw [bitsetToString_length]; rfl)
  have t1 : toInt32 ((pre.length : Int) + 8) = ((pre.length + 8 : Nat) : Int) := by
    rw [toInt32_of_range] <;> omega
  have t2 : toInt32 (((pre.length + 8 : Nat) : Int) + (code.length : Int)) =
      ((pre.length + 8 + code.length : Nat) : Int) := by
    rw [toInt32_of_range] <;> omega
  have t3 : toInt32 (((pre.length + 8 + code.length : Nat) : Int) + 8) =
      ((pre.length + 8 + code.length + 8 : Nat) : Int) := by
    rw [toInt32_of_range] <;> omega
  have t4 : toInt32 (((pre.length + 8 + code.length : Nat) : Int) + 16) =
      ((pre.length + 8 + code.length + 16 : Nat) : Int) := by
    rw [toInt32_of_range] <;> omega
  have t5 : toInt32 (((pre.length + 8 + code.length : Nat) : Int) + 24) =
      ((pre.length + 32 + code.length : Nat) : Int) := by
    rw [toInt32_of_range] <;> omega
  have hm : code.length % 256 = code.length := Nat.mod_eq_of_lt (by omega)
  have u0 : toUInt32 ((p.2.c0 % 256 : Nat) : Int) = p.2.c0 % 256 :=
    toUInt32_natCast _ (by omega)
  have u1 : toUInt32 ((p.2.c1 % 256 : Nat) : Int) = p.2.c1 % 256 :=
    toUInt32_natCast _ (by omega)
  have u2 : toUInt32 ((p.2.c2 % 256 : Nat) : Int) = p.2.c2 % 256 :=
    toUInt32_natCast _ (by omega)
  unfold parsePixel
  simp only [hs1, ok_bind, stoi_bitset8, hm, t1, hs2, hfind, t2, hs3, t3, hs4, t4, hs5, t5,
    u0, u1, u2]
  rfl

/-! ## Full frames -/

theorem fullFrameLoop_eq (codes : CodeTable) : ∀ (frame : Frame) (bs : List Char),
    (∀ p ∈ frame, (codes p.1).isSome = true) →
    fullFrameLoop codes frame bs = .ok (bs ++ fullBits codes frame) := by
  intro frame
  induction frame with
  | nil => intro bs _; simp [fullFrameLoop, fullBits]
  | cons p rest ih =>
    intro bs h
    obtain ⟨code, hcode⟩ := Option.isSome_iff_exists.mp (h p (by simp))
    rw [fullFrameLoop, appendPixel_eq codes bs p code hcode]
    simp only
    rw [ih _ (fun q hq => h q (by simp [hq]))]
    simp [fullBits, codeOf, hcode, List.append_assoc]

theorem fullBits_cons (codes : CodeTable) (p : Pixel) (rest : Frame) :
    fullBits codes (p :: rest) = cellBits (codeOf codes p.1) p ++ fullBits codes rest := by
  simp [fullBits]

theorem decodes_codeOf (T : Node) (codes : CodeTable) (s : Byte) (h : Decodes T codes s) :
    findCharFromCode T (codeOf codes s) = .ok s ∧ (codeOf codes s).length ≤ 255 ∧
      codes s = some (codeOf codes s) := by
  obtain ⟨code, h1, h2, h3, _⟩ := h
  simp [codeOf, h1, h2, h3]

theorem decodes_isBits (T : Node) (codes : CodeTable) (s : Byte) (h : Decodes T codes s) :
    IsBits (codeOf codes s) := by
  obtain ⟨code, h1, _, _, h4⟩ := h
  simpa [codeOf, h1] using h4

theorem fullDecodeLoop_eq (T : Node) (codes : CodeTable) : ∀ (frame : Frame)
    (pre post : List Char) (acc : Frame), (∀ p ∈ frame, Decodes T codes p.1) →
    pre.length + (fullBits codes frame).length < 2147483648 →
    fullDecodeLoop T (pre ++ fullBits codes frame ++ post) frame.length (pre.length : Int) acc =
      .ok (acc ++ frame.map lowByteCell,
        ((pre.length + (fullBits codes frame).length : Nat) : Int)) := by
  intro frame
  induction frame with
  | nil => intro pre post acc _ _; simp [fullDecodeLoop, fullBits]
  | cons p rest ih =>
    intro pre post acc h hb
    obtain ⟨h1, h2, _⟩ := decodes_codeOf T codes p.1 (h p (by simp))
    rw [fullBits_cons, List.length_append, cellBits_length] at hb
    have e : pre ++ fullBits codes (p :: rest) ++ post =
        pre ++ cellBits (codeOf codes p.1) p ++ (fullBits codes rest ++ post) := by
      rw [fullBits_cons]; simp [List.append_assoc]
    rw [List.length_cons, fullDecodeLoop, e,
      parsePixel_cellBits T pre _ _ p h1 h2 (by omega)]
    simp only
    have e2 : pre ++ cellBits (codeOf codes p.1) p ++ (fullBits codes rest ++ post) =
        (pre ++ cellBits (codeOf codes p.1) p) ++ fullBits codes rest ++ post := by
      simp [List.append_assoc]
    have e3 : pre.length + 32 + (codeOf codes p.1).length =
        (pre ++ cellBits (codeOf codes p.1) p).length := by
      rw [List.length_append, cellBits_length]; omega
    rw [e2, e3, ih _ post _ (fun q hq => h q (by simp [hq]))
      (by rw [List.length_append, cellBits_length]; omega)]
    simp only [fullBits_cons, List.length_append, cellBits_length, List.map_cons,
      List.append_assoc, List.singleton_append]
    congr 3
    omega

/-! ## Delta frames -/

theorem toInt32_idem (a b : Int) : toInt32 (toInt32 a + b) = toInt32 (a + b) := by
  unfold toInt32
  simp only []
  split <;> split <;> split <;> omega

theorem cellChanged_false_iff (prevFrame : Frame) (i : Nat) (p : Pixel) :
    cellChanged prevFrame i p = false ↔ prevFrame.get? i = some p := by
  unfold cellChanged
  cases h : prevFrame.get? i with
  | none => simp
  | some q =>
    obtain ⟨p1, p2⟩ := p
    obtain ⟨q1, q2⟩ := q
    by_cases h1 : p1 = q1 <;> by_cases h2 : p2 = q2 <;> simp [h1, h2, eq_comm]

theorem deltaFrameLoop_eq (codes : CodeTable) (prevFrame : Frame) : ∀ (frame : Frame)
    (i : Nat) (bs : List Char) (n : Int),
    (∀ p ∈ frame, (codes p.1).isSome = true) →
    deltaFrameLoop codes prevFrame frame i bs n =
      .ok (bs ++ deltaBits codes prevFrame frame i,
        if deltaCount prevFrame frame i = 0 then n
        else toInt32 (n + (deltaCount prevFrame frame i : Nat))) := by
  intro frame
  induction frame with
  | nil => intro i bs n _; simp [deltaFrameLoop, deltaBits, deltaCount]
  | cons p rest ih =>
    intro i bs n h
    obtain ⟨code, hcode⟩ := Option.isSome_iff_exists.mp (h p (by simp))
    have hrest : ∀ q ∈ rest, (codes q.1).isSome = true := fun q hq => h q (by simp [hq])
    rw [deltaFrameLoop, deltaBits, deltaCount]
    by_cases hc : cellChanged prevFrame i p = true
    · rw [if_pos hc, if_pos hc, if_pos hc, appendPixel_eq codes _ p code hcode]
      simp only
      rw [ih _ _ _ hrest]
      have hne : ¬ (1 + deltaCount prevFrame rest (i + 1) = 0) := by omega
      rw [if_neg hne]
      simp only [codeOf, hcode, Option.getD_some, List.append_assoc]
      congr 2
      by_cases h0 : deltaCount prevFrame rest (i + 1) = 0
      · rw [if_pos h0, h0]; simp
      · rw [if_neg h0, toInt32_idem]
        congr 1
        push_cast
        omega
    · rw [if_neg hc, if_neg hc, if_neg hc, ih _ _ _ hrest]
      simp

theorem deltaBits_same (codes : CodeTable) (prevFrame : Frame) : ∀ (frame : Frame) (i : Nat),
    (∀ j p, frame.get? j = some p → prevFrame.get? (i + j) = some p) →
    deltaBits codes prevFrame frame i = [] ∧ deltaCount prevFrame frame i = 0 := by
  intro frame
  induction frame with
  | nil => intro i _; exact ⟨rfl, rfl⟩
  | cons p rest ih =>
    intro i h
    have h0 : cellChanged prevFrame i p = false := by
      have := h 0 p rfl
      rw [cellChanged_false_iff]
      simpa using this
    have hr := ih (i + 1) (fun j q hq => by
      have := h (j + 1) q (by simpa using hq)
      rw [← this]; congr 1; omega)
    rw [deltaBits, deltaCount, h0, hr.1, hr.2]
    simp

theorem stoi_overflow (s : List Char) (hs : IsBits s) (hne : s ≠ [])
    (hv : 2147483648 ≤ binaryValue s) : stoi s = .error .out_of_range := by
  obtain ⟨c, t, rfl⟩ : ∃ c t, s = c :: t := by
    cases s with
    | nil => exact absurd rfl hne
    | cons c t => exact ⟨c, t, rfl⟩
  have hc := hs c (List.mem_cons_self _ _)
  have h1 : (c :: t).dropWhile isSpace = c :: t := by
    rw [List.dropWhile_cons, isSpace_of_bit c hc]; rfl
  have h2 : ¬ ((c :: t).head? = some '-' ∨ (c :: t).head? = some '+') := by
    rw [List.head?_cons]
    rcases hc with hc | hc <;> subst hc <;> decide
  have h3 : (c :: t).takeWhile isBinDigit = c :: t := by
    rw [List.takeWhile_eq_self_iff]
    intro x hx
    exact isBinDigit_of_bit x (hs x hx)
  have h4 : decide ((c :: t).head? = some '-') = false := by
    rw [List.head?_cons]
    rcases hc with hc | hc <;> subst hc <;> decide
  unfold stoi
  simp only [h1, if_neg h2, h3, h4]
  rw [if_neg (by simp)]
  simp only [Bool.false_eq_true, if_false]
  rw [if_pos (by omega)]

theorem deltaDecodeLoop_eq (T : Node) (codes : CodeTable) (prevFrame : Frame) :
    ∀ (frame : Frame) (i : Nat) (pre post : List Char) (work : Frame),
    (∀ p ∈ frame, Decodes T codes p.1) → i + frame.length ≤ work.length →
    work.length < 2147483648 →
    pre.length + (deltaBits codes prevFrame frame i).length < 2147483648 →
    deltaDecodeLoop T (pre ++ deltaBits codes prevFrame frame i ++ post)
        (deltaCount prevFrame frame i) (pre.length : Int) work =
      .ok (applyDelta prevFrame frame i work,
        ((pre.length + (deltaBits codes prevFrame frame i).length : Nat) : Int)) := by
  intro frame
  induction frame with
  | nil => intro i pre post work _ _ _ _; simp [deltaDecodeLoop, deltaBits, deltaCount, applyDelta]
  | cons p rest ih =>
    intro i pre post work h hi hw hb
    obtain ⟨h1, h2, _⟩ := decodes_codeOf T codes p.1 (h p (by simp))
    have hrest : ∀ q ∈ rest, Decodes T codes q.1 := fun q hq => h q (by simp [hq])
    simp only [List.length_cons] at hi
    rw [deltaBits] at hb ⊢
    rw [deltaCount, applyDelta]
    by_cases hc : cellChanged prevFrame i p = true
    · rw [if_pos hc, if_pos hc, if_pos hc]
      rw [if_pos hc] at hb
      simp only [List.length_append, bitsetToString_length, cellBits_length] at hb
      have hcnt : 1 + deltaCount prevFrame rest (i + 1) =
          deltaCount prevFrame rest (i + 1) + 1 := by omega
      rw [hcnt, deltaDecodeLoop]
      have hs1 : substr (pre ++ (bitsetToString 32 i ++ cellBits (codeOf codes p.1) p ++
          deltaBits codes prevFrame rest (i + 1)) ++ post) (pre.length : Int) 32 =
          .ok (bitsetToString 32 i) :=
        substr_at _ pre _ (cellBits (codeOf codes p.1) p ++
          deltaBits codes prevFrame rest (i + 1) ++ post) (by simp [List.append_assoc]) _ _ rfl
          (by rw [bitsetToString_length]; rfl)
      rw [hs1, ok_bind, stoi_bitset32 i (by omega)]
      simp only
      have hlen : toInt32 (work.length : Int) = (work.length : Int) := toInt32_natCast _ hw
      have hge : ¬ ((i : Int) ≥ toInt32 (work.length : Int)) := by rw [hlen]; omega
      rw [if_neg hge]
      have t1 : toInt32 ((pre.length : Int) + 32) =
          (((pre ++ bitsetToString 32 i).length : Nat) : Int) := by
        rw [List.length_append, bitsetToString_length, toInt32_of_range] <;> omega
      have e : pre ++ (bitsetToString 32 i ++ cellBits (codeOf codes p.1) p ++
          deltaBits codes prevFrame rest (i + 1)) ++ post =
          (pre ++ bitsetToString 32 i) ++ cellBits (codeOf codes p.1) p ++
            (deltaBits codes prevFrame rest (i + 1) ++ post) := by
        simp [List.append_assoc]
      rw [t1, e, parsePixel_cellBits T _ _ _ p h1 h2
        (by rw [List.length_append, bitsetToString_length]; omega)]
      simp only
      have hneg : ¬ ((i : Int) < 0) := by omega
      rw [if_neg hneg, Int.toNat_ofNat]
      have e2 : (pre ++ bitsetToString 32 i) ++ cellBits (codeOf codes p.1) p ++
          (deltaBits codes prevFrame rest (i + 1) ++ post) =
          (pre ++ bitsetToString 32 i ++ cellBits (codeOf codes p.1) p) ++
            deltaBits codes prevFrame rest (i + 1) ++ post := by
        simp [List.append_assoc]
      have e3 : (pre ++ bitsetToString 32 i).length + 32 + (codeOf codes p.1).length =
          (pre ++ bitsetToString 32 i ++ cellBits (codeOf codes p.1) p).length := by
        simp only [List.length_append, bitsetToString_length, cellBits_length]; omega
      rw [e2, e3, ih (i + 1) _ post _ hrest (by rw [List.length_set]; omega)
        (by rw [List.length_set]; exact hw)
        (by simp only [List.length_append, bitsetToString_length, cellBits_length]; omega)]
      simp only [List.length_append, bitsetToString_length, cellBits_length]
      congr 3
      omega
    · rw [if_neg hc, if_neg hc, if_neg hc]
      rw [if_neg hc] at hb
      simp only [List.nil_append, Nat.zero_add] at hb ⊢
      exact ih (i + 1) pre post work hrest (by omega) hw hb

theorem applyDelta_eq (prevFrame : Frame) : ∀ (suffix done pdone prest : Frame),
    prevFrame = pdone ++ prest → pdone.length = done.length → prest.length = suffix.length →
    (∀ p ∈ suffix, lowByteCell p = p) →
    applyDelta prevFrame suffix done.length (done ++ prest) = done ++ suffix := by
  intro suffix
  induction suffix with
  | nil =>
    intro done pdone prest _ _ h3 _
    have : prest = [] := List.length_eq_zero.mp (by simpa using h3)
    simp [applyDelta, this]
  | cons p s ih =>
    intro done pdone prest h1 h2 h3 h4
    obtain ⟨q, pr, rfl⟩ : ∃ q pr, prest = q :: pr := by
      cases prest with
      | nil => simp at h3
      | cons q pr => exact ⟨q, pr, rfl⟩
    have hget : prevFrame.get? done.length = some q := by
      rw [h1, ← h2, List.get?_eq_getElem?, List.getElem?_append_right (Nat.le_refl _)]
      simp
    have hlow := h4 p (by simp)
    rw [applyDelta]
    have hnext : ∀ w, w = (done ++ [p]) ++ pr →
        applyDelta prevFrame s (done.length + 1) w = done ++ p :: s := by
      intro w hw
      have := ih (done ++ [p]) (pdone ++ [q]) pr (by rw [h1]; simp) (by simp [h2])
        (by simpa using h3) (fun x hx => h4 x (by simp [hx]))
      simp only [List.length_append, List.length_singleton] at this
      rw [hw, this]
      simp
    by_cases hc : cellChanged prevFrame done.length p = true
    · rw [if_pos hc, hlow]
      apply hnext
      rw [List.set_append_right _ _ (Nat.le_refl _)]
      simp
    · rw [if_neg hc]
      apply hnext
      have : q = p := by
        have hc2 : cellChanged prevFrame done.length p = false := by simpa using hc
        rw [cellChanged_false_iff, hget] at hc2
        exact Option.some.inj hc2
      rw [this]
      simp

/-! ## One frame through `compressFrame` and `decodeFrame` -/

theorem writeInt_toInt32 (x : Int) : writeInt (toInt32 x) = writeInt x := by
  have h : toInt32 x % 4294967296 = x % 4294967296 := by
    unfold toInt32
    simp only []
    split <;> omega
  unfold writeInt
  rw [h]

theorem readBits_packed (B : List Char) (r : Byte) (rest : List Byte) (hB : IsBits B)
    (hL : B.length + 8 ≤ 2147483648) :
    readBitsAsString (chunkBytes ((B.length + 7) / 8) B ++ [r] ++ rest) (B.length : Int) =
      .ok (B, r :: rest) := by
  rw [readBitsAsString_eq _ _ hL]
  have h1 : List.take ((B.length + 7) / 8) (chunkBytes ((B.length + 7) / 8) B ++ [r] ++ rest) =
      chunkBytes ((B.length + 7) / 8) B := by
    rw [List.append_assoc, List.take_left']
    exact chunkBytes_length _ _
  have h2 : List.drop ((B.length + 7) / 8) (chunkBytes ((B.length + 7) / 8) B ++ [r] ++ rest) =
      r :: rest := by
    rw [List.append_assoc, List.drop_left']
    · rfl
    · exact chunkBytes_length _ _
  rw [h1, h2, stringResize_eq_take _ _
    (by rw [flatMap_byteToString_length, chunkBytes_length]; omega),
    take_unpack_chunkBytes _ B hB (by omega)]
  rfl

theorem isBits_append (a b : List Char) (ha : IsBits a) (hb : IsBits b) : IsBits (a ++ b) := by
  intro c hc
  rcases List.mem_append.mp hc with h | h
  · exact ha c h
  · exact hb c h

theorem isBits_cellBits (code : List Char) (p : Pixel) (h : IsBits code) :
    IsBits (cellBits code p) := by
  unfold cellBits
  exact isBits_append _ _ (isBits_append _ _ (isBits_append _ _ (isBits_append _ _
    (isBits_bitsetToString _ _) h) (isBits_bitsetToString _ _)) (isBits_bitsetToString _ _))
    (isBits_bitsetToString _ _)

theorem isBits_fullBits (T : Node) (codes : CodeTable) : ∀ (frame : Frame),
    (∀ p ∈ frame, Decodes T codes p.1) → IsBits (fullBits codes frame) := by
  intro frame
  induction frame with
  | nil => intro _ c hc; simp [fullBits] at hc
  | cons p rest ih =>
    intro h
    rw [fullBits_cons]
    exact isBits_append _ _ (isBits_cellBits _ _ (decodes_isBits T codes p.1 (h p (by simp))))
      (ih (fun q hq => h q (by simp [hq])))

theorem isBits_deltaBits (T : Node) (codes : CodeTable) (prevFrame : Frame) :
    ∀ (frame : Frame) (i : Nat), (∀ p ∈ frame, Decodes T codes p.1) →
      IsBits (deltaBits codes prevFrame frame i) := by
  intro frame
  induction frame with
  | nil => intro i _ c hc; simp [deltaBits] at hc
  | cons p rest ih =>
    intro i h
    rw [deltaBits]
    refine isBits_append _ _ ?_ (ih (i + 1) (fun q hq => h q (by simp [hq])))
    by_cases hc : cellChanged prevFrame i p = true
    · rw [if_pos hc]
      exact isBits_append _ _ (isBits_bitsetToString _ _)
        (isBits_cellBits _ _ (decodes_isBits T codes p.1 (h p (by simp))))
    · rw [if_neg hc]
      intro c hc2
      simp at hc2

theorem fullBits_length_ge (codes : CodeTable) : ∀ (frame : Frame),
    32 * frame.length ≤ (fullBits codes frame).length := by
  intro frame
  induction frame with
  | nil => simp [fullBits]
  | cons p rest ih =>
    rw [fullBits_cons, List.length_append, cellBits_length, List.length_cons]
    omega

theorem deltaCount_le (prevFrame : Frame) : ∀ (frame : Frame) (i : Nat),
    deltaCount prevFrame frame i ≤ frame.length := by
  intro frame
  induction frame with
  | nil => intro i; simp [deltaCount]
  | cons p rest ih =>
    intro i
    rw [deltaCount, List.length_cons]
    have := ih (i + 1)
    split <;> omega

theorem decodes_isSome (T : Node) (codes : CodeTable) (frame : Frame)
    (h : ∀ p ∈ frame, Decodes T codes p.1) : ∀ p ∈ frame, (codes p.1).isSome = true := by
  intro p hp
  obtain ⟨code, h1, _⟩ := h p hp
  simp [h1]

theorem compressFrame_full_eq (T : Node) (codes : CodeTable) (frame prevFrame : Frame)
    (h : ∀ p ∈ frame, Decodes T codes p.1)
    (hL : (fullBits codes frame).length + 8 ≤ 2147483648) :
    compressFrame frame codes false prevFrame =
      .ok (writeInt frame.length ++ (writeInt (fullBits codes frame).length ++
        chunkBytes (((fullBits codes frame).length + 7) / 8) (fullBits codes frame) ++
        [Fin.ofNat ((fullBits codes frame).length % 8)])) := by
  unfold compressFrame
  simp only [Bool.not_false, if_true]
  rw [fullFrameLoop_eq codes frame [] (decodes_isSome T codes frame h)]
  simp only [List.nil_append]
  rw [writeBitString_eq _ hL]
  simp only [writeInt_toInt32]

theorem compressFrame_delta_eq (T : Node) (codes : CodeTable) (frame prevFrame : Frame)
    (h : ∀ p ∈ frame, Decodes T codes p.1)
    (hL : (deltaBits codes prevFrame frame 0).length + 8 ≤ 2147483648) :
    compressFrame frame codes true prevFrame =
      .ok (writeInt (deltaCount prevFrame frame 0) ++
        (writeInt (deltaBits codes prevFrame frame 0).length ++
        chunkBytes (((deltaBits codes prevFrame frame 0).length + 7) / 8)
          (deltaBits codes prevFrame frame 0) ++
        [Fin.ofNat ((deltaBits codes prevFrame frame 0).length % 8)])) := by
  unfold compressFrame
  simp only [Bool.not_true, Bool.false_eq_true, if_false]
  rw [deltaFrameLoop_eq codes prevFrame frame 0 [] 0 (decodes_isSome T codes frame h)]
  simp only [List.nil_append]
  rw [writeBitString_eq _ hL]
  simp only []
  congr 2
  by_cases h0 : deltaCount prevFrame frame 0 = 0
  · rw [if_pos h0, h0]; rfl
  · rw [if_neg h0, writeInt_toInt32]
    congr 1
    omega

theorem decodeFrame_full_eq (T : Node) (codes : CodeTable) (frame : Frame) (rest : List Byte)
    (video : ASCIIVideo) (h : ∀ p ∈ frame, Decodes T codes p.1)
    (hL : (fullBits codes frame).length + 8 ≤ 2147483648) :
    decodeFrame T 0 (writeInt frame.length ++ (writeInt (fullBits codes frame).length ++
        chunkBytes (((fullBits codes frame).length + 7) / 8) (fullBits codes frame) ++
        [Fin.ofNat ((fullBits codes frame).length % 8)]) ++ rest) video =
      .ok (rest, video.set 0 (frame.map lowByteCell)) := by
  have hm := fullBits_length_ge codes frame
  unfold decodeFrame
  simp only [if_true]
  simp only [List.append_assoc]
  rw [readInt_writeInt, ok_bind]
  simp only
  rw [readInt_writeInt, ok_bind]
  simp only
  rw [toInt32_natCast (fullBits codes frame).length (by omega),
    toInt32_natCast frame.length (by omega), ← List.append_assoc,
    readBits_packed _ _ _ (isBits_fullBits T codes frame h) hL, ok_bind]
  simp only [List.tail_cons]
  have hneg : ¬ ((frame.length : Int) < 0) := by omega
  rw [if_neg hneg, Int.toNat_ofNat]
  have hd := fullDecodeLoop_eq T codes frame [] [] [] h (by simp; omega)
  simp only [List.nil_append, List.append_nil, List.length_nil, Nat.cast_zero] at hd
  rw [hd, ok_bind]
  rfl

theorem decodeFrame_delta_eq (T : Node) (codes : CodeTable) (frame prevFrame work : Frame)
    (rest : List Byte) (video : ASCIIVideo) (i : Int) (hi : i ≠ 0)
    (hwork : video.find (i - 1) = some work)
    (h : ∀ p ∈ frame, Decodes T codes p.1) (hlen : frame.length ≤ work.length)
    (hw : work.length < 2147483648)
    (hL : (deltaBits codes prevFrame frame 0).length + 8 ≤ 2147483648) :
    decodeFrame T i (writeInt (deltaCount prevFrame frame 0) ++
        (writeInt (deltaBits codes prevFrame frame 0).length ++
        chunkBytes (((deltaBits codes prevFrame frame 0).length + 7) / 8)
          (deltaBits codes prevFrame frame 0) ++
        [Fin.ofNat ((deltaBits codes prevFrame frame 0).length % 8)]) ++ rest) video =
      .ok (rest, video.set i (applyDelta prevFrame frame 0 work)) := by
  have hc := deltaCount_le prevFrame frame 0
  unfold decodeFrame
  rw [if_neg hi]
  simp only [List.append_assoc]
  rw [readInt_writeInt, ok_bind]
  simp only
  rw [readInt_writeInt, ok_bind]
  simp only
  rw [toInt32_natCast (deltaBits codes prevFrame frame 0).length (by omega),
    toInt32_natCast (deltaCount prevFrame frame 0) (by omega), ← List.append_assoc,
    readBits_packed _ _ _ (isBits_deltaBits T codes prevFrame frame 0 h) hL, ok_bind]
  simp only [List.tail_cons, hwork, Option.getD_some, Int.toNat_ofNat]
  have hd := deltaDecodeLoop_eq T codes prevFrame frame 0 [] [] work h (by omega) hw
    (by simp; omega)
  simp only [List.nil_append, List.append_nil, List.length_nil, Nat.cast_zero] at hd
  rw [hd, ok_bind]
  rfl

/-! ## The tree and the code table of a video -/

theorem leaves_length_le (T : Node) (h : T.leaves.Nodup) : T.leaves.length ≤ 256 := by
  have h1 := List.Nodup.length_le_card h
  have h2 : Fintype.card Byte = 256 := Fintype.card_fin 256
  omega

theorem built_decodes (S : StdImpl) (hS : S.Lawful) (f : FreqTable) (T : Node)
    (hT : buildHuffmanTree S f = .ok T) (s : Byte) (hs : (f s).isSome = true) :
    Decodes T.strip (generateCodes T [] (fun _ => none)) s ∧
      Decodes T (generateCodes T [] (fun _ => none)) s := by
  have hf : f.entries ≠ [] := by
    intro h
    have := (entries_keys_mem f s).mpr hs
    rw [h] at this
    simp at this
  obtain ⟨root, h1, h2, h3⟩ := buildHuffmanTree_spec S hS f hf
  rw [hT] at h1
  cases h1
  have hnd : T.leaves.Nodup := (h3.nodup_iff).mpr (entries_keys_nodup f)
  have hmem : s ∈ T.leaves := h3.mem_iff.mpr ((entries_keys_mem f s).mpr hs)
  rw [← codeList_map_fst T []] at hmem
  obtain ⟨e, he, rfl⟩ := List.mem_map.mp hmem
  have hlook := (generateCodes_lookup T hnd e.1 e.2).mpr he
  have hcl := codeList_code_length T h2 e he
  have hle := leaves_length_le T hnd
  have hlen : e.2.length ≤ 255 := by omega
  have he2 : e ∈ T.strip.codeList [] := by rw [codeList_strip T h2]; exact he
  exact ⟨⟨e.2, hlook, findCharFromCode_codeList T.strip (strip_proper T h2) e he2, hlen, hcl.2.2⟩,
    ⟨e.2, hlook, findCharFromCode_codeList T h2 e he, hlen, hcl.2.2⟩⟩

/-! ## Videos as lists of frames -/

theorem find_append_of_not_mem : ∀ (v : ASCIIVideo) (k : Int) (f : Frame) (j : Int),
    ASCIIVideo.find (v ++ [(k, f)]) j =
      match ASCIIVideo.find v j with
      | some g => some g
      | none => if k = j then some f else none := by
  intro v
  induction v with
  | nil => intro k f j; simp [ASCIIVideo.find]
  | cons e rest ih =>
    intro k f j
    simp only [List.cons_append, ASCIIVideo.find]
    by_cases h : e.1 = j
    · simp [h]
    · simp only [if_neg h]
      exact ih k f j

theorem set_of_find_none : ∀ (v : ASCIIVideo) (k : Int) (f : Frame),
    ASCIIVideo.find v k = none → ASCIIVideo.set v k f = v ++ [(k, f)] := by
  intro v
  induction v with
  | nil => intro k f _; rfl
  | cons e rest ih =>
    intro k f h
    simp only [ASCIIVideo.find] at h
    by_cases hk : e.1 = k
    · rw [if_pos hk] at h; cases h
    · rw [if_neg hk] at h
      simp only [ASCIIVideo.set, if_neg hk, List.cons_append]
      rw [ih k f h]

theorem videoOfFrames_append (fs : List Frame) (f : Frame) :
    videoOfFrames (fs ++ [f]) = videoOfFrames fs ++ [((fs.length : Int), f)] := by
  unfold videoOfFrames
  rw [List.length_append, List.length_singleton, List.range_succ, List.map_append]
  congr 1
  · apply List.map_congr_left
    intro k hk
    have hk2 : k < fs.length := List.mem_range.mp hk
    simp [List.getElem?_append_left hk2]
  · simp

theorem videoOfFrames_find : ∀ (fs : List Frame) (j : Int),
    ASCIIVideo.find (videoOfFrames fs) j =
      if 0 ≤ j ∧ j.toNat < fs.length then some ((fs.get? j.toNat).getD []) else none := by
  intro fs
  induction fs using List.reverseRecOn with
  | nil => intro j; simp [videoOfFrames, ASCIIVideo.find]
  | append_singleton fs f ih =>
    intro j
    rw [videoOfFrames_append, find_append_of_not_mem, ih]
    by_cases h1 : 0 ≤ j ∧ j.toNat < fs.length
    · have h2 : 0 ≤ j ∧ j.toNat < (fs ++ [f]).length := by
        simp only [List.length_append, List.length_singleton]; omega
      rw [if_pos h1, if_pos h2]
      simp [List.getElem?_append_left h1.2]
    · rw [if_neg h1]
      simp only
      by_cases h3 : (fs.length : Int) = j
      · have h2 : 0 ≤ j ∧ j.toNat < (fs ++ [f]).length := by
          simp only [List.length_append, List.length_singleton]; omega
        have h4 : j.toNat = fs.length := by omega
        rw [if_pos h3, if_pos h2, h4]
        simp
      · have h2 : ¬ (0 ≤ j ∧ j.toNat < (fs ++ [f]).length) := by
          simp only [List.length_append, List.length_singleton]; omega
        rw [if_neg h3, if_neg h2]

theorem videoOfFrames_set (fs : List Frame) (f : Frame) :
    ASCIIVideo.set (videoOfFrames fs) (fs.length : Int) f = videoOfFrames (fs ++ [f]) := by
  rw [videoOfFrames_append]
  apply set_of_find_none
  rw [videoOfFrames_find, if_neg (by simp)]

theorem videoOfFrames_length (fs : List Frame) : (videoOfFrames fs).length = fs.length := by
  simp [videoOfFrames]

theorem applyDelta_full (prevFrame frame : Frame) (hlen : prevFrame.length = frame.length)
    (hlow : ∀ p ∈ frame, lowByteCell p = p) :
    applyDelta prevFrame frame 0 prevFrame = frame := by
  have := applyDelta_eq prevFrame frame [] [] prevFrame rfl rfl hlen hlow
  simpa using this

theorem map_lowByteCell (frame : Frame) (hlow : ∀ p ∈ frame, lowByteCell p = p) :
    frame.map lowByteCell = frame := by
  induction frame with
  | nil => rfl
  | cons p rest ih =>
    rw [List.map_cons, hlow p (by simp), ih (fun q hq => hlow q (by simp [hq]))]

/-! ## The frame loops of the container -/

theorem frames_round_trip (T : Node) (codes : CodeTable) (V : ASCIIVideo) (frames : List Frame)
    (m : Nat)
    (hfind : ∀ k fr, frames.get? k = some fr → V.find (k : Int) = some fr)
    (hdec : ∀ fr ∈ frames, ∀ p ∈ fr, Decodes T codes p.1)
    (hlow : ∀ fr ∈ frames, ∀ p ∈ fr, lowByteCell p = p)
    (hlen : ∀ fr ∈ frames, fr.length = m) (hm : m < 2147483648)
    (hbits : ∀ k fr, frames.get? k = some fr →
      (if k = 0 then fullBits codes fr
        else deltaBits codes ((frames.get? (k - 1)).getD []) fr 0).length + 8 ≤ 2147483648) :
    ∀ (todo done : List Frame), frames = done ++ todo →
      ∃ bytes, compressFramesLoop V codes todo.length (done.length : Int)
          (done.getLast?.getD []) = .ok bytes ∧
        ∀ rest, decodeFramesLoop T todo.length (done.length : Int) (bytes ++ rest)
          (videoOfFrames done) = .ok (videoOfFrames frames) := by
  intro todo
  induction todo with
  | nil =>
    intro done hfr
    refine ⟨[], rfl, fun rest => ?_⟩
    rw [hfr, List.append_nil]
    rfl
  | cons f t ih =>
    intro done hfr
    have hget : frames.get? done.length = some f := by
      rw [hfr, List.get?_eq_getElem?, List.getElem?_append_right (le_refl _)]; simp
    have hfmem : f ∈ frames := by rw [hfr]; simp
    have hat : V.at (done.length : Int) = .ok f := by
      unfold ASCIIVideo.at; rw [hfind _ _ hget]
    obtain ⟨more, hmore, hdecmore⟩ := ih (done ++ [f]) (by rw [hfr]; simp)
    have e1 : ((done ++ [f]).length : Int) = (done.length : Int) + 1 := by simp
    have e2 : (done ++ [f]).getLast?.getD [] = f := by simp
    rw [e1, e2] at hmore
    have hb := hbits _ _ hget
    rcases List.eq_nil_or_concat done with hd | ⟨d0, prev, hd⟩
    · subst hd
      simp only [List.length_nil, Nat.cast_zero, if_true] at hb hat hmore ⊢
      have hcf := compressFrame_full_eq T codes f [] (hdec f hfmem) hb
      have hdf := fun rest => decodeFrame_full_eq T codes f rest (videoOfFrames [])
        (hdec f hfmem) hb
      refine ⟨(writeInt f.length ++ (writeInt (fullBits codes f).length ++
        chunkBytes (((fullBits codes f).length + 7) / 8) (fullBits codes f) ++
        [Fin.ofNat ((fullBits codes f).length % 8)])) ++ more, ?_, fun rest => ?_⟩
      · rw [List.length_cons, compressFramesLoop]
        simp only [hat]
        have : decide ((0 : Int) ≠ 0) = false := by decide
        simp only [this, List.getLast?_nil, Option.getD_none, hcf, hmore]
      · rw [List.length_cons, decodeFramesLoop, List.append_assoc, hdf]
        simp only
        have hset : ASCIIVideo.set (videoOfFrames []) 0 (f.map lowByteCell) =
            videoOfFrames ([] ++ [f]) := by
          rw [map_lowByteCell f (hlow f hfmem)]
          exact videoOfFrames_set [] f
        rw [hset]
        have := hdecmore rest
        rw [e1] at this
        simpa using this
    · rw [List.concat_eq_append] at hd
      subst hd
      have hlenD : (d0 ++ [prev]).length = d0.length + 1 := by simp
      have hprev : frames.get? d0.length = some prev := by
        rw [hfr, List.get?_eq_getElem?, List.append_assoc,
          List.getElem?_append_right (le_refl _)]
        simp
      have hpmem : prev ∈ frames := by rw [hfr]; simp
      have hk : (d0 ++ [prev]).length ≠ 0 := by omega
      rw [if_neg hk] at hb
      have hk1 : (d0 ++ [prev]).length - 1 = d0.length := by omega
      rw [hk1, hprev] at hb
      simp only [Option.getD_some] at hb
      have hcf := compressFrame_delta_eq T codes f prev (hdec f hfmem) hb
      have hi : ((d0 ++ [prev]).length : Int) ≠ 0 := by omega
      have hwork : ASCIIVideo.find (videoOfFrames (d0 ++ [prev]))
          (((d0 ++ [prev]).length : Int) - 1) = some prev := by
        rw [videoOfFrames_find]
        have hj : (((d0 ++ [prev]).length : Int) - 1).toNat = d0.length := by omega
        rw [if_pos (by omega), hj]
        simp
      have hlf := hlen f hfmem
      have hlp := hlen prev hpmem
      have hdf := fun rest => decodeFrame_delta_eq T codes f prev prev rest
        (videoOfFrames (d0 ++ [prev])) _ hi hwork (hdec f hfmem) (by omega) (by omega) hb
      have hlast : (d0 ++ [prev]).getLast?.getD [] = prev := by simp
      refine ⟨(writeInt (deltaCount prev f 0) ++
        (writeInt (deltaBits codes prev f 0).length ++
        chunkBytes (((deltaBits codes prev f 0).length + 7) / 8) (deltaBits codes prev f 0) ++
        [Fin.ofNat ((deltaBits codes prev f 0).length % 8)])) ++ more, ?_, fun rest => ?_⟩
      · rw [List.length_cons, compressFramesLoop]
        simp only [hat]
        have : decide (((d0 ++ [prev]).length : Int) ≠ 0) = true := by
          simpa using hi
        simp only [this, hlast, hcf, hmore]
      · rw [List.length_cons, decodeFramesLoop, List.append_assoc, hdf]
        simp only
        rw [applyDelta_full prev f (by omega) (hlow f hfmem), videoOfFrames_set]
        have := hdecmore rest
        rw [e1] at this
        exact this

/-! ## The whole container -/

theorem find_some_mem : ∀ (v : ASCIIVideo) (k : Int) (fr : Frame),
    ASCIIVideo.find v k = some fr → (k, fr) ∈ v := by
  intro v
  induction v with
  | nil => intro k fr h; simp [ASCIIVideo.find] at h
  | cons e rest ih =>
    intro k fr h
    simp only [ASCIIVideo.find] at h
    by_cases hk : e.1 = k
    · rw [if_pos hk] at h
      cases h
      subst hk
      simp
    · rw [if_neg hk] at h
      exact List.mem_cons_of_mem _ (ih k fr h)

theorem find_isSome_of_key : ∀ (v : ASCIIVideo) (k : Int),
    k ∈ v.map Prod.fst → ∃ fr, ASCIIVideo.find v k = some fr := by
  intro v
  induction v with
  | nil => intro k h; simp at h
  | cons e rest ih =>
    intro k h
    simp only [ASCIIVideo.find]
    by_cases hk : e.1 = k
    · rw [if_pos hk]; exact ⟨_, rfl⟩
    · rw [if_neg hk]
      apply ih
      simp only [List.map_cons, List.mem_cons] at h
      rcases h with h | h
      · exact absurd h.symm hk
      · exact h

theorem find_none_of_not_key : ∀ (v : ASCIIVideo) (k : Int),
    k ∉ v.map Prod.fst → ASCIIVideo.find v k = none := by
  intro v k h
  cases hf : ASCIIVideo.find v k with
  | none => rfl
  | some fr =>
    exact absurd (List.mem_map.mpr ⟨(k, fr), find_some_mem v k fr hf, rfl⟩) h

theorem find_of_mem_nodup : ∀ (v : ASCIIVideo), (v.map Prod.fst).Nodup →
    ∀ e ∈ v, ASCIIVideo.find v e.1 = some e.2 := by
  intro v
  induction v with
  | nil => intro _ e he; simp at he
  | cons a rest ih =>
    intro hnd e he
    simp only [List.map_cons, List.nodup_cons] at hnd
    simp only [ASCIIVideo.find]
    rcases List.mem_cons.mp he with h | h
    · subst h; rw [if_pos rfl]
    · have hne : a.1 ≠ e.1 := by
        intro heq
        exact hnd.1 (heq ▸ List.mem_map.mpr ⟨e, h, rfl⟩)
      rw [if_neg hne]
      exact ih hnd.2 e h

theorem framesOf_length (V : ASCIIVideo) (n : Nat) : (framesOf V n).length = n := by
  simp [framesOf]

theorem framesOf_get? (V : ASCIIVideo) (n k : Nat) (fr : Frame)
    (h : (framesOf V n).get? k = some fr) : k < n ∧ fr = frameAt V k := by
  unfold framesOf at h
  rw [List.get?_eq_getElem?, List.getElem?_map] at h
  by_cases hk : k < n
  · rw [List.getElem?_range hk] at h
    simp only [Option.map_some'] at h
    cases h
    exact ⟨hk, rfl⟩
  · rw [List.getElem?_eq_none (by simp; omega)] at h
    simp at h

theorem framesOf_get?_lt (V : ASCIIVideo) (n k : Nat) (hk : k < n) :
    (framesOf V n).get? k = some (frameAt V k) := by
  unfold framesOf
  rw [List.get?_eq_getElem?, List.getElem?_map, List.getElem?_range hk]
  rfl

theorem key_mem_of_lt (V : ASCIIVideo) (n : Nat)
    (hkeys : (V.map Prod.fst).Perm ((List.range n).map Int.ofNat)) (k : Nat) (hk : k < n) :
    (k : Int) ∈ V.map Prod.fst :=
  hkeys.mem_iff.mpr (List.mem_map.mpr ⟨k, List.mem_range.mpr hk, rfl⟩)

theorem keys_nodup (V : ASCIIVideo) (n : Nat)
    (hkeys : (V.map Prod.fst).Perm ((List.range n).map Int.ofNat)) :
    (V.map Prod.fst).Nodup :=
  hkeys.nodup_iff.mpr ((List.nodup_range n).map (fun a b h => by
    have : ((a : Nat) : Int) = (b : Int) := h
    omega))

theorem find_frameAt (V : ASCIIVideo) (n : Nat)
    (hkeys : (V.map Prod.fst).Perm ((List.range n).map Int.ofNat)) (k : Nat) (hk : k < n) :
    ASCIIVideo.find V (k : Int) = some (frameAt V k) ∧ ((k : Int), frameAt V k) ∈ V := by
  obtain ⟨fr, hfr⟩ := find_isSome_of_key V k (key_mem_of_lt V n hkeys k hk)
  have : frameAt V k = fr := by unfold frameAt; rw [hfr]; rfl
  rw [this]
  exact ⟨hfr, find_some_mem V k fr hfr⟩

theorem lowByteCell_of_le (p : Pixel) (h : p.2.c0 ≤ 255 ∧ p.2.c1 ≤ 255 ∧ p.2.c2 ≤ 255) :
    lowByteCell p = p := by
  obtain ⟨s, ⟨a, b, c⟩⟩ := p
  simp only at h
  unfold lowByteCell
  simp only
  rw [Nat.mod_eq_of_lt (by omega), Nat.mod_eq_of_lt (by omega), Nat.mod_eq_of_lt (by omega)]

theorem container_round_trip (S : StdImpl) (hS : S.Lawful) (V : ASCIIVideo) (n m : Nat)
    (hn : 1 ≤ n) (hn2 : n < 2147483648)
    (hkeys : (V.map Prod.fst).Perm ((List.range n).map Int.ofNat))
    (hlen : ∀ e ∈ V, e.2.length = m) (hm : 1 ≤ m)
    (hchan : ∀ e ∈ V, ∀ p ∈ e.2, p.2.c0 ≤ 255 ∧ p.2.c1 ≤ 255 ∧ p.2.c2 ≤ 255)
    (hbits : ∀ i, i < n → (frameBitString S V i).length + 8 ≤ 2147483648) :
    ∃ bytes, compressASCIIVideo S V = .ok bytes ∧
      decompressASCIIVideo ".bin" (.file bytes) = .ok (videoOfFrames (framesOf V n)) := by
  have hVlen : V.length = n := by
    have := hkeys.length_eq
    simpa using this
  -- the frequency table is not empty
  obtain ⟨hf0, hmem0⟩ := find_frameAt V n hkeys 0 (by omega)
  have hl0 : (frameAt V 0).length = m := hlen _ hmem0
  obtain ⟨p0, hp0⟩ : ∃ p0, p0 ∈ frameAt V 0 := by
    cases hfa : frameAt V 0 with
    | nil => rw [hfa] at hl0; simp at hl0; omega
    | cons p r => exact ⟨p, by simp⟩
  have hsome : ∀ e ∈ V, ∀ p ∈ e.2, ((countChars V (fun _ => none)) p.1).isSome = true :=
    fun e he p hp => (countChars_isSome V _ p.1).mpr (Or.inr ⟨e, he, p, hp, rfl⟩)
  have hne : (countChars V (fun _ => none)).entries ≠ [] := by
    intro h
    have := (entries_keys_mem _ p0.1).mpr (hsome _ hmem0 p0 hp0)
    rw [h] at this
    simp at this
  obtain ⟨T, hT, hprop, _⟩ := buildHuffmanTree_spec S hS _ hne
  have hcodes : videoCodes S V = generateCodes T [] (fun _ => none) := by
    unfold videoCodes; rw [hT]
  have hframes : ∀ fr ∈ framesOf V n, ∃ e ∈ V, e.2 = fr := by
    intro fr hfr
    obtain ⟨k, hk⟩ := List.get?_of_mem hfr
    obtain ⟨hkn, rfl⟩ := framesOf_get? V n k fr hk
    exact ⟨_, (find_frameAt V n hkeys k hkn).2, rfl⟩
  have hm2 : m < 2147483648 := by
    have h0 := hbits 0 (by omega)
    unfold frameBitString at h0
    rw [if_pos rfl] at h0
    have := fullBits_length_ge (videoCodes S V) (frameAt V 0)
    omega
  obtain ⟨fb, hfb, hdecode⟩ := frames_round_trip T.strip (generateCodes T [] (fun _ => none)) V
    (framesOf V n) m
    (fun k fr h => by
      obtain ⟨hkn, rfl⟩ := framesOf_get? V n k fr h
      exact (find_frameAt V n hkeys k hkn).1)
    (fun fr hfr p hp => by
      obtain ⟨e, he, rfl⟩ := hframes fr hfr
      exact (built_decodes S hS _ T hT p.1 (hsome e he p hp)).1)
    (fun fr hfr p hp => by
      obtain ⟨e, he, rfl⟩ := hframes fr hfr
      exact lowByteCell_of_le p (hchan e he p hp))
    (fun fr hfr => by
      obtain ⟨e, he, rfl⟩ := hframes fr hfr
      exact hlen e he)
    hm2
    (fun k fr h => by
      obtain ⟨hkn, rfl⟩ := framesOf_get? V n k fr h
      have hb := hbits k hkn
      unfold frameBitString at hb
      rw [hcodes] at hb
      by_cases hk0 : k = 0
      · rw [if_pos hk0] at hb ⊢
        subst hk0
        exact hb
      · rw [if_neg hk0] at hb ⊢
        rw [framesOf_get?_lt V n (k - 1) (by omega)]
        exact hb)
    (framesOf V n) [] rfl
  simp only [framesOf_length, List.length_nil, Nat.cast_zero, List.getLast?_nil,
    Option.getD_none] at hfb hdecode
  have hnum : toInt32 (V.length : Int) = (n : Int) := by
    rw [hVlen]; exact toInt32_natCast n hn2
  refine ⟨writeInt (n : Int) ++ writeHuffmanTree T ++ fb, ?_, ?_⟩
  · unfold compressASCIIVideo
    simp only [hT, hnum, Int.toNat_ofNat, hfb]
  · unfold decompressASCIIVideo
    rw [if_neg (by decide)]
    simp only
    have hds : decompressStream (writeInt (n : Int) ++ writeHuffmanTree T ++ fb) =
        .ok (videoOfFrames (framesOf V n)) := by
      unfold decompressStream
      rw [List.append_assoc, readInt_writeInt, ok_bind]
      simp only
      rw [readHuffmanTree_write T hprop, ok_bind]
      simp only
      rw [proper_ne_null _ (strip_proper T hprop)]
      simp only [Bool.false_eq_true, if_false]
      rw [toInt32_natCast n hn2, Int.toNat_ofNat]
      have := hdecode []
      rw [List.append_nil] at this
      exact this
    rw [hds]

/-! ## Delta frames: the code against the words of the specification -/

theorem deltaFrameLoop_changed_eq (codes : CodeTable) (prevFrame : Frame) : ∀ (frame : Frame)
    (i : Nat) (bs : List Char) (n : Int),
    (∀ j p, frame.get? j = some p → cellChanged prevFrame (i + j) p = true →
      (codes p.1).isSome = true) →
    deltaFrameLoop codes prevFrame frame i bs n =
      .ok (bs ++ deltaBits codes prevFrame frame i,
        if deltaCount prevFrame frame i = 0 then n
        else toInt32 (n + (deltaCount prevFrame frame i : Nat))) := by
  intro frame
  induction frame with
  | nil => intro i bs n _; simp [deltaFrameLoop, deltaBits, deltaCount]
  | cons p rest ih =>
    intro i bs n h
    have hrest : ∀ j q, rest.get? j = some q → cellChanged prevFrame (i + 1 + j) q = true →
        (codes q.1).isSome = true := fun j q hq hc =>
      h (j + 1) q (by simpa using hq) (by rw [← hc]; congr 1; omega)
    rw [deltaFrameLoop, deltaBits, deltaCount]
    by_cases hc : cellChanged prevFrame i p = true
    · obtain ⟨code, hcode⟩ := Option.isSome_iff_exists.mp (h 0 p rfl hc)
      rw [if_pos hc, if_pos hc, if_pos hc, appendPixel_eq codes _ p code hcode]
      simp only
      rw [ih _ _ _ hrest]
      have hne : ¬ (1 + deltaCount prevFrame rest (i + 1) = 0) := by omega
      rw [if_neg hne]
      simp only [codeOf, hcode, Option.getD_some, List.append_assoc]
      congr 2
      by_cases h0 : deltaCount prevFrame rest (i + 1) = 0
      · rw [if_pos h0, h0]; simp
      · rw [if_neg h0, toInt32_idem]
        congr 1
        push_cast
        omega
    · rw [if_neg hc, if_neg hc, if_neg hc, ih _ _ _ hrest]
      simp

theorem cellChanged_eq_isChangedAt (prevFrame pre : Frame) (p : Pixel) (suf : Frame) :
    cellChanged prevFrame pre.length p = isChangedAt prevFrame (pre ++ p :: suf) pre.length := by
  unfold cellChanged isChangedAt
  have h : (pre ++ p :: suf).get? pre.length = some p := by
    rw [List.get?_eq_getElem?, List.getElem?_append_right (le_refl _)]; simp
  rw [h]
  cases prevFrame.get? pre.length with
  | none => rfl
  | some q =>
    obtain ⟨p1, ⟨a, b, c⟩⟩ := p
    obtain ⟨q1, ⟨a2, b2, c2⟩⟩ := q
    simp only [ne_eq, rgb.mk.injEq]
    by_cases h1 : p1 = q1 <;> by_cases h2 : a = a2 <;> by_cases h3 : b = b2 <;>
      by_cases h4 : c = c2 <;> simp [h1, h2, h3, h4]

theorem deltaBits_eq_spec (codes : CodeTable) (prevFrame : Frame) : ∀ (suf pre : Frame),
    deltaBits codes prevFrame suf pre.length =
      ((List.range' pre.length suf.length).filter (isChangedAt prevFrame (pre ++ suf))).flatMap
        (fun i =>
          match (pre ++ suf).get? i with
          | some p => bitsetToString 32 i ++ cellBits (codeOf codes p.1) p
          | none => []) ∧
    deltaCount prevFrame suf pre.length =
      ((List.range' pre.length suf.length).filter
        (isChangedAt prevFrame (pre ++ suf))).length := by
  intro suf
  induction suf with
  | nil => intro pre; simp [deltaBits, deltaCount]
  | cons p rest ih =>
    intro pre
    have h := ih (pre ++ [p])
    have e1 : (pre ++ [p]).length = pre.length + 1 := by simp
    have e2 : pre ++ [p] ++ rest = pre ++ p :: rest := by simp
    rw [e1, e2] at h
    have hg : (pre ++ p :: rest).get? pre.length = some p := by
      rw [List.get?_eq_getElem?, List.getElem?_append_right (le_refl _)]; simp
    rw [deltaBits, deltaCount, List.length_cons, List.range'_succ, List.filter_cons,
      ← cellChanged_eq_isChangedAt, h.1, h.2]
    by_cases hc : cellChanged prevFrame pre.length p = true
    · simp only [hc, if_true, List.flatMap_cons, hg, List.length_cons]
      exact ⟨trivial, by omega⟩
    · simp only [hc, Bool.false_eq_true, if_false, List.nil_append, Nat.zero_add]
      exact ⟨trivial, trivial⟩

theorem deltaBits_eq_deltaEncoding (codes : CodeTable) (prevFrame frame : Frame) :
    deltaBits codes prevFrame frame 0 = deltaEncoding codes prevFrame frame ∧
      deltaCount prevFrame frame 0 = (changedPositions prevFrame frame).length := by
  have h := deltaBits_eq_spec codes prevFrame frame []
  simp only [List.length_nil, List.nil_append] at h
  unfold deltaEncoding changedPositions
  rw [List.range_eq_range']
  exact h

theorem changedPositions_sorted (prevFrame frame : Frame) :
    (changedPositions prevFrame frame).Pairwise (fun a b => a < b) :=
  List.Pairwise.sublist (List.filter_sublist _) (List.pairwise_lt_range _)

theorem decodeFramesLoop_split (T : Node) : ∀ (k r : Nat) (i : Int) (s : List Byte)
    (v : ASCIIVideo),
    decodeFramesLoop T (k + r) i s v =
      match decodeFramesState T k i s v with
      | .error e => .error e
      | .ok (s1, v1) => decodeFramesLoop T r (i + k) s1 v1 := by
  intro k
  induction k with
  | zero => intro r i s v; simp [decodeFramesState]
  | succ k ih =>
    intro r i s v
    have e : k + 1 + r = (k + r) + 1 := by omega
    rw [e, decodeFramesLoop, decodeFramesState]
    cases hd : decodeFrame T i s v with
    | error e => rfl
    | ok sv =>
      obtain ⟨s1, v1⟩ := sv
      simp only
      rw [ih]
      have e2 : i + 1 + (k : Int) = i + ((k + 1 : Nat) : Int) := by push_cast; omega
      rw [e2]

/-! ## The value of a packed byte -/

set_option maxRecDepth 100000 in

theorem orBits_value : ∀ l : List Bool, l.length ≤ 8 →
    ((Fin.ofNat (orBits l 0 0) : Byte) : Nat) =
      ((List.range 8).map (fun k => (if l.get? k = some true then 1 else 0) * 2 ^ (7 - k))).sum
  | [], _ => by decide
  | [a], _ => by revert a; decide
  | [a, b], _ => by revert a b; decide
  | [a, b, c], _ => by revert a b c; decide
  | [a, b, c, d], _ => by revert a b c d; decide
  | [a, b, c, d, e], _ => by revert a b c d e; decide
  | [a, b, c, d, e, f], _ => by revert a b c d e f; decide
  | [a, b, c, d, e, f, g], _ => by revert a b c d e f g; decide
  | [a, b, c, d, e, f, g, h], _ => by revert a b c d e f g h; decide
  | _ :: _ :: _ :: _ :: _ :: _ :: _ :: _ :: _ :: _, hl => by simp at hl

theorem packByte_value (B : List Char) (j : Nat) :
    ((packByte ((B.drop (8 * j)).take 8) : Byte) : Nat) = dataByteValue B j := by
  unfold packByte dataByteValue
  rw [orBits_value _ (by simp)]
  congr 1
  apply List.map_congr_left
  intro k hk
  have hk8 : k < 8 := List.mem_range.mp hk
  congr 1
  unfold bitAt
  have h1 : (List.map (fun c => decide (c = '1')) (List.take 8 (List.drop (8 * j) B))).get? k =
      (B.get? (8 * j + k)).map (fun c => decide (c = '1')) := by
    rw [List.get?_eq_getElem?, List.get?_eq_getElem?, List.getElem?_map,
      List.getElem?_take_of_lt hk8, List.getElem?_drop]
  rw [h1]
  cases B.get? (8 * j + k) with
  | none => simp
  | some c => by_cases hc : c = '1' <;> simp [hc]

theorem chunkBytes_get? : ∀ (n : Nat) (B : List Char) (j : Nat), j < n →
    (chunkBytes n B).get? j = some (packByte ((B.drop (8 * j)).take 8)) := by
  intro n
  induction n with
  | zero => intro B j h; omega
  | succ n ih =>
    intro B j h
    cases j with
    | zero => simp [chunkBytes]
    | succ j =>
      rw [chunkBytes, List.get?_cons_succ, ih _ j (by omega), List.drop_drop]
      have e : 8 + 8 * j = 8 * (j + 1) := by omega
      rw [e]

/-! ## The layout of the container -/

theorem compressFramesLoop_layout (V : ASCIIVideo) (codes : CodeTable) : ∀ (r k : Nat),
    (∀ j, k ≤ j → j < k + r → ASCIIVideo.find V (j : Int) = some (frameAt V j)) →
    compressFramesLoop V codes r (k : Int) (if k = 0 then [] else frameAt V (k - 1)) =
      compressFramesOver V codes (List.range' k r) := by
  intro r
  induction r with
  | zero => intro k _; rfl
  | succ r ih =>
    intro k h
    have hat : V.at (k : Int) = .ok (frameAt V k) := by
      unfold ASCIIVideo.at; rw [h k (le_refl _) (by omega)]
    have hd : decide ((k : Int) ≠ 0) = decide (k ≠ 0) := by
      by_cases hk : k = 0
      · subst hk; rfl
      · have : (k : Int) ≠ 0 := by omega
        simp [hk, this]
    have hnext := ih (k + 1) (fun j h1 h2 => h j (by omega) (by omega))
    rw [if_neg (by omega), Nat.add_sub_cancel, Nat.cast_add, Nat.cast_one] at hnext
    rw [compressFramesLoop, List.range'_succ, compressFramesOver]
    simp only [hat, hd, hnext]

/-! ## A delta frame with an index outside the working frame -/

theorem deltaDecodeLoop_split (T : Node) (bits : List Char) : ∀ (c r : Nat) (start : Int)
    (work : Frame),
    deltaDecodeLoop T bits (c + r) start work =
      match deltaDecodeLoop T bits c start work with
      | .error e => .error e
      | .ok (work1, start1) => deltaDecodeLoop T bits r start1 work1 := by
  intro c
  induction c with
  | zero => intro r start work; simp [deltaDecodeLoop]
  | succ c ih =>
    intro r start work
    have e : c + 1 + r = (c + r) + 1 := by omega
    rw [e, deltaDecodeLoop, deltaDecodeLoop]
    cases h1 : (substr bits start 32 >>= stoi) with
    | error e => rfl
    | ok index =>
      simp only
      by_cases h2 : index ≥ toInt32 (work.length : Int)
      · rw [if_pos h2, if_pos h2]
      · rw [if_neg h2, if_neg h2]
        cases h3 : parsePixel T bits (toInt32 (start + 32)) with
        | error e => rfl
        | ok ps =>
          obtain ⟨pixel, start2⟩ := ps
          simp only
          by_cases h4 : index < 0
          · rw [if_pos h4, if_pos h4]
          · rw [if_neg h4, if_neg h4]
            exact ih r start2 _

theorem deltaDecodeLoop_bad_index (T : Node) (bits field : List Char) (start : Int)
    (work : Frame) (r : Nat) (hfield : substr bits start 32 = .ok field) (hfb : IsBits field)
    (hfl : field.length = 32) (hindex : work.length ≤ binaryValue field) :
    deltaDecodeLoop T bits (r + 1) start work = .error .out_of_range := by
  have hne : field ≠ [] := by
    intro h; rw [h] at hfl; simp at hfl
  rw [deltaDecodeLoop, hfield, ok_bind]
  by_cases hv : binaryValue field < 2147483648
  · rw [stoi_bits field hfb hne hv]
    simp only
    have hge : (binaryValue field : Int) ≥ toInt32 (work.length : Int) := by
      rw [toInt32_natCast _ (by omega)]; omega
    rw [if_pos hge]
  · rw [stoi_overflow field hfb hne (by omega)]

/-! ## Frames whose bit string does not fit the 32-bit counters -/

theorem generateCodes_leaf (s : Byte) (n : Int) (k : Byte) :
    generateCodes (Node.mk s n Node.null Node.null) [] (fun _ => none) k =
      if k = s then some ['0'] else none := by
  simp [generateCodes, isLeafPair, Node.isNull, CodeTable.set]

theorem single_symbol_tree (S : StdImpl) (hS : S.Lawful) (s : Byte) (video : ASCIIVideo)
    (hall : ∀ e ∈ video, ∀ p ∈ e.2, p.1 = s) (hne : ∃ e ∈ video, e.2 ≠ []) :
    ∃ n, buildHuffmanTree S (countChars video (fun _ => none)) =
      .ok (Node.mk s n Node.null Node.null) := by
  have hsome : ((countChars video (fun _ => none)) s).isSome = true := by
    rw [countChars_isSome]
    right
    obtain ⟨e, he, hne2⟩ := hne
    obtain ⟨p, hp⟩ := List.exists_mem_of_ne_nil _ hne2
    exact ⟨e, he, p, hp, hall e he p hp⟩
  obtain ⟨n, hn⟩ := Option.isSome_iff_exists.mp hsome
  refine ⟨n, buildHuffmanTree_single S hS _ s n (entries_single _ s n hn ?_)⟩
  intro k hk
  cases hck : (countChars video (fun _ => none)) k with
  | none => rfl
  | some v =>
    have h2 : ((countChars video (fun _ => none)) k).isSome = true := by rw [hck]; rfl
    rw [countChars_isSome] at h2
    rcases h2 with h2 | ⟨e, he, p, hp, hpk⟩
    · cases h2
    · exact absurd (hpk ▸ hall e he p hp) hk

theorem fullBits_replicate_length (codes : CodeTable) (p : Pixel) : ∀ k : Nat,
    (fullBits codes (List.replicate k p)).length = k * (32 + (codeOf codes p.1).length) := by
  intro k
  induction k with
  | zero => simp [fullBits]
  | succ k ih =>
    rw [List.replicate_succ, fullBits_cons, List.length_append, cellBits_length, ih]
    ring

theorem compressFrame_full_overflow (codes : CodeTable) (frame prevFrame : Frame)
    (h : ∀ p ∈ frame, (codes p.1).isSome = true)
    (hL1 : 2147483648 < (fullBits codes frame).length + 8)
    (hL2 : (fullBits codes frame).length < 2147483648) :
    compressFrame frame codes false prevFrame = .error .undefined_behaviour := by
  unfold compressFrame
  simp only [Bool.not_false, if_true]
  rw [fullFrameLoop_eq codes frame [] h]
  simp only [List.nil_append]
  rw [writeBitString_overflow _ hL1 hL2]

theorem deltaBits_all_changed_length (codes : CodeTable) (prevFrame : Frame) (q : Pixel)
    (hq : ∀ j, cellChanged prevFrame j q = true) : ∀ (k i : Nat),
    (deltaBits codes prevFrame (List.replicate k q) i).length =
      k * (64 + (codeOf codes q.1).length) := by
  intro k
  induction k with
  | zero => intro i; simp [deltaBits]
  | succ k ih =>
    intro i
    rw [List.replicate_succ, deltaBits, if_pos (hq i), List.length_append, List.length_append,
      bitsetToString_length, cellBits_length, ih]
    ring

theorem cellChanged_replicate (k : Nat) (p q : Pixel) (hpq : q ≠ p) (j : Nat) :
    cellChanged (List.replicate k p) j q = true := by
  cases h : cellChanged (List.replicate k p) j q with
  | true => rfl
  | false =>
    rw [cellChanged_false_iff] at h
    have hm : q ∈ List.replicate k p := List.get?_mem h
    exact absurd (List.mem_replicate.mp hm).2 hpq

theorem compressFrame_delta_overflow (codes : CodeTable) (frame prevFrame : Frame)
    (h : ∀ p ∈ frame, (codes p.1).isSome = true)
    (hL1 : 2147483648 < (deltaBits codes prevFrame frame 0).length + 8)
    (hL2 : (deltaBits codes prevFrame frame 0).length < 2147483648) :
    compressFrame frame codes true prevFrame = .error .undefined_behaviour := by
  unfold compressFrame
  simp only [Bool.not_true, Bool.false_eq_true, if_false]
  rw [deltaFrameLoop_eq codes prevFrame frame 0 [] 0 h]
  simp only [List.nil_append]
  rw [writeBitString_overflow _ hL1 hL2]

theorem isChangedAt_false (prevFrame frame : Frame) (i : Nat)
    (h : isChangedAt prevFrame frame i = false) : frame.get? i = prevFrame.get? i := by
  unfold isChangedAt at h
  cases hf : frame.get? i with
  | none => rw [hf] at h; cases h
  | some p =>
    cases hp : prevFrame.get? i with
    | none => rw [hf, hp] at h; cases h
    | some q =>
      rw [hf, hp] at h
      obtain ⟨p1, ⟨a, b, c⟩⟩ := p
      obtain ⟨q1, ⟨a2, b2, c2⟩⟩ := q
      simp only [ne_eq, Bool.or_eq_false_iff, decide_eq_false_iff_not, not_not] at h
      obtain ⟨⟨⟨h1, h2⟩, h3⟩, h4⟩ := h
      subst h1 h2 h3 h4
      rfl

theorem compareFrames_self (frame : Frame) : compareFrames frame frame = true := by
  unfold compareFrames
  simp only [decide_True, Bool.true_and, List.all_eq_true]
  intro pq hpq
  have := List.of_mem_zip hpq
  have h2 : pq.1 = pq.2 := by
    clear this
    induction frame with
    | nil => simp at hpq
    | cons a rest ih =>
      simp only [List.zip_cons_cons, List.mem_cons] at hpq
      rcases hpq with h | h
      · rw [h]
      · exact ih h
  simp [h2]

theorem single_frame_overflow (S : StdImpl) (hS : S.Lawful) (s : Byte) (c : rgb) (k : Nat)
    (h1 : 2147483648 < k * 33 + 8) (h2 : k * 33 < 2147483648) :
    (∀ n prevFrame, compressFrame (List.replicate k (s, c))
      (generateCodes (Node.mk s n Node.null Node.null) [] (fun _ => none)) false prevFrame =
        .error .undefined_behaviour) ∧
    compressASCIIVideo S [(0, List.replicate k (s, c))] = .error .undefined_behaviour := by
  have hframe : ∀ n prevFrame, compressFrame (List.replicate k (s, c))
      (generateCodes (Node.mk s n Node.null Node.null) [] (fun _ => none)) false prevFrame =
        .error .undefined_behaviour := by
    intro n prevFrame
    have hcode : codeOf (generateCodes (Node.mk s n Node.null Node.null) [] (fun _ => none))
        (s, c).1 = ['0'] := by
      unfold codeOf
      rw [generateCodes_leaf, if_pos rfl]
      rfl
    have hlen := fullBits_replicate_length
      (generateCodes (Node.mk s n Node.null Node.null) [] (fun _ => none)) (s, c) k
    rw [hcode] at hlen
    simp only [List.length_singleton] at hlen
    apply compressFrame_full_overflow
    · intro p hp
      rw [(List.mem_replicate.mp hp).2, generateCodes_leaf, if_pos rfl]
      rfl
    · rw [hlen]; omega
    · rw [hlen]; omega
  refine ⟨hframe, ?_⟩
  have hk : k ≠ 0 := by omega
  obtain ⟨n, hn⟩ := single_symbol_tree S hS s [(0, List.replicate k (s, c))]
    (by
      intro e he p hp
      rw [List.mem_singleton.mp he] at hp
      rw [(List.mem_replicate.mp hp).2])
    ⟨_, List.mem_singleton.mpr rfl, by
      intro h
      have := congrArg List.length h
      rw [List.length_replicate] at this
      exact hk this⟩
  have hat : ASCIIVideo.at [(0, List.replicate k (s, c))] 0 = .ok (List.replicate k (s, c)) := rfl
  have hnum : toInt32 (([((0 : Int), List.replicate k (s, c))].length : Nat) : Int) = 1 := rfl
  unfold compressASCIIVideo
  simp only [hn, hnum]
  have h1 : (1 : Int).toNat = 0 + 1 := rfl
  rw [h1, compressFramesLoop]
  simp only [hat]
  have hd : decide ((0 : Int) ≠ 0) = false := rfl
  rw [hd, hframe]

/-! ## Videos and frames whose sizes do not fit the 32-bit counters -/

theorem videoOfFrames_keys (fs : List Frame) :
    (videoOfFrames fs).map Prod.fst = (List.range fs.length).map Int.ofNat := by
  unfold videoOfFrames
  rw [List.map_map]
  rfl

theorem mem_videoOfFrames (fs : List Frame) (e : Int × Frame) (he : e ∈ videoOfFrames fs) :
    e.2 ∈ fs := by
  unfold videoOfFrames at he
  obtain ⟨k, hk, rfl⟩ := List.mem_map.mp he
  have hk2 : k < fs.length := List.mem_range.mp hk
  simp only
  rw [List.get?_eq_getElem?, List.getElem?_eq_getElem hk2]
  exact List.getElem_mem hk2

theorem wrapped_count_round_trip (S : StdImpl) (hS : S.Lawful) (s : Byte) (c : rgb) (n : Nat)
    (hn1 : 1 ≤ n) (hn : toInt32 (n : Int) ≤ 0) :
    compressASCIIVideo S (videoOfFrames (List.replicate n [(s, c)])) =
      .ok (writeInt (n : Int) ++ [1, s]) ∧
    decompressASCIIVideo ".bin" (.file (writeInt (n : Int) ++ [1, s])) = .ok [] := by
  have hmem : ∀ e ∈ videoOfFrames (List.replicate n [(s, c)]), e.2 = [(s, c)] := fun e he =>
    (List.mem_replicate.mp (mem_videoOfFrames _ e he)).2
  have hlen : (videoOfFrames (List.replicate n [(s, c)])).length = n := by
    rw [videoOfFrames_length, List.length_replicate]
  obtain ⟨e0, he0⟩ : ∃ e0, e0 ∈ videoOfFrames (List.replicate n [(s, c)]) := by
    apply List.exists_mem_of_ne_nil
    intro h
    have := congrArg List.length h
    rw [hlen, List.length_nil] at this
    omega
  obtain ⟨cnt, hcnt⟩ := single_symbol_tree S hS s (videoOfFrames (List.replicate n [(s, c)]))
    (fun e he p hp => by
      rw [hmem e he] at hp
      rw [List.mem_singleton.mp hp])
    ⟨e0, he0, by rw [hmem e0 he0]; exact List.cons_ne_nil _ _⟩
  have hz : (toInt32 (n : Int)).toNat = 0 := by omega
  constructor
  · unfold compressASCIIVideo
    simp only [hcnt, hlen, hz, compressFramesLoop, writeInt_toInt32, List.append_nil]
    rfl
  · unfold decompressASCIIVideo
    rw [if_neg (by decide)]
    simp only
    have hds : decompressStream (writeInt (n : Int) ++ [1, s]) = .ok [] := by
      unfold decompressStream
      rw [readInt_writeInt, ok_bind]
      simp only
      have hr : readHuffmanTree [1, s] = .ok (Node.mk s 0 Node.null Node.null, []) := by
        unfold readHuffmanTree
        simp [readHuffmanTreeAux]
      rw [hr, ok_bind]
      simp only [Node.isNull, Bool.false_eq_true, if_false, hz, decodeFramesLoop]
    rw [hds]

theorem delta_first_changed (codes : CodeTable) (N M : Nat) (hN : N = M + 1) (p q : Pixel)
    (hpq : q ≠ p) :
    deltaBits codes (List.replicate N p) (q :: List.replicate M p) 0 =
      bitsetToString 32 0 ++ cellBits (codeOf codes q.1) q ∧
    deltaCount (List.replicate N p) (q :: List.replicate M p) 0 = 1 := by
  subst hN
  have hsame := deltaBits_same codes (List.replicate (M + 1) p) (List.replicate M p) 1
    (fun j r hr => by
      have hm : r ∈ List.replicate M p := List.get?_mem hr
      have hj : j < M := by
        have := List.get?_eq_some.mp hr
        obtain ⟨h1, _⟩ := this
        rw [List.length_replicate] at h1
        exact h1
      rw [(List.mem_replicate.mp hm).2, List.get?_eq_getElem?,
        List.getElem?_replicate_of_lt (by omega)])
  have hc : cellChanged (List.replicate (M + 1) p) 0 q = true :=
    cellChanged_replicate (M + 1) p q hpq 0
  rw [deltaBits, deltaCount, if_pos hc, if_pos hc, hsame.1, hsame.2, List.append_nil]
  exact ⟨rfl, rfl⟩

theorem deltaDecodeLoop_wrapped_size (T : Node) (rest : List Char) (work : Frame)
    (hw : toInt32 (work.length : Int) ≤ 0) :
    deltaDecodeLoop T (bitsetToString 32 0 ++ rest) 1 0 work = .error .out_of_range := by
  have hs : substr (bitsetToString 32 0 ++ rest) 0 32 = .ok (bitsetToString 32 0) :=
    substr_at _ [] (bitsetToString 32 0) rest rfl _ _ rfl rfl
  rw [deltaDecodeLoop, hs, ok_bind, stoi_bitset32 0 (by omega)]
  simp only [Nat.cast_zero]
  rw [if_pos (by omega)]

/-! ## The serialised tree -/

theorem writeHuffmanTree_eq_treeEncoding : ∀ (T : Node), writeHuffmanTree T = treeEncoding T := by
  intro T
  induction T with
  | null => rfl
  | mk c f l r ihl ihr =>
    cases l with
    | null =>
      cases r with
      | null => rfl
      | mk c2 f2 l2 r2 =>
        have e : isLeafPair Node.null (Node.mk c2 f2 l2 r2) = false := rfl
        rw [writeHuffmanTree, e, ihl, ihr]
        rfl
    | mk c1 f1 l1 r1 =>
      have e : isLeafPair (Node.mk c1 f1 l1 r1) r = false := rfl
      rw [writeHuffmanTree, e, ihl, ihr]
      rfl

theorem writeHuffmanTree_length : ∀ (T : Node), T.proper = true →
    (writeHuffmanTree T).length = (T.leaves.length + T.internalCount) + T.leaves.length := by
  intro T
  induction T with
  | null => intro h; simp [Node.proper] at h
  | mk c f l r ihl ihr =>
    intro h
    rw [writeHuffmanTree, Node.leaves, Node.internalCount]
    by_cases hl : isLeafPair l r = true
    · rw [if_pos hl, if_pos hl, if_pos hl]; rfl
    · have hl2 : isLeafPair l r = false := by simpa using hl
      have hp := proper_children c f l r h hl2
      rw [if_neg hl, if_neg hl, if_neg hl]
      simp only [List.length_append, List.length_singleton, ihl hp.1, ihr hp.2]
      omega

theorem writeHuffmanTree_strip : ∀ (T : Node), T.proper = true →
    writeHuffmanTree T.strip = writeHuffmanTree T := by
  intro T
  induction T with
  | null => intro h; simp [Node.proper] at h
  | mk c f l r ihl ihr =>
    intro h
    by_cases hl : isLeafPair l r = true
    · rw [Node.strip, if_pos hl, writeHuffmanTree]
      conv_rhs => rw [writeHuffmanTree, if_pos hl]
      rfl
    · have hl2 : isLeafPair l r = false := by simpa using hl
      have hp := proper_children c f l r h hl2
      rw [Node.strip, if_neg hl, writeHuffmanTree, strip_isLeafPair c f l r h hl2,
        ihl hp.1, ihr hp.2]
      conv_rhs => rw [writeHuffmanTree, if_neg hl]
      rfl

/-! ## Bytes and eight-character strings -/

set_option maxRecDepth 100000 in
theorem packByte_byteToString : ∀ b : Byte, packByte (byteToString b) = b := by
  decide

theorem bitsetToString_mod : ∀ (n v : Nat), bitsetToString n (v % 2 ^ n) = bitsetToString n v := by
  intro n
  induction n with
  | zero => intro v; rfl
  | succ n ih =>
    intro v
    rw [bitsetToString, bitsetToString]
    have h1 : v % 2 ^ (n + 1) / 2 = (v / 2) % 2 ^ n := by
      rw [pow_succ, Nat.mul_comm, Nat.mod_mul_right_div_self]
    have h2 : v % 2 ^ (n + 1) % 2 = v % 2 := by
      rw [pow_succ]
      exact Nat.mod_mul_left_mod v (2 ^ n) 2
    rw [h1, h2, ih]

theorem cellBits_lowByteCell (code : List Char) (p : Pixel) :
    cellBits code (lowByteCell p) = cellBits code p := by
  unfold cellBits lowByteCell
  have h := bitsetToString_mod 8
  have e : (2 : Nat) ^ 8 = 256 := by norm_num
  rw [e] at h
  simp only [h]

/-! ## The greedy merge of `buildHuffmanTree` -/

theorem heap_top_min (x : Node) (v : List Node) (h : IsHeap heapCompare (x :: v)) :
    ∀ (i : Nat) (y : Node), (x :: v).get? i = some y → x.freq ≤ y.freq := by
  intro i
  induction i using Nat.strong_induction_on with
  | _ i ih =>
    intro y hy
    by_cases hi : i = 0
    · subst hi
      simp only [List.get?_cons_zero, Option.some.injEq] at hy
      rw [hy]
    · have hlt : i < (x :: v).length := (List.get?_eq_some.mp hy).1
      have hp : (i - 1) / 2 < (x :: v).length := by omega
      have ha : (x :: v).get? ((i - 1) / 2) = some ((x :: v).get ⟨(i - 1) / 2, hp⟩) :=
        List.get?_eq_get hp
      have h1 := ih ((i - 1) / 2) (by omega) _ ha
      have h2 := h i (by omega) _ y ha hy
      simp only [heapCompare, decide_eq_false_iff_not, gt_iff_lt, not_lt] at h2
      omega

theorem heap_top_le (x : Node) (v : List Node) (h : IsHeap heapCompare (x :: v)) :
    ∀ y ∈ v, x.freq ≤ y.freq := by
  intro y hy
  obtain ⟨n, hn⟩ := List.get?_of_mem hy
  exact heap_top_min x v h (n + 1) y (by simpa using hn)

theorem buildHuffmanTreeLoop_step (S : StdImpl) (hS : S.Lawful) (fuel : Nat)
    (heap : List Node) (hheap : IsHeap heapCompare heap) (hlen : 2 ≤ heap.length) :
    ∃ (l r : Node) (rest heap1 : List Node),
      heap.Perm (l :: r :: rest) ∧ l.freq ≤ r.freq ∧ (∀ x ∈ rest, r.freq ≤ x.freq) ∧
      IsHeap heapCompare heap1 ∧
      heap1.Perm (rest ++ [Node.mk 0 (toInt32 (l.freq + r.freq)) l r]) ∧
      buildHuffmanTreeLoop S (fuel + 1) heap = buildHuffmanTreeLoop S fuel heap1 := by
  obtain ⟨x, v, rfl⟩ : ∃ x v, heap = x :: v := by
    cases heap with
    | nil => simp at hlen
    | cons x v => exact ⟨x, v, rfl⟩
  obtain ⟨w, hw1, hw2, hw3⟩ := hS.pop_heap_spec x v hheap
  obtain ⟨y, v1, rfl⟩ : ∃ y v1, w = y :: v1 := by
    cases w with
    | nil =>
      have := hw2.length_eq
      simp only [List.length_nil, List.length_cons] at this hlen
      omega
    | cons y v1 => exact ⟨y, v1, rfl⟩
  obtain ⟨w1, hw4, hw5, hw6⟩ := hS.pop_heap_spec y v1 hw3
  have hps := hS.push_heap_spec w1 (Node.mk 0 (toInt32 (x.freq + y.freq)) x y) hw6
  have hyv : y ∈ v := hw2.mem_iff.mp (by simp)
  refine ⟨x, y, w1, _, ?_, heap_top_le x v hheap y hyv, ?_, hps.2, hps.1, ?_⟩
  · exact List.Perm.cons x (hw2.symm.trans (List.Perm.cons y hw5.symm))
  · intro z hz
    exact heap_top_le y v1 hw3 z (hw5.mem_iff.mp hz)
  · rw [buildHuffmanTreeLoop]
    have h1 : (x :: v).length ≠ 1 := by omega
    rw [if_pos h1]
    simp only [hw1, List.getLast?_concat, List.dropLast_concat, hw4]

theorem abs_sum_le : ∀ (L : List Int), (L.sum).natAbs ≤ (L.map Int.natAbs).sum := by
  intro L
  induction L with
  | nil => simp
  | cons a L ih =>
    simp only [List.sum_cons, List.map_cons]
    have := Int.natAbs_add_le a L.sum
    omega

theorem leafWeights_merge (f : Int) (x y : Node) (hx : x.proper = true) :
    (Node.mk 0 f x y).leafWeights = x.leafWeights ++ y.leafWeights := by
  rw [Node.leafWeights, isLeafPair_of_proper x y hx]
  rfl

theorem buildHuffmanTreeLoop_weight (S : StdImpl) (hS : S.Lawful) :
    ∀ (fuel : Nat) (heap : List Node), heap.length = fuel → 0 < fuel →
      IsHeap heapCompare heap →
      (∀ x ∈ heap, x.proper = true ∧ x.freq = x.leafWeights.sum) →
      ((heap.flatMap Node.leafWeights).map Int.natAbs).sum < 2147483648 →
      ∃ root, buildHuffmanTreeLoop S fuel heap = .ok root ∧
        root.freq = (heap.flatMap Node.leafWeights).sum := by
  intro fuel
  induction fuel with
  | zero => intro heap _ h; omega
  | succ n ih =>
    intro heap hlen _ hheap hinv hsum
    by_cases h1 : heap.length = 1
    · obtain ⟨x, rfl⟩ := List.length_eq_one.mp h1
      rw [buildHuffmanTreeLoop]
      have hne : ¬ ([x].length ≠ 1) := by simp
      rw [if_neg hne]
      refine ⟨x, rfl, ?_⟩
      rw [(hinv x (by simp)).2]
      simp
    · have h2 : 2 ≤ heap.length := by omega
      obtain ⟨l, r, rest, heap1, hp, _, _, hh1, hp1, hstep⟩ :=
        buildHuffmanTreeLoop_step S hS n heap hheap h2
      have hl := hinv l (hp.mem_iff.mpr (by simp))
      have hr := hinv r (hp.mem_iff.mpr (by simp))
      have hflat : (heap.flatMap Node.leafWeights).Perm
          (l.leafWeights ++ (r.leafWeights ++ rest.flatMap Node.leafWeights)) := by
        refine (hp.flatMap_right Node.leafWeights).trans ?_
        rw [List.flatMap_cons, List.flatMap_cons]
      have hflat1 : (heap1.flatMap Node.leafWeights).Perm (heap.flatMap Node.leafWeights) := by
        refine (hp1.flatMap_right Node.leafWeights).trans ?_
        rw [List.flatMap_append, List.flatMap_cons, List.flatMap_nil, List.append_nil,
          leafWeights_merge _ l r hl.1]
        refine List.Perm.trans ?_ hflat.symm
        rw [← List.append_assoc l.leafWeights]
        exact List.perm_append_comm
      have hsumeq := (hflat.map Int.natAbs).sum_eq
      simp only [List.map_append, List.sum_append] at hsumeq
      have hal := abs_sum_le l.leafWeights
      have har := abs_sum_le r.leafWeights
      have hnoov : toInt32 (l.freq + r.freq) = l.freq + r.freq := by
        rw [hl.2, hr.2]
        apply toInt32_of_range <;> omega
      have hlen1 : heap1.length = n := by
        rw [hp1.length_eq, List.length_append, List.length_singleton]
        have := hp.length_eq
        simp only [List.length_cons] at this
        omega
      have hn : 0 < n := by omega
      have hinv1 : ∀ z ∈ heap1, z.proper = true ∧ z.freq = z.leafWeights.sum := by
        intro z hz
        rcases List.mem_append.mp (hp1.mem_iff.mp hz) with hz1 | hz1
        · exact hinv z (hp.mem_iff.mpr (by simp [hz1]))
        · rw [List.mem_singleton.mp hz1, leafWeights_merge _ l r hl.1, List.sum_append,
            ← hl.2, ← hr.2]
          refine ⟨?_, hnoov⟩
          simp [Node.proper, hl.1, hr.1]
      obtain ⟨root, hr1, hr2⟩ := ih heap1 hlen1 hn hh1 hinv1
        (by rw [(hflat1.map Int.natAbs).sum_eq]; exact hsum)
      refine ⟨root, ?_, ?_⟩
      · rw [hstep]
        exact hr1
      · rw [hr2, hflat1.sum_eq]

theorem initial_heap (S : StdImpl) (hS : S.Lawful) (f : FreqTable) (hf : f.entries ≠ []) :
    ∃ heap0 : List Node,
      heap0.Perm (f.entries.map (fun e => Node.mk e.1 e.2 Node.null Node.null)) ∧
      IsHeap heapCompare heap0 ∧
      buildHuffmanTree S f = buildHuffmanTreeLoop S heap0.length heap0 := by
  have hm := hS.make_heap_spec
    ((S.mapOrder f.entries).map (fun e => Node.mk e.1 e.2 Node.null Node.null))
  refine ⟨_, hm.1.trans ((hS.mapOrder_perm _).map _), hm.2, ?_⟩
  unfold buildHuffmanTree
  rw [if_neg hf]

theorem leafWeights_of_entries : ∀ l : List (Byte × Int),
    (l.map (fun e => Node.mk e.1 e.2 Node.null Node.null)).flatMap Node.leafWeights =
      l.map Prod.snd := by
  intro l
  induction l with
  | nil => rfl
  | cons a l ih =>
    rw [List.map_cons, List.flatMap_cons, ih, List.map_cons]
    rfl

theorem buildHuffmanTree_weight (S : StdImpl) (hS : S.Lawful) (f : FreqTable)
    (hf : f.entries ≠ [])
    (hsum : (f.entries.map (fun e => e.2.natAbs)).sum < 2147483648) :
    ∃ T, buildHuffmanTree S f = .ok T ∧ T.freq = (f.entries.map Prod.snd).sum := by
  obtain ⟨heap0, hp, hh, hb⟩ := initial_heap S hS f hf
  have hflat : (heap0.flatMap Node.leafWeights).Perm (f.entries.map Prod.snd) := by
    rw [← leafWeights_of_entries]
    exact hp.flatMap_right Node.leafWeights
  have hlen : 0 < heap0.length := by
    rw [hp.length_eq, List.length_map]
    exact List.length_pos.mpr hf
  obtain ⟨root, h1, h2⟩ := buildHuffmanTreeLoop_weight S hS heap0.length heap0 rfl hlen hh
    (fun x hx => by
      obtain ⟨e, _, rfl⟩ := List.mem_map.mp (hp.mem_iff.mp hx)
      refine ⟨rfl, ?_⟩
      show e.2 = ([e.2] : List Int).sum
      simp)
    (by
      rw [(hflat.map Int.natAbs).sum_eq, List.map_map]
      exact hsum)
  exact ⟨root, hb.trans h1, by rw [h2, hflat.sum_eq]⟩

/-! ## Frames of different lengths -/

theorem applyDelta_length (prevFrame : Frame) : ∀ (frame : Frame) (i : Nat) (work : Frame),
    (applyDelta prevFrame frame i work).length = work.length := by
  intro frame
  induction frame with
  | nil => intro i work; rfl
  | cons p rest ih =>
    intro i work
    rw [applyDelta, ih]
    split
    · rw [List.length_set]
    · rfl

theorem applyDelta_shrink (prevFrame : Frame) : ∀ (suffix done pdone prest ptail tail : Frame),
    prevFrame = pdone ++ prest ++ ptail → pdone.length = done.length →
    prest.length = suffix.length → (∀ p ∈ suffix, lowByteCell p = p) →
    applyDelta prevFrame suffix done.length (done ++ prest ++ tail) = done ++ suffix ++ tail := by
  intro suffix
  induction suffix with
  | nil =>
    intro done pdone prest ptail tail _ _ h3 _
    have : prest = [] := List.length_eq_zero.mp (by simpa using h3)
    simp [applyDelta, this]
  | cons p s ih =>
    intro done pdone prest ptail tail h1 h2 h3 h4
    obtain ⟨q, pr, rfl⟩ : ∃ q pr, prest = q :: pr := by
      cases prest with
      | nil => simp at h3
      | cons q pr => exact ⟨q, pr, rfl⟩
    have hget : prevFrame.get? done.length = some q := by
      rw [h1, ← h2, List.append_assoc, List.get?_eq_getElem?,
        List.getElem?_append_right (Nat.le_refl _)]
      simp
    have hlow := h4 p (by simp)
    rw [applyDelta]
    have hnext : ∀ w, w = (done ++ [p]) ++ pr ++ tail →
        applyDelta prevFrame s (done.length + 1) w = done ++ p :: s ++ tail := by
      intro w hw
      have := ih (done ++ [p]) (pdone ++ [q]) pr ptail tail (by rw [h1]; simp) (by simp [h2])
        (by simpa using h3) (fun x hx => h4 x (by simp [hx]))
      simp only [List.length_append, List.length_singleton] at this
      rw [hw, this]
      simp
    by_cases hc : cellChanged prevFrame done.length p = true
    · rw [if_pos hc, hlow]
      apply hnext
      rw [List.append_assoc, List.set_append_right _ _ (Nat.le_refl _)]
      simp
    · rw [if_neg hc]
      apply hnext
      have : q = p := by
        have hc2 : cellChanged prevFrame done.length p = false := by simpa using hc
        rw [cellChanged_false_iff, hget] at hc2
        exact Option.some.inj hc2
      rw [this]
      simp

theorem applyDelta_shorter (prevFrame frame : Frame) (hlen : frame.length ≤ prevFrame.length)
    (hlow : ∀ p ∈ frame, lowByteCell p = p) :
    applyDelta prevFrame frame 0 prevFrame = frame ++ prevFrame.drop frame.length := by
  have h := applyDelta_shrink prevFrame frame [] [] (prevFrame.take frame.length)
    (prevFrame.drop frame.length) (prevFrame.drop frame.length)
    (by simp) rfl (by rw [List.length_take]; omega) hlow
  simp only [List.nil_append, List.length_nil, List.take_append_drop] at h
  exact h

theorem delta_first_changed_le (codes : CodeTable) (N M : Nat) (hN : M + 1 ≤ N) (p q : Pixel)
    (hpq : q ≠ p) :
    deltaBits codes (List.replicate N p) (q :: List.replicate M p) 0 =
      bitsetToString 32 0 ++ cellBits (codeOf codes q.1) q ∧
    deltaCount (List.replicate N p) (q :: List.replicate M p) 0 = 1 := by
  have hsame := deltaBits_same codes (List.replicate N p) (List.replicate M p) 1
    (fun j r hr => by
      have hm : r ∈ List.replicate M p := List.get?_mem hr
      have hj : j < M := by
        obtain ⟨h1, _⟩ := List.get?_eq_some.mp hr
        rw [List.length_replicate] at h1
        exact h1
      rw [(List.mem_replicate.mp hm).2, List.get?_eq_getElem?,
        List.getElem?_replicate_of_lt (by omega)])
  have hc : cellChanged (List.replicate N p) 0 q = true :=
    cellChanged_replicate N p q hpq 0
  rw [deltaBits, deltaCount, if_pos hc, if_pos hc, hsame.1, hsame.2, List.append_nil]
  exact ⟨rfl, rfl⟩

/-! ## The symbol counts and the lookups of `compressASCIIVideo` -/

theorem countCells_eq : ∀ (L : List Pixel) (cf : FreqTable) (s : Byte),
    (L.foldl (fun acc p => FreqTable.increment acc p.1) cf) s =
      if (L.map Prod.fst).count s = 0 then cf s
      else some (toInt32 ((cf s).getD 0 + ((L.map Prod.fst).count s : Nat))) := by
  intro L
  induction L with
  | nil => intro cf s; simp
  | cons p rest ih =>
    intro cf s
    rw [List.foldl_cons, ih, List.map_cons, List.count_cons]
    by_cases hp : p.1 = s
    · have hb : (p.1 == s) = true := by simpa using hp
      have hinc : (FreqTable.increment cf p.1) s = some (toInt32 ((cf s).getD 0 + 1)) := by
        unfold FreqTable.increment
        rw [if_pos hp.symm]
      have hne : ¬ ((rest.map Prod.fst).count s + 1 = 0) := by omega
      rw [hb, if_pos rfl, hinc, if_neg hne]
      by_cases hc : (rest.map Prod.fst).count s = 0
      · rw [if_pos hc, hc]
        rfl
      · rw [if_neg hc, Option.getD_some, toInt32_idem]
        congr 2
        push_cast
        omega
    · have hb : (p.1 == s) = false := by simpa using hp
      have hinc : (FreqTable.increment cf p.1) s = cf s := by
        unfold FreqTable.increment
        rw [if_neg (fun h => hp h.symm)]
      rw [hb, hinc]
      simp

theorem countChars_flat : ∀ (V : ASCIIVideo) (cf : FreqTable),
    countChars V cf =
      (V.flatMap (fun e => e.2)).foldl (fun acc p => FreqTable.increment acc p.1) cf := by
  intro V
  induction V with
  | nil => intro cf; rfl
  | cons e rest ih =>
    intro cf
    have hstep : countChars (e :: rest) cf =
        countChars rest (e.2.foldl (fun acc2 p => FreqTable.increment acc2 p.1) cf) := rfl
    rw [hstep, ih, List.flatMap_cons, List.foldl_append]

theorem countChars_eq (V : ASCIIVideo) (s : Byte) :
    countChars V (fun _ => none) s =
      if occurrences V s = 0 then none else some (toInt32 ((occurrences V s : Nat) : Int)) := by
  rw [countChars_flat, countCells_eq]
  unfold occurrences
  simp only [Option.getD_none, Int.zero_add]

theorem toInt32_le_self (n : Nat) : toInt32 (n : Int) ≤ (n : Int) := by
  unfold toInt32
  simp only []
  split <;> omega

theorem stringToByteLoop_error (bits : List Char) (start : Int) : ∀ (n i byte : Nat)
    (e : Fault), stringToByteLoop bits start n i byte = .error e → e = .undefined_behaviour := by
  intro n
  induction n with
  | zero => intro i byte e h; simp [stringToByteLoop] at h
  | succ n ih =>
    intro i byte e h
    rw [stringToByteLoop] at h
    split at h
    · cases h
    · cases hs : stringAt bits (toInt32 (start + i)) with
      | error e2 =>
        rw [hs] at h
        simp only at h
        cases h
        unfold stringAt at hs
        split at hs
        · cases hs; rfl
        · split at hs
          · cases hs
          · split at hs
            · cases hs
            · cases hs; rfl
      | ok c =>
        rw [hs] at h
        simp only at h
        split at h
        · exact ih _ _ e h
        · exact ih _ _ e h

theorem stringToByte_error (bits : List Char) (start : Int) (e : Fault)
    (h : stringToByte bits start = .error e) : e = .undefined_behaviour := by
  unfold stringToByte at h
  cases hl : stringToByteLoop bits start 8 0 0 with
  | error e2 =>
    rw [hl] at h
    cases h
    exact stringToByteLoop_error bits start 8 0 0 e hl
  | ok b => rw [hl] at h; cases h

theorem writeBitStringLoop_error (bits : List Char) (bitCount : Int) : ∀ (fuel : Nat) (i : Int)
    (out : List Byte) (e : Fault), writeBitStringLoop bits bitCount fuel i out = .error e →
    e ≠ .out_of_range := by
  intro fuel
  induction fuel with
  | zero =>
    intro i out e h
    rw [writeBitStringLoop] at h
    cases h
    decide
  | succ fuel ih =>
    intro i out e h
    rw [writeBitStringLoop] at h
    split at h
    · cases hs : stringToByte bits i with
      | error e2 =>
        rw [hs] at h
        cases h
        rw [stringToByte_error bits i e hs]
        decide
      | ok b =>
        rw [hs] at h
        exact ih _ _ e h
    · cases h

theorem writeBitString_error (bits : List Char) (e : Fault)
    (h : writeBitString bits = .error e) : e ≠ .out_of_range := by
  unfold writeBitString at h
  simp only at h
  cases hl : writeBitStringLoop bits (toInt32 (bits.length : Int)) (bits.length / 8 + 2) 0 [] with
  | error e2 =>
    rw [hl] at h
    cases h
    exact writeBitStringLoop_error _ _ _ _ _ e hl
  | ok data => rw [hl] at h; cases h

theorem compressFrame_error (frame prevFrame : Frame) (codes : CodeTable) (useDelta : Bool)
    (hc : ∀ p ∈ frame, (codes p.1).isSome = true) (e : Fault)
    (h : compressFrame frame codes useDelta prevFrame = .error e) : e ≠ .out_of_range := by
  unfold compressFrame at h
  cases useDelta with
  | false =>
    simp only [Bool.not_false, if_true] at h
    rw [fullFrameLoop_eq codes frame [] hc] at h
    simp only at h
    cases hw : writeBitString ([] ++ fullBits codes frame) with
    | error e2 =>
      rw [hw] at h
      cases h
      exact writeBitString_error _ e hw
    | ok packed => rw [hw] at h; cases h
  | true =>
    simp only [Bool.not_true, Bool.false_eq_true, if_false] at h
    rw [deltaFrameLoop_eq codes prevFrame frame 0 [] 0 hc] at h
    simp only at h
    cases hw : writeBitString ([] ++ deltaBits codes prevFrame frame 0) with
    | error e2 =>
      rw [hw] at h
      cases h
      exact writeBitString_error _ e hw
    | ok packed => rw [hw] at h; cases h

theorem compressFramesLoop_error (V : ASCIIVideo) (codes : CodeTable) : ∀ (r k : Nat)
    (prevFrame : Frame),
    (∀ j, k ≤ j → j < k + r → ∃ fr, ASCIIVideo.find V (j : Int) = some fr ∧
      ∀ p ∈ fr, (codes p.1).isSome = true) →
    ∀ e, compressFramesLoop V codes r (k : Int) prevFrame = .error e → e ≠ .out_of_range := by
  intro r
  induction r with
  | zero => intro k prevFrame _ e h; rw [compressFramesLoop] at h; cases h
  | succ r ih =>
    intro k prevFrame hj e h
    obtain ⟨fr, hfr, hcodes⟩ := hj k (le_refl _) (by omega)
    have hat : V.at (k : Int) = .ok fr := by unfold ASCIIVideo.at; rw [hfr]
    rw [compressFramesLoop] at h
    simp only [hat] at h
    cases hcf : compressFrame fr codes (decide ((k : Int) ≠ 0)) prevFrame with
    | error e2 =>
      rw [hcf] at h
      cases h
      exact compressFrame_error fr prevFrame codes _ hcodes e hcf
    | ok bytes =>
      rw [hcf] at h
      simp only at h
      cases hrest : compressFramesLoop V codes r ((k : Int) + 1) fr with
      | error e2 =>
        rw [hrest] at h
        cases h
        have := ih (k + 1) fr (fun j h1 h2 => hj j (by omega) (by omega)) e
        rw [Nat.cast_add, Nat.cast_one] at this
        exact this hrest
      | ok more => rw [hrest] at h; cases h

theorem occurrences_single_frame (k : Nat) (s : Byte) (c : rgb) (i : Int) :
    occurrences [(i, List.replicate k (s, c))] s = k := by
  simp [occurrences]

theorem video_symbol_has_code (S : StdImpl) (hS : S.Lawful) (V : ASCIIVideo) (e : Int × Frame)
    (he : e ∈ V) (p : Pixel) (hp : p ∈ e.2) :
    ∃ T, buildHuffmanTree S (countChars V (fun _ => none)) = .ok T ∧
      videoCodes S V = generateCodes T [] (fun _ => none) ∧
      (videoCodes S V p.1).isSome = true := by
  have hsome : ((countChars V (fun _ => none)) p.1).isSome = true :=
    (countChars_isSome V _ p.1).mpr (Or.inr ⟨e, he, p, hp, rfl⟩)
  have hne : (countChars V (fun _ => none)).entries ≠ [] := by
    intro h
    have := (entries_keys_mem _ p.1).mpr hsome
    rw [h] at this
    simp at this
  obtain ⟨T, hT, _, _⟩ := buildHuffmanTree_spec S hS _ hne
  have hcodes : videoCodes S V = generateCodes T [] (fun _ => none) := by
    unfold videoCodes; rw [hT]
  refine ⟨T, hT, hcodes, ?_⟩
  obtain ⟨code, h1, _⟩ := (built_decodes S hS _ T hT p.1 hsome).2
  rw [hcodes, h1]
  rfl

theorem compressASCIIVideo_error (S : StdImpl) (V : ASCIIVideo) (T : Node)
    (hT : buildHuffmanTree S (countChars V (fun _ => none)) = .ok T) (e : Fault)
    (hl : compressFramesLoop V (generateCodes T [] (fun _ => none))
      (toInt32 (V.length : Int)).toNat 0 [] = .error e) :
    compressASCIIVideo S V = .error e := by
  unfold compressASCIIVideo
  dsimp only
  rw [hT]
  dsimp only
  rw [hl]

theorem compressASCIIVideo_ok (S : StdImpl) (V : ASCIIVideo) (T : Node)
    (hT : buildHuffmanTree S (countChars V (fun _ => none)) = .ok T) (frames : List Byte)
    (hl : compressFramesLoop V (generateCodes T [] (fun _ => none))
      (toInt32 (V.length : Int)).toNat 0 [] = .ok frames) :
    compressASCIIVideo S V =
      .ok (writeInt (V.length : Int) ++ writeHuffmanTree T ++ frames) := by
  unfold compressASCIIVideo
  dsimp only
  rw [hT]
  dsimp only
  rw [hl, writeInt_toInt32]

/-! ## A frame longer than the working frame of the decoder -/

theorem deltaBits_append (codes : CodeTable) (prevFrame : Frame) : ∀ (a b : Frame) (i : Nat),
    deltaBits codes prevFrame (a ++ b) i =
      deltaBits codes prevFrame a i ++ deltaBits codes prevFrame b (i + a.length) ∧
    deltaCount prevFrame (a ++ b) i =
      deltaCount prevFrame a i + deltaCount prevFrame b (i + a.length) := by
  intro a
  induction a with
  | nil => intro b i; simp [deltaBits, deltaCount]
  | cons p rest ih =>
    intro b i
    have h := ih b (i + 1)
    have e : i + 1 + rest.length = i + (p :: rest).length := by
      rw [List.length_cons]; omega
    rw [e] at h
    rw [List.cons_append, deltaBits, deltaCount, h.1, h.2, deltaBits, deltaCount]
    constructor
    · rw [List.append_assoc]
    · omega

theorem cellChanged_of_le (prevFrame : Frame) (i : Nat) (p : Pixel)
    (h : prevFrame.length ≤ i) : cellChanged prevFrame i p = true := by
  unfold cellChanged
  rw [List.get?_eq_none.mpr h]

theorem deltaDecodeLoop_long (T : Node) (codes : CodeTable) (prevFrame frame work : Frame)
    (post : List Char)
    (hdec : ∀ p ∈ frame, Decodes T codes p.1) (hprev : prevFrame.length ≤ work.length)
    (hlong : work.length < frame.length) (hw : work.length < 2147483648)
    (hL : (deltaBits codes prevFrame frame 0).length < 2147483648) :
    deltaDecodeLoop T (deltaBits codes prevFrame frame 0 ++ post)
      (deltaCount prevFrame frame 0) 0 work = .error .out_of_range := by
  obtain ⟨a, p, b, hframe, ha⟩ : ∃ a p b, frame = a ++ p :: b ∧ a.length = work.length := by
    have hd : frame.drop work.length ≠ [] := by
      intro h
      have := congrArg List.length h
      rw [List.length_drop, List.length_nil] at this
      omega
    obtain ⟨p, b, hpb⟩ := List.exists_cons_of_ne_nil hd
    refine ⟨frame.take work.length, p, b, ?_, ?_⟩
    · rw [← hpb, List.take_append_drop]
    · rw [List.length_take]; omega
  subst hframe
  have happ := deltaBits_append codes prevFrame a (p :: b) 0
  have hc : cellChanged prevFrame (0 + a.length) p = true :=
    cellChanged_of_le prevFrame _ p (by omega)
  rw [deltaBits, deltaCount, if_pos hc, if_pos hc] at happ
  rw [happ.1] at hL
  rw [happ.1, happ.2]
  have hdeca : ∀ q ∈ a, Decodes T codes q.1 := fun q hq => hdec q (by simp [hq])
  simp only [List.length_append, bitsetToString_length] at hL
  have e1 : deltaCount prevFrame a 0 + (1 + deltaCount prevFrame b (0 + a.length + 1)) =
      deltaCount prevFrame a 0 + (deltaCount prevFrame b (0 + a.length + 1) + 1) := by omega
  rw [e1, deltaDecodeLoop_split]
  have h1 := deltaDecodeLoop_eq T codes prevFrame a 0 []
    ((bitsetToString 32 (0 + a.length) ++ cellBits (codeOf codes p.1) p ++
      deltaBits codes prevFrame b (0 + a.length + 1)) ++ post) work hdeca (by omega) hw
    (by simp only [List.length_nil]; omega)
  simp only [List.nil_append, List.length_nil, Nat.cast_zero, Nat.zero_add] at h1
  simp only [Nat.zero_add, List.append_assoc] at h1 ⊢
  rw [h1]
  simp only
  apply deltaDecodeLoop_bad_index T _ (bitsetToString 32 a.length)
  · exact substr_at _ (deltaBits codes prevFrame a 0) (bitsetToString 32 a.length)
      (cellBits (codeOf codes p.1) p ++ (deltaBits codes prevFrame b (a.length + 1) ++ post))
      (by simp only [List.append_assoc]) _ _ rfl (by rw [bitsetToString_length]; rfl)
  · exact isBits_bitsetToString 32 a.length
  · exact bitsetToString_length 32 a.length
  · rw [applyDelta_length, binaryValue_bitsetToString, Nat.mod_eq_of_lt (by norm_num; omega)]
    omega

theorem deltaBits_length_ge (codes : CodeTable) (prevFrame : Frame) : ∀ (frame : Frame)
    (i : Nat), 64 * deltaCount prevFrame frame i ≤ (deltaBits codes prevFrame frame i).length := by
  intro frame
  induction frame with
  | nil => intro i; simp [deltaCount, deltaBits]
  | cons p rest ih =>
    intro i
    have := ih (i + 1)
    rw [deltaCount, deltaBits]
    split
    · simp only [List.length_append, bitsetToString_length, cellBits_length]
      omega
    · simp only [List.nil_append]
      omega

theorem decodeFrame_delta_fail (T : Node) (codes : CodeTable) (frame prevFrame work : Frame)
    (rest : List Byte) (video : ASCIIVideo) (i : Int) (hi : i ≠ 0)
    (hwork : video.find (i - 1) = some work)
    (h : ∀ p ∈ frame, Decodes T codes p.1) (hprev : prevFrame.length ≤ work.length)
    (hlong : work.length < frame.length) (hw : work.length < 2147483648)
    (hL : (deltaBits codes prevFrame frame 0).length + 8 ≤ 2147483648) :
    decodeFrame T i (writeInt (deltaCount prevFrame frame 0) ++
        (writeInt (deltaBits codes prevFrame frame 0).length ++
        chunkBytes (((deltaBits codes prevFrame frame 0).length + 7) / 8)
          (deltaBits codes prevFrame frame 0) ++
        [Fin.ofNat ((deltaBits codes prevFrame frame 0).length % 8)]) ++ rest) video =
      .error .out_of_range := by
  have hc := deltaBits_length_ge codes prevFrame frame 0
  unfold decodeFrame
  rw [if_neg hi]
  simp only [List.append_assoc]
  rw [readInt_writeInt, ok_bind]
  simp only
  rw [readInt_writeInt, ok_bind]
  simp only
  rw [toInt32_natCast (deltaBits codes prevFrame frame 0).length (by omega),
    toInt32_natCast (deltaCount prevFrame frame 0) (by omega), ← List.append_assoc,
    readBits_packed _ _ _ (isBits_deltaBits T codes prevFrame frame 0 h) hL, ok_bind]
  simp only [List.tail_cons, hwork, Option.getD_some, Int.toNat_ofNat]
  have hd := deltaDecodeLoop_long T codes prevFrame frame work [] h hprev hlong hw (by omega)
  rw [List.append_nil] at hd
  rw [hd]
  rfl

theorem compressFramesLoop_ok (T : Node) (codes : CodeTable) (V : ASCIIVideo)
    (frames : List Frame)
    (hfind : ∀ k fr, frames.get? k = some fr → V.find (k : Int) = some fr)
    (hdec : ∀ fr ∈ frames, ∀ p ∈ fr, Decodes T codes p.1)
    (hbits : ∀ k fr, frames.get? k = some fr →
      (if k = 0 then fullBits codes fr
        else deltaBits codes ((frames.get? (k - 1)).getD []) fr 0).length + 8 ≤ 2147483648) :
    ∀ (todo done : List Frame), frames = done ++ todo →
      ∃ bytes, compressFramesLoop V codes todo.length (done.length : Int)
          (done.getLast?.getD []) = .ok bytes := by
  intro todo
  induction todo with
  | nil => intro done _; exact ⟨[], rfl⟩
  | cons f t ih =>
    intro done hfr
    have hget : frames.get? done.length = some f := by
      rw [hfr, List.get?_eq_getElem?, List.getElem?_append_right (le_refl _)]; simp
    have hfmem : f ∈ frames := by rw [hfr]; simp
    have hat : V.at (done.length : Int) = .ok f := by
      unfold ASCIIVideo.at; rw [hfind _ _ hget]
    obtain ⟨more, hmore⟩ := ih (done ++ [f]) (by rw [hfr]; simp)
    have e1 : ((done ++ [f]).length : Int) = (done.length : Int) + 1 := by simp
    have e2 : (done ++ [f]).getLast?.getD [] = f := by simp
    rw [e1, e2] at hmore
    have hb := hbits _ _ hget
    rcases List.eq_nil_or_concat done with hd | ⟨d0, prev, hd⟩
    · subst hd
      simp only [List.length_nil, Nat.cast_zero, if_true] at hb hat hmore ⊢
      have hcf := compressFrame_full_eq T codes f [] (hdec f hfmem) hb
      refine ⟨(writeInt f.length ++ (writeInt (fullBits codes f).length ++
        chunkBytes (((fullBits codes f).length + 7) / 8) (fullBits codes f) ++
        [Fin.ofNat ((fullBits codes f).length % 8)])) ++ more, ?_⟩
      rw [List.length_cons, compressFramesLoop]
      simp only [hat]
      have : decide ((0 : Int) ≠ 0) = false := by decide
      simp only [this, List.getLast?_nil, Option.getD_none, hcf, hmore]
    · rw [List.concat_eq_append] at hd
      subst hd
      have hprev : frames.get? d0.length = some prev := by
        rw [hfr, List.get?_eq_getElem?, List.append_assoc,
          List.getElem?_append_right (le_refl _)]
        simp
      have hlenD : (d0 ++ [prev]).length = d0.length + 1 := by simp
      have hk : (d0 ++ [prev]).length ≠ 0 := by omega
      rw [if_neg hk] at hb
      have hk1 : (d0 ++ [prev]).length - 1 = d0.length := by omega
      rw [hk1, hprev] at hb
      simp only [Option.getD_some] at hb
      have hcf := compressFrame_delta_eq T codes f prev (hdec f hfmem) hb
      have hi : ((d0 ++ [prev]).length : Int) ≠ 0 := by omega
      have hlast : (d0 ++ [prev]).getLast?.getD [] = prev := by simp
      refine ⟨(writeInt (deltaCount prev f 0) ++
        (writeInt (deltaBits codes prev f 0).length ++
        chunkBytes (((deltaBits codes prev f 0).length + 7) / 8) (deltaBits codes prev f 0) ++
        [Fin.ofNat ((deltaBits codes prev f 0).length % 8)])) ++ more, ?_⟩
      rw [List.length_cons, compressFramesLoop]
      simp only [hat]
      have : decide (((d0 ++ [prev]).length : Int) ≠ 0) = true := by
        simpa using hi
      simp only [this, hlast, hcf, hmore]

theorem frames_decode_fail (T : Node) (codes : CodeTable) (V : ASCIIVideo)
    (frames : List Frame) (m k : Nat)
    (hfind : ∀ j fr, frames.get? j = some fr → V.find (j : Int) = some fr)
    (hdec : ∀ fr ∈ frames, ∀ p ∈ fr, Decodes T codes p.1)
    (hm : m < 2147483648)
    (hbits : ∀ j fr, frames.get? j = some fr →
      (if j = 0 then fullBits codes fr
        else deltaBits codes ((frames.get? (j - 1)).getD []) fr 0).length + 8 ≤ 2147483648)
    (h0 : ∀ fr, frames.get? 0 = some fr → fr.length = m)
    (hbefore : ∀ j fr, j < k → frames.get? j = some fr → fr.length ≤ m)
    (hk : ∃ fk, frames.get? k = some fk ∧ m < fk.length) :
    ∀ (todo done dec : List Frame), frames = done ++ todo → done.length ≤ k →
      dec.length = done.length → (∀ d ∈ dec, d.length = m) →
      ∃ bytes, compressFramesLoop V codes todo.length (done.length : Int)
          (done.getLast?.getD []) = .ok bytes ∧
        ∀ rest, decodeFramesLoop T todo.length (done.length : Int) (bytes ++ rest)
          (videoOfFrames dec) = .error .out_of_range := by
  obtain ⟨fk, hfk, hfklen⟩ := hk
  intro todo
  induction todo with
  | nil =>
    intro done dec hfr hle _ _
    exfalso
    rw [List.append_nil] at hfr
    have := (List.get?_eq_some.mp hfk).1
    rw [hfr] at this
    omega
  | cons f t ih =>
    intro done dec hfr hle hdl hdm
    have hget : frames.get? done.length = some f := by
      rw [hfr, List.get?_eq_getElem?, List.getElem?_append_right (le_refl _)]; simp
    have hfmem : f ∈ frames := by rw [hfr]; simp
    have hat : V.at (done.length : Int) = .ok f := by
      unfold ASCIIVideo.at; rw [hfind _ _ hget]
    have e1 : ((done ++ [f]).length : Int) = (done.length : Int) + 1 := by simp
    have e2 : (done ++ [f]).getLast?.getD [] = f := by simp
    have hb := hbits _ _ hget
    obtain ⟨more0, hmore0⟩ := compressFramesLoop_ok T codes V frames hfind hdec hbits t
      (done ++ [f]) (by rw [hfr]; simp)
    rw [e1, e2] at hmore0
    rcases List.eq_nil_or_concat done with hd | ⟨d0, prev, hd⟩
    · subst hd
      have hdec0 : dec = [] := List.length_eq_zero.mp (by simpa using hdl)
      subst hdec0
      have hf0 : f.length = m := h0 f (by simpa using hget)
      have hk0 : 0 < k := by
        by_contra hcon
        have hk0 : k = 0 := by omega
        rw [hk0] at hfk
        have : fk = f := by
          simp only [List.length_nil] at hget
          rw [hget] at hfk
          exact (Option.some.inj hfk).symm
        rw [this] at hfklen
        omega
      obtain ⟨more, hmore, hdecmore⟩ := ih [f] [f.map lowByteCell] (by rw [hfr]; simp)
        (by simpa using hk0) (by simp)
        (fun d hd => by rw [List.mem_singleton.mp hd, List.length_map]; exact hf0)
      simp only [List.length_nil, Nat.cast_zero, if_true, List.length_singleton, Nat.cast_one,
        List.getLast?_singleton, Option.getD_some] at hb hat hmore hdecmore ⊢
      have hcf := compressFrame_full_eq T codes f [] (hdec f hfmem) hb
      have hdf := fun rest => decodeFrame_full_eq T codes f rest (videoOfFrames [])
        (hdec f hfmem) hb
      refine ⟨(writeInt f.length ++ (writeInt (fullBits codes f).length ++
        chunkBytes (((fullBits codes f).length + 7) / 8) (fullBits codes f) ++
        [Fin.ofNat ((fullBits codes f).length % 8)])) ++ more, ?_, fun rest => ?_⟩
      · rw [List.length_cons, compressFramesLoop]
        simp only [hat]
        have : decide ((0 : Int) ≠ 0) = false := by decide
        simp only [this, List.getLast?_nil, Option.getD_none, hcf, Int.zero_add, hmore]
      · rw [List.length_cons, decodeFramesLoop, List.append_assoc, hdf]
        simp only
        have hset : ASCIIVideo.set (videoOfFrames []) 0 (f.map lowByteCell) =
            videoOfFrames ([] ++ [f.map lowByteCell]) := videoOfFrames_set [] _
        rw [hset]
        have := hdecmore rest
        simpa using this
    · rw [List.concat_eq_append] at hd
      subst hd
      obtain ⟨e0, work, hde⟩ : ∃ e0 work, dec = e0 ++ [work] := by
        rcases List.eq_nil_or_concat dec with h | ⟨e0, work, h⟩
        · rw [h] at hdl; simp at hdl
        · exact ⟨e0, work, by rw [h, List.concat_eq_append]⟩
      subst hde
      have hwm : work.length = m := hdm work (by simp)
      have hprev : frames.get? d0.length = some prev := by
        rw [hfr, List.get?_eq_getElem?, List.append_assoc,
          List.getElem?_append_right (le_refl _)]
        simp
      have hlenD : (d0 ++ [prev]).length = d0.length + 1 := by simp
      have hlenE : (e0 ++ [work]).length = d0.length + 1 := by rw [hdl, hlenD]
      have hpm : prev.length ≤ m := hbefore d0.length prev (by omega) hprev
      have hkne : (d0 ++ [prev]).length ≠ 0 := by omega
      rw [if_neg hkne] at hb
      have hk1 : (d0 ++ [prev]).length - 1 = d0.length := by omega
      rw [hk1, hprev] at hb
      simp only [Option.getD_some] at hb
      have hcf := compressFrame_delta_eq T codes f prev (hdec f hfmem) hb
      have hi : ((d0 ++ [prev]).length : Int) ≠ 0 := by omega
      have hwork : ASCIIVideo.find (videoOfFrames (e0 ++ [work]))
          (((d0 ++ [prev]).length : Int) - 1) = some work := by
        rw [videoOfFrames_find]
        have hj : (((d0 ++ [prev]).length : Int) - 1).toNat = e0.length := by
          simp only [List.length_append, List.length_singleton] at hlenE hlenD ⊢
          omega
        rw [if_pos (by rw [hj]; simp), hj]
        simp
      have hlast : (d0 ++ [prev]).getLast?.getD [] = prev := by simp
      have hdectrue : decide (((d0 ++ [prev]).length : Int) ≠ 0) = true := by
        simpa using hi
      by_cases hlt : (d0 ++ [prev]).length < k
      · have hfm : f.length ≤ m := hbefore _ f hlt hget
        have hdf := fun rest => decodeFrame_delta_eq T codes f prev work rest
          (videoOfFrames (e0 ++ [work])) _ hi hwork (hdec f hfmem) (by omega) (by omega) hb
        obtain ⟨more, hmore, hdecmore⟩ := ih (d0 ++ [prev] ++ [f])
          (e0 ++ [work] ++ [applyDelta prev f 0 work]) (by rw [hfr]; simp)
          (by simp only [List.length_append, List.length_singleton] at hlt ⊢; omega)
          (by simp only [List.length_append, List.length_singleton] at hlenE hlenD ⊢; omega)
          (fun d hd => by
            rcases List.mem_append.mp hd with h | h
            · exact hdm d h
            · rw [List.mem_singleton.mp h, applyDelta_length]; exact hwm)
        rw [e1, e2] at hmore
        refine ⟨(writeInt (deltaCount prev f 0) ++
          (writeInt (deltaBits codes prev f 0).length ++
          chunkBytes (((deltaBits codes prev f 0).length + 7) / 8) (deltaBits codes prev f 0) ++
          [Fin.ofNat ((deltaBits codes prev f 0).length % 8)])) ++ more, ?_, fun rest => ?_⟩
        · rw [List.length_cons, compressFramesLoop]
          simp only [hat]
          simp only [hdectrue, hlast, hcf, hmore]
        · rw [List.length_cons, decodeFramesLoop, List.append_assoc, hdf]
          simp only
          have hidx : ((d0 ++ [prev]).length : Int) = ((e0 ++ [work]).length : Int) := by
            rw [hdl]
          rw [hidx, videoOfFrames_set]
          have := hdecmore rest
          rw [e1, hidx] at this
          exact this
      · have hkeq : (d0 ++ [prev]).length = k := by omega
        have hfeq : fk = f := by
          rw [← hkeq, hget] at hfk
          exact (Option.some.inj hfk).symm
        rw [hfeq] at hfklen
        have hdf := fun rest => decodeFrame_delta_fail T codes f prev work rest
          (videoOfFrames (e0 ++ [work])) _ hi hwork (hdec f hfmem) (by omega) (by omega)
          (by omega) hb
        refine ⟨(writeInt (deltaCount prev f 0) ++
          (writeInt (deltaBits codes prev f 0).length ++
          chunkBytes (((deltaBits codes prev f 0).length + 7) / 8) (deltaBits codes prev f 0) ++
          [Fin.ofNat ((deltaBits codes prev f 0).length % 8)])) ++ more0, ?_, fun rest => ?_⟩
        · rw [List.length_cons, compressFramesLoop]
          simp only [hat]
          simp only [hdectrue, hlast, hcf, hmore0]
        · rw [List.length_cons, decodeFramesLoop, List.append_assoc, hdf]

theorem growing_video_fails (S : StdImpl) (hS : S.Lawful) (V : ASCIIVideo) (n k : Nat)
    (hn2 : n < 2147483648)
    (hkeys : (V.map Prod.fst).Perm ((List.range n).map Int.ofNat))
    (hk : k < n) (hlong : (frameAt V 0).length < (frameAt V k).length)
    (hbefore : ∀ j, j < k → (frameAt V j).length ≤ (frameAt V 0).length)
    (hbits : ∀ i, i < n → (frameBitString S V i).length + 8 ≤ 2147483648) :
    ∃ bytes, compressASCIIVideo S V = .ok bytes ∧
      decompressStream bytes = .error .out_of_range ∧
      decompressASCIIVideo ".bin" (.file bytes) = .ok [] := by
  have hVlen : V.length = n := by
    have := hkeys.length_eq
    simpa using this
  obtain ⟨hfk, hmemk⟩ := find_frameAt V n hkeys k hk
  obtain ⟨p0, hp0⟩ : ∃ p0, p0 ∈ frameAt V k := by
    cases hfa : frameAt V k with
    | nil => rw [hfa] at hlong; simp at hlong
    | cons p r => exact ⟨p, by simp⟩
  have hsome : ∀ e ∈ V, ∀ p ∈ e.2, ((countChars V (fun _ => none)) p.1).isSome = true :=
    fun e he p hp => (countChars_isSome V _ p.1).mpr (Or.inr ⟨e, he, p, hp, rfl⟩)
  have hne : (countChars V (fun _ => none)).entries ≠ [] := by
    intro h
    have := (entries_keys_mem _ p0.1).mpr (hsome _ hmemk p0 hp0)
    rw [h] at this
    simp at this
  obtain ⟨T, hT, hprop, _⟩ := buildHuffmanTree_spec S hS _ hne
  have hcodes : videoCodes S V = generateCodes T [] (fun _ => none) := by
    unfold videoCodes; rw [hT]
  have hframes : ∀ fr ∈ framesOf V n, ∃ e ∈ V, e.2 = fr := by
    intro fr hfr
    obtain ⟨j, hj⟩ := List.get?_of_mem hfr
    obtain ⟨hjn, rfl⟩ := framesOf_get? V n j fr hj
    exact ⟨_, (find_frameAt V n hkeys j hjn).2, rfl⟩
  have hm2 : (frameAt V 0).length < 2147483648 := by
    have h0 := hbits 0 (by omega)
    unfold frameBitString at h0
    rw [if_pos rfl] at h0
    have := fullBits_length_ge (videoCodes S V) (frameAt V 0)
    omega
  obtain ⟨fb, hfb, hdecode⟩ := frames_decode_fail T.strip (generateCodes T [] (fun _ => none)) V
    (framesOf V n) (frameAt V 0).length k
    (fun j fr h => by
      obtain ⟨hjn, rfl⟩ := framesOf_get? V n j fr h
      exact (find_frameAt V n hkeys j hjn).1)
    (fun fr hfr p hp => by
      obtain ⟨e, he, rfl⟩ := hframes fr hfr
      exact (built_decodes S hS _ T hT p.1 (hsome e he p hp)).1)
    hm2
    (fun j fr h => by
      obtain ⟨hjn, rfl⟩ := framesOf_get? V n j fr h
      have hb := hbits j hjn
      unfold frameBitString at hb
      rw [hcodes] at hb
      by_cases hj0 : j = 0
      · rw [if_pos hj0] at hb ⊢
        subst hj0
        exact hb
      · rw [if_neg hj0] at hb ⊢
        rw [framesOf_get?_lt V n (j - 1) (by omega)]
        exact hb)
    (fun fr h => by
      obtain ⟨_, rfl⟩ := framesOf_get? V n 0 fr h
      rfl)
    (fun j fr hj h => by
      obtain ⟨_, rfl⟩ := framesOf_get? V n j fr h
      exact hbefore j hj)
    ⟨frameAt V k, framesOf_get?_lt V n k hk, hlong⟩
    (framesOf V n) [] [] rfl (by simp) rfl (by simp)
  simp only [framesOf_length, List.length_nil, Nat.cast_zero, List.getLast?_nil,
    Option.getD_none] at hfb hdecode
  have hnum : toInt32 (V.length : Int) = (n : Int) := by
    rw [hVlen]; exact toInt32_natCast n hn2
  have hds : decompressStream (writeInt (n : Int) ++ writeHuffmanTree T ++ fb) =
      .error .out_of_range := by
    unfold decompressStream
    rw [List.append_assoc, readInt_writeInt, ok_bind]
    simp only
    rw [readHuffmanTree_write T hprop, ok_bind]
    simp only
    rw [proper_ne_null _ (strip_proper T hprop)]
    simp only [Bool.false_eq_true, if_false]
    rw [toInt32_natCast n hn2, Int.toNat_ofNat]
    have := hdecode []
    rw [List.append_nil] at this
    exact this
  refine ⟨writeInt (n : Int) ++ writeHuffmanTree T ++ fb, ?_, hds, ?_⟩
  · rw [compressASCIIVideo_ok S V T hT fb (by rw [hnum, Int.toNat_ofNat]; exact hfb), hVlen]
  · unfold decompressASCIIVideo
    rw [if_neg (by decide)]
    simp only
    rw [hds]

theorem first_frame_overflow (S : StdImpl) (hS : S.Lawful) (s : Byte) (c : rgb) (k : Nat)
    (V : ASCIIVideo) (hfind : ASCIIVideo.find V 0 = some (List.replicate k (s, c)))
    (hall : ∀ e ∈ V, ∀ p ∈ e.2, p.1 = s) (hlen : 0 < toInt32 (V.length : Int))
    (h1 : 2147483648 < k * 33 + 8) (h2 : k * 33 < 2147483648) :
    compressASCIIVideo S V = .error .undefined_behaviour := by
  have hk : k ≠ 0 := by omega
  obtain ⟨n, hn⟩ := single_symbol_tree S hS s V hall
    ⟨_, find_some_mem V 0 _ hfind, by
      intro h
      have := congrArg List.length h
      rw [List.length_replicate] at this
      exact hk this⟩
  have hat : ASCIIVideo.at V 0 = .ok (List.replicate k (s, c)) := by
    unfold ASCIIVideo.at; rw [hfind]
  apply compressASCIIVideo_error S V _ hn
  obtain ⟨r, hr⟩ : ∃ r, (toInt32 (V.length : Int)).toNat = r + 1 :=
    ⟨(toInt32 (V.length : Int)).toNat - 1, by omega⟩
  rw [hr, compressFramesLoop]
  simp only [hat]
  have hd : decide ((0 : Int) ≠ 0) = false := rfl
  rw [hd, (single_frame_overflow S hS s c k h1 h2).1]

theorem wrapped_count_video (S : StdImpl) (hS : S.Lawful) (s : Byte) (V : ASCIIVideo)
    (hall : ∀ e ∈ V, ∀ p ∈ e.2, p.1 = s) (hne : ∃ e ∈ V, e.2 ≠ [])
    (hwrap : toInt32 (V.length : Int) ≤ 0) :
    compressASCIIVideo S V = .ok (writeInt (V.length : Int) ++ [1, s]) ∧
    decompressStream (writeInt (V.length : Int) ++ [1, s]) = .ok [] := by
  obtain ⟨cnt, hcnt⟩ := single_symbol_tree S hS s V hall hne
  have hz : (toInt32 (V.length : Int)).toNat = 0 := by omega
  constructor
  · rw [compressASCIIVideo_ok S V _ hcnt [] (by rw [hz]; rfl)]
    rfl
  · unfold decompressStream
    rw [readInt_writeInt, ok_bind]
    simp only
    have hr : readHuffmanTree [1, s] = .ok (Node.mk s 0 Node.null Node.null, []) := by
      unfold readHuffmanTree
      simp [readHuffmanTreeAux]
    rw [hr, ok_bind]
    simp only [Node.isNull, Bool.false_eq_true, if_false, hz, decodeFramesLoop]

/-! ## Leaf depths of full binary trees -/

theorem fullDepths_pair : FullDepths (1 ::ₘ 1 ::ₘ 0) :=
  FullDepths.split 0 0 FullDepths.leaf

theorem fullDepths_merge (D : Multiset Nat) (h : FullDepths D) :
    2 ≤ Multiset.card D →
    ∃ (m : Nat) (E : Multiset Nat), D = (m + 1) ::ₘ (m + 1) ::ₘ E ∧
      (∀ d ∈ D, d ≤ m + 1) ∧ FullDepths (m ::ₘ E) := by
  induction h with
  | leaf => intro hc; simp at hc
  | split d D h ih =>
    intro _
    by_cases hall : ∀ x ∈ D, x ≤ d + 1
    · refine ⟨d, D, rfl, ?_, h⟩
      intro x hx
      simp only [Multiset.mem_cons] at hx
      rcases hx with hx | hx | hx
      · omega
      · omega
      · exact hall x hx
    · push_neg at hall
      obtain ⟨x, hx, hxd⟩ := hall
      have hc : 2 ≤ Multiset.card (d ::ₘ D) := by
        rw [Multiset.card_cons]
        have := Multiset.card_pos_iff_exists_mem.mpr ⟨x, hx⟩
        omega
      obtain ⟨m, E, hE, hmax, hok⟩ := ih hc
      have hxm : x ≤ m + 1 := hmax x (Multiset.mem_cons_of_mem hx)
      have hdE : d ∈ (m + 1) ::ₘ (m + 1) ::ₘ E := by rw [← hE]; exact Multiset.mem_cons_self d D
      simp only [Multiset.mem_cons] at hdE
      have hdE2 : d ∈ E := by
        rcases hdE with h1 | h1 | h1
        · omega
        · omega
        · exact h1
      obtain ⟨F, hF⟩ := Multiset.exists_cons_of_mem hdE2
      have hD : D = (m + 1) ::ₘ (m + 1) ::ₘ F := by
        have h2 : d ::ₘ D = d ::ₘ ((m + 1) ::ₘ (m + 1) ::ₘ F) := by
          rw [hE, hF]
          simp only [← Multiset.singleton_add]
          ac_rfl
        exact (Multiset.cons_inj_right d).mp h2
      refine ⟨m, (d + 1) ::ₘ (d + 1) ::ₘ F, ?_, ?_, ?_⟩
      · rw [hD]
        simp only [← Multiset.singleton_add]
        ac_rfl
      · intro y hy
        simp only [Multiset.mem_cons] at hy
        rcases hy with hy | hy | hy
        · omega
        · omega
        · exact hmax y (Multiset.mem_cons_of_mem hy)
      · have e1 : m ::ₘ (d + 1) ::ₘ (d + 1) ::ₘ F = (d + 1) ::ₘ (d + 1) ::ₘ m ::ₘ F := by
          simp only [← Multiset.singleton_add]
          ac_rfl
        rw [e1]
        apply FullDepths.split
        rw [Multiset.cons_swap d m F, ← hF]
        exact hok

theorem fullDepths_join_one (A : Multiset Nat) (h : FullDepths A) :
    FullDepths (1 ::ₘ A.map Nat.succ) := by
  induction h with
  | leaf => exact fullDepths_pair
  | split d D _ ih =>
    have e1 : 1 ::ₘ Multiset.map Nat.succ ((d + 1) ::ₘ (d + 1) ::ₘ D) =
        Nat.succ (d + 1) ::ₘ Nat.succ (d + 1) ::ₘ 1 ::ₘ Multiset.map Nat.succ D := by
      rw [Multiset.map_cons, Multiset.map_cons]
      simp only [← Multiset.singleton_add]
      ac_rfl
    rw [e1]
    apply FullDepths.split (d + 1)
    rw [Multiset.cons_swap (d + 1) 1]
    rw [Multiset.map_cons] at ih
    exact ih

theorem fullDepths_join (A B : Multiset Nat) (hA : FullDepths A) (hB : FullDepths B) :
    FullDepths (A.map Nat.succ + B.map Nat.succ) := by
  induction hB with
  | leaf =>
    rw [Multiset.map_singleton, add_comm, Multiset.singleton_add]
    exact fullDepths_join_one A hA
  | split d D _ ih =>
    rw [Multiset.map_cons, Multiset.map_cons, Multiset.add_cons, Multiset.add_cons]
    apply FullDepths.split (d + 1)
    rw [Multiset.map_cons, Multiset.add_cons] at ih
    exact ih

theorem fullDepths_single (D : Multiset Nat) (h : FullDepths D) :
    Multiset.card D = 1 → D = {0} := by
  cases h with
  | leaf => intro _; rfl
  | split d D _ => intro hc; simp at hc

/-! ## Exchange: the two smallest weights can be made siblings at the greatest depth -/

theorem assignmentCost_cons (e : Nat × Int) (P : Multiset (Nat × Int)) :
    assignmentCost (e ::ₘ P) = (e.1 : Int) * e.2 + assignmentCost P := by
  unfold assignmentCost
  rw [Multiset.map_cons, Multiset.sum_cons]

theorem place_min (P : Multiset (Nat × Int)) (a : Int) (W : Multiset Int) (M : Nat)
    (hw : P.map Prod.snd = a ::ₘ W) (ha : ∀ x ∈ W, a ≤ x)
    (hM : M ∈ P.map Prod.fst) (hmax : ∀ d ∈ P.map Prod.fst, d ≤ M) :
    ∃ Q : Multiset (Nat × Int), ((M, a) ::ₘ Q).map Prod.fst = P.map Prod.fst ∧
      Q.map Prod.snd = W ∧ assignmentCost ((M, a) ::ₘ Q) ≤ assignmentCost P := by
  have hain : a ∈ P.map Prod.snd := by rw [hw]; exact Multiset.mem_cons_self a W
  obtain ⟨e, he, hea⟩ := Multiset.mem_map.mp hain
  obtain ⟨P0, hP0⟩ := Multiset.exists_cons_of_mem he
  obtain ⟨d, a1⟩ := e
  simp only at hea
  subst hea
  have hW0 : P0.map Prod.snd = W := by
    rw [hP0, Multiset.map_cons] at hw
    exact (Multiset.cons_inj_right a1).mp hw
  by_cases hd : d = M
  · subst hd
    exact ⟨P0, by rw [hP0], hW0, by rw [hP0]⟩
  · have hM0 : M ∈ P0.map Prod.fst := by
      rw [hP0, Multiset.map_cons, Multiset.mem_cons] at hM
      rcases hM with h | h
      · exact absurd h.symm hd
      · exact h
    obtain ⟨e2, he2, he2M⟩ := Multiset.mem_map.mp hM0
    obtain ⟨P00, hP00⟩ := Multiset.exists_cons_of_mem he2
    obtain ⟨M1, c⟩ := e2
    simp only at he2M
    subst he2M
    have hc : a1 ≤ c := ha c (by
      rw [← hW0, hP00, Multiset.map_cons]
      exact Multiset.mem_cons_self _ _)
    have hdM : d ≤ M1 := hmax d (by
      rw [hP0, Multiset.map_cons]
      exact Multiset.mem_cons_self _ _)
    refine ⟨(d, c) ::ₘ P00, ?_, ?_, ?_⟩
    · rw [hP0, hP00]
      simp only [Multiset.map_cons]
      exact Multiset.cons_swap _ _ _
    · rw [← hW0, hP00]
      simp only [Multiset.map_cons]
    · rw [hP0, hP00]
      simp only [assignmentCost_cons]
      have h1 : (0 : Int) ≤ ((M1 : Int) - (d : Int)) * (c - a1) :=
        mul_nonneg (by omega) (by omega)
      nlinarith [h1]

theorem exchange_two_minima (P : Multiset (Nat × Int)) (a b : Int) (R : Multiset Int)
    (hv : FullDepths (P.map Prod.fst)) (hw : P.map Prod.snd = a ::ₘ b ::ₘ R)
    (hab : a ≤ b) (hR : ∀ x ∈ R, b ≤ x) :
    ∃ P1 : Multiset (Nat × Int), FullDepths (P1.map Prod.fst) ∧
      P1.map Prod.snd = (a + b) ::ₘ R ∧ assignmentCost P1 + a + b ≤ assignmentCost P := by
  have hcard : 2 ≤ Multiset.card (P.map Prod.fst) := by
    rw [Multiset.card_map, ← Multiset.card_map Prod.snd, hw]
    simp
  obtain ⟨m, E, hE, hmax, hok⟩ := fullDepths_merge _ hv hcard
  have haW : ∀ x ∈ b ::ₘ R, a ≤ x := by
    intro x hx
    rcases Multiset.mem_cons.mp hx with h | h
    · rw [h]; exact hab
    · exact le_trans hab (hR x h)
  obtain ⟨Q, hQ1, hQ2, hQ3⟩ := place_min P a (b ::ₘ R) (m + 1) hw haW
    (by rw [hE]; exact Multiset.mem_cons_self _ _) hmax
  have hQf : Q.map Prod.fst = (m + 1) ::ₘ E := by
    rw [Multiset.map_cons, hE] at hQ1
    exact (Multiset.cons_inj_right _).mp hQ1
  obtain ⟨Q2, hQ21, hQ22, hQ23⟩ := place_min Q b R (m + 1) hQ2 hR
    (by rw [hQf]; exact Multiset.mem_cons_self _ _)
    (by
      intro d hd
      apply hmax
      rw [hE, ← hQf]
      exact Multiset.mem_cons_of_mem hd)
  have hQ2f : Q2.map Prod.fst = E := by
    rw [Multiset.map_cons, hQf] at hQ21
    exact (Multiset.cons_inj_right _).mp hQ21
  refine ⟨(m, a + b) ::ₘ Q2, ?_, ?_, ?_⟩
  · rw [Multiset.map_cons, hQ2f]
    exact hok
  · rw [Multiset.map_cons, hQ22]
  · rw [assignmentCost_cons] at hQ3 hQ23 ⊢
    simp only [Nat.cast_add, Nat.cast_one] at hQ3 hQ23
    show (m : Int) * (a + b) + assignmentCost Q2 + a + b ≤ assignmentCost P
    have e1 : ((m : Int) + 1) * a = (m : Int) * a + a := by ring
    have e2 : ((m : Int) + 1) * b = (m : Int) * b + b := by ring
    have e3 : (m : Int) * (a + b) = (m : Int) * a + (m : Int) * b := by ring
    rw [e1] at hQ3
    rw [e2] at hQ23
    rw [e3]
    omega

/-! ## Weighted path length of a tree -/

theorem leafDepths_map_fst : ∀ (T : Node) (d : Nat),
    (T.leafDepths d).map Prod.fst = T.leaves := by
  intro T
  induction T with
  | null => intro d; rfl
  | mk c f l r ihl ihr =>
    intro d
    rw [Node.leafDepths, Node.leaves]
    by_cases hl : isLeafPair l r = true
    · rw [if_pos hl, if_pos hl]; rfl
    · rw [if_neg hl, if_neg hl, List.map_append, ihl, ihr]

theorem leafDepths_shift : ∀ (T : Node) (d : Nat),
    (T.leafDepths (d + 1)).map Prod.snd = ((T.leafDepths d).map Prod.snd).map Nat.succ := by
  intro T
  induction T with
  | null => intro d; rfl
  | mk c f l r ihl ihr =>
    intro d
    rw [Node.leafDepths, Node.leafDepths]
    by_cases hl : isLeafPair l r = true
    · rw [if_pos hl, if_pos hl]; rfl
    · rw [if_neg hl, if_neg hl, List.map_append, List.map_append, List.map_append, ihl, ihr]

theorem costAt_leaf (w : Byte → Int) (c : Byte) (f : Int) (l r : Node) (d : Nat)
    (h : isLeafPair l r = true) : (Node.mk c f l r).costAt w d = w c * (d : Int) := by
  unfold Node.costAt
  rw [Node.leafDepths, if_pos h]
  simp

theorem costAt_node (w : Byte → Int) (c : Byte) (f : Int) (l r : Node) (d : Nat)
    (h : isLeafPair l r = false) :
    (Node.mk c f l r).costAt w d = l.costAt w (d + 1) + r.costAt w (d + 1) := by
  unfold Node.costAt
  rw [Node.leafDepths, h]
  simp

theorem costAt_succ (w : Byte → Int) : ∀ (T : Node) (d : Nat),
    T.costAt w (d + 1) = T.costAt w d + (T.leaves.map w).sum := by
  intro T
  induction T with
  | null => intro d; rfl
  | mk c f l r ihl ihr =>
    intro d
    by_cases hl : isLeafPair l r = true
    · rw [costAt_leaf w c f l r _ hl, costAt_leaf w c f l r _ hl, Node.leaves, if_pos hl]
      simp only [List.map_cons, List.map_nil, List.sum_cons, List.sum_nil, Nat.cast_add,
        Nat.cast_one]
      ring
    · have hl2 : isLeafPair l r = false := by simpa using hl
      rw [costAt_node w c f l r _ hl2, costAt_node w c f l r _ hl2, ihl (d + 1), ihr (d + 1),
        Node.leaves, if_neg hl, List.map_append, List.sum_append]
      ring

theorem costAt_nil (w : Byte → Int) (T : Node) (d : Nat) (h : T.leaves = []) :
    T.costAt w d = 0 := by
  have h1 : T.leafDepths d = [] := by
    have := leafDepths_map_fst T d
    rw [h] at this
    exact List.map_eq_nil_iff.mp this
  unfold Node.costAt
  rw [h1]
  rfl

theorem costAt_mono (w : Byte → Int) (hw : ∀ s, 0 ≤ w s) (T : Node) (d : Nat) :
    T.costAt w d ≤ T.costAt w (d + 1) := by
  rw [costAt_succ]
  have : 0 ≤ (T.leaves.map w).sum := by
    apply List.sum_nonneg
    intro x hx
    obtain ⟨s, _, rfl⟩ := List.mem_map.mp hx
    exact hw s
  omega

theorem weightedPathLength_eq (f : FreqTable) (T : Node) :
    weightedPathLength f T = T.costAt (weightOf f) 0 := rfl

theorem assignment_cost (w : Byte → Int) (T : Node) :
    assignmentCost (T.assignment w) = T.costAt w 0 := by
  unfold assignmentCost Node.assignment Node.costAt
  rw [Multiset.map_coe, Multiset.sum_coe, List.map_map]
  congr 1
  apply List.map_congr_left
  intro e _
  simp only [Function.comp]
  ring

theorem assignment_snd (w : Byte → Int) (T : Node) :
    (T.assignment w).map Prod.snd = Multiset.ofList (T.leaves.map w) := by
  unfold Node.assignment
  rw [Multiset.map_coe, List.map_map, ← leafDepths_map_fst T 0, List.map_map]
  rfl

theorem assignment_fst (w : Byte → Int) (T : Node) :
    (T.assignment w).map Prod.fst = Multiset.ofList ((T.leafDepths 0).map Prod.snd) := by
  unfold Node.assignment
  rw [Multiset.map_coe, List.map_map]
  rfl

theorem fullDepths_of_proper : ∀ (T : Node), T.proper = true →
    FullDepths (Multiset.ofList ((T.leafDepths 0).map Prod.snd)) := by
  intro T
  induction T with
  | null => intro h; simp [Node.proper] at h
  | mk c f l r ihl ihr =>
    intro h
    rw [Node.leafDepths]
    by_cases hl : isLeafPair l r = true
    · rw [if_pos hl]
      exact FullDepths.leaf
    · have hl2 : isLeafPair l r = false := by simpa using hl
      have hp := proper_children c f l r h hl2
      rw [if_neg hl, List.map_append, leafDepths_shift, leafDepths_shift, ← Multiset.coe_add,
        ← Multiset.map_coe, ← Multiset.map_coe]
      exact fullDepths_join _ _ (ihl hp.1) (ihr hp.2)

/-! ## Optimality of the greedy merge -/

theorem assignmentCost_single (P : Multiset (Nat × Int)) (h : FullDepths (P.map Prod.fst))
    (hc : Multiset.card P = 1) : assignmentCost P = 0 := by
  have h0 := fullDepths_single _ h (by rw [Multiset.card_map]; exact hc)
  unfold assignmentCost
  apply Multiset.sum_eq_zero
  intro x hx
  obtain ⟨e, he, rfl⟩ := Multiset.mem_map.mp hx
  have h1 : e.1 ∈ P.map Prod.fst := Multiset.mem_map_of_mem _ he
  rw [h0, Multiset.mem_singleton] at h1
  rw [h1]
  simp

theorem buildHuffmanTreeLoop_optimal (S : StdImpl) (hS : S.Lawful) (w : Byte → Int) :
    ∀ (fuel : Nat) (heap : List Node), heap.length = fuel → 0 < fuel →
      IsHeap heapCompare heap →
      (∀ x ∈ heap, x.proper = true ∧ x.freq = (x.leaves.map w).sum ∧ 0 ≤ x.freq) →
      (heap.map Node.freq).sum < 2147483648 →
      ∃ root, buildHuffmanTreeLoop S fuel heap = .ok root ∧
        ∀ P : Multiset (Nat × Int), FullDepths (P.map Prod.fst) →
          P.map Prod.snd = Multiset.ofList (heap.map Node.freq) →
          root.costAt w 0 ≤ (heap.map (fun x => x.costAt w 0)).sum + assignmentCost P := by
  intro fuel
  induction fuel with
  | zero => intro heap _ h; omega
  | succ n ih =>
    intro heap hlen _ hheap hinv hsum
    by_cases h1 : heap.length = 1
    · obtain ⟨x, rfl⟩ := List.length_eq_one.mp h1
      rw [buildHuffmanTreeLoop]
      have hne : ¬ ([x].length ≠ 1) := by simp
      rw [if_neg hne]
      refine ⟨x, rfl, ?_⟩
      intro P hP1 hP2
      have hc : Multiset.card P = 1 := by
        rw [← Multiset.card_map Prod.snd, hP2]
        rfl
      rw [assignmentCost_single P hP1 hc]
      simp
    · have h2 : 2 ≤ heap.length := by omega
      obtain ⟨l, r, rest, heap1, hp, hlr, hrest, hh1, hp1, hstep⟩ :=
        buildHuffmanTreeLoop_step S hS n heap hheap h2
      have hl := hinv l (hp.mem_iff.mpr (by simp))
      have hr := hinv r (hp.mem_iff.mpr (by simp))
      have hrestnn : 0 ≤ (rest.map Node.freq).sum := by
        apply List.sum_nonneg
        intro x hx
        obtain ⟨y, hy, rfl⟩ := List.mem_map.mp hx
        exact (hinv y (hp.mem_iff.mpr (by simp [hy]))).2.2
      have hsumeq : (heap.map Node.freq).sum = l.freq + (r.freq + (rest.map Node.freq).sum) := by
        rw [(hp.map Node.freq).sum_eq, List.map_cons, List.map_cons, List.sum_cons,
          List.sum_cons]
      have hnoov : toInt32 (l.freq + r.freq) = l.freq + r.freq := by
        apply toInt32_of_range <;> omega
      rw [hnoov] at hp1
      have htop : (Node.mk 0 (l.freq + r.freq) l r).leaves = l.leaves ++ r.leaves := by
        rw [Node.leaves, isLeafPair_of_proper l r hl.1]
        rfl
      have hlen1 : heap1.length = n := by
        rw [hp1.length_eq, List.length_append, List.length_singleton]
        have := hp.length_eq
        simp only [List.length_cons] at this
        omega
      have hn : 0 < n := by omega
      have hinv1 : ∀ z ∈ heap1,
          z.proper = true ∧ z.freq = (z.leaves.map w).sum ∧ 0 ≤ z.freq := by
        intro z hz
        rcases List.mem_append.mp (hp1.mem_iff.mp hz) with hz1 | hz1
        · exact hinv z (hp.mem_iff.mpr (by simp [hz1]))
        · rw [List.mem_singleton.mp hz1, htop, List.map_append, List.sum_append, ← hl.2.1,
            ← hr.2.1]
          refine ⟨?_, rfl, ?_⟩
          · simp [Node.proper, hl.1, hr.1]
          · show 0 ≤ l.freq + r.freq
            omega
      have hsum1 : (heap1.map Node.freq).sum = (heap.map Node.freq).sum := by
        rw [(hp1.map Node.freq).sum_eq, hsumeq, List.map_append, List.sum_append]
        simp only [List.map_cons, List.map_nil, List.sum_cons, List.sum_nil, Node.freq]
        omega
      obtain ⟨root, hr1, hr2⟩ := ih heap1 hlen1 hn hh1 hinv1 (by rw [hsum1]; exact hsum)
      refine ⟨root, ?_, ?_⟩
      · rw [hstep]
        exact hr1
      · intro P hP1 hP2
        have hP3 : P.map Prod.snd =
            l.freq ::ₘ r.freq ::ₘ Multiset.ofList (rest.map Node.freq) := by
          rw [hP2, Multiset.coe_eq_coe.mpr (hp.map Node.freq)]
          rfl
        obtain ⟨P1, hP11, hP12, hP13⟩ := exchange_two_minima P l.freq r.freq _ hP1 hP3 hlr
          (by
            intro x hx
            obtain ⟨y, hy, rfl⟩ := List.mem_map.mp (Multiset.mem_coe.mp hx)
            exact hrest y hy)
        have hP14 : P1.map Prod.snd = Multiset.ofList (heap1.map Node.freq) := by
          rw [hP12, Multiset.coe_eq_coe.mpr (hp1.map Node.freq), List.map_append,
            ← Multiset.coe_add, add_comm (Multiset.ofList (List.map Node.freq rest))]
          rfl
        have key := hr2 P1 hP11 hP14
        have hc1 : (heap1.map (fun x => x.costAt w 0)).sum =
            (rest.map (fun x => x.costAt w 0)).sum +
              (l.costAt w 0 + l.freq + (r.costAt w 0 + r.freq)) := by
          rw [(hp1.map _).sum_eq, List.map_append, List.sum_append]
          simp only [List.map_cons, List.map_nil, List.sum_cons, List.sum_nil]
          rw [costAt_node w 0 _ l r 0 (isLeafPair_of_proper l r hl.1), costAt_succ, costAt_succ,
            ← hl.2.1, ← hr.2.1]
          ring
        have hc0 : (heap.map (fun x => x.costAt w 0)).sum =
            l.costAt w 0 + (r.costAt w 0 + (rest.map (fun x => x.costAt w 0)).sum) := by
          rw [(hp.map _).sum_eq, List.map_cons, List.map_cons, List.sum_cons, List.sum_cons]
        rw [hc1] at key
        rw [hc0]
        omega

/-! ## Optimality of the tree of `buildHuffmanTree` -/

theorem weightOf_entry (f : FreqTable) (e : Byte × Int) (he : e ∈ f.entries) :
    weightOf f e.1 = e.2 := by
  have h := (entries_mem f e.1 e.2).mp he
  unfold weightOf
  rw [h]
  rfl

theorem weightOf_nonneg (f : FreqTable) (hpos : ∀ e ∈ f.entries, 0 < e.2) (s : Byte) :
    0 ≤ weightOf f s := by
  unfold weightOf
  cases h : f s with
  | none => simp
  | some v =>
    have := hpos (s, v) ((entries_mem f s v).mpr h)
    simp only [Option.getD_some]
    omega

theorem entries_weights (f : FreqTable) :
    (f.entries.map Prod.fst).map (weightOf f) = f.entries.map Prod.snd := by
  rw [List.map_map]
  apply List.map_congr_left
  intro e he
  exact weightOf_entry f e he

theorem contract_tree (w : Byte → Int) (hw : ∀ s, 0 ≤ w s) : ∀ U : Node, U.leaves ≠ [] →
    ∃ V : Node, V.proper = true ∧ V.leaves = U.leaves ∧
      ∀ d, V.costAt w d ≤ U.costAt w d := by
  intro U
  induction U with
  | null => intro h; exact absurd rfl h
  | mk c f l r ihl ihr =>
    intro h
    by_cases hl : isLeafPair l r = true
    · refine ⟨Node.mk c f l r, ?_, rfl, fun d => le_refl _⟩
      simp [Node.proper, hl]
    · have hl2 : isLeafPair l r = false := by simpa using hl
      have hleaves : (Node.mk c f l r).leaves = l.leaves ++ r.leaves := by
        rw [Node.leaves, if_neg hl]
      by_cases h1 : l.leaves = []
      · have h2 : r.leaves ≠ [] := by
          intro h3
          apply h
          rw [hleaves, h1, h3]
          rfl
        obtain ⟨V, hV1, hV2, hV3⟩ := ihr h2
        refine ⟨V, hV1, by rw [hleaves, h1, hV2]; rfl, ?_⟩
        intro d
        rw [costAt_node w c f l r d hl2, costAt_nil w l (d + 1) h1]
        have := hV3 d
        have := costAt_mono w hw r d
        omega
      · by_cases h2 : r.leaves = []
        · obtain ⟨V, hV1, hV2, hV3⟩ := ihl h1
          refine ⟨V, hV1, by rw [hleaves, h2, hV2, List.append_nil], ?_⟩
          intro d
          rw [costAt_node w c f l r d hl2, costAt_nil w r (d + 1) h2]
          have := hV3 d
          have := costAt_mono w hw l d
          omega
        · obtain ⟨V1, hV11, hV12, hV13⟩ := ihl h1
          obtain ⟨V2, hV21, hV22, hV23⟩ := ihr h2
          have hlp : isLeafPair V1 V2 = false := isLeafPair_of_proper V1 V2 hV11
          refine ⟨Node.mk c f V1 V2, ?_, ?_, ?_⟩
          · simp [Node.proper, hV11, hV21]
          · rw [Node.leaves, hlp, hleaves, ← hV12, ← hV22]
            rfl
          · intro d
            rw [costAt_node w c f l r d hl2, costAt_node w c f V1 V2 d hlp]
            have := hV13 (d + 1)
            have := hV23 (d + 1)
            omega

theorem buildHuffmanTree_optimal (S : StdImpl) (hS : S.Lawful) (f : FreqTable)
    (hf : f.entries ≠ []) (hpos : ∀ e ∈ f.entries, 0 < e.2)
    (hsum : (f.entries.map Prod.snd).sum < 2147483648) :
    ∃ T, buildHuffmanTree S f = .ok T ∧
      ∀ U : Node, U.leaves.Perm (f.entries.map Prod.fst) →
        T.costAt (weightOf f) 0 ≤ U.costAt (weightOf f) 0 := by
  obtain ⟨heap0, hp, hh, hb⟩ := initial_heap S hS f hf
  have hlen : 0 < heap0.length := by
    rw [hp.length_eq, List.length_map]
    exact List.length_pos.mpr hf
  have hfreq : (f.entries.map (fun e => Node.mk e.1 e.2 Node.null Node.null)).map Node.freq =
      f.entries.map Prod.snd := by
    rw [List.map_map]
    rfl
  have hinv : ∀ x ∈ heap0, x.proper = true ∧
      x.freq = (x.leaves.map (weightOf f)).sum ∧ 0 ≤ x.freq := by
    intro x hx
    obtain ⟨e, he, rfl⟩ := List.mem_map.mp (hp.mem_iff.mp hx)
    refine ⟨rfl, ?_, ?_⟩
    · show e.2 = ([weightOf f e.1] : List Int).sum
      rw [weightOf_entry f e he]
      simp
    · exact le_of_lt (hpos e he)
  have hs : (heap0.map Node.freq).sum < 2147483648 := by
    rw [(hp.map Node.freq).sum_eq, hfreq]
    exact hsum
  obtain ⟨T, hT1, hT2⟩ :=
    buildHuffmanTreeLoop_optimal S hS (weightOf f) heap0.length heap0 rfl hlen hh hinv hs
  have hzero : (heap0.map (fun x => x.costAt (weightOf f) 0)).sum = 0 := by
    apply List.sum_eq_zero
    intro v hv
    obtain ⟨x, hx, rfl⟩ := List.mem_map.mp hv
    obtain ⟨e, _, rfl⟩ := List.mem_map.mp (hp.mem_iff.mp hx)
    rw [costAt_leaf (weightOf f) e.1 e.2 Node.null Node.null 0 rfl]
    simp
  refine ⟨T, hb.trans hT1, ?_⟩
  intro U hU
  have hne : U.leaves ≠ [] := by
    intro h0
    rw [h0] at hU
    have := hU.length_eq
    simp only [List.length_nil, List.length_map] at this
    exact hf (List.length_eq_zero.mp this.symm)
  obtain ⟨V, hV1, hV2, hV3⟩ := contract_tree (weightOf f) (weightOf_nonneg f hpos) U hne
  have hP1 : FullDepths ((V.assignment (weightOf f)).map Prod.fst) := by
    rw [assignment_fst]
    exact fullDepths_of_proper V hV1
  have hP2 : (V.assignment (weightOf f)).map Prod.snd = Multiset.ofList (heap0.map Node.freq) := by
    rw [assignment_snd, hV2]
    apply Multiset.coe_eq_coe.mpr
    refine (hU.map _).trans ?_
    rw [entries_weights, ← hfreq]
    exact (hp.map Node.freq).symm
  have key := hT2 _ hP1 hP2
  rw [hzero, assignment_cost] at key
  have := hV3 0
  omega

/-! ## From a prefix-free code to a tree -/

theorem sum_filter_split {α : Type} (p : α → Bool) (g : α → Int) (L : List α) :
    (L.map g).sum = ((L.filter p).map g).sum + ((L.filter (fun x => !p x)).map g).sum := by
  rw [← List.sum_append, ← List.map_append]
  exact ((List.filter_append_perm p L).map g).sum_eq.symm

theorem sum_filter_split_nat {α : Type} (p : α → Bool) (g : α → Nat) (L : List α) :
    (L.map g).sum = ((L.filter p).map g).sum + ((L.filter (fun x => !p x)).map g).sum := by
  rw [← List.sum_append, ← List.map_append]
  exact ((List.filter_append_perm p L).map g).sum_eq.symm

theorem prefix_free_nonempty (L : List (Byte × List Char))
    (hpw : L.Pairwise (fun e1 e2 => ¬ e1.2 <+: e2.2 ∧ ¬ e2.2 <+: e1.2))
    (h2 : 2 ≤ L.length) : ∀ e ∈ L, e.2 ≠ [] := by
  cases L with
  | nil => simp at h2
  | cons a t =>
    cases t with
    | nil => simp at h2
    | cons b t =>
      intro e he hnil
      have hab : ∀ x ∈ b :: t, ¬ a.2 <+: x.2 ∧ ¬ x.2 <+: a.2 :=
        (List.pairwise_cons.mp hpw).1
      rcases List.mem_cons.mp he with h | h
      · subst h
        apply (hab b (List.mem_cons_self b t)).1
        rw [hnil]
        exact List.nil_prefix
      · apply (hab e h).2
        rw [hnil]
        exact List.nil_prefix

theorem tails_sum : ∀ (M : List (Byte × List Char)), (∀ e ∈ M, e.2 ≠ []) →
    ((M.map (fun e => (e.1, e.2.tail))).map (fun e => e.2.length)).sum + M.length =
      (M.map (fun e => e.2.length)).sum := by
  intro M
  induction M with
  | nil => intro _; rfl
  | cons a M ih =>
    intro h
    have h1 := ih (fun e he => h e (List.mem_cons_of_mem a he))
    have h2 : a.2 ≠ [] := h a (List.mem_cons_self a M)
    have h3 : a.2.tail.length + 1 = a.2.length := by
      cases ha : a.2 with
      | nil => exact absurd ha h2
      | cons c t => rfl
    simp only [List.map_cons, List.sum_cons, List.length_cons]
    omega

theorem trie_leaf (w : Byte → Int) (hw : ∀ s, 0 ≤ w s) (e : Byte × List Char) :
    ∃ U : Node, U.proper = true ∧ U.leaves.Perm ([e].map Prod.fst) ∧
      ∀ d : Nat, U.costAt w d ≤
        ([e].map (fun e => w e.1 * ((d : Int) + (e.2.length : Int)))).sum := by
  refine ⟨Node.mk e.1 0 Node.null Node.null, rfl, List.Perm.refl _, ?_⟩
  intro d
  rw [costAt_leaf w e.1 0 Node.null Node.null d rfl]
  simp only [List.map_cons, List.map_nil, List.sum_cons, List.sum_nil, add_zero]
  have h1 := hw e.1
  have h2 : (0 : Int) ≤ w e.1 * (e.2.length : Int) := mul_nonneg h1 (by omega)
  rw [mul_add]
  omega

theorem trie_branch (w : Byte → Int) (n : Nat)
    (ih : ∀ L : List (Byte × List Char),
      (L.map (fun e => e.2.length)).sum ≤ n → L ≠ [] → (∀ e ∈ L, IsBits e.2) →
      L.Pairwise (fun e1 e2 => ¬ e1.2 <+: e2.2 ∧ ¬ e2.2 <+: e1.2) →
      ∃ U : Node, U.proper = true ∧ U.leaves.Perm (L.map Prod.fst) ∧
        ∀ d : Nat, U.costAt w d ≤
          (L.map (fun e => w e.1 * ((d : Int) + (e.2.length : Int)))).sum)
    (b : Char) (M : List (Byte × List Char)) (hM : M ≠ [])
    (hsum : (M.map (fun e => e.2.length)).sum ≤ n + 1)
    (hb : ∀ e ∈ M, ∃ t, e.2 = b :: t) (hbits : ∀ e ∈ M, IsBits e.2)
    (hpw : M.Pairwise (fun e1 e2 => ¬ e1.2 <+: e2.2 ∧ ¬ e2.2 <+: e1.2)) :
    ∃ U : Node, U.proper = true ∧ U.leaves.Perm (M.map Prod.fst) ∧
      ∀ d : Nat, U.costAt w (d + 1) ≤
        (M.map (fun e => w e.1 * ((d : Int) + (e.2.length : Int)))).sum := by
  have hne : ∀ e ∈ M, e.2 ≠ [] := by
    intro e he h
    obtain ⟨t, ht⟩ := hb e he
    rw [ht] at h
    cases h
  have hts := tails_sum M hne
  have hlen : 0 < M.length := List.length_pos.mpr hM
  have h1 : ((M.map (fun e => (e.1, e.2.tail))).map (fun e => e.2.length)).sum ≤ n := by omega
  have h2 : M.map (fun e => (e.1, e.2.tail)) ≠ [] := by
    intro h
    exact hM (List.map_eq_nil_iff.mp h)
  have h3 : ∀ e ∈ M.map (fun e => (e.1, e.2.tail)), IsBits e.2 := by
    intro e he c hc
    obtain ⟨e0, he0, rfl⟩ := List.mem_map.mp he
    exact hbits e0 he0 c (List.mem_of_mem_tail hc)
  have h4 : (M.map (fun e => (e.1, e.2.tail))).Pairwise
      (fun e1 e2 => ¬ e1.2 <+: e2.2 ∧ ¬ e2.2 <+: e1.2) := by
    rw [List.pairwise_map]
    refine hpw.imp_of_mem ?_
    intro x y hx hy hxy
    obtain ⟨tx, htx⟩ := hb x hx
    obtain ⟨ty, hty⟩ := hb y hy
    rw [htx, hty] at hxy
    simp only [htx, hty, List.tail_cons]
    exact ⟨fun h => hxy.1 ((List.prefix_cons_inj b).mpr h),
      fun h => hxy.2 ((List.prefix_cons_inj b).mpr h)⟩
  obtain ⟨U, hU1, hU2, hU3⟩ := ih _ h1 h2 h3 h4
  refine ⟨U, hU1, ?_, ?_⟩
  · rw [List.map_map] at hU2
    exact hU2
  · intro d
    refine le_trans (hU3 (d + 1)) (le_of_eq ?_)
    rw [List.map_map]
    congr 1
    apply List.map_congr_left
    intro e he
    obtain ⟨t, ht⟩ := hb e he
    simp only [Function.comp, ht, List.tail_cons, List.length_cons, Nat.cast_add, Nat.cast_one]
    ring

theorem trie_of_prefix_free (w : Byte → Int) (hw : ∀ s, 0 ≤ w s) :
    ∀ (N : Nat) (L : List (Byte × List Char)),
      (L.map (fun e => e.2.length)).sum ≤ N → L ≠ [] → (∀ e ∈ L, IsBits e.2) →
      L.Pairwise (fun e1 e2 => ¬ e1.2 <+: e2.2 ∧ ¬ e2.2 <+: e1.2) →
      ∃ U : Node, U.proper = true ∧ U.leaves.Perm (L.map Prod.fst) ∧
        ∀ d : Nat, U.costAt w d ≤
          (L.map (fun e => w e.1 * ((d : Int) + (e.2.length : Int)))).sum := by
  intro N
  induction N with
  | zero =>
    intro L hsum hL _ hpw
    by_cases h1 : L.length = 1
    · obtain ⟨e, rfl⟩ := List.length_eq_one.mp h1
      exact trie_leaf w hw e
    · exfalso
      have hlen : 0 < L.length := List.length_pos.mpr hL
      have hne := prefix_free_nonempty L hpw (by omega)
      have := tails_sum L hne
      omega
  | succ n ih =>
    intro L hsum hL hbits hpw
    by_cases h1 : L.length = 1
    · obtain ⟨e, rfl⟩ := List.length_eq_one.mp h1
      exact trie_leaf w hw e
    · have hlen : 0 < L.length := List.length_pos.mpr hL
      have hne := prefix_free_nonempty L hpw (by omega)
      have hperm := List.filter_append_perm (fun e : Byte × List Char =>
        decide (e.2.head? = some '0')) L
      have hsplit := sum_filter_split_nat (fun e : Byte × List Char =>
        decide (e.2.head? = some '0')) (fun e => e.2.length) L
      have hcost := fun d : Nat => sum_filter_split (fun e : Byte × List Char =>
        decide (e.2.head? = some '0'))
        (fun e => w e.1 * ((d : Int) + (e.2.length : Int))) L
      generalize hL0 : L.filter (fun e : Byte × List Char =>
        decide (e.2.head? = some '0')) = L0 at hperm hsplit hcost
      generalize hL1 : L.filter (fun e : Byte × List Char =>
        !decide (e.2.head? = some '0')) = L1 at hperm hsplit hcost
      have hsub0 : ∀ e ∈ L0, e ∈ L := fun e he => hperm.subset (List.mem_append_left _ he)
      have hsub1 : ∀ e ∈ L1, e ∈ L := fun e he => hperm.subset (List.mem_append_right _ he)
      have hb0 : ∀ e ∈ L0, ∃ t, e.2 = '0' :: t := by
        intro e he
        rw [← hL0, List.mem_filter] at he
        have h2 := of_decide_eq_true he.2
        cases h3 : e.2 with
        | nil => rw [h3] at h2; cases h2
        | cons c t =>
          rw [h3] at h2
          simp only [List.head?_cons, Option.some.injEq] at h2
          exact ⟨t, by rw [h2]⟩
      have hb1 : ∀ e ∈ L1, ∃ t, e.2 = '1' :: t := by
        intro e he
        have hmem := hsub1 e he
        rw [← hL1, List.mem_filter] at he
        have h2 : ¬ (e.2.head? = some '0') := by simpa using he.2
        cases h3 : e.2 with
        | nil => exact absurd h3 (hne e hmem)
        | cons c t =>
          rw [h3] at h2
          simp only [List.head?_cons, Option.some.injEq] at h2
          rcases hbits e hmem c (by rw [h3]; exact List.mem_cons_self c t) with h4 | h4
          · exact absurd h4 h2
          · exact ⟨t, by rw [h4]⟩
      have hpw0 : L0.Pairwise (fun e1 e2 => ¬ e1.2 <+: e2.2 ∧ ¬ e2.2 <+: e1.2) := by
        rw [← hL0]
        exact hpw.filter _
      have hpw1 : L1.Pairwise (fun e1 e2 => ¬ e1.2 <+: e2.2 ∧ ¬ e2.2 <+: e1.2) := by
        rw [← hL1]
        exact hpw.filter _
      by_cases h0 : L0 = []
      · have hL1ne : L1 ≠ [] := by
          intro h
          rw [h0, h] at hperm
          exact hL hperm.symm.eq_nil
        obtain ⟨U, hU1, hU2, hU3⟩ := trie_branch w n ih '1' L1 hL1ne (by omega) hb1
          (fun e he => hbits e (hsub1 e he)) hpw1
        rw [h0] at hperm hcost
        refine ⟨U, hU1, hU2.trans (hperm.map Prod.fst), ?_⟩
        intro d
        have := hU3 d
        have := costAt_mono w hw U d
        have := hcost d
        simp only [List.map_nil, List.sum_nil, zero_add] at this
        omega
      · by_cases h1e : L1 = []
        · obtain ⟨U, hU1, hU2, hU3⟩ := trie_branch w n ih '0' L0 h0 (by omega) hb0
            (fun e he => hbits e (hsub0 e he)) hpw0
          rw [h1e] at hperm hcost
          rw [List.append_nil] at hperm
          refine ⟨U, hU1, hU2.trans (hperm.map Prod.fst), ?_⟩
          intro d
          have := hU3 d
          have := costAt_mono w hw U d
          have := hcost d
          simp only [List.map_nil, List.sum_nil, add_zero] at this
          omega
        · obtain ⟨U0, hU01, hU02, hU03⟩ := trie_branch w n ih '0' L0 h0 (by omega) hb0
            (fun e he => hbits e (hsub0 e he)) hpw0
          obtain ⟨U1, hU11, hU12, hU13⟩ := trie_branch w n ih '1' L1 h1e (by omega) hb1
            (fun e he => hbits e (hsub1 e he)) hpw1
          have hlp : isLeafPair U0 U1 = false := isLeafPair_of_proper U0 U1 hU01
          refine ⟨Node.mk 0 0 U0 U1, ?_, ?_, ?_⟩
          · simp [Node.proper, hU01, hU11]
          · rw [Node.leaves, hlp]
            refine List.Perm.trans ?_ (hperm.map Prod.fst)
            rw [List.map_append]
            exact hU02.append hU12
          · intro d
            rw [costAt_node w 0 0 U0 U1 d hlp]
            have := hU03 d
            have := hU13 d
            have := hcost d
            omega

/-! ## Total length of a code table -/

theorem codeList_lengths : ∀ (T : Node), T.proper = true → ∀ (code : List Char),
    (code ≠ [] ∨ T.leaves.length ≠ 1) →
    (T.codeList code).map (fun e => (e.1, e.2.length)) = T.leafDepths code.length := by
  intro T
  induction T with
  | null => intro h; simp [Node.proper] at h
  | mk c f l r ihl ihr =>
    intro h code hc
    rw [Node.codeList, Node.leafDepths]
    by_cases hl : isLeafPair l r = true
    · rw [if_pos hl, if_pos hl]
      have hne : code ≠ [] := by
        rcases hc with hc | hc
        · exact hc
        · exfalso
          apply hc
          rw [Node.leaves, if_pos hl]
          rfl
      rw [if_neg hne]
      rfl
    · have hl2 : isLeafPair l r = false := by simpa using hl
      have hp := proper_children c f l r h hl2
      rw [if_neg hl, if_neg hl, List.map_append, ihl hp.1 _ (Or.inl (by simp)),
        ihr hp.2 _ (Or.inl (by simp)), List.length_append, List.length_append]
      rfl

theorem generated_code_cost (f : FreqTable) (T : Node) (hT : T.proper = true)
    (hperm : T.leaves.Perm (f.entries.map Prod.fst)) (h2 : 2 ≤ f.entries.length) :
    totalCodeLength f (codeOf (generateCodes T [] (fun _ => none))) =
      T.costAt (weightOf f) 0 := by
  have hnd : T.leaves.Nodup := hperm.nodup_iff.mpr (entries_keys_nodup f)
  have hlen : T.leaves.length ≠ 1 := by
    rw [hperm.length_eq, List.length_map]
    omega
  have hcl := codeList_lengths T hT [] (Or.inr hlen)
  rw [List.length_nil] at hcl
  have e1 : totalCodeLength f (codeOf (generateCodes T [] (fun _ => none))) =
      ((f.entries.map Prod.fst).map (fun s => weightOf f s *
        ((codeOf (generateCodes T [] (fun _ => none)) s).length : Int))).sum := by
    unfold totalCodeLength
    rw [List.map_map]
    refine congrArg List.sum ?_
    apply List.map_congr_left
    intro e he
    simp only [Function.comp, weightOf_entry f e he]
  have e2 : ((T.codeList []).map Prod.fst).map (fun s => weightOf f s *
        ((codeOf (generateCodes T [] (fun _ => none)) s).length : Int)) =
      ((T.codeList []).map (fun e => (e.1, e.2.length))).map
        (fun e => weightOf f e.1 * (e.2 : Int)) := by
    rw [List.map_map, List.map_map]
    apply List.map_congr_left
    intro e he
    have h3 := (generateCodes_lookup T hnd e.1 e.2).mpr he
    simp only [Function.comp, codeOf, h3, Option.getD_some]
  rw [e1, (hperm.symm.map _).sum_eq, ← codeList_map_fst T [], e2, hcl]
  rfl

theorem code_cost_ge_tree (f : FreqTable) (hf : f.entries ≠ [])
    (hpos : ∀ e ∈ f.entries, 0 < e.2) (code : Byte → List Char)
    (hbits : ∀ s ∈ f.entries.map Prod.fst, IsBits (code s))
    (hpf : PrefixFreeOn (f.entries.map Prod.fst) code) :
    ∃ U : Node, U.proper = true ∧ U.leaves.Perm (f.entries.map Prod.fst) ∧
      U.costAt (weightOf f) 0 ≤ totalCodeLength f code := by
  have hpw : ((f.entries.map Prod.fst).map (fun s => (s, code s))).Pairwise
      (fun e1 e2 => ¬ e1.2 <+: e2.2 ∧ ¬ e2.2 <+: e1.2) := by
    rw [List.pairwise_map]
    refine List.Pairwise.imp_of_mem ?_ (entries_keys_nodup f)
    intro a b ha hb hab
    exact ⟨hpf a ha b hb hab, hpf b hb a ha (Ne.symm hab)⟩
  have hne : (f.entries.map Prod.fst).map (fun s => (s, code s)) ≠ [] := by
    intro h
    exact hf (List.map_eq_nil_iff.mp (List.map_eq_nil_iff.mp h))
  have hb : ∀ e ∈ (f.entries.map Prod.fst).map (fun s => (s, code s)), IsBits e.2 := by
    intro e he
    obtain ⟨s, hs, rfl⟩ := List.mem_map.mp he
    exact hbits s hs
  obtain ⟨U, hU1, hU2, hU3⟩ := trie_of_prefix_free (weightOf f) (weightOf_nonneg f hpos) _ _
    (le_refl _) hne hb hpw
  refine ⟨U, hU1, ?_, ?_⟩
  · rw [List.map_map] at hU2
    refine hU2.trans (List.Perm.of_eq ?_)
    exact List.map_id _
  · refine le_trans (hU3 0) (le_of_eq ?_)
    unfold totalCodeLength
    rw [List.map_map, List.map_map]
    refine congrArg List.sum ?_
    apply List.map_congr_left
    intro e he
    simp only [Function.comp, weightOf_entry f e he, Nat.cast_zero, zero_add]

theorem generated_prefix_free (T : Node) (hT : T.proper = true) (hnd : T.leaves.Nodup) :
    PrefixFreeOn T.leaves (codeOf (generateCodes T [] (fun _ => none))) ∧
      ∀ s ∈ T.leaves, IsBits (codeOf (generateCodes T [] (fun _ => none)) s) := by
  have hmem : ∀ s ∈ T.leaves, (s, codeOf (generateCodes T [] (fun _ => none)) s) ∈
      T.codeList [] := by
    intro s hs
    rw [← codeList_map_fst T []] at hs
    obtain ⟨e, he, rfl⟩ := List.mem_map.mp hs
    have h3 := (generateCodes_lookup T hnd e.1 e.2).mpr he
    simp only [codeOf, h3, Option.getD_some]
    exact he
  refine ⟨?_, fun s hs => (codeList_code_length T hT _ (hmem s hs)).2.2⟩
  intro s hs t ht hst
  have hsym : Symmetric (fun e1 e2 : Byte × List Char => ¬ e1.2 <+: e2.2 ∧ ¬ e2.2 <+: e1.2) :=
    fun _ _ h => ⟨h.2, h.1⟩
  have hne : (s, codeOf (generateCodes T [] (fun _ => none)) s) ≠
      (t, codeOf (generateCodes T [] (fun _ => none)) t) := by
    intro h
    exact hst (congrArg Prod.fst h)
  exact ((codeList_prefix_free T hT []).forall hsym (hmem s hs) (hmem t ht) hne).1

/-! ## The walk of `findCharFromCode` -/

theorem findCharFromCode_walk (root : Node) (code : List Char) :
    findCharFromCode root code =
      match root with
      | .null => .error .undefined_behaviour
      | .mk character _ l r =>
        if isLeafPair l r then .ok character
        else
          match root.walk code with
          | .null => .error .undefined_behaviour
          | .mk reached _ _ _ => .ok reached := by
  cases root with
  | null => rfl
  | mk c f l r =>
    simp only [findCharFromCode]
    by_cases hl : isLeafPair l r = true
    · rw [if_pos hl, if_pos hl]
    · rw [if_neg hl, if_neg hl]
      have h := findCharFromCodeLoop_eq_walk code (Node.mk c f l r)
      generalize (Node.mk c f l r).walk code = w at h ⊢
      exact h.trans (by cases w <;> rfl)

/-! ## Changed positions of particular frames -/

theorem mem_changedPositions (prevFrame frame : Frame) (i : Nat) :
    i ∈ changedPositions prevFrame frame ↔
      i < frame.length ∧ isChangedAt prevFrame frame i = true := by
  unfold changedPositions
  rw [List.mem_filter, List.mem_range]

theorem isChangedAt_of_get (prevFrame frame : Frame) (i : Nat) (p q : Pixel)
    (hp : frame.get? i = some p) (hq : prevFrame.get? i = some q) :
    isChangedAt prevFrame frame i =
      (decide (p.1 ≠ q.1) || decide (p.2.c0 ≠ q.2.c0) || decide (p.2.c1 ≠ q.2.c1) ||
        decide (p.2.c2 ≠ q.2.c2)) := by
  unfold isChangedAt
  rw [hp, hq]

theorem changedPositions_nil (frame : Frame) :
    changedPositions [] frame = List.range frame.length := by
  unfold changedPositions
  rw [List.filter_eq_self]
  intro i _
  unfold isChangedAt
  cases frame.get? i <;> rfl

theorem changedPositions_last (k : Nat) (a b : Pixel)
    (hab : (decide (b.1 ≠ a.1) || decide (b.2.c0 ≠ a.2.c0) || decide (b.2.c1 ≠ a.2.c1) ||
      decide (b.2.c2 ≠ a.2.c2)) = true) :
    changedPositions (List.replicate (k + 1) a) (List.replicate k a ++ [b]) = [k] := by
  have hfk : (List.replicate k a ++ [b]).get? k = some b := by
    rw [List.get?_eq_getElem?, List.getElem?_append_right (by rw [List.length_replicate])]
    rw [List.length_replicate, Nat.sub_self]
    rfl
  have hpk : (List.replicate (k + 1) a).get? k = some a := by
    rw [List.get?_eq_getElem?, List.getElem?_replicate, if_pos (by omega)]
  unfold changedPositions
  rw [List.length_append, List.length_replicate, List.length_singleton, List.range_succ,
    List.filter_append]
  have h1 : (List.range k).filter
      (isChangedAt (List.replicate (k + 1) a) (List.replicate k a ++ [b])) = [] := by
    rw [List.filter_eq_nil_iff]
    intro i hi
    have hik : i < k := List.mem_range.mp hi
    have hf : (List.replicate k a ++ [b]).get? i = some a := by
      rw [List.get?_eq_getElem?,
        List.getElem?_append_left (by rw [List.length_replicate]; exact hik),
        List.getElem?_replicate, if_pos hik]
    have hp : (List.replicate (k + 1) a).get? i = some a := by
      rw [List.get?_eq_getElem?, List.getElem?_replicate, if_pos (by omega)]
    rw [isChangedAt_of_get _ _ i a a hf hp]
    simp
  have h2 : [k].filter (isChangedAt (List.replicate (k + 1) a) (List.replicate k a ++ [b])) =
      [k] := by
    rw [List.filter_eq_self]
    intro i hi
    rw [List.mem_singleton.mp hi, isChangedAt_of_get _ _ k b a hfk hpk]
    exact hab
  rw [h1, h2]
  rfl

theorem deltaEncoding_last (codes : CodeTable) (k : Nat) (a b : Pixel)
    (hab : (decide (b.1 ≠ a.1) || decide (b.2.c0 ≠ a.2.c0) || decide (b.2.c1 ≠ a.2.c1) ||
      decide (b.2.c2 ≠ a.2.c2)) = true) :
    deltaEncoding codes (List.replicate (k + 1) a) (List.replicate k a ++ [b]) =
      bitsetToString 32 k ++ cellBits (codeOf codes b.1) b := by
  have hfk : (List.replicate k a ++ [b]).get? k = some b := by
    rw [List.get?_eq_getElem?, List.getElem?_append_right (by rw [List.length_replicate])]
    rw [List.length_replicate, Nat.sub_self]
    rfl
  unfold deltaEncoding
  rw [changedPositions_last k a b hab, List.flatMap_cons, List.flatMap_nil, List.append_nil, hfk]

/-! ## The colour channels in what `compressFrame` writes -/

theorem cellBits_mod (code : List Char) (s : Byte) (c : rgb) :
    cellBits code (s, c) =
      bitsetToString 8 code.length ++ code ++ bitsetToString 8 (c.c0 % 256) ++
        bitsetToString 8 (c.c1 % 256) ++ bitsetToString 8 (c.c2 % 256) := by
  rw [← cellBits_lowByteCell]
  rfl

theorem fullBits_single (codes : CodeTable) (p : Pixel) :
    fullBits codes [p] = cellBits (codeOf codes p.1) p := by
  rw [fullBits_cons]
  show cellBits (codeOf codes p.1) p ++ [] = _
  rw [List.append_nil]

theorem deltaBits_single (codes : CodeTable) (p : Pixel) :
    deltaBits codes [] [p] 0 = bitsetToString 32 0 ++ cellBits (codeOf codes p.1) p ∧
      deltaCount [] [p] 0 = 1 := by
  have h : cellChanged [] 0 p = true := cellChanged_of_le [] 0 p (Nat.zero_le 0)
  constructor
  · rw [deltaBits, if_pos h, deltaBits, List.append_nil]
  · rw [deltaCount, if_pos h, deltaCount]

theorem one_cell_frame (T : Node) (codes : CodeTable) (s : Byte) (c : rgb)
    (hd : Decodes T.strip codes s) (prevFrame : Frame) :
    ∃ full delta : List Byte,
      compressFrame [(s, c)] codes false prevFrame = .ok full ∧
      compressFrame [lowByteCell (s, c)] codes false prevFrame = .ok full ∧
      (∀ (rest : List Byte) (video : ASCIIVideo),
        decodeFrame T.strip 0 (full ++ rest) video =
          .ok (rest, video.set 0 [lowByteCell (s, c)])) ∧
      compressFrame [(s, c)] codes true [] = .ok delta ∧
      compressFrame [lowByteCell (s, c)] codes true [] = .ok delta := by
  obtain ⟨code, hc1, hc2, hc3, hc4⟩ := hd
  have hd1 : ∀ p ∈ [((s, c) : Pixel)], Decodes T.strip codes p.1 := by
    intro p hp
    rw [List.mem_singleton.mp hp]
    exact ⟨code, hc1, hc2, hc3, hc4⟩
  have hd2 : ∀ p ∈ [lowByteCell (s, c)], Decodes T.strip codes p.1 := by
    intro p hp
    rw [List.mem_singleton.mp hp]
    exact ⟨code, hc1, hc2, hc3, hc4⟩
  have hco : codeOf codes s = code := by
    unfold codeOf
    rw [hc1]
    rfl
  have hf2 : fullBits codes [lowByteCell (s, c)] = fullBits codes [(s, c)] := by
    rw [fullBits_single, fullBits_single]
    exact cellBits_lowByteCell _ (s, c)
  have hL : (fullBits codes [(s, c)]).length + 8 ≤ 2147483648 := by
    rw [fullBits_single, cellBits_length]
    show 32 + (codeOf codes s).length + 8 ≤ 2147483648
    rw [hco]
    omega
  have hb2 : deltaBits codes [] [lowByteCell (s, c)] 0 = deltaBits codes [] [(s, c)] 0 := by
    rw [(deltaBits_single codes _).1, (deltaBits_single codes _).1]
    exact congrArg (fun x => bitsetToString 32 0 ++ x) (cellBits_lowByteCell _ (s, c))
  have hc2n : deltaCount [] [lowByteCell (s, c)] 0 = deltaCount [] [(s, c)] 0 := by
    rw [(deltaBits_single codes _).2, (deltaBits_single codes _).2]
  have hLd : (deltaBits codes [] [(s, c)] 0).length + 8 ≤ 2147483648 := by
    rw [(deltaBits_single codes _).1, List.length_append, bitsetToString_length,
      cellBits_length]
    show 32 + (32 + (codeOf codes s).length) + 8 ≤ 2147483648
    rw [hco]
    omega
  have e1 := compressFrame_full_eq T.strip codes [(s, c)] prevFrame hd1 hL
  have e2 := compressFrame_full_eq T.strip codes [lowByteCell (s, c)] prevFrame hd2
    (by rw [hf2]; exact hL)
  have e3 := compressFrame_delta_eq T.strip codes [(s, c)] [] hd1 hLd
  have e4 := compressFrame_delta_eq T.strip codes [lowByteCell (s, c)] [] hd2
    (by rw [hb2]; exact hLd)
  rw [hf2] at e2
  rw [hb2, hc2n] at e4
  refine ⟨_, _, e1, e2, ?_, e3, e4⟩
  intro rest video
  exact decodeFrame_full_eq T.strip codes [(s, c)] rest video hd1 hL

/-! ## The container against the layout of the specification -/

theorem writeInt_eq_le32 (n : Nat) (h : n < 4294967296) : writeInt (n : Int) = le32 n := by
  have e : ((n : Int) % 4294967296).toNat = n := by omega
  unfold writeInt le32
  simp only [e]
  refine congrArg₂ List.cons (Fin.ext ?_) (congrArg₂ List.cons (Fin.ext ?_)
    (congrArg₂ List.cons (Fin.ext ?_) (congrArg₂ List.cons (Fin.ext ?_) rfl)))
  · rw [byte_ofNat_val, byte_ofNat_val]; omega
  · rw [byte_ofNat_val, byte_ofNat_val]; omega
  · rw [byte_ofNat_val, byte_ofNat_val]; omega
  · rw [byte_ofNat_val, byte_ofNat_val]; omega

theorem chunkBytes_eq_map (k : Nat) (B : List Char) :
    chunkBytes k B = (List.range k).map (fun j => (Fin.ofNat (dataByteValue B j) : Byte)) := by
  apply List.ext_get?
  intro j
  by_cases hj : j < k
  · rw [chunkBytes_get? k B j hj, List.get?_eq_getElem?, List.getElem?_map,
      List.getElem?_range hj]
    simp only [Option.map_some']
    congr 1
    apply Fin.ext
    rw [byte_ofNat_val, ← packByte_value B j]
    exact (Nat.mod_eq_of_lt (packByte ((B.drop (8 * j)).take 8)).isLt).symm
  · have h1 : (chunkBytes k B).length ≤ j := by rw [chunkBytes_length]; omega
    have h2 : ((List.range k).map
        (fun j => (Fin.ofNat (dataByteValue B j) : Byte))).length ≤ j := by
      rw [List.length_map, List.length_range]; omega
    rw [List.get?_eq_none.mpr h1, List.get?_eq_none.mpr h2]

theorem writeBitString_layout (B : List Char) (hL : B.length + 8 ≤ 2147483648) :
    writeBitString B = .ok (packedLayout B) := by
  rw [writeBitString_eq B hL, writeInt_eq_le32 _ (by omega), chunkBytes_eq_map]
  rfl

theorem compressFrame_full_layout (T : Node) (codes : CodeTable) (frame prevFrame : Frame)
    (h : ∀ p ∈ frame, Decodes T codes p.1)
    (hL : (fullBits codes frame).length + 8 ≤ 2147483648) :
    compressFrame frame codes false prevFrame = .ok (fullFrameLayout codes frame) := by
  have hge := fullBits_length_ge codes frame
  rw [compressFrame_full_eq T codes frame prevFrame h hL, writeInt_eq_le32 _ (by omega),
    writeInt_eq_le32 _ (by omega), chunkBytes_eq_map]
  rfl

theorem compressFrame_delta_layout (T : Node) (codes : CodeTable) (frame prevFrame : Frame)
    (h : ∀ p ∈ frame, Decodes T codes p.1)
    (hL : (deltaBits codes prevFrame frame 0).length + 8 ≤ 2147483648) :
    compressFrame frame codes true prevFrame = .ok (deltaFrameLayout codes prevFrame frame) := by
  have hge := deltaBits_length_ge codes prevFrame frame 0
  have hspec := deltaBits_eq_deltaEncoding codes prevFrame frame
  rw [compressFrame_delta_eq T codes frame prevFrame h hL, writeInt_eq_le32 _ (by omega),
    writeInt_eq_le32 _ (by omega), chunkBytes_eq_map, hspec.1, hspec.2]
  rfl

theorem compressFramesOver_ok (V : ASCIIVideo) (codes : CodeTable)
    (g : Nat → List Byte) : ∀ (L : List Nat),
    (∀ i ∈ L, compressFrame (frameAt V i) codes (decide (i ≠ 0))
      (if i = 0 then [] else frameAt V (i - 1)) = .ok (g i)) →
    compressFramesOver V codes L = .ok (L.flatMap g) := by
  intro L
  induction L with
  | nil => intro _; rfl
  | cons i more ih =>
    intro h
    rw [compressFramesOver, h i (List.mem_cons_self i more),
      ih (fun j hj => h j (List.mem_cons_of_mem i hj))]
    rfl

theorem countChars_symbolCounts (V : ASCIIVideo) (hocc : ∀ s, occurrences V s < 2147483648) :
    countChars V (fun _ => none) = symbolCounts V := by
  funext s
  rw [countChars_eq]
  unfold symbolCounts
  by_cases h : occurrences V s = 0
  · rw [if_pos h, if_pos h]
  · rw [if_neg h, if_neg h, toInt32_natCast _ (hocc s)]

theorem buildHuffmanTree_returns (S : StdImpl) (hS : S.Lawful) (f : FreqTable) :
    ∃ T, buildHuffmanTree S f = .ok T := by
  by_cases hf : f.entries = []
  · exact ⟨Node.null, buildHuffmanTree_empty S f hf⟩
  · obtain ⟨T, hT, _⟩ := buildHuffmanTree_spec S hS f hf
    exact ⟨T, hT⟩

theorem container_layout (S : StdImpl) (hS : S.Lawful) (V : ASCIIVideo) (n : Nat)
    (hn : 1 ≤ n) (hn2 : n < 2147483648)
    (hkeys : (V.map Prod.fst).Perm ((List.range n).map Int.ofNat))
    (hbits : ∀ i, i < n → (frameBitString S V i).length + 8 ≤ 2147483648) :
    ∃ T, buildHuffmanTree S (countChars V (fun _ => none)) = .ok T ∧
      compressASCIIVideo S V =
        .ok (containerLayout T (generateCodes T [] (fun _ => none)) V n) := by
  have hVlen : V.length = n := by
    have := hkeys.length_eq
    simpa using this
  have hnum : toInt32 (V.length : Int) = (n : Int) := by
    rw [hVlen]; exact toInt32_natCast n hn2
  obtain ⟨T, hT⟩ := buildHuffmanTree_returns S hS (countChars V (fun _ => none))
  have hcodes : videoCodes S V = generateCodes T [] (fun _ => none) := by
    unfold videoCodes; rw [hT]
  have hsome : ∀ e ∈ V, ∀ p ∈ e.2, ((countChars V (fun _ => none)) p.1).isSome = true :=
    fun e he p hp => (countChars_isSome V _ p.1).mpr (Or.inr ⟨e, he, p, hp, rfl⟩)
  have hdec : ∀ i, i < n → ∀ p ∈ frameAt V i,
      Decodes T (generateCodes T [] (fun _ => none)) p.1 := by
    intro i hi p hp
    exact (built_decodes S hS _ T hT p.1
      (hsome _ (find_frameAt V n hkeys i hi).2 p hp)).2
  have hloop := compressFramesLoop_layout V (generateCodes T [] (fun _ => none)) n 0
    (fun j _ hj => (find_frameAt V n hkeys j (by omega)).1)
  simp only [if_true, Nat.cast_zero] at hloop
  have hover := compressFramesOver_ok V (generateCodes T [] (fun _ => none))
    (fun i => if i = 0 then fullFrameLayout (generateCodes T [] (fun _ => none)) (frameAt V 0)
      else deltaFrameLayout (generateCodes T [] (fun _ => none)) (frameAt V (i - 1))
        (frameAt V i))
    (List.range' 0 n)
    (fun i hi => by
      have hin : i < n := by
        have := (List.mem_range'_1.mp hi).2
        omega
      have hb := hbits i hin
      unfold frameBitString at hb
      rw [hcodes] at hb
      by_cases h0 : i = 0
      · subst h0
        rw [if_pos rfl] at hb
        simp only [if_true, ne_eq, not_true_eq_false, decide_False]
        exact compressFrame_full_layout T _ _ _ (hdec 0 hin) hb
      · rw [if_neg h0] at hb
        simp only [if_neg h0, ne_eq, h0, not_false_eq_true, decide_True]
        exact compressFrame_delta_layout T _ _ _ (hdec i hin) hb)
  obtain ⟨m, rfl⟩ : ∃ m, n = m + 1 := ⟨n - 1, by omega⟩
  have hflat : (List.range' 0 (m + 1)).flatMap
      (fun i => if i = 0 then
          fullFrameLayout (generateCodes T [] (fun _ => none)) (frameAt V 0)
        else deltaFrameLayout (generateCodes T [] (fun _ => none)) (frameAt V (i - 1))
          (frameAt V i)) =
      fullFrameLayout (generateCodes T [] (fun _ => none)) (frameAt V 0) ++
        (List.range m).flatMap (fun j =>
          deltaFrameLayout (generateCodes T [] (fun _ => none)) (frameAt V j)
            (frameAt V (j + 1))) := by
    rw [List.range'_succ, List.flatMap_cons, if_pos rfl, List.range'_eq_map_range,
      List.flatMap_map]
    refine congrArg
      (fun x => fullFrameLayout (generateCodes T [] (fun _ => none)) (frameAt V 0) ++ x) ?_
    apply List.flatMap_congr
    intro j _
    have e2 : 0 + 1 + j = j + 1 := by omega
    have hj : ¬ (j + 1 = 0) := by omega
    simp only [Function.comp, e2, if_neg hj, Nat.add_sub_cancel]
  rw [hover, hflat] at hloop
  refine ⟨T, hT, ?_⟩
  rw [compressASCIIVideo_ok S V T hT _ (by rw [hnum, Int.toNat_ofNat]; exact hloop), hVlen,
    writeInt_eq_le32 (m + 1) (by omega), writeHuffmanTree_eq_treeEncoding]
  unfold containerLayout
  rw [Nat.add_sub_cancel, ← List.append_assoc]

theorem appendPixel_lowByteCell (codes : CodeTable) (bs : List Char) (p : Pixel) :
    appendPixel codes bs (lowByteCell p) = appendPixel codes bs p := by
  cases h : codes p.1 with
  | none =>
    rw [appendPixel_none codes bs p h, appendPixel_none codes bs (lowByteCell p) h]
  | some code =>
    rw [appendPixel_eq codes bs p code h, appendPixel_eq codes bs (lowByteCell p) code h,
      cellBits_lowByteCell]

theorem fullFrameLoop_lowByteCell (codes : CodeTable) : ∀ (frame : Frame) (bs : List Char),
    fullFrameLoop codes (frame.map lowByteCell) bs = fullFrameLoop codes frame bs := by
  intro frame
  induction frame with
  | nil => intro bs; rfl
  | cons p rest ih =>
    intro bs
    rw [List.map_cons, fullFrameLoop, fullFrameLoop, appendPixel_lowByteCell]
    cases appendPixel codes bs p with
    | error e => rfl
    | ok b => exact ih b

theorem deltaFrameLoop_lowByteCell (codes : CodeTable) : ∀ (frame : Frame) (i : Nat)
    (bs : List Char) (n : Int),
    deltaFrameLoop codes [] (frame.map lowByteCell) i bs n =
      deltaFrameLoop codes [] frame i bs n := by
  intro frame
  induction frame with
  | nil => intro i bs n; rfl
  | cons p rest ih =>
    intro i bs n
    rw [List.map_cons, deltaFrameLoop, deltaFrameLoop,
      cellChanged_of_le [] i p (Nat.zero_le i),
      cellChanged_of_le [] i (lowByteCell p) (Nat.zero_le i), if_pos rfl, if_pos rfl,
      appendPixel_lowByteCell]
    cases appendPixel codes (bs ++ bitsetToString 32 i) p with
    | error e => rfl
    | ok b => exact ih (i + 1) b _

theorem compressFrame_lowByteCell (codes : CodeTable) (frame prevFrame : Frame) :
    compressFrame (frame.map lowByteCell) codes false prevFrame =
        compressFrame frame codes false prevFrame ∧
      compressFrame (frame.map lowByteCell) codes true [] =
        compressFrame frame codes true [] := by
  unfold compressFrame
  simp only [Bool.not_false, Bool.not_true, if_true, Bool.false_eq_true, if_false,
    List.length_map, fullFrameLoop_lowByteCell, deltaFrameLoop_lowByteCell, and_self]

/-! ## Claims on the bit packer -/

/-- C3 (amended): for a bit string `B` of `'0'`/`'1'` of length `L ≤ 2^31 - 8`,
`writeBitString` emits the 4-byte count `L`, `ceil(L/8)` data bytes and one remainder byte
(`4 + ceil(L/8) + 1` bytes); reading the count back and calling `readBitsAsString` with
it returns exactly `B` and leaves the stream at the remainder byte. -/
theorem C3_bit_packer_round_trip (B : List Char) (rest : List Byte) (hB : IsBits B)
    (hL : B.length + 8 ≤ 2147483648) :
    ∃ (data : List Byte) (remainder : Byte),
      writeBitString B = .ok (writeInt B.length ++ data ++ [remainder]) ∧
      data.length = (B.length + 7) / 8 ∧
      (writeInt B.length ++ data ++ [remainder]).length = 4 + (B.length + 7) / 8 + 1 ∧
      readInt (writeInt B.length ++ data ++ [remainder] ++ rest) =
        .ok ((B.length : Int), data ++ [remainder] ++ rest) ∧
      readBitsAsString (data ++ [remainder] ++ rest) (B.length : Int) =
        .ok (B, remainder :: rest) := by
  refine ⟨chunkBytes ((B.length + 7) / 8) B, Fin.ofNat (B.length % 8),
    writeBitString_eq B hL, chunkBytes_length _ _, ?_, ?_, ?_⟩
  · simp [writeInt_length, chunkBytes_length]
    omega
  · rw [List.append_assoc, List.append_assoc, readInt_writeInt, toInt32_natCast _ (by omega)]
    simp
  · rw [readBitsAsString_eq _ _ hL]
    have h1 : List.take ((B.length + 7) / 8)
        (chunkBytes ((B.length + 7) / 8) B ++ [Fin.ofNat (B.length % 8)] ++ rest) =
        chunkBytes ((B.length + 7) / 8) B := by
      rw [List.append_assoc, List.take_left']
      exact chunkBytes_length _ _
    have h2 : List.drop ((B.length + 7) / 8)
        (chunkBytes ((B.length + 7) / 8) B ++ [Fin.ofNat (B.length % 8)] ++ rest) =
        Fin.ofNat (B.length % 8) :: rest := by
      rw [List.append_assoc, List.drop_left']
      · rfl
      · exact chunkBytes_length _ _
    rw [h1, h2, stringResize_eq_take _ _
      (by rw [flatMap_byteToString_length, chunkBytes_length]; omega),
      take_unpack_chunkBytes _ B hB (by omega)]
    rfl

/-- C3, witness: the 42-bit string of `simple_test.cpp`. -/
theorem C3_bit_packer_round_trip_witness :
    IsBits testBits ∧ testBits.length + 8 ≤ 2147483648 ∧
    ∃ (data : List Byte) (remainder : Byte),
      writeBitString testBits = .ok (writeInt testBits.length ++ data ++ [remainder]) ∧
      data.length = (testBits.length + 7) / 8 ∧
      (writeInt testBits.length ++ data ++ [remainder]).length =
        4 + (testBits.length + 7) / 8 + 1 ∧
      readInt (writeInt testBits.length ++ data ++ [remainder] ++ []) =
        .ok ((testBits.length : Int), data ++ [remainder] ++ []) ∧
      readBitsAsString (data ++ [remainder] ++ []) (testBits.length : Int) =
        .ok (testBits, remainder :: []) :=
  ⟨by decide, by decide, C3_bit_packer_round_trip testBits [] (by decide) (by decide)⟩

/-- C3, counterexample: a bit string of `2^31 - 7` zeros (the shortest one above `2^31 - 8`).  In
`writeBitString` the counter `i += 8` wraps to `-2^31` after the last chunk and
`stringToByte` indexes the string out of bounds; in `readBitsAsString` the sum
`bitCount + 7` overflows: neither the write nor the read back of the count is defined. -/
theorem C3_counterexample :
    IsBits (List.replicate 2147483641 '0') ∧
    (List.replicate 2147483641 '0').length < 2147483648 ∧
    writeBitString (List.replicate 2147483641 '0') = .error .undefined_behaviour ∧
    (∀ stream : List Byte,
      readBitsAsString stream 2147483641 = .error .undefined_behaviour) := by
  refine ⟨?_, by rw [List.length_replicate]; omega, ?_, ?_⟩
  · intro c hc
    left
    exact (List.mem_replicate.mp hc).2
  · exact writeBitString_overflow _ (by rw [List.length_replicate]; omega)
      (by rw [List.length_replicate]; omega)
  · intro stream
    exact readBitsAsString_overflow stream 2147483641 (by omega)

/-- C10 (amended): when fewer than `ceil(c/8)` bytes are left for a bit count `c` with
`0 < c ≤ 2^31 - 8`, `readBitsAsString` raises no error: it returns a string of `c`
characters, namely the bits of the bytes that were there followed by at least one NUL
character, and leaves the stream empty. -/
theorem C10_truncated_unpack_returns (stream : List Byte) (c : Int) (hc : 0 < c)
    (hc2 : c + 8 ≤ 2147483648) (hs : (stream.length : Int) < (c + 7) / 8) :
    0 < c.toNat - 8 * stream.length ∧
    readBitsAsString stream c =
      .ok (stream.flatMap byteToString ++
        List.replicate (c.toNat - 8 * stream.length) (Char.ofNat 0), []) := by
  obtain ⟨n, rfl⟩ : ∃ n : Nat, c = (n : Int) := ⟨c.toNat, by omega⟩
  refine ⟨by simp only [Int.toNat_ofNat]; omega, ?_⟩
  rw [readBitsAsString_eq stream n (by omega)]
  have h1 : stream.length ≤ (n + 7) / 8 := by omega
  rw [List.take_of_length_le h1, List.drop_of_length_le h1, stringResize]
  have h2 : ¬ ((n : Int) < 0) := by omega
  rw [if_neg h2, Int.toNat_ofNat, flatMap_byteToString_length,
    List.take_of_length_le (by rw [flatMap_byteToString_length]; omega)]
  rfl

/-- C10, witness: one byte on the stream and a count of 12 bits. -/
theorem C10_truncated_unpack_returns_witness :
    (0 : Int) < 12 ∧ (12 : Int) + 8 ≤ 2147483648 ∧
    (([255] : List Byte).length : Int) < ((12 : Int) + 7) / 8 ∧
    0 < (12 : Int).toNat - 8 * ([255] : List Byte).length ∧
    readBitsAsString [255] 12 =
      .ok (([255] : List Byte).flatMap byteToString ++
        List.replicate ((12 : Int).toNat - 8 * ([255] : List Byte).length) (Char.ofNat 0), []) :=
  ⟨by decide, by decide, by decide,
    C10_truncated_unpack_returns [255] 12 (by decide) (by decide) (by decide)⟩

/-- C10, counterexample: with one byte `0xFF` on the stream and a count of 12 bits,
`readBitsAsString` returns the 12-character string `11111111` + four NULs and no error.
With a count of `2^31 - 7` bits the sum `bitCount + 7` overflows and the behaviour is
undefined, on every stream: the amended claim is about counts up to `2^31 - 8` only. -/
theorem C10_counterexample :
    readBitsAsString [255] 12 =
      .ok (['1', '1', '1', '1', '1', '1', '1', '1',
        Char.ofNat 0, Char.ofNat 0, Char.ofNat 0, Char.ofNat 0], []) ∧
    (∀ stream : List Byte,
      readBitsAsString stream 2147483641 = .error .undefined_behaviour) :=
  ⟨by decide, fun stream => readBitsAsString_overflow stream 2147483641 (by omega)⟩

/-! ## Claims on the Huffman tree and the code table -/

/-- C4: for every tree `T` that `buildHuffmanTree` returns on a non-empty frequency table,
`readHuffmanTree` run on the bytes of `writeHuffmanTree(T)` followed by any further bytes
returns a tree of the same shape with the same symbol on every leaf and leaves exactly the
further bytes on the stream. -/
theorem C4_tree_serialisation_round_trip (S : StdImpl) (hS : S.Lawful) (f : FreqTable)
    (hf : f.entries ≠ []) (T : Node) (hT : buildHuffmanTree S f = .ok T) (rest : List Byte) :
    ∃ T', readHuffmanTree (writeHuffmanTree T ++ rest) = .ok (T', rest) ∧
      T.sameShape T' = true ∧ T'.leaves = T.leaves := by
  obtain ⟨root, h1, h2, _⟩ := buildHuffmanTree_spec S hS f hf
  rw [hT] at h1
  cases h1
  exact ⟨T.strip, readHuffmanTree_write T h2 rest, sameShape_strip T h2, leaves_strip T h2⟩

set_option maxRecDepth 100000 in
/-- C4, witness: the table and tree of the `testSimpleVideo` video, followed by one byte. -/
theorem C4_tree_serialisation_round_trip_witness :
    refStd.Lawful ∧ simpleTable.entries ≠ [] ∧ buildHuffmanTree refStd simpleTable = .ok simpleTree ∧
    ∃ T', readHuffmanTree (writeHuffmanTree simpleTree ++ [7]) = .ok (T', [7]) ∧
      simpleTree.sameShape T' = true ∧ T'.leaves = simpleTree.leaves :=
  ⟨refStd_lawful, by decide, by decide,
    C4_tree_serialisation_round_trip refStd refStd_lawful simpleTable (by decide) simpleTree
      (by decide) [7]⟩

/-- C5: for every non-empty frequency table `f`, the table
`generateCodes(buildHuffmanTree(f), "")` has an entry for exactly the symbols of `f`, and
for two distinct symbols neither code is a prefix of the other. -/
theorem C5_prefix_free (S : StdImpl) (hS : S.Lawful) (f : FreqTable) (hf : f.entries ≠ []) :
    ∃ T, buildHuffmanTree S f = .ok T ∧
      (∀ s, (generateCodes T [] (fun _ => none) s).isSome = (f s).isSome) ∧
      ∀ s1 s2 c1 c2, s1 ≠ s2 → generateCodes T [] (fun _ => none) s1 = some c1 →
        generateCodes T [] (fun _ => none) s2 = some c2 → ¬ c1 <+: c2 ∧ ¬ c2 <+: c1 := by
  obtain ⟨T, h1, h2, h3⟩ := buildHuffmanTree_spec S hS f hf
  have hnd : T.leaves.Nodup := (h3.nodup_iff).mpr (entries_keys_nodup f)
  refine ⟨T, h1, ?_, ?_⟩
  · intro s
    rw [Bool.eq_iff_iff, generateCodes_isSome, h3.mem_iff, entries_keys_mem]
  · intro s1 s2 c1 c2 hne hc1 hc2
    have m1 := (generateCodes_lookup T hnd s1 c1).mp hc1
    have m2 := (generateCodes_lookup T hnd s2 c2).mp hc2
    have hpw := codeList_prefix_free T h2 []
    have hsym : Symmetric (fun e1 e2 : Byte × List Char => ¬ e1.2 <+: e2.2 ∧ ¬ e2.2 <+: e1.2) :=
      fun a b h => ⟨h.2, h.1⟩
    exact hpw.forall hsym m1 m2 (by intro h; apply hne; rw [Prod.mk.injEq] at h; exact h.1)

set_option maxRecDepth 100000 in
/-- C5, witness: the table of the `testSimpleVideo` video. -/
theorem C5_prefix_free_witness :
    refStd.Lawful ∧ simpleTable.entries ≠ [] ∧
    ∃ T, buildHuffmanTree refStd simpleTable = .ok T ∧
      (∀ s, (generateCodes T [] (fun _ => none) s).isSome = (simpleTable s).isSome) ∧
      ∀ s1 s2 c1 c2, s1 ≠ s2 → generateCodes T [] (fun _ => none) s1 = some c1 →
        generateCodes T [] (fun _ => none) s2 = some c2 → ¬ c1 <+: c2 ∧ ¬ c2 <+: c1 :=
  ⟨refStd_lawful, by decide, C5_prefix_free refStd refStd_lawful simpleTable (by decide)⟩

/-- C6: for a frequency table whose only symbol is `s`, `buildHuffmanTree` returns a single
leaf carrying `s` and `generateCodes` gives `s` the one-bit code `"0"` (and no other entry);
hence for a video with at least one cell in which every cell uses `s`, the code table built
by `compressASCIIVideo` holds the single code `"0"`, of length 1. -/
theorem C6_single_symbol (S : StdImpl) (hS : S.Lawful) (s : Byte) :
    (∀ (f : FreqTable) (n : Int), f s = some n → (∀ k, k ≠ s → f k = none) →
      buildHuffmanTree S f = .ok (Node.mk s n Node.null Node.null) ∧
      (Node.mk s n Node.null Node.null).internalCount = 0 ∧
      ∀ k, generateCodes (Node.mk s n Node.null Node.null) [] (fun _ => none) k =
        if k = s then some ['0'] else none) ∧
    (∀ (video : ASCIIVideo), (∀ e ∈ video, ∀ p ∈ e.2, p.1 = s) → (∃ e ∈ video, e.2 ≠ []) →
      ∃ n, buildHuffmanTree S (countChars video (fun _ => none)) =
          .ok (Node.mk s n Node.null Node.null) ∧
        ∀ k c, generateCodes (Node.mk s n Node.null Node.null) [] (fun _ => none) k = some c →
          k = s ∧ c.length = 1) := by
  have hgen : ∀ (n : Int) (k : Byte),
      generateCodes (Node.mk s n Node.null Node.null) [] (fun _ => none) k =
        if k = s then some ['0'] else none := by
    intro n k
    simp [generateCodes, isLeafPair, Node.isNull, CodeTable.set]
  constructor
  · intro f n hs ho
    exact ⟨buildHuffmanTree_single S hS f s n (entries_single f s n hs ho), rfl, hgen n⟩
  · intro video hall hne
    have hsome : ((countChars video (fun _ => none)) s).isSome = true := by
      rw [countChars_isSome]
      right
      obtain ⟨e, he, hne2⟩ := hne
      obtain ⟨p, hp⟩ := List.exists_mem_of_ne_nil _ hne2
      exact ⟨e, he, p, hp, hall e he p hp⟩
    obtain ⟨n, hn⟩ := Option.isSome_iff_exists.mp hsome
    have hnone : ∀ k, k ≠ s → (countChars video (fun _ => none)) k = none := by
      intro k hk
      rw [← Option.not_isSome_iff_eq_none, countChars_isSome]
      rintro (h | ⟨e, he, p, hp, hpk⟩)
      · simp at h
      · exact hk (by rw [← hpk]; exact hall e he p hp)
    refine ⟨n, buildHuffmanTree_single S hS _ s n (entries_single _ s n hn hnone), ?_⟩
    intro k c hc
    rw [hgen] at hc
    by_cases hk : k = s
    · rw [if_pos hk] at hc
      cases hc
      exact ⟨hk, rfl⟩
    · rw [if_neg hk] at hc
      cases hc

/-- C6, witness: the symbol `'X'` alone, in a table and in a two-frame video. -/
theorem C6_single_symbol_witness :
    refStd.Lawful ∧
    buildHuffmanTree refStd (fun c => if c = 88 then some 15 else none) =
      .ok (Node.mk 88 15 Node.null Node.null) ∧
    (∃ n, buildHuffmanTree refStd
        (countChars [(0, [(88, ⟨1, 2, 3⟩)]), (1, [(88, ⟨4, 5, 6⟩)])] (fun _ => none)) =
          .ok (Node.mk 88 n Node.null Node.null) ∧
        ∀ k c, generateCodes (Node.mk 88 n Node.null Node.null) [] (fun _ => none) k = some c →
          k = 88 ∧ c.length = 1) :=
  ⟨refStd_lawful,
    ((C6_single_symbol refStd refStd_lawful 88).1 (fun c => if c = 88 then some 15 else none) 15
      (by decide) (by intro k hk; simp [hk])).1,
    (C6_single_symbol refStd refStd_lawful 88).2 [(0, [(88, ⟨1, 2, 3⟩)]), (1, [(88, ⟨4, 5, 6⟩)])]
      (by simp) (by simp)⟩

/-- C13 (amended): `buildHuffmanTree` raises no error: it returns the null pointer if and
only if the frequency table is empty, and for every non-empty table it returns a tree (a
non-null pointer to a well-formed tree). -/
theorem C13_empty_table_gives_null (S : StdImpl) (hS : S.Lawful) (f : FreqTable) :
    (buildHuffmanTree S f = .ok Node.null ↔ f.entries = []) ∧
    (f.entries ≠ [] → ∃ T, buildHuffmanTree S f = .ok T ∧ T.isNull = false ∧
      T.proper = true) := by
  have h2 : f.entries ≠ [] → ∃ T, buildHuffmanTree S f = .ok T ∧ T.isNull = false ∧
      T.proper = true := by
    intro hf
    obtain ⟨T, h1, h2, _⟩ := buildHuffmanTree_spec S hS f hf
    exact ⟨T, h1, proper_ne_null T h2, h2⟩
  refine ⟨⟨?_, buildHuffmanTree_empty S f⟩, h2⟩
  intro h
  by_contra hf
  obtain ⟨T, h3, h4, _⟩ := h2 hf
  rw [h] at h3
  cases h3
  simp [Node.isNull] at h4

set_option maxRecDepth 100000 in
/-- C13, witness: the reference library and the table of the `testSimpleVideo` video. -/
theorem C13_empty_table_gives_null_witness :
    refStd.Lawful ∧
    (buildHuffmanTree refStd simpleTable = .ok Node.null ↔ simpleTable.entries = []) ∧
    (simpleTable.entries ≠ [] → ∃ T, buildHuffmanTree refStd simpleTable = .ok T ∧
      T.isNull = false ∧ T.proper = true) :=
  ⟨refStd_lawful, C13_empty_table_gives_null refStd refStd_lawful simpleTable⟩

set_option maxRecDepth 100000 in
/-- C13, counterexample: on the empty table `buildHuffmanTree` returns normally, with the
null pointer. -/
theorem C13_counterexample :
    buildHuffmanTree refStd (fun _ => none) = .ok Node.null := by
  decide

/-- C17: for a non-empty frequency table with `k` symbols, every node of the tree
`buildHuffmanTree` returns is a leaf or has exactly two children, the tree has `k` leaves
and `k - 1` internal nodes, and its leaves carry exactly the symbols of the table, each on
one leaf. -/
theorem C17_tree_shape (S : StdImpl) (hS : S.Lawful) (f : FreqTable) (hf : f.entries ≠ []) :
    ∃ T, buildHuffmanTree S f = .ok T ∧ T.proper = true ∧
      T.leaves.length = f.entries.length ∧ T.internalCount = f.entries.length - 1 ∧
      T.leaves.Nodup ∧ ∀ s, s ∈ T.leaves ↔ (f s).isSome = true := by
  obtain ⟨T, h1, h2, h3⟩ := buildHuffmanTree_spec S hS f hf
  have hlen : T.leaves.length = f.entries.length := by
    rw [h3.length_eq, List.length_map]
  refine ⟨T, h1, h2, hlen, ?_, (h3.nodup_iff).mpr (entries_keys_nodup f), ?_⟩
  · have := internalCount_add_one T h2
    omega
  · intro s
    rw [h3.mem_iff, entries_keys_mem]

set_option maxRecDepth 100000 in
/-- C17, witness: the table of the `testSimpleVideo` video. -/
theorem C17_tree_shape_witness :
    refStd.Lawful ∧ simpleTable.entries ≠ [] ∧
    ∃ T, buildHuffmanTree refStd simpleTable = .ok T ∧ T.proper = true ∧
      T.leaves.length = simpleTable.entries.length ∧
      T.internalCount = simpleTable.entries.length - 1 ∧
      T.leaves.Nodup ∧ ∀ s, s ∈ T.leaves ↔ (simpleTable s).isSome = true :=
  ⟨refStd_lawful, by decide, C17_tree_shape refStd refStd_lawful simpleTable (by decide)⟩

/-- C11 (code defect): `readHuffmanTree` never tests the stream after a read.  On every
proper prefix of the bytes `writeHuffmanTree` writes for a well-formed tree, among them the
empty stream, a stream that ends between a leaf flag and its symbol, and the tree of the
`testSimpleVideo` video without its last byte, the flag or the symbol is used uninitialised
(undefined behaviour) where the claim has a truncated-stream error.  The caller's test
`if (!huffmanTree)` never sees a null tree and its `catch` never sees an exception:
`decompressASCIIVideo` of a file that holds a frame count and nothing else does not return
the empty video. -/
theorem C11_truncated_tree_read :
    (∀ (T : Node) (p : List Byte), T.proper = true → p <+: writeHuffmanTree T →
      p ≠ writeHuffmanTree T → readHuffmanTree p = .error .undefined_behaviour) ∧
    readHuffmanTree [] = .error .undefined_behaviour ∧
    readHuffmanTree [1] = .error .undefined_behaviour ∧
    writeHuffmanTree simpleTree = [0, 0, 1, 67, 1, 66, 1, 65] ∧
    readHuffmanTree [0, 0, 1, 67, 1, 66, 1] = .error .undefined_behaviour ∧
    decompressASCIIVideo ".bin" (.file [1, 0, 0, 0]) = .error .undefined_behaviour := by
  refine ⟨?_, by decide, by decide, by decide, by decide, by decide⟩
  intro T p hT hp hne
  unfold readHuffmanTree
  exact readHuffmanTreeAux_prefix T hT _ p hp hne (by omega)

set_option maxRecDepth 1000000 in
/-- C12 (code defect): `findCharFromCode` has no check of the node the walk ends at.  In
the tree of the `testSimpleVideo` video (codes C = 00, B = 01, A = 1) the bits `0` and the
empty bit string end at an internal node, and its character 0 is returned as a symbol
where the claim has a malformed-stream error; the bits `1 0` step below the leaf A and a
null pointer is dereferenced, as it is on an absent tree.  Through `parsePixel`: a file
with that tree whose single cell has the code length 1 and the code bit `0` decodes to a
cell with the symbol 0, and one whose cell has the code length 2 and the code bits `1 0`
ends in undefined behaviour, which the `catch` of `decompressASCIIVideo` does not see. -/
theorem C12_malformed_code_decoded :
    findCharFromCode simpleTree ['0'] = .ok 0 ∧
    findCharFromCode simpleTree [] = .ok 0 ∧
    findCharFromCode simpleTree ['1', '0'] = .error .undefined_behaviour ∧
    findCharFromCode Node.null ['0'] = .error .undefined_behaviour ∧
    decompressASCIIVideo ".bin"
        (.file [1, 0, 0, 0, 0, 0, 1, 67, 1, 66, 1, 65,
          1, 0, 0, 0, 33, 0, 0, 0, 1, 127, 128, 0, 0, 1]) =
      .ok [(0, [(0, ⟨255, 0, 0⟩)])] ∧
    decompressASCIIVideo ".bin"
        (.file [1, 0, 0, 0, 0, 0, 1, 67, 1, 66, 1, 65,
          1, 0, 0, 0, 34, 0, 0, 0, 2, 191, 192, 0, 0, 2]) =
      .error .undefined_behaviour := by
  decide

/-! ## Claims on the frames -/

/-- C7: for every frame and every code table, `compressFrame` in delta mode against an
identical previous frame writes exactly 9 bytes: the change count 0, the bit count 0, no
data byte, and the remainder byte 0, whatever the length of the frame. -/
theorem C7_unchanged_frame_delta (codes : CodeTable) (frame : Frame) :
    compressFrame frame codes true frame = .ok (writeInt 0 ++ writeInt 0 ++ [0]) ∧
    (writeInt 0 ++ writeInt 0 ++ ([0] : List Byte)).length = 9 := by
  have hs := deltaBits_same codes frame frame 0 (fun j p h => by simpa using h)
  have hl := deltaFrameLoop_changed_eq codes frame frame 0 [] 0 (fun j p hj hc => by
    have h2 : cellChanged frame (0 + j) p = false := by
      rw [cellChanged_false_iff]; simpa using hj
    rw [h2] at hc
    cases hc)
  rw [hs.1, hs.2] at hl
  refine ⟨?_, rfl⟩
  unfold compressFrame
  simp only [Bool.not_true, Bool.false_eq_true, if_false]
  rw [hl]
  rfl

/-- C8 (amended): for a frame of at most `2^32` cells whose symbols all have a code and
whose delta encoding has at most `2^31 - 8` bits, the delta branch of `compressFrame`
counts exactly the changed positions (positions outside the previous frame, or whose cell
differs in symbol or in a colour channel), builds the bit string that lists them in
strictly ascending order, each as the 32-bit binary of the index followed by the per-cell
encoding, and writes the count, which reads back as the number of changed positions, in
front of the packed bit string. -/
theorem C8_delta_change_set (codes : CodeTable) (prevFrame frame : Frame)
    (hcodes : ∀ p ∈ frame, (codes p.1).isSome = true) (hlen : frame.length ≤ 4294967296)
    (hbits : (deltaEncoding codes prevFrame frame).length + 8 ≤ 2147483648) :
    (∀ i, i ∈ changedPositions prevFrame frame ↔
      i < frame.length ∧ isChangedAt prevFrame frame i = true) ∧
    (changedPositions prevFrame frame).Pairwise (fun a b => a < b) ∧
    (∀ i ∈ changedPositions prevFrame frame,
      (bitsetToString 32 i).length = 32 ∧ binaryValue (bitsetToString 32 i) = i) ∧
    deltaFrameLoop codes prevFrame frame 0 [] 0 =
      .ok (deltaEncoding codes prevFrame frame,
        ((changedPositions prevFrame frame).length : Int)) ∧
    ∃ packed, writeBitString (deltaEncoding codes prevFrame frame) = .ok packed ∧
      compressFrame frame codes true prevFrame =
        .ok (writeInt ((changedPositions prevFrame frame).length : Int) ++ packed) ∧
      ∀ rest, readInt (writeInt ((changedPositions prevFrame frame).length : Int) ++
          packed ++ rest) =
        .ok (((changedPositions prevFrame frame).length : Int), packed ++ rest) := by
  have hspec := deltaBits_eq_deltaEncoding codes prevFrame frame
  have hge := deltaBits_length_ge codes prevFrame frame 0
  rw [hspec.1, hspec.2] at hge
  have hcnt : (changedPositions prevFrame frame).length < 2147483648 := by omega
  have hl := deltaFrameLoop_eq codes prevFrame frame 0 [] 0 hcodes
  have hn : (if deltaCount prevFrame frame 0 = 0 then (0 : Int)
      else toInt32 (0 + ((deltaCount prevFrame frame 0 : Nat) : Int))) =
      ((deltaCount prevFrame frame 0 : Nat) : Int) := by
    by_cases h0 : deltaCount prevFrame frame 0 = 0
    · rw [if_pos h0, h0]; rfl
    · rw [if_neg h0, Int.zero_add, toInt32_natCast _ (by rw [hspec.2]; exact hcnt)]
  rw [hn, hspec.1, hspec.2, List.nil_append] at hl
  refine ⟨mem_changedPositions prevFrame frame, changedPositions_sorted prevFrame frame, ?_,
    hl, _, writeBitString_eq _ hbits, ?_, ?_⟩
  · intro i hi
    have hi2 : i < frame.length := ((mem_changedPositions prevFrame frame i).mp hi).1
    refine ⟨bitsetToString_length 32 i, ?_⟩
    rw [binaryValue_bitsetToString]
    exact Nat.mod_eq_of_lt (by norm_num; omega)
  · unfold compressFrame
    simp only [Bool.not_true, Bool.false_eq_true, if_false]
    rw [hl]
    simp only
    rw [writeBitString_eq _ hbits]
  · intro rest
    rw [List.append_assoc, readInt_writeInt, toInt32_natCast _ hcnt]

set_option maxRecDepth 100000 in
/-- C8, witness: the frames AAA and ABA of `testSimpleVideo`, with the code table of the
tree of that video: one change, at index 1. -/
theorem C8_delta_change_set_witness :
    (∀ p ∈ [cellA, cellB, cellA],
      (generateCodes simpleTree [] (fun _ => none) p.1).isSome = true) ∧
    [cellA, cellB, cellA].length ≤ 4294967296 ∧
    (deltaEncoding (generateCodes simpleTree [] (fun _ => none)) [cellA, cellA, cellA]
      [cellA, cellB, cellA]).length + 8 ≤ 2147483648 ∧
    changedPositions [cellA, cellA, cellA] [cellA, cellB, cellA] = [1] ∧
    ((∀ i, i ∈ changedPositions [cellA, cellA, cellA] [cellA, cellB, cellA] ↔
      i < [cellA, cellB, cellA].length ∧
        isChangedAt [cellA, cellA, cellA] [cellA, cellB, cellA] i = true) ∧
    (changedPositions [cellA, cellA, cellA] [cellA, cellB, cellA]).Pairwise
      (fun a b => a < b) ∧
    (∀ i ∈ changedPositions [cellA, cellA, cellA] [cellA, cellB, cellA],
      (bitsetToString 32 i).length = 32 ∧ binaryValue (bitsetToString 32 i) = i) ∧
    deltaFrameLoop (generateCodes simpleTree [] (fun _ => none)) [cellA, cellA, cellA]
        [cellA, cellB, cellA] 0 [] 0 =
      .ok (deltaEncoding (generateCodes simpleTree [] (fun _ => none)) [cellA, cellA, cellA]
          [cellA, cellB, cellA],
        ((changedPositions [cellA, cellA, cellA] [cellA, cellB, cellA]).length : Int)) ∧
    ∃ packed, writeBitString (deltaEncoding (generateCodes simpleTree [] (fun _ => none))
        [cellA, cellA, cellA] [cellA, cellB, cellA]) = .ok packed ∧
      compressFrame [cellA, cellB, cellA] (generateCodes simpleTree [] (fun _ => none)) true
          [cellA, cellA, cellA] =
        .ok (writeInt ((changedPositions [cellA, cellA, cellA]
          [cellA, cellB, cellA]).length : Int) ++ packed) ∧
      ∀ rest, readInt (writeInt ((changedPositions [cellA, cellA, cellA]
          [cellA, cellB, cellA]).length : Int) ++ packed ++ rest) =
        .ok (((changedPositions [cellA, cellA, cellA] [cellA, cellB, cellA]).length : Int),
          packed ++ rest)) :=
  ⟨by decide, by decide, by decide, by decide,
    C8_delta_change_set (generateCodes simpleTree [] (fun _ => none)) [cellA, cellA, cellA]
      [cellA, cellB, cellA] (by decide) (by decide) (by decide)⟩

set_option maxRecDepth 100000 in
/-- C8, counterexample, with the code table of the `testSimpleVideo` video (the code of
`'B'` is `"01"`).  (a) A frame whose symbol has no code in the table: `huffmanCodes.at`
throws and nothing is written.  (b) A frame of 32,537,631 cells `'B'` against an empty
previous frame: every position is changed and takes `32 + 34` bits, the delta encoding has
`2,147,483,646` bits, the counter of `writeBitString` overflows and the frame is not
written.  (c) A frame of `2^32 + 1` cells that differs from the previous frame in its last
cell only: the changed position is `2^32`, and the index written is the 32-bit binary
of 0.  (d) A frame of `2^31` cells against an empty previous frame: the number of changed
positions is `2^31`, which no `int` holds. -/
theorem C8_counterexample :
    compressFrame [cellA] (fun _ => none) true [] = .error .out_of_range ∧
    ((∀ p ∈ List.replicate 32537631 cellB,
        (generateCodes simpleTree [] (fun _ => none) p.1).isSome = true) ∧
      (List.replicate 32537631 cellB).length ≤ 4294967296 ∧
      (deltaEncoding (generateCodes simpleTree [] (fun _ => none)) []
        (List.replicate 32537631 cellB)).length = 2147483646 ∧
      compressFrame (List.replicate 32537631 cellB)
        (generateCodes simpleTree [] (fun _ => none)) true [] = .error .undefined_behaviour) ∧
    ((List.replicate 4294967296 cellA ++ [cellB]).length = 4294967297 ∧
      changedPositions (List.replicate 4294967297 cellA)
        (List.replicate 4294967296 cellA ++ [cellB]) = [4294967296] ∧
      deltaFrameLoop (generateCodes simpleTree [] (fun _ => none))
          (List.replicate 4294967297 cellA) (List.replicate 4294967296 cellA ++ [cellB])
          0 [] 0 =
        .ok (bitsetToString 32 0 ++ cellBits ['0', '1'] cellB, 1)) ∧
    ((changedPositions [] (List.replicate 2147483648 cellA)).length = 2147483648 ∧
      ∀ x : Int, toInt32 x ≠ 2147483648) := by
  have hcb : codeOf (generateCodes simpleTree [] (fun _ => none)) cellB.1 = ['0', '1'] := by
    decide
  have hq : ∀ j, cellChanged [] j cellB = true :=
    fun j => cellChanged_of_le [] j cellB (Nat.zero_le j)
  have hlenB := deltaBits_all_changed_length (generateCodes simpleTree [] (fun _ => none))
    [] cellB hq 32537631 0
  rw [hcb] at hlenB
  have hval : 32537631 * (64 + (['0', '1'] : List Char).length) = 2147483646 := by norm_num
  rw [hval] at hlenB
  have hsomeB : ∀ p ∈ List.replicate 32537631 cellB,
      (generateCodes simpleTree [] (fun _ => none) p.1).isSome = true := by
    intro p hp
    rw [(List.mem_replicate.mp hp).2]
    decide
  have hmemC : ∀ p ∈ List.replicate 4294967296 cellA ++ [cellB], p = cellA ∨ p = cellB := by
    intro p hp
    rcases List.mem_append.mp hp with h | h
    · exact Or.inl (List.mem_replicate.mp h).2
    · exact Or.inr (List.mem_singleton.mp h)
  have hlast := changedPositions_last 4294967296 cellA cellB (by decide)
  have henc := deltaEncoding_last (generateCodes simpleTree [] (fun _ => none)) 4294967296
    cellA cellB (by decide)
  have hspecC := deltaBits_eq_deltaEncoding (generateCodes simpleTree [] (fun _ => none))
    (List.replicate 4294967297 cellA) (List.replicate 4294967296 cellA ++ [cellB])
  have hmod := bitsetToString_mod 32 4294967296
  have e0 : 4294967296 % 2 ^ 32 = 0 := by norm_num
  rw [e0] at hmod
  refine ⟨by decide, ⟨hsomeB, ?_, ?_, ?_⟩, ⟨?_, hlast, ?_⟩, ⟨?_, ?_⟩⟩
  · rw [List.length_replicate]; omega
  · rw [← (deltaBits_eq_deltaEncoding _ _ _).1]
    exact hlenB
  · apply compressFrame_delta_overflow _ _ _ hsomeB
    · rw [hlenB]; omega
    · rw [hlenB]; omega
  · rw [List.length_append, List.length_replicate, List.length_singleton]
  · rw [deltaFrameLoop_eq _ _ _ 0 [] 0 (fun p hp => by
      rcases hmemC p hp with h | h <;> rw [h] <;> decide), hspecC.1, hspecC.2, hlast, henc,
      hcb, ← hmod]
    rfl
  · rw [changedPositions_nil, List.length_range, List.length_replicate]
  · intro x
    unfold toInt32
    simp only []
    split <;> omega

/-- C18: with the tree and the code table built from a frequency table, every symbol `s`
of the table has a code of at most 255 bits, and for every colour with channels `≤ 255`
the per-cell encoding that `compressFrame` appends is the 8-bit binary of the code length,
the code, and the 8-bit binaries of the three channels (`32 + len` bits); `parsePixel` run
at the offset `p` where a bit string holds this encoding returns the cell and the offset
`p + 32 + len` (offsets being `int`s, `p + 32 + len < 2^31`), with the tree as built and
with the tree as read back from the file. -/
theorem C18_cell_encoding_and_parse (S : StdImpl) (hS : S.Lawful) (f : FreqTable) (T : Node)
    (hT : buildHuffmanTree S f = .ok T) (s : Byte) (hs : (f s).isSome = true) (c : rgb)
    (hc : c.c0 ≤ 255 ∧ c.c1 ≤ 255 ∧ c.c2 ≤ 255) :
    ∃ code, generateCodes T [] (fun _ => none) s = some code ∧
      (∀ bs, appendPixel (generateCodes T [] (fun _ => none)) bs (s, c) =
        .ok (bs ++ cellBits code (s, c))) ∧
      cellBits code (s, c) = bitsetToString 8 code.length ++ code ++ bitsetToString 8 c.c0 ++
        bitsetToString 8 c.c1 ++ bitsetToString 8 c.c2 ∧
      (bitsetToString 8 code.length).length = 8 ∧
      binaryValue (bitsetToString 8 code.length) = code.length ∧
      binaryValue (bitsetToString 8 c.c0) = c.c0 ∧
      binaryValue (bitsetToString 8 c.c1) = c.c1 ∧
      binaryValue (bitsetToString 8 c.c2) = c.c2 ∧
      (cellBits code (s, c)).length = 32 + code.length ∧
      ∀ pre post : List Char, pre.length + 32 + code.length < 2147483648 →
        parsePixel T (pre ++ cellBits code (s, c) ++ post) (pre.length : Int) =
          .ok ((s, c), ((pre.length + 32 + code.length : Nat) : Int)) ∧
        parsePixel T.strip (pre ++ cellBits code (s, c) ++ post) (pre.length : Int) =
          .ok ((s, c), ((pre.length + 32 + code.length : Nat) : Int)) := by
  obtain ⟨⟨code, h1, h2, h3, h4⟩, ⟨code2, h5, h6, _, _⟩⟩ := built_decodes S hS f T hT s hs
  rw [h1] at h5
  cases h5
  have hv : ∀ v, v ≤ 255 → binaryValue (bitsetToString 8 v) = v := by
    intro v hv
    rw [binaryValue_bitsetToString]
    exact Nat.mod_eq_of_lt (by norm_num; omega)
  have hlow : lowByteCell (s, c) = (s, c) := lowByteCell_of_le (s, c) hc
  refine ⟨code, h1, ?_, rfl, bitsetToString_length 8 _, hv _ h3, hv _ hc.1, hv _ hc.2.1,
    hv _ hc.2.2, cellBits_length code (s, c), ?_⟩
  · intro bs
    exact appendPixel_eq (generateCodes T [] (fun _ => none)) bs (s, c) code h1
  · intro pre post hb
    have e1 := parsePixel_cellBits T pre post code (s, c) h6 h3 hb
    have e2 := parsePixel_cellBits T.strip pre post code (s, c) h2 h3 hb
    rw [hlow] at e1 e2
    exact ⟨e1, e2⟩

set_option maxRecDepth 100000 in
/-- C18, witness: the table and tree of the `testSimpleVideo` video and its cell
`{'B', {0, 255, 0}}`. -/
theorem C18_cell_encoding_and_parse_witness :
    refStd.Lawful ∧ buildHuffmanTree refStd simpleTable = .ok simpleTree ∧
    (simpleTable 66).isSome = true ∧
    ((⟨0, 255, 0⟩ : rgb).c0 ≤ 255 ∧ (⟨0, 255, 0⟩ : rgb).c1 ≤ 255 ∧
      (⟨0, 255, 0⟩ : rgb).c2 ≤ 255) ∧
    ∃ code, generateCodes simpleTree [] (fun _ => none) 66 = some code ∧
      (∀ bs, appendPixel (generateCodes simpleTree [] (fun _ => none)) bs (66, ⟨0, 255, 0⟩) =
        .ok (bs ++ cellBits code (66, ⟨0, 255, 0⟩))) ∧
      cellBits code (66, ⟨0, 255, 0⟩) = bitsetToString 8 code.length ++ code ++
        bitsetToString 8 (⟨0, 255, 0⟩ : rgb).c0 ++
        bitsetToString 8 (⟨0, 255, 0⟩ : rgb).c1 ++ bitsetToString 8 (⟨0, 255, 0⟩ : rgb).c2 ∧
      (bitsetToString 8 code.length).length = 8 ∧
      binaryValue (bitsetToString 8 code.length) = code.length ∧
      binaryValue (bitsetToString 8 (⟨0, 255, 0⟩ : rgb).c0) = (⟨0, 255, 0⟩ : rgb).c0 ∧
      binaryValue (bitsetToString 8 (⟨0, 255, 0⟩ : rgb).c1) = (⟨0, 255, 0⟩ : rgb).c1 ∧
      binaryValue (bitsetToString 8 (⟨0, 255, 0⟩ : rgb).c2) = (⟨0, 255, 0⟩ : rgb).c2 ∧
      (cellBits code (66, ⟨0, 255, 0⟩)).length = 32 + code.length ∧
      ∀ pre post : List Char, pre.length + 32 + code.length < 2147483648 →
        parsePixel simpleTree (pre ++ cellBits code (66, ⟨0, 255, 0⟩) ++ post)
            (pre.length : Int) =
          .ok ((66, ⟨0, 255, 0⟩), ((pre.length + 32 + code.length : Nat) : Int)) ∧
        parsePixel simpleTree.strip (pre ++ cellBits code (66, ⟨0, 255, 0⟩) ++ post)
            (pre.length : Int) =
          .ok ((66, ⟨0, 255, 0⟩), ((pre.length + 32 + code.length : Nat) : Int)) :=
  ⟨refStd_lawful, by decide, by decide, by decide,
    C18_cell_encoding_and_parse refStd refStd_lawful simpleTable simpleTree (by decide) 66
      (by decide) ⟨0, 255, 0⟩ (by decide)⟩

/-! ## Claims on the layout of the packed bytes -/

/-- C15 (amended): for a bit sequence `B` of length `L ≤ 2^31 - 8`, `writeBitString` writes
the count, `ceil(L/8)` data bytes and the remainder byte `L mod 8`; data byte `j` is what
`stringToByte` returns at offset `8j` (so it reads no position beyond index `L`) and its
value is the sum over `k` in `0..7` of `bit(8j+k) * 2^(7-k)`, where `bit(p)` is `B[p]` for
`p < L` and 0 beyond. -/
theorem C15_pack_byte_layout (B : List Char) (hL : B.length + 8 ≤ 2147483648) :
    ∃ data : List Byte,
      writeBitString B = .ok (writeInt B.length ++ data ++ [Fin.ofNat (B.length % 8)]) ∧
      data.length = (B.length + 7) / 8 ∧
      ((Fin.ofNat (B.length % 8) : Byte) : Nat) = B.length % 8 ∧
      ∀ j, j < (B.length + 7) / 8 →
        ∃ byte : Byte, data.get? j = some byte ∧ (byte : Nat) = dataByteValue B j ∧
          stringToByte B ((8 * j : Nat) : Int) = .ok byte := by
  refine ⟨chunkBytes ((B.length + 7) / 8) B, writeBitString_eq B hL, chunkBytes_length _ _,
    ?_, ?_⟩
  · rw [byte_ofNat_val]
    omega
  · intro j hj
    exact ⟨_, chunkBytes_get? _ B j hj, packByte_value B j,
      stringToByte_eq B (8 * j) (by omega) (by omega)⟩

/-- C15, witness: the 42-bit string of `simple_test.cpp`. -/
theorem C15_pack_byte_layout_witness :
    testBits.length + 8 ≤ 2147483648 ∧
    ∃ data : List Byte,
      writeBitString testBits =
        .ok (writeInt testBits.length ++ data ++ [Fin.ofNat (testBits.length % 8)]) ∧
      data.length = (testBits.length + 7) / 8 ∧
      ((Fin.ofNat (testBits.length % 8) : Byte) : Nat) = testBits.length % 8 ∧
      ∀ j, j < (testBits.length + 7) / 8 →
        ∃ byte : Byte, data.get? j = some byte ∧ (byte : Nat) = dataByteValue testBits j ∧
          stringToByte testBits ((8 * j : Nat) : Int) = .ok byte :=
  ⟨by decide, C15_pack_byte_layout testBits (by decide)⟩

/-- C15, counterexample: a bit sequence of `2^31 - 7` ones.  After the chunk at offset
`2^31 - 8` the `int` counter `i += 8` overflows, and `stringToByte` is called with a
negative offset and reads `bits[start + i]` in front of the string: no bytes of the
stated layout are produced. -/
theorem C15_counterexample :
    (List.replicate 2147483641 '1').length = 2147483641 ∧
    writeBitString (List.replicate 2147483641 '1') = .error .undefined_behaviour ∧
    stringToByte (List.replicate 2147483641 '1') (-2147483648) =
      .error .undefined_behaviour := by
  refine ⟨List.length_replicate _ _, ?_, ?_⟩
  · exact writeBitString_overflow _ (by rw [List.length_replicate]; omega)
      (by rw [List.length_replicate]; omega)
  · exact stringToByte_neg _ _ (by omega) (by omega) (by rw [List.length_replicate]; omega)

/-- C16 (amended): for a bit sequence of length `L ≤ 2^31 - 8`, the last byte that
`writeBitString` writes is `L mod 8`, the number of bits of the sequence in the final
partial data byte (0 when `L` is a multiple of 8); the number of padding bits
`8 * ceil(L/8) - L` is `(8 - remainder) mod 8`, and equals the remainder only when
`L mod 8` is 0 or 4. -/
theorem C16_remainder_is_length_mod_8 (B : List Char) (hL : B.length + 8 ≤ 2147483648) :
    ∃ (out : List Byte) (remainder : Byte),
      writeBitString B = .ok out ∧ out.getLast? = some remainder ∧
      (remainder : Nat) = B.length % 8 ∧
      8 * ((B.length + 7) / 8) - B.length = (8 - (remainder : Nat)) % 8 ∧
      ((remainder : Nat) = 8 * ((B.length + 7) / 8) - B.length ↔
        B.length % 8 = 0 ∨ B.length % 8 = 4) := by
  have hv : ((Fin.ofNat (B.length % 8) : Byte) : Nat) = B.length % 8 := by
    rw [byte_ofNat_val]; omega
  refine ⟨_, Fin.ofNat (B.length % 8), writeBitString_eq B hL, ?_, hv, ?_, ?_⟩
  · rw [List.getLast?_append, List.getLast?_singleton]
    rfl
  · rw [hv]; omega
  · rw [hv]; omega

/-- C16, witness: the 42-bit string of `simple_test.cpp`. -/
theorem C16_remainder_is_length_mod_8_witness :
    testBits.length + 8 ≤ 2147483648 ∧
    ∃ (out : List Byte) (remainder : Byte),
      writeBitString testBits = .ok out ∧ out.getLast? = some remainder ∧
      (remainder : Nat) = testBits.length % 8 ∧
      8 * ((testBits.length + 7) / 8) - testBits.length = (8 - (remainder : Nat)) % 8 ∧
      ((remainder : Nat) = 8 * ((testBits.length + 7) / 8) - testBits.length ↔
        testBits.length % 8 = 0 ∨ testBits.length % 8 = 4) :=
  ⟨by decide, C16_remainder_is_length_mod_8 testBits (by decide)⟩

/-- C16, counterexample: for the 42-bit string of `simple_test.cpp`, `writeBitString`
writes the remainder byte 2 (`42 mod 8`), while the final data byte holds
`8 * 6 - 42 = 6` padding bits; and for a sequence of `2^31 - 7` zeros the counter
`i += 8` overflows and no remainder byte is reached. -/
theorem C16_counterexample :
    writeBitString testBits = .ok [42, 0, 0, 0, 172, 234, 179, 170, 206, 128, 2] ∧
    testBits.length = 42 ∧ 8 * ((testBits.length + 7) / 8) - testBits.length = 6 ∧
    writeBitString (List.replicate 2147483641 '0') = .error .undefined_behaviour := by
  refine ⟨by decide, by decide, by decide, ?_⟩
  exact writeBitString_overflow _ (by rw [List.length_replicate]; omega)
    (by rw [List.length_replicate]; omega)

/-! ## Claims on the container -/

/-- C14 (amended): for a video whose frame indices are exactly `0 .. n-1` with
`1 ≤ n < 2^31`, in which the bit string of every frame (the full encoding of frame 0, the
delta encoding of every later frame) has at most `2^31 - 8` bits, the file
`compressASCIIVideo` writes is, byte for byte: the 32-bit frame count `n`; the preorder
encoding of the tree `buildHuffmanTree` makes of the table of symbol counts (which holds,
for every symbol, its number of occurrences over all cells of all frames as long as no
symbol occurs `2^31` times); frame 0 as a full frame (32-bit cell count, then the packed
per-cell encodings in positional order); then, for `i = 1 .. n-1` in index order, the
delta frame of frame `i` against the original frame `i - 1` (32-bit number of changed
positions, then the packed delta encoding). -/
theorem C14_container_layout (S : StdImpl) (hS : S.Lawful) (V : ASCIIVideo) (n : Nat)
    (hn : 1 ≤ n) (hn2 : n < 2147483648)
    (hkeys : (V.map Prod.fst).Perm ((List.range n).map Int.ofNat))
    (hbits : ∀ i, i < n → (frameBitString S V i).length + 8 ≤ 2147483648) :
    ∃ T, buildHuffmanTree S (countChars V (fun _ => none)) = .ok T ∧
      ((∀ s, occurrences V s < 2147483648) →
        countChars V (fun _ => none) = symbolCounts V) ∧
      compressASCIIVideo S V =
        .ok (containerLayout T (generateCodes T [] (fun _ => none)) V n) := by
  obtain ⟨T, hT, hl⟩ := container_layout S hS V n hn hn2 hkeys hbits
  exact ⟨T, hT, countChars_symbolCounts V, hl⟩

set_option maxRecDepth 1000000 in
/-- C14, witness: the three-frame video of `testSimpleVideo`, for which the layout is the
70 bytes of `simpleArtifact`: the count 3, the 8 bytes of the tree, the full frame AAA
(4 + 4 + 13 + 1 bytes), and two delta frames of one change each (4 + 4 + 9 + 1 bytes). -/
theorem C14_container_layout_witness :
    refStd.Lawful ∧ 1 ≤ 3 ∧ 3 < 2147483648 ∧
    (simpleVideo.map Prod.fst).Perm ((List.range 3).map Int.ofNat) ∧
    (∀ i, i < 3 → (frameBitString refStd simpleVideo i).length + 8 ≤ 2147483648) ∧
    buildHuffmanTree refStd (symbolCounts simpleVideo) = .ok simpleTree ∧
    containerLayout simpleTree (generateCodes simpleTree [] (fun _ => none)) simpleVideo 3 =
      simpleArtifact ∧
    ∃ T, buildHuffmanTree refStd (countChars simpleVideo (fun _ => none)) = .ok T ∧
      ((∀ s, occurrences simpleVideo s < 2147483648) →
        countChars simpleVideo (fun _ => none) = symbolCounts simpleVideo) ∧
      compressASCIIVideo refStd simpleVideo =
        .ok (containerLayout T (generateCodes T [] (fun _ => none)) simpleVideo 3) :=
  ⟨refStd_lawful, by decide, by decide, by decide, by decide, by decide, by decide,
    C14_container_layout refStd refStd_lawful simpleVideo 3 (by decide) (by decide)
      (by decide) (by decide)⟩

/-- C14, counterexample.  (a) One frame of 65,075,262 cells `'A'`: its only code is `"0"`,
each cell takes 33 bits and the bit string of the frame has `2,147,483,646` bits; the
counter of `writeBitString` overflows and no file is completed.  (b) `2^31` frames of one
cell `'A'`: the frame count converts to the `int` `-2^31`, the frame loop does not run,
and the file holds six bytes, the count field and the tree, without any frame.  (c) One
frame of `2^31` cells `'A'`: the symbol occurs `2^31` times, which the `int` count of the
table does not hold. -/
theorem C14_counterexample :
    (([((0 : Int), List.replicate 65075262 cellA)].map Prod.fst).Perm
        ((List.range 1).map Int.ofNat) ∧
      compressASCIIVideo refStd [(0, List.replicate 65075262 cellA)] =
        .error .undefined_behaviour) ∧
    ((videoOfFrames (List.replicate 2147483648 [cellA])).map Prod.fst =
        (List.range 2147483648).map Int.ofNat ∧
      (∀ e ∈ videoOfFrames (List.replicate 2147483648 [cellA]), e.2 = [cellA]) ∧
      compressASCIIVideo refStd (videoOfFrames (List.replicate 2147483648 [cellA])) =
        .ok [0, 0, 0, 128, 1, 65]) ∧
    (symbolCounts [(0, List.replicate 2147483648 cellA)] 65 = some 2147483648 ∧
      countChars [(0, List.replicate 2147483648 cellA)] (fun _ => none) 65 =
        some (-2147483648)) := by
  have hw := wrapped_count_round_trip refStd refStd_lawful 65 ⟨255, 0, 0⟩ 2147483648
    (by omega) (by decide)
  have hocc : occurrences [((0 : Int), List.replicate 2147483648 cellA)] 65 = 2147483648 :=
    occurrences_single_frame 2147483648 65 ⟨255, 0, 0⟩ 0
  refine ⟨⟨List.Perm.refl _, ?_⟩, ⟨?_, ?_, hw.1⟩, ⟨?_, ?_⟩⟩
  · exact (single_frame_overflow refStd refStd_lawful 65 ⟨255, 0, 0⟩ 65075262
      (by omega) (by omega)).2
  · rw [videoOfFrames_keys, List.length_replicate]
  · intro e he
    exact (List.mem_replicate.mp (mem_videoOfFrames _ e he)).2
  · unfold symbolCounts
    rw [hocc, if_neg (by omega)]
    rfl
  · rw [countChars_eq, hocc, if_neg (by omega)]
    rfl

/-- C9: when the header and the tree of a file are read, the first `k ≥ 1` frames decode,
and in frame `k` (a delta frame) the first `c` changes decode but the next 32-bit index
field holds a value that is not a position of the working frame, then the change loop
stops with `std::out_of_range` at that change without assigning any cell, the exception
leaves the frame loop, and `decompressASCIIVideo` returns the empty video. -/
theorem C9_index_out_of_range (bytes s1 s2 s3 s4 s5 s6 : List Byte)
    (n numChanges bitCount start : Int) (T : Node) (k c : Nat) (video : ASCIIVideo)
    (frameBits field : List Char) (work : Frame)
    (hheader : readInt bytes = .ok (n, s1))
    (htree : readHuffmanTree s1 = .ok (T, s2)) (hT : T.isNull = false)
    (hk : 1 ≤ k) (hkn : (k : Int) < n)
    (hearlier : decodeFramesState T k 0 s2 [] = .ok (s3, video))
    (hcount : readInt s3 = .ok (numChanges, s4))
    (hbitCount : readInt s4 = .ok (bitCount, s5))
    (hbits : readBitsAsString s5 bitCount = .ok (frameBits, s6))
    (hc : (c : Int) < numChanges)
    (hchanges : deltaDecodeLoop T frameBits c 0 ((video.find ((k : Int) - 1)).getD []) =
      .ok (work, start))
    (hfield : substr frameBits start 32 = .ok field) (hfb : IsBits field)
    (hfl : field.length = 32) (hindex : work.length ≤ binaryValue field) :
    deltaDecodeLoop T frameBits 1 start work = .error .out_of_range ∧
    decodeFrame T (k : Int) s3 video = .error .out_of_range ∧
    decompressStream bytes = .error .out_of_range ∧
    decompressASCIIVideo ".bin" (.file bytes) = .ok [] := by
  have hbad := fun r => deltaDecodeLoop_bad_index T frameBits field start work r hfield hfb
    hfl hindex
  have hframe : decodeFrame T (k : Int) s3 video = .error .out_of_range := by
    unfold decodeFrame
    rw [if_neg (by omega), hcount, ok_bind]
    simp only
    rw [hbitCount, ok_bind]
    simp only
    rw [hbits, ok_bind]
    simp only
    have e : numChanges.toNat = c + ((numChanges.toNat - c - 1) + 1) := by omega
    rw [e, deltaDecodeLoop_split, hchanges]
    simp only
    rw [hbad]
    rfl
  have hstream : decompressStream bytes = .error .out_of_range := by
    unfold decompressStream
    rw [hheader, ok_bind]
    simp only
    rw [htree, ok_bind]
    simp only [hT, Bool.false_eq_true, if_false]
    have e : n.toNat = k + ((n.toNat - k - 1) + 1) := by omega
    rw [e, decodeFramesLoop_split, hearlier]
    simp only
    rw [decodeFramesLoop, Int.zero_add, hframe]
  refine ⟨hbad 0, hframe, hstream, ?_⟩
  unfold decompressASCIIVideo
  rw [if_neg (by decide)]
  simp only [hstream]

set_option maxRecDepth 1000000 in
/-- C9, witness: the crafted file `craftedArtifact`: frame 0 is AAA and the delta frame
carries the index 5. -/
theorem C9_index_out_of_range_witness :
    readInt craftedArtifact = .ok (2, craftedArtifact.drop 4) ∧
    readHuffmanTree (craftedArtifact.drop 4) = .ok (simpleTree.strip, craftedArtifact.drop 12) ∧
    simpleTree.strip.isNull = false ∧ 1 ≤ 1 ∧ ((1 : Nat) : Int) < 2 ∧
    decodeFramesState simpleTree.strip 1 0 (craftedArtifact.drop 12) [] =
      .ok (craftedArtifact.drop 34, [(0, [cellA, cellA, cellA])]) ∧
    readInt (craftedArtifact.drop 34) = .ok (1, craftedArtifact.drop 38) ∧
    readInt (craftedArtifact.drop 38) = .ok (66, craftedArtifact.drop 42) ∧
    readBitsAsString (craftedArtifact.drop 42) 66 =
      .ok (bitsetToString 32 5 ++ cellBits ['0', '1'] cellB, craftedArtifact.drop 51) ∧
    ((0 : Nat) : Int) < 1 ∧
    deltaDecodeLoop simpleTree.strip (bitsetToString 32 5 ++ cellBits ['0', '1'] cellB) 0 0
        ((ASCIIVideo.find [(0, [cellA, cellA, cellA])] (((1 : Nat) : Int) - 1)).getD []) =
      .ok ([cellA, cellA, cellA], 0) ∧
    substr (bitsetToString 32 5 ++ cellBits ['0', '1'] cellB) 0 32 =
      .ok (bitsetToString 32 5) ∧
    IsBits (bitsetToString 32 5) ∧ (bitsetToString 32 5).length = 32 ∧
    [cellA, cellA, cellA].length ≤ binaryValue (bitsetToString 32 5) ∧
    (deltaDecodeLoop simpleTree.strip (bitsetToString 32 5 ++ cellBits ['0', '1'] cellB) 1 0
        [cellA, cellA, cellA] = .error .out_of_range ∧
      decodeFrame simpleTree.strip ((1 : Nat) : Int) (craftedArtifact.drop 34)
        [(0, [cellA, cellA, cellA])] = .error .out_of_range ∧
      decompressStream craftedArtifact = .error .out_of_range ∧
      decompressASCIIVideo ".bin" (.file craftedArtifact) = .ok []) :=
  ⟨by decide, by decide, by decide, by decide, by decide, by decide, by decide, by decide,
    by decide, by decide, by decide, by decide, by decide, by decide, by decide,
    C9_index_out_of_range craftedArtifact (craftedArtifact.drop 4) (craftedArtifact.drop 12)
      (craftedArtifact.drop 34) (craftedArtifact.drop 38) (craftedArtifact.drop 42)
      (craftedArtifact.drop 51) 2 1 66 0 simpleTree.strip 1 0 [(0, [cellA, cellA, cellA])]
      (bitsetToString 32 5 ++ cellBits ['0', '1'] cellB) (bitsetToString 32 5)
      [cellA, cellA, cellA] (by decide) (by decide) (by decide) (by decide) (by decide)
      (by decide) (by decide) (by decide) (by decide) (by decide) (by decide) (by decide)
      (by decide) (by decide) (by decide)⟩

/-! ## Claims on the round trip -/

/-- C2 (amended): for a video whose frame indices are exactly `0 .. n-1` with
`1 ≤ n < 2^31`, whose frames all have the same length `m ≥ 1`, whose colour channels are
all `≤ 255`, and in which the bit string of every frame has at most `2^31 - 8` bits,
`compressASCIIVideo` writes a file from which `decompressASCIIVideo` returns the frames of
the video under the indices `0 .. n-1`, a video that `compareVideos` finds equal to the
original. -/
theorem C2_well_formed_round_trip (S : StdImpl) (hS : S.Lawful) (V : ASCIIVideo) (n m : Nat)
    (hn : 1 ≤ n) (hn2 : n < 2147483648)
    (hkeys : (V.map Prod.fst).Perm ((List.range n).map Int.ofNat))
    (hlen : ∀ e ∈ V, e.2.length = m) (hm : 1 ≤ m)
    (hchan : ∀ e ∈ V, ∀ p ∈ e.2, p.2.c0 ≤ 255 ∧ p.2.c1 ≤ 255 ∧ p.2.c2 ≤ 255)
    (hbits : ∀ i, i < n → (frameBitString S V i).length + 8 ≤ 2147483648) :
    ∃ bytes, compressASCIIVideo S V = .ok bytes ∧
      decompressASCIIVideo ".bin" (.file bytes) = .ok (videoOfFrames (framesOf V n)) ∧
      compareVideos V (videoOfFrames (framesOf V n)) = true := by
  obtain ⟨bytes, h1, h2⟩ := container_round_trip S hS V n m hn hn2 hkeys hlen hm hchan hbits
  refine ⟨bytes, h1, h2, ?_⟩
  have hVlen : V.length = n := by
    have := hkeys.length_eq
    simpa using this
  unfold compareVideos
  rw [videoOfFrames_length, framesOf_length, hVlen]
  simp only [decide_True, Bool.true_and, List.all_eq_true]
  intro e he
  have hk : e.1 ∈ (List.range n).map Int.ofNat :=
    hkeys.mem_iff.mp (List.mem_map.mpr ⟨e, he, rfl⟩)
  obtain ⟨j, hj, hje⟩ := List.mem_map.mp hk
  have hjn : j < n := List.mem_range.mp hj
  have hfe := find_of_mem_nodup V (keys_nodup V n hkeys) e he
  have hfa : frameAt V j = e.2 := by
    unfold frameAt
    have : ((j : Nat) : Int) = e.1 := hje
    rw [this, hfe]
    rfl
  have hfind : ASCIIVideo.find (videoOfFrames (framesOf V n)) e.1 = some e.2 := by
    rw [videoOfFrames_find, ← hje]
    have h0 : (0 : Int) ≤ Int.ofNat j ∧ (Int.ofNat j).toNat < (framesOf V n).length := by
      rw [framesOf_length]
      exact ⟨Int.ofNat_nonneg j, hjn⟩
    rw [if_pos h0]
    have : (Int.ofNat j).toNat = j := rfl
    rw [this, framesOf_get?_lt V n j hjn, hfa]
    rfl
  rw [hfind]
  exact compareFrames_self e.2

set_option maxRecDepth 1000000 in
/-- C2, witness: the three-frame video of `testSimpleVideo`. -/
theorem C2_well_formed_round_trip_witness :
    refStd.Lawful ∧ 1 ≤ 3 ∧ 3 < 2147483648 ∧
    (simpleVideo.map Prod.fst).Perm ((List.range 3).map Int.ofNat) ∧
    (∀ e ∈ simpleVideo, e.2.length = 3) ∧ 1 ≤ 3 ∧
    (∀ e ∈ simpleVideo, ∀ p ∈ e.2, p.2.c0 ≤ 255 ∧ p.2.c1 ≤ 255 ∧ p.2.c2 ≤ 255) ∧
    (∀ i, i < 3 → (frameBitString refStd simpleVideo i).length + 8 ≤ 2147483648) ∧
    videoOfFrames (framesOf simpleVideo 3) = simpleVideo ∧
    ∃ bytes, compressASCIIVideo refStd simpleVideo = .ok bytes ∧
      decompressASCIIVideo ".bin" (.file bytes) = .ok (videoOfFrames (framesOf simpleVideo 3)) ∧
      compareVideos simpleVideo (videoOfFrames (framesOf simpleVideo 3)) = true :=
  ⟨refStd_lawful, by decide, by decide, by decide, by decide, by decide, by decide, by decide,
    by decide,
    C2_well_formed_round_trip refStd refStd_lawful simpleVideo 3 3 (by decide) (by decide)
      (by decide) (by decide) (by decide) (by decide) (by decide)⟩
/-- C2, counterexample: two well-formed videos.  (a) One frame of 65,075,262 cells `'A'`:
its only code is `"0"`, each cell takes 33 bits and the bit string of the frame has
`2,147,483,646` bits; in `writeBitString` the counter `i += 8` overflows at the last
chunk and `stringToByte` is called with a negative offset, so no file is completed.
(b) `2^31` frames of one cell `'A'`: the frame count converts to the `int` `-2^31`, the
frame loop of `compressASCIIVideo` does not run, the file holds the count and the tree
only, and `decompressASCIIVideo` returns the empty video. -/
theorem C2_counterexample :
    (([((0 : Int), List.replicate 65075262 cellA)].map Prod.fst).Perm
        ((List.range 1).map Int.ofNat) ∧
      (∀ e ∈ [((0 : Int), List.replicate 65075262 cellA)], e.2.length = 65075262) ∧
      (∀ e ∈ [((0 : Int), List.replicate 65075262 cellA)], ∀ p ∈ e.2,
        p.2.c0 ≤ 255 ∧ p.2.c1 ≤ 255 ∧ p.2.c2 ≤ 255) ∧
      compressASCIIVideo refStd [(0, List.replicate 65075262 cellA)] =
        .error .undefined_behaviour) ∧
    ((videoOfFrames (List.replicate 2147483648 [cellA])).map Prod.fst =
        (List.range 2147483648).map Int.ofNat ∧
      (∀ e ∈ videoOfFrames (List.replicate 2147483648 [cellA]), e.2 = [cellA]) ∧
      (videoOfFrames (List.replicate 2147483648 [cellA])).length = 2147483648 ∧
      compressASCIIVideo refStd (videoOfFrames (List.replicate 2147483648 [cellA])) =
        .ok [0, 0, 0, 128, 1, 65] ∧
      decompressASCIIVideo ".bin" (.file [0, 0, 0, 128, 1, 65]) = .ok []) := by
  have hw := wrapped_count_round_trip refStd refStd_lawful 65 ⟨255, 0, 0⟩ 2147483648
    (by omega) (by decide)
  refine ⟨⟨List.Perm.refl _, ?_, ?_, ?_⟩, ⟨?_, ?_, ?_, hw.1, hw.2⟩⟩
  · intro e he
    rw [List.mem_singleton.mp he]
    exact List.length_replicate _ _
  · intro e he p hp
    rw [List.mem_singleton.mp he] at hp
    rw [(List.mem_replicate.mp hp).2]
    decide
  · exact (single_frame_overflow refStd refStd_lawful 65 ⟨255, 0, 0⟩ 65075262
      (by omega) (by omega)).2
  · rw [videoOfFrames_keys, List.length_replicate]
  · intro e he
    exact (List.mem_replicate.mp (mem_videoOfFrames _ e he)).2
  · rw [videoOfFrames_length, List.length_replicate]

/-- C1 (amended): for a video whose frame indices are exactly `0 .. n-1` with
`1 ≤ n < 2^31`, whose frames all have the same length `m ≥ 1`, whose colour channels are
all `≤ 255`, and in which the bit string of every frame has at most `2^31 - 8` bits,
`decompressASCIIVideo` applied to the file written by `compressASCIIVideo` returns a
video with the same number of frames that holds, under every index, exactly the frame the
original holds (and no frame under an index the original does not have). -/
theorem C1_round_trip (S : StdImpl) (hS : S.Lawful) (V : ASCIIVideo) (n m : Nat)
    (hn : 1 ≤ n) (hn2 : n < 2147483648)
    (hkeys : (V.map Prod.fst).Perm ((List.range n).map Int.ofNat))
    (hlen : ∀ e ∈ V, e.2.length = m) (hm : 1 ≤ m)
    (hchan : ∀ e ∈ V, ∀ p ∈ e.2, p.2.c0 ≤ 255 ∧ p.2.c1 ≤ 255 ∧ p.2.c2 ≤ 255)
    (hbits : ∀ i, i < n → (frameBitString S V i).length + 8 ≤ 2147483648) :
    ∃ bytes W, compressASCIIVideo S V = .ok bytes ∧
      decompressASCIIVideo ".bin" (.file bytes) = .ok W ∧
      W.length = V.length ∧ ∀ k : Int, ASCIIVideo.find W k = ASCIIVideo.find V k := by
  obtain ⟨bytes, h1, h2⟩ := container_round_trip S hS V n m hn hn2 hkeys hlen hm hchan hbits
  have hVlen : V.length = n := by
    have := hkeys.length_eq
    simpa using this
  refine ⟨bytes, _, h1, h2, ?_, ?_⟩
  · rw [videoOfFrames_length, framesOf_length, hVlen]
  · intro k
    rw [videoOfFrames_find, framesOf_length]
    by_cases hk : 0 ≤ k ∧ k.toNat < n
    · rw [if_pos hk, framesOf_get?_lt V n k.toNat hk.2]
      have hkk : ((k.toNat : Nat) : Int) = k := Int.toNat_of_nonneg hk.1
      have := (find_frameAt V n hkeys k.toNat hk.2).1
      rw [hkk] at this
      rw [this]
      rfl
    · rw [if_neg hk]
      symm
      apply find_none_of_not_key
      intro hmem
      obtain ⟨j, hj, hje⟩ := List.mem_map.mp (hkeys.mem_iff.mp hmem)
      have hjn : j < n := List.mem_range.mp hj
      have : k = (j : Int) := hje.symm
      apply hk
      rw [this]
      exact ⟨Int.ofNat_nonneg j, hjn⟩

set_option maxRecDepth 1000000 in
/-- C1, witness: the three-frame video of `testSimpleVideo`. -/
theorem C1_round_trip_witness :
    refStd.Lawful ∧ 1 ≤ 3 ∧ 3 < 2147483648 ∧
    (simpleVideo.map Prod.fst).Perm ((List.range 3).map Int.ofNat) ∧
    (∀ e ∈ simpleVideo, e.2.length = 3) ∧ 1 ≤ 3 ∧
    (∀ e ∈ simpleVideo, ∀ p ∈ e.2, p.2.c0 ≤ 255 ∧ p.2.c1 ≤ 255 ∧ p.2.c2 ≤ 255) ∧
    (∀ i, i < 3 → (frameBitString refStd simpleVideo i).length + 8 ≤ 2147483648) ∧
    compressASCIIVideo refStd simpleVideo = .ok simpleArtifact ∧
    decompressASCIIVideo ".bin" (.file simpleArtifact) = .ok simpleVideo ∧
    ∃ bytes W, compressASCIIVideo refStd simpleVideo = .ok bytes ∧
      decompressASCIIVideo ".bin" (.file bytes) = .ok W ∧
      W.length = simpleVideo.length ∧
      ∀ k : Int, ASCIIVideo.find W k = ASCIIVideo.find simpleVideo k :=
  ⟨refStd_lawful, by decide, by decide, by decide, by decide, by decide, by decide, by decide,
    by decide, by decide,
    C1_round_trip refStd refStd_lawful simpleVideo 3 3 (by decide) (by decide)
      (by decide) (by decide) (by decide) (by decide) (by decide)⟩

set_option maxRecDepth 1000000 in
/-- C1, counterexample: six videos that do not come back.  (a) Frames `A` then `AB`: the
delta frame carries index 1, outside the one-cell working frame, decoding throws and the
result is the empty video.  (b) One cell with a red channel of 256: only the low 8 bits
are written and the cell comes back with red 0.  (c) One frame under index 5:
`video.at(0)` throws `std::out_of_range` in `compressASCIIVideo`.  (d) One empty frame: no
tree is written, and `readHuffmanTree` runs through the frame bytes to the end of the
file and goes on with an uninitialised flag.  (e) One frame of 65,075,262 cells `'A'`: the
bit string has `2,147,483,646` bits and the counter of `writeBitString` overflows.
(f) `2^31` frames of one cell: the frame count converts to `-2^31`, no frame is written
and the empty video is returned. -/
theorem C1_counterexample :
    (compressASCIIVideo refStd [(0, [cellA]), (1, [cellA, cellB])] =
        .ok [2, 0, 0, 0, 0, 1, 66, 1, 65, 1, 0, 0, 0, 33, 0, 0, 0, 1, 255, 128, 0, 0, 1,
          1, 0, 0, 0, 65, 0, 0, 0, 0, 0, 0, 1, 1, 0, 127, 128, 0, 1] ∧
      decompressASCIIVideo ".bin"
        (.file [2, 0, 0, 0, 0, 1, 66, 1, 65, 1, 0, 0, 0, 33, 0, 0, 0, 1, 255, 128, 0, 0, 1,
          1, 0, 0, 0, 65, 0, 0, 0, 0, 0, 0, 1, 1, 0, 127, 128, 0, 1]) = .ok []) ∧
    (compressASCIIVideo refStd [(0, [(65, ⟨256, 0, 0⟩)])] =
        .ok [1, 0, 0, 0, 1, 65, 1, 0, 0, 0, 33, 0, 0, 0, 1, 0, 0, 0, 0, 1] ∧
      decompressASCIIVideo ".bin"
        (.file [1, 0, 0, 0, 1, 65, 1, 0, 0, 0, 33, 0, 0, 0, 1, 0, 0, 0, 0, 1]) =
        .ok [(0, [(65, ⟨0, 0, 0⟩)])]) ∧
    compressASCIIVideo refStd [(5, [cellA])] = .error .out_of_range ∧
    (compressASCIIVideo refStd [(0, [])] = .ok [1, 0, 0, 0, 0, 0, 0, 0, 0, 0, 0, 0, 0] ∧
      decompressASCIIVideo ".bin" (.file [1, 0, 0, 0, 0, 0, 0, 0, 0, 0, 0, 0, 0]) =
        .error .undefined_behaviour) ∧
    compressASCIIVideo refStd [(0, List.replicate 65075262 cellA)] =
      .error .undefined_behaviour ∧
    (compressASCIIVideo refStd (videoOfFrames (List.replicate 2147483648 [cellA])) =
        .ok [0, 0, 0, 128, 1, 65] ∧
      decompressASCIIVideo ".bin" (.file [0, 0, 0, 128, 1, 65]) = .ok [] ∧
      (videoOfFrames (List.replicate 2147483648 [cellA])).length = 2147483648) := by
  have hw := wrapped_count_round_trip refStd refStd_lawful 65 ⟨255, 0, 0⟩ 2147483648
    (by omega) (by decide)
  refine ⟨⟨by decide, by decide⟩, ⟨by decide, by decide⟩, by decide, ⟨by decide, by decide⟩,
    ?_, ⟨hw.1, hw.2, ?_⟩⟩
  · exact (single_frame_overflow refStd refStd_lawful 65 ⟨255, 0, 0⟩ 65075262
      (by omega) (by omega)).2
  · rw [videoOfFrames_length, List.length_replicate]

/-- C19 (amended): for a non-empty frame whose colour channels are all `≤ 255`, with the
tree and the code table built from a frequency table that holds every symbol of the
frame, and a bit string of at most `2^31 - 8` bits, the full branch of `compressFrame`
packs the concatenation of the per-cell encodings, and decoding `|frame|` cells with
`parsePixel` from that bit string (with the tree as read back from the file) reproduces
the frame in order and ends at the end of the bit string; the frame decoded from the bytes
written is the frame; and the single-frame video round-trips when its own bit string has
at most `2^31 - 8` bits. -/
theorem C19_full_frame_round_trip (S : StdImpl) (hS : S.Lawful) (f : FreqTable) (T : Node)
    (hT : buildHuffmanTree S f = .ok T) (frame : Frame) (hne : frame ≠ [])
    (hsym : ∀ p ∈ frame, (f p.1).isSome = true)
    (hchan : ∀ p ∈ frame, p.2.c0 ≤ 255 ∧ p.2.c1 ≤ 255 ∧ p.2.c2 ≤ 255)
    (hL : (fullBits (generateCodes T [] (fun _ => none)) frame).length + 8 ≤ 2147483648)
    (hL2 : (frameBitString S [(0, frame)] 0).length + 8 ≤ 2147483648) :
    fullFrameLoop (generateCodes T [] (fun _ => none)) frame [] =
      .ok (fullBits (generateCodes T [] (fun _ => none)) frame) ∧
    fullDecodeLoop T.strip (fullBits (generateCodes T [] (fun _ => none)) frame)
        frame.length 0 [] =
      .ok (frame, ((fullBits (generateCodes T [] (fun _ => none)) frame).length : Int)) ∧
    (∃ bytes, compressFrame frame (generateCodes T [] (fun _ => none)) false [] = .ok bytes ∧
      ∀ rest video, decodeFrame T.strip 0 (bytes ++ rest) video =
        .ok (rest, ASCIIVideo.set video 0 frame)) ∧
    ∃ bytes, compressASCIIVideo S [(0, frame)] = .ok bytes ∧
      decompressASCIIVideo ".bin" (.file bytes) = .ok [(0, frame)] := by
  have hdec : ∀ p ∈ frame, Decodes T.strip (generateCodes T [] (fun _ => none)) p.1 :=
    fun p hp => (built_decodes S hS f T hT p.1 (hsym p hp)).1
  have hlow : frame.map lowByteCell = frame :=
    map_lowByteCell frame (fun p hp => lowByteCell_of_le p (hchan p hp))
  refine ⟨?_, ?_, ?_, ?_⟩
  · have := fullFrameLoop_eq (generateCodes T [] (fun _ => none)) frame []
      (decodes_isSome _ _ frame hdec)
    rw [List.nil_append] at this
    exact this
  · have := fullDecodeLoop_eq T.strip (generateCodes T [] (fun _ => none)) frame [] [] []
      hdec (by simp only [List.length_nil]; omega)
    simp only [List.nil_append, List.append_nil, List.length_nil, Nat.cast_zero,
      Nat.zero_add, hlow] at this
    exact this
  · refine ⟨_, compressFrame_full_eq T.strip _ frame [] hdec hL, ?_⟩
    intro rest video
    have := decodeFrame_full_eq T.strip _ frame rest video hdec hL
    rw [hlow] at this
    exact this
  · obtain ⟨bytes, h1, h2⟩ := container_round_trip S hS [(0, frame)] 1 frame.length
      (le_refl 1) (by omega) (List.Perm.refl _)
      (fun e he => by rw [List.mem_singleton.mp he])
      (by
        cases frame with
        | nil => exact absurd rfl hne
        | cons p r => simp)
      (fun e he p hp => by
        rw [List.mem_singleton.mp he] at hp
        exact hchan p hp)
      (fun i hi => by
        have : i = 0 := by omega
        rw [this]
        exact hL2)
    exact ⟨bytes, h1, h2⟩

set_option maxRecDepth 1000000 in
/-- C19, witness: frame 2 (ABC) of the `testSimpleVideo` video, with the table and tree
of that video. -/
theorem C19_full_frame_round_trip_witness :
    refStd.Lawful ∧ buildHuffmanTree refStd simpleTable = .ok simpleTree ∧
    [cellA, cellB, cellC] ≠ [] ∧
    (∀ p ∈ [cellA, cellB, cellC], (simpleTable p.1).isSome = true) ∧
    (∀ p ∈ [cellA, cellB, cellC], p.2.c0 ≤ 255 ∧ p.2.c1 ≤ 255 ∧ p.2.c2 ≤ 255) ∧
    (fullBits (generateCodes simpleTree [] (fun _ => none)) [cellA, cellB, cellC]).length + 8 ≤
      2147483648 ∧
    (frameBitString refStd [(0, [cellA, cellB, cellC])] 0).length + 8 ≤ 2147483648 ∧
    (fullFrameLoop (generateCodes simpleTree [] (fun _ => none)) [cellA, cellB, cellC] [] =
      .ok (fullBits (generateCodes simpleTree [] (fun _ => none)) [cellA, cellB, cellC]) ∧
    fullDecodeLoop simpleTree.strip
        (fullBits (generateCodes simpleTree [] (fun _ => none)) [cellA, cellB, cellC])
        [cellA, cellB, cellC].length 0 [] =
      .ok ([cellA, cellB, cellC],
        ((fullBits (generateCodes simpleTree [] (fun _ => none))
          [cellA, cellB, cellC]).length : Int)) ∧
    (∃ bytes, compressFrame [cellA, cellB, cellC]
        (generateCodes simpleTree [] (fun _ => none)) false [] = .ok bytes ∧
      ∀ rest video, decodeFrame simpleTree.strip 0 (bytes ++ rest) video =
        .ok (rest, ASCIIVideo.set video 0 [cellA, cellB, cellC])) ∧
    ∃ bytes, compressASCIIVideo refStd [(0, [cellA, cellB, cellC])] = .ok bytes ∧
      decompressASCIIVideo ".bin" (.file bytes) = .ok [(0, [cellA, cellB, cellC])]) :=
  ⟨refStd_lawful, by decide, by decide, by decide, by decide, by decide, by decide,
    C19_full_frame_round_trip refStd refStd_lawful simpleTable simpleTree (by decide)
      [cellA, cellB, cellC] (by decide) (by decide) (by decide) (by decide) (by decide)⟩

/-- C19, counterexample: a frame of 65,075,262 cells `'A'` with the table that holds `'A'`
alone.  The tree is one leaf, the code of `'A'` is `"0"`, every cell takes 33 bits and the
bit string has `2,147,483,646` bits; in `writeBitString` the counter `i += 8` overflows
at the last chunk and `stringToByte` is called with a negative offset.  Neither the frame
nor the single-frame video is written. -/
theorem C19_counterexample :
    buildHuffmanTree refStd (fun c => if c = 65 then some 65075262 else none) =
      .ok (Node.mk 65 65075262 Node.null Node.null) ∧
    List.replicate 65075262 cellA ≠ [] ∧
    (∀ p ∈ List.replicate 65075262 cellA,
      ((fun c => if c = 65 then some 65075262 else none : FreqTable) p.1).isSome = true ∧
      p.2.c0 ≤ 255 ∧ p.2.c1 ≤ 255 ∧ p.2.c2 ≤ 255) ∧
    compressFrame (List.replicate 65075262 cellA)
      (generateCodes (Node.mk 65 65075262 Node.null Node.null) [] (fun _ => none)) false [] =
        .error .undefined_behaviour ∧
    compressASCIIVideo refStd [(0, List.replicate 65075262 cellA)] =
      .error .undefined_behaviour := by
  have h := single_frame_overflow refStd refStd_lawful 65 ⟨255, 0, 0⟩ 65075262
    (by omega) (by omega)
  refine ⟨?_, ?_, ?_, h.1 _ _, h.2⟩
  · exact buildHuffmanTree_single refStd refStd_lawful _ 65 65075262
      (entries_single _ 65 65075262 (by simp) (fun k hk => by simp [hk]))
  · intro h0
    have := congrArg List.length h0
    rw [List.length_replicate, List.length_nil] at this
    omega
  · intro p hp
    rw [(List.mem_replicate.mp hp).2]
    decide
/-- C20 (amended): for a frame and a previous frame of the same length `< 2^31`, with
colour channels `≤ 255`, the tree and code table built from a frequency table that holds
every symbol of the frame, and a delta bit string of at most `2^31 - 8` bits: applying to
a copy of the previous frame the `changeCount` updates decoded from the bit string that
the delta branch of `compressFrame` packs yields exactly the frame (also through the bytes
written, and also when every cell changes), and a position that is not listed in the
delta holds the same cell in both frames. -/
theorem C20_delta_frame_round_trip (S : StdImpl) (hS : S.Lawful) (f : FreqTable) (T : Node)
    (hT : buildHuffmanTree S f = .ok T) (prevFrame frame : Frame)
    (hlen : prevFrame.length = frame.length) (hm : frame.length < 2147483648)
    (hsym : ∀ p ∈ frame, (f p.1).isSome = true)
    (hchan : ∀ p ∈ frame, p.2.c0 ≤ 255 ∧ p.2.c1 ≤ 255 ∧ p.2.c2 ≤ 255)
    (hL : (deltaEncoding (generateCodes T [] (fun _ => none)) prevFrame frame).length + 8 ≤
      2147483648) :
    deltaDecodeLoop T.strip (deltaEncoding (generateCodes T [] (fun _ => none)) prevFrame frame)
        (changedPositions prevFrame frame).length 0 prevFrame =
      .ok (frame,
        ((deltaEncoding (generateCodes T [] (fun _ => none)) prevFrame frame).length : Int)) ∧
    (∃ bytes, compressFrame frame (generateCodes T [] (fun _ => none)) true prevFrame =
        .ok bytes ∧
      ∀ (rest : List Byte) (video : ASCIIVideo) (i : Int), i ≠ 0 →
        ASCIIVideo.find video (i - 1) = some prevFrame →
        decodeFrame T.strip i (bytes ++ rest) video =
          .ok (rest, ASCIIVideo.set video i frame)) ∧
    ∀ i, i < frame.length → i ∉ changedPositions prevFrame frame →
      frame.get? i = prevFrame.get? i := by
  have hdec : ∀ p ∈ frame, Decodes T.strip (generateCodes T [] (fun _ => none)) p.1 :=
    fun p hp => (built_decodes S hS f T hT p.1 (hsym p hp)).1
  have hlow : ∀ p ∈ frame, lowByteCell p = p := fun p hp => lowByteCell_of_le p (hchan p hp)
  have hspec := deltaBits_eq_deltaEncoding (generateCodes T [] (fun _ => none)) prevFrame frame
  have hfull := applyDelta_full prevFrame frame hlen hlow
  rw [← hspec.1] at hL ⊢
  rw [← hspec.2]
  refine ⟨?_, ?_, ?_⟩
  · have := deltaDecodeLoop_eq T.strip (generateCodes T [] (fun _ => none)) prevFrame frame 0
      [] [] prevFrame hdec (by omega) (by omega) (by simp only [List.length_nil]; omega)
    simp only [List.nil_append, List.append_nil, List.length_nil, Nat.cast_zero,
      Nat.zero_add, hfull] at this
    exact this
  · refine ⟨_, compressFrame_delta_eq T.strip _ frame prevFrame hdec hL, ?_⟩
    intro rest video i hi hwork
    have := decodeFrame_delta_eq T.strip _ frame prevFrame prevFrame rest video i hi hwork
      hdec (by omega) (by omega) hL
    rw [hfull] at this
    exact this
  · intro i hi hnot
    apply isChangedAt_false
    cases hc : isChangedAt prevFrame frame i with
    | false => rfl
    | true =>
      exact absurd (List.mem_filter.mpr ⟨List.mem_range.mpr hi, hc⟩) hnot

set_option maxRecDepth 1000000 in
/-- C20, witness: the frames AAA and BBC, in which every cell changes, with the table and
tree of the `testSimpleVideo` video. -/
theorem C20_delta_frame_round_trip_witness :
    refStd.Lawful ∧ buildHuffmanTree refStd simpleTable = .ok simpleTree ∧
    [cellA, cellA, cellA].length = [cellB, cellB, cellC].length ∧
    [cellB, cellB, cellC].length < 2147483648 ∧
    (∀ p ∈ [cellB, cellB, cellC], (simpleTable p.1).isSome = true) ∧
    (∀ p ∈ [cellB, cellB, cellC], p.2.c0 ≤ 255 ∧ p.2.c1 ≤ 255 ∧ p.2.c2 ≤ 255) ∧
    (deltaEncoding (generateCodes simpleTree [] (fun _ => none)) [cellA, cellA, cellA]
      [cellB, cellB, cellC]).length + 8 ≤ 2147483648 ∧
    changedPositions [cellA, cellA, cellA] [cellB, cellB, cellC] = [0, 1, 2] ∧
    (deltaDecodeLoop simpleTree.strip
        (deltaEncoding (generateCodes simpleTree [] (fun _ => none)) [cellA, cellA, cellA]
          [cellB, cellB, cellC])
        (changedPositions [cellA, cellA, cellA] [cellB, cellB, cellC]).length 0
        [cellA, cellA, cellA] =
      .ok ([cellB, cellB, cellC],
        ((deltaEncoding (generateCodes simpleTree [] (fun _ => none)) [cellA, cellA, cellA]
          [cellB, cellB, cellC]).length : Int)) ∧
    (∃ bytes, compressFrame [cellB, cellB, cellC]
        (generateCodes simpleTree [] (fun _ => none)) true [cellA, cellA, cellA] = .ok bytes ∧
      ∀ (rest : List Byte) (video : ASCIIVideo) (i : Int), i ≠ 0 →
        ASCIIVideo.find video (i - 1) = some [cellA, cellA, cellA] →
        decodeFrame simpleTree.strip i (bytes ++ rest) video =
          .ok (rest, ASCIIVideo.set video i [cellB, cellB, cellC])) ∧
    ∀ i, i < [cellB, cellB, cellC].length →
      i ∉ changedPositions [cellA, cellA, cellA] [cellB, cellB, cellC] →
      [cellB, cellB, cellC].get? i = [cellA, cellA, cellA].get? i) :=
  ⟨refStd_lawful, by decide, by decide, by decide, by decide, by decide, by decide, by decide,
    C20_delta_frame_round_trip refStd refStd_lawful simpleTable simpleTree (by decide)
      [cellA, cellA, cellA] [cellB, cellB, cellC] (by decide) (by decide) (by decide)
      (by decide) (by decide)⟩

set_option maxRecDepth 1000000 in
/-- C20, counterexample: with the table and tree of the `testSimpleVideo` video (the code
of `'B'` is `"01"`).  (a) Two frames of 32,537,631 cells, all `'A'` then all `'B'`: every
cell changes and takes `32 + 34 = 66` bits, so the delta bit string has `2,147,483,646`
bits; in `writeBitString` the counter `i += 8` overflows at the last chunk and
`stringToByte` is called with a negative offset: the delta frame is not written.
(b) Two frames of `2^31` cells `'A'` that differ in cell 0 only: the delta holds one
change, with index 0, but the decoder compares the index with
`static_cast<int>(frame.size())`, which is `-2^31`, and throws `std::out_of_range`. -/
theorem C20_counterexample :
    buildHuffmanTree refStd simpleTable = .ok simpleTree ∧
    ((List.replicate 32537631 cellA).length = (List.replicate 32537631 cellB).length ∧
      (∀ p ∈ List.replicate 32537631 cellB,
        (simpleTable p.1).isSome = true ∧ p.2.c0 ≤ 255 ∧ p.2.c1 ≤ 255 ∧ p.2.c2 ≤ 255) ∧
      (deltaBits (generateCodes simpleTree [] (fun _ => none)) (List.replicate 32537631 cellA)
        (List.replicate 32537631 cellB) 0).length = 2147483646 ∧
      compressFrame (List.replicate 32537631 cellB)
        (generateCodes simpleTree [] (fun _ => none)) true (List.replicate 32537631 cellA) =
          .error .undefined_behaviour) ∧
    ((List.replicate 2147483648 cellA).length =
        (cellB :: List.replicate 2147483647 cellA).length ∧
      (∀ p ∈ cellB :: List.replicate 2147483647 cellA,
        (simpleTable p.1).isSome = true ∧ p.2.c0 ≤ 255 ∧ p.2.c1 ≤ 255 ∧ p.2.c2 ≤ 255) ∧
      deltaFrameLoop (generateCodes simpleTree [] (fun _ => none))
          (List.replicate 2147483648 cellA) (cellB :: List.replicate 2147483647 cellA) 0 [] 0 =
        .ok (bitsetToString 32 0 ++ cellBits ['0', '1'] cellB, 1) ∧
      deltaDecodeLoop simpleTree.strip (bitsetToString 32 0 ++ cellBits ['0', '1'] cellB) 1 0
          (List.replicate 2147483648 cellA) = .error .out_of_range) := by
  have hq : ∀ j, cellChanged (List.replicate 32537631 cellA) j cellB = true :=
    cellChanged_replicate 32537631 cellA cellB (by decide)
  have hc : (codeOf (generateCodes simpleTree [] (fun _ => none)) cellB.1).length = 2 := by
    decide
  have hcb : codeOf (generateCodes simpleTree [] (fun _ => none)) cellB.1 = ['0', '1'] := by
    decide
  have hlen := deltaBits_all_changed_length (generateCodes simpleTree [] (fun _ => none))
    (List.replicate 32537631 cellA) cellB hq 32537631 0
  rw [hc] at hlen
  have hval : 32537631 * (64 + 2) = 2147483646 := by norm_num
  rw [hval] at hlen
  have hmemB : ∀ p ∈ cellB :: List.replicate 2147483647 cellA, p = cellB ∨ p = cellA := by
    intro p hp
    rcases List.mem_cons.mp hp with h | h
    · exact Or.inl h
    · exact Or.inr (List.mem_replicate.mp h).2
  have hfirst := delta_first_changed (generateCodes simpleTree [] (fun _ => none))
    2147483648 2147483647 (by norm_num) cellA cellB (by decide)
  refine ⟨by decide, ⟨?_, ?_, hlen, ?_⟩, ⟨?_, ?_, ?_, ?_⟩⟩
  · rw [List.length_replicate, List.length_replicate]
  · intro p hp
    rw [(List.mem_replicate.mp hp).2]
    decide
  · apply compressFrame_delta_overflow
    · intro p hp
      rw [(List.mem_replicate.mp hp).2]
      decide
    · rw [hlen]; omega
    · rw [hlen]; omega
  · rw [List.length_replicate, List.length_cons, List.length_replicate]
  · intro p hp
    rcases hmemB p hp with h | h <;> rw [h] <;> decide
  · rw [deltaFrameLoop_eq _ _ _ 0 [] 0 (fun p hp => by
      rcases hmemB p hp with h | h <;> rw [h] <;> decide), hfirst.1, hfirst.2, hcb]
    rfl
  · exact deltaDecodeLoop_wrapped_size _ _ _ (by rw [List.length_replicate]; decide)

/-! ## Claims on the tree format, the source check and the code table -/

/-- C21: for every tree in which each node is a leaf or has two children,
`writeHuffmanTree` emits the preorder encoding `enc(leaf s) = [1, s]`,
`enc(internal l r) = [0] ++ enc(l) ++ enc(r)`: one flag byte per node and one symbol byte
per leaf, the same bytes whatever the frequencies and the characters of the internal
nodes; a tree with `k` leaves serialises to `3k - 1` bytes. -/
theorem C21_tree_write_format (T : Node) (hT : T.proper = true) :
    writeHuffmanTree T = treeEncoding T ∧
    writeHuffmanTree T.strip = writeHuffmanTree T ∧
    (writeHuffmanTree T).length = (T.leaves.length + T.internalCount) + T.leaves.length ∧
    (writeHuffmanTree T).length = 3 * T.leaves.length - 1 := by
  have h1 := writeHuffmanTree_length T hT
  have h2 := internalCount_add_one T hT
  exact ⟨writeHuffmanTree_eq_treeEncoding T, writeHuffmanTree_strip T hT, h1, by omega⟩

/-- C21, witness: the tree of the `testSimpleVideo` video, 3 leaves and 8 bytes. -/
theorem C21_tree_write_format_witness :
    simpleTree.proper = true ∧ writeHuffmanTree simpleTree = [0, 0, 1, 67, 1, 66, 1, 65] ∧
    (writeHuffmanTree simpleTree = treeEncoding simpleTree ∧
    writeHuffmanTree simpleTree.strip = writeHuffmanTree simpleTree ∧
    (writeHuffmanTree simpleTree).length =
      (simpleTree.leaves.length + simpleTree.internalCount) + simpleTree.leaves.length ∧
    (writeHuffmanTree simpleTree).length = 3 * simpleTree.leaves.length - 1) :=
  ⟨by decide, by decide, C21_tree_write_format simpleTree (by decide)⟩

/-- C22 (code defect): `decompressASCIIVideo` returns the empty video for every path whose
extension is not `.bin`, whatever the file system holds, and for a `.bin` path that the
file system reports as missing; but `fs::exists` stands before the `try` block, and for a
`.bin` path whose status cannot be read (it names no existing file: a name that is too
long, a directory that may not be searched) the `fs::filesystem_error` it throws reaches
the caller, where the claim has the empty video and no error. -/
theorem C22_unreadable_path_raises :
    decompressASCIIVideo ".bin" PathStatus.unreadable = .error .filesystem_error ∧
    decompressASCIIVideo ".bin" PathStatus.missing = .ok [] ∧
    (∀ (extension : String) (source : PathStatus), extension ≠ ".bin" →
      decompressASCIIVideo extension source = .ok []) ∧
    decompressASCIIVideo ".txt" (.file simpleArtifact) = .ok [] := by
  refine ⟨by decide, by decide, ?_, by decide⟩
  intro extension source he
  unfold decompressASCIIVideo
  rw [if_pos he]

/-- C23: for every non-empty frequency table `f`, with the tree `T` of `buildHuffmanTree`
and the code table of `generateCodes`, `findCharFromCode` on the code of a symbol `s` of
`f` returns `s`, with `T` and with the tree read back from the bytes of
`writeHuffmanTree(T)`; when `s` is the only symbol, `T` is a single leaf and the code is
`"0"`. -/
theorem C23_decoding_inverts_codes (S : StdImpl) (hS : S.Lawful) (f : FreqTable)
    (hf : f.entries ≠ []) :
    ∃ T, buildHuffmanTree S f = .ok T ∧
      ∀ s, (f s).isSome = true →
        ∃ code, generateCodes T [] (fun _ => none) s = some code ∧
          findCharFromCode T code = .ok s ∧
          (∀ rest, ∃ T', readHuffmanTree (writeHuffmanTree T ++ rest) = .ok (T', rest) ∧
            findCharFromCode T' code = .ok s) ∧
          ((∀ k, k ≠ s → f k = none) → T.leaves = [s] ∧ code = ['0']) := by
  obtain ⟨T, hT, hprop, _⟩ := buildHuffmanTree_spec S hS f hf
  refine ⟨T, hT, ?_⟩
  intro s hs
  obtain ⟨⟨code, h1, h2, _, _⟩, ⟨code2, h5, h6, _, _⟩⟩ := built_decodes S hS f T hT s hs
  rw [h1] at h5
  cases h5
  refine ⟨code, h1, h6, fun rest => ⟨T.strip, readHuffmanTree_write T hprop rest, h2⟩, ?_⟩
  intro ho
  obtain ⟨n, hn⟩ := Option.isSome_iff_exists.mp hs
  have hb := buildHuffmanTree_single S hS f s n (entries_single f s n hn ho)
  rw [hT] at hb
  cases hb
  rw [generateCodes_leaf, if_pos rfl] at h1
  cases h1
  exact ⟨rfl, rfl⟩

set_option maxRecDepth 100000 in
/-- C23, witness: the table of the `testSimpleVideo` video. -/
theorem C23_decoding_inverts_codes_witness :
    refStd.Lawful ∧ simpleTable.entries ≠ [] ∧
    ∃ T, buildHuffmanTree refStd simpleTable = .ok T ∧
      ∀ s, (simpleTable s).isSome = true →
        ∃ code, generateCodes T [] (fun _ => none) s = some code ∧
          findCharFromCode T code = .ok s ∧
          (∀ rest, ∃ T', readHuffmanTree (writeHuffmanTree T ++ rest) = .ok (T', rest) ∧
            findCharFromCode T' code = .ok s) ∧
          ((∀ k, k ≠ s → simpleTable k = none) → T.leaves = [s] ∧ code = ['0']) :=
  ⟨refStd_lawful, by decide, C23_decoding_inverts_codes refStd refStd_lawful simpleTable
    (by decide)⟩

/-- C25: for a string `s` of exactly 8 characters `'0'`/`'1'`, `stringToByte(s, 0)`
returns a byte that `byteToString` turns back into `s`; for every byte `b`,
`byteToString(b)` has 8 characters and `stringToByte` of it at offset 0 returns `b`. -/
theorem C25_byte_string_inverse (s : List Char) (hlen : s.length = 8) (hs : IsBits s)
    (b : Byte) :
    (∃ b1, stringToByte s 0 = .ok b1 ∧ byteToString b1 = s) ∧
    (byteToString b).length = 8 ∧ stringToByte (byteToString b) 0 = .ok b := by
  have h1 := stringToByte_eq s 0 (by omega) (by omega)
  have h2 := stringToByte_eq (byteToString b) 0 (by rw [byteToString_length]; omega) (by omega)
  simp only [Nat.cast_zero, List.drop_zero] at h1 h2
  rw [List.take_of_length_le (by omega)] at h1
  rw [List.take_of_length_le (by rw [byteToString_length]), packByte_byteToString] at h2
  refine ⟨⟨packByte s, h1, ?_⟩, byteToString_length b, h2⟩
  rw [byteToString_packByte s hs (by omega), hlen]
  simp

/-- C25, witness: the string `10110010` and the byte `0xB2` of `simple_test.cpp`. -/
theorem C25_byte_string_inverse_witness :
    "10110010".toList.length = 8 ∧ IsBits "10110010".toList ∧
    stringToByte "10110010".toList 0 = .ok 178 ∧ byteToString 178 = "10110010".toList ∧
    ((∃ b1, stringToByte "10110010".toList 0 = .ok b1 ∧ byteToString b1 = "10110010".toList) ∧
    (byteToString 178).length = 8 ∧ stringToByte (byteToString 178) 0 = .ok 178) :=
  ⟨by decide, by decide, by decide, by decide,
    C25_byte_string_inverse "10110010".toList (by decide) (by decide) 178⟩

/-- C28: with the tree and the code table built from a frequency table, for every symbol
`s` of the table and every colour `c`: what `compressFrame` appends for the cell `(s, c)`
is the 8-bit binary of the code length, the code, and the 8-bit binaries of the three
channels modulo 256, the same bit string as for the cell with its channels reduced modulo
256; every frame is written, in the full branch and in the delta branch against an empty
previous frame, byte for byte like the frame with all channels reduced modulo 256 (`lowByteCell`);
the frame that holds this one cell is written, and the decoder makes the reduced cell of
it; `parsePixel` run where a bit string holds the encoding returns the symbol with
the three channels modulo 256 (offsets being `int`s, `p + 32 + len < 2^31`).  A channel of
256 or more is therefore not recovered. -/
theorem C28_channels_mod_256 (S : StdImpl) (hS : S.Lawful) (f : FreqTable) (T : Node)
    (hT : buildHuffmanTree S f = .ok T) (s : Byte) (hs : (f s).isSome = true) (c : rgb) :
    ∃ code, generateCodes T [] (fun _ => none) s = some code ∧
      (∀ bits : List Char,
        appendPixel (generateCodes T [] (fun _ => none)) bits (s, c) =
          .ok (bits ++ (bitsetToString 8 code.length ++ code ++
            bitsetToString 8 (c.c0 % 256) ++ bitsetToString 8 (c.c1 % 256) ++
            bitsetToString 8 (c.c2 % 256))) ∧
        appendPixel (generateCodes T [] (fun _ => none)) bits
            (s, ⟨c.c0 % 256, c.c1 % 256, c.c2 % 256⟩) =
          appendPixel (generateCodes T [] (fun _ => none)) bits (s, c)) ∧
      (∀ frame prevFrame : Frame,
        compressFrame (frame.map lowByteCell) (generateCodes T [] (fun _ => none)) false
            prevFrame =
          compressFrame frame (generateCodes T [] (fun _ => none)) false prevFrame ∧
        compressFrame (frame.map lowByteCell) (generateCodes T [] (fun _ => none)) true [] =
          compressFrame frame (generateCodes T [] (fun _ => none)) true []) ∧
      (∀ prevFrame : Frame, ∃ full delta : List Byte,
        compressFrame [(s, c)] (generateCodes T [] (fun _ => none)) false prevFrame =
          .ok full ∧
        compressFrame [(s, ⟨c.c0 % 256, c.c1 % 256, c.c2 % 256⟩)]
          (generateCodes T [] (fun _ => none)) false prevFrame = .ok full ∧
        (∀ (rest : List Byte) (video : ASCIIVideo),
          decodeFrame T.strip 0 (full ++ rest) video =
            .ok (rest, video.set 0 [(s, ⟨c.c0 % 256, c.c1 % 256, c.c2 % 256⟩)])) ∧
        compressFrame [(s, c)] (generateCodes T [] (fun _ => none)) true [] = .ok delta ∧
        compressFrame [(s, ⟨c.c0 % 256, c.c1 % 256, c.c2 % 256⟩)]
          (generateCodes T [] (fun _ => none)) true [] = .ok delta) ∧
      cellBits code (s, ⟨c.c0 % 256, c.c1 % 256, c.c2 % 256⟩) = cellBits code (s, c) ∧
      (∀ pre post : List Char, pre.length + 32 + code.length < 2147483648 →
        parsePixel T (pre ++ cellBits code (s, c) ++ post) (pre.length : Int) =
          .ok ((s, ⟨c.c0 % 256, c.c1 % 256, c.c2 % 256⟩),
            ((pre.length + 32 + code.length : Nat) : Int)) ∧
        parsePixel T.strip (pre ++ cellBits code (s, c) ++ post) (pre.length : Int) =
          .ok ((s, ⟨c.c0 % 256, c.c1 % 256, c.c2 % 256⟩),
            ((pre.length + 32 + code.length : Nat) : Int))) ∧
      (256 ≤ c.c0 ∨ 256 ≤ c.c1 ∨ 256 ≤ c.c2 →
        (⟨c.c0 % 256, c.c1 % 256, c.c2 % 256⟩ : rgb) ≠ c) := by
  have hbd := built_decodes S hS f T hT s hs
  obtain ⟨⟨code, h1, h2, h3, h4⟩, ⟨code2, h5, h6, _, _⟩⟩ := hbd
  rw [h1] at h5
  cases h5
  refine ⟨code, h1, ?_, fun frame prevFrame => compressFrame_lowByteCell _ frame prevFrame,
    ?_, cellBits_lowByteCell code (s, c), ?_, ?_⟩
  · intro bits
    have e1 := appendPixel_eq (generateCodes T [] (fun _ => none)) bits (s, c) code h1
    have e2 := appendPixel_eq (generateCodes T [] (fun _ => none)) bits
      (s, ⟨c.c0 % 256, c.c1 % 256, c.c2 % 256⟩) code h1
    rw [e1, e2, ← cellBits_mod code s c]
    exact ⟨rfl, congrArg (fun x => Except.ok (bits ++ x)) (cellBits_lowByteCell code (s, c))⟩
  · intro prevFrame
    exact one_cell_frame T (generateCodes T [] (fun _ => none)) s c ⟨code, h1, h2, h3, h4⟩
      prevFrame
  · intro pre post hb
    exact ⟨parsePixel_cellBits T pre post code (s, c) h6 h3 hb,
      parsePixel_cellBits T.strip pre post code (s, c) h2 h3 hb⟩
  · intro h heq
    obtain ⟨a, b, d⟩ := c
    simp only [rgb.mk.injEq] at heq h
    omega

set_option maxRecDepth 100000 in
/-- C28, witness: the symbol `'B'` of the `testSimpleVideo` table with the colour
`{256, 300, 255}`, which is written and comes back as `{0, 44, 255}`. -/
theorem C28_channels_mod_256_witness :
    refStd.Lawful ∧ buildHuffmanTree refStd simpleTable = .ok simpleTree ∧
    (simpleTable 66).isSome = true ∧
    compressFrame [(66, ⟨256, 300, 255⟩)] (generateCodes simpleTree [] (fun _ => none)) false
        [] = .ok [1, 0, 0, 0, 34, 0, 0, 0, 2, 64, 11, 63, 192, 2] ∧
    decodeFrame simpleTree.strip 0 [1, 0, 0, 0, 34, 0, 0, 0, 2, 64, 11, 63, 192, 2] [] =
      .ok ([], [(0, [(66, ⟨0, 44, 255⟩)])]) ∧
    ∃ code, generateCodes simpleTree [] (fun _ => none) 66 = some code ∧
      (∀ bits : List Char,
        appendPixel (generateCodes simpleTree [] (fun _ => none)) bits (66, ⟨256, 300, 255⟩) =
          .ok (bits ++ (bitsetToString 8 code.length ++ code ++
            bitsetToString 8 (256 % 256) ++ bitsetToString 8 (300 % 256) ++
            bitsetToString 8 (255 % 256))) ∧
        appendPixel (generateCodes simpleTree [] (fun _ => none)) bits
            (66, ⟨256 % 256, 300 % 256, 255 % 256⟩) =
          appendPixel (generateCodes simpleTree [] (fun _ => none)) bits
            (66, ⟨256, 300, 255⟩)) ∧
      (∀ frame prevFrame : Frame,
        compressFrame (frame.map lowByteCell) (generateCodes simpleTree [] (fun _ => none))
            false prevFrame =
          compressFrame frame (generateCodes simpleTree [] (fun _ => none)) false prevFrame ∧
        compressFrame (frame.map lowByteCell) (generateCodes simpleTree [] (fun _ => none))
            true [] =
          compressFrame frame (generateCodes simpleTree [] (fun _ => none)) true []) ∧
      (∀ prevFrame : Frame, ∃ full delta : List Byte,
        compressFrame [(66, ⟨256, 300, 255⟩)] (generateCodes simpleTree [] (fun _ => none))
          false prevFrame = .ok full ∧
        compressFrame [(66, ⟨256 % 256, 300 % 256, 255 % 256⟩)]
          (generateCodes simpleTree [] (fun _ => none)) false prevFrame = .ok full ∧
        (∀ (rest : List Byte) (video : ASCIIVideo),
          decodeFrame simpleTree.strip 0 (full ++ rest) video =
            .ok (rest, video.set 0 [(66, ⟨256 % 256, 300 % 256, 255 % 256⟩)])) ∧
        compressFrame [(66, ⟨256, 300, 255⟩)] (generateCodes simpleTree [] (fun _ => none))
          true [] = .ok delta ∧
        compressFrame [(66, ⟨256 % 256, 300 % 256, 255 % 256⟩)]
          (generateCodes simpleTree [] (fun _ => none)) true [] = .ok delta) ∧
      cellBits code (66, ⟨256 % 256, 300 % 256, 255 % 256⟩) =
        cellBits code (66, ⟨256, 300, 255⟩) ∧
      (∀ pre post : List Char, pre.length + 32 + code.length < 2147483648 →
        parsePixel simpleTree (pre ++ cellBits code (66, ⟨256, 300, 255⟩) ++ post)
            (pre.length : Int) =
          .ok ((66, ⟨256 % 256, 300 % 256, 255 % 256⟩),
            ((pre.length + 32 + code.length : Nat) : Int)) ∧
        parsePixel simpleTree.strip (pre ++ cellBits code (66, ⟨256, 300, 255⟩) ++ post)
            (pre.length : Int) =
          .ok ((66, ⟨256 % 256, 300 % 256, 255 % 256⟩),
            ((pre.length + 32 + code.length : Nat) : Int))) ∧
      ((256 : Nat) ≤ 256 ∨ 256 ≤ 300 ∨ 256 ≤ 255 →
        (⟨256 % 256, 300 % 256, 255 % 256⟩ : rgb) ≠ ⟨256, 300, 255⟩) :=
  ⟨refStd_lawful, by decide, by decide, by decide, by decide,
    C28_channels_mod_256 refStd refStd_lawful simpleTable simpleTree (by decide) 66
      (by decide) ⟨256, 300, 255⟩⟩

/-- C29: for every non-empty frequency table, every code of the table that
`generateCodes` makes from the tree of `buildHuffmanTree` has between 1 and 255 bits, so
the 8-bit length field that `compressFrame` writes holds the code length itself. -/
theorem C29_code_length_fits (S : StdImpl) (hS : S.Lawful) (f : FreqTable)
    (hf : f.entries ≠ []) :
    ∃ T, buildHuffmanTree S f = .ok T ∧
      ∀ s code, generateCodes T [] (fun _ => none) s = some code →
        1 ≤ code.length ∧ code.length ≤ 255 ∧ code.length % 256 = code.length ∧
        (bitsetToString 8 code.length).length = 8 ∧
        binaryValue (bitsetToString 8 code.length) = code.length := by
  obtain ⟨T, hT, hprop, hperm⟩ := buildHuffmanTree_spec S hS f hf
  refine ⟨T, hT, ?_⟩
  intro s code hcode
  have hnd : T.leaves.Nodup := (hperm.nodup_iff).mpr (entries_keys_nodup f)
  have hmem := (generateCodes_lookup T hnd s code).mp hcode
  have hcl := codeList_code_length T hprop (s, code) hmem
  have hle := leaves_length_le T hnd
  have h255 : code.length ≤ 255 := by
    have := hcl.2.1
    simp only at this
    omega
  refine ⟨hcl.1, h255, Nat.mod_eq_of_lt (by omega), bitsetToString_length 8 _, ?_⟩
  rw [binaryValue_bitsetToString]
  exact Nat.mod_eq_of_lt (by norm_num; omega)

set_option maxRecDepth 100000 in
/-- C29, witness: the table of the `testSimpleVideo` video. -/
theorem C29_code_length_fits_witness :
    refStd.Lawful ∧ simpleTable.entries ≠ [] ∧
    ∃ T, buildHuffmanTree refStd simpleTable = .ok T ∧
      ∀ s code, generateCodes T [] (fun _ => none) s = some code →
        1 ≤ code.length ∧ code.length ≤ 255 ∧ code.length % 256 = code.length ∧
        (bitsetToString 8 code.length).length = 8 ∧
        binaryValue (bitsetToString 8 code.length) = code.length :=
  ⟨refStd_lawful, by decide, C29_code_length_fits refStd refStd_lawful simpleTable (by decide)⟩

/-- C24: `buildHuffmanTree` starts its loop on a heap of the leaves of the table, and every
iteration of the loop on a heap of two or more nodes removes a node `l` of lowest weight,
then a node `r` of lowest weight among the others (`l.freq ≤ r.freq ≤` every node left),
and goes on with a heap made of the nodes left and a new node of children `l`, `r` and
weight `l.freq + r.freq` (as an `int`); when the absolute values of the frequencies sum
to less than `2^31`, so that no addition overflows, the weight of the root is the sum of
all frequencies of the table. -/
theorem C24_greedy_merge (S : StdImpl) (hS : S.Lawful) :
    (∀ f : FreqTable, f.entries ≠ [] →
      ∃ heap0 : List Node,
        heap0.Perm (f.entries.map (fun e => Node.mk e.1 e.2 Node.null Node.null)) ∧
        IsHeap heapCompare heap0 ∧
        buildHuffmanTree S f = buildHuffmanTreeLoop S heap0.length heap0) ∧
    (∀ (fuel : Nat) (heap : List Node), IsHeap heapCompare heap → 2 ≤ heap.length →
      ∃ (l r : Node) (rest heap1 : List Node),
        heap.Perm (l :: r :: rest) ∧ l.freq ≤ r.freq ∧ (∀ x ∈ rest, r.freq ≤ x.freq) ∧
        IsHeap heapCompare heap1 ∧
        heap1.Perm (rest ++ [Node.mk 0 (toInt32 (l.freq + r.freq)) l r]) ∧
        buildHuffmanTreeLoop S (fuel + 1) heap = buildHuffmanTreeLoop S fuel heap1) ∧
    (∀ f : FreqTable, f.entries ≠ [] →
      (f.entries.map (fun e => e.2.natAbs)).sum < 2147483648 →
      ∃ T, buildHuffmanTree S f = .ok T ∧ T.freq = (f.entries.map Prod.snd).sum) :=
  ⟨fun f hf => initial_heap S hS f hf,
    fun fuel heap hh hl => buildHuffmanTreeLoop_step S hS fuel heap hh hl,
    fun f hf hsum => buildHuffmanTree_weight S hS f hf hsum⟩

set_option maxRecDepth 100000 in
/-- C24, witness: the reference library; on the table of the `testSimpleVideo` video
(A 6, B 2, C 1) it merges C and B into a node of weight 3, then that node and A into the
root, of weight 9. -/
theorem C24_greedy_merge_witness :
    refStd.Lawful ∧ buildHuffmanTree refStd simpleTable = .ok simpleTree ∧
    simpleTree.freq = 9 ∧ (simpleTable.entries.map Prod.snd).sum = 9 ∧
    ((∀ f : FreqTable, f.entries ≠ [] →
      ∃ heap0 : List Node,
        heap0.Perm (f.entries.map (fun e => Node.mk e.1 e.2 Node.null Node.null)) ∧
        IsHeap heapCompare heap0 ∧
        buildHuffmanTree refStd f = buildHuffmanTreeLoop refStd heap0.length heap0) ∧
    (∀ (fuel : Nat) (heap : List Node), IsHeap heapCompare heap → 2 ≤ heap.length →
      ∃ (l r : Node) (rest heap1 : List Node),
        heap.Perm (l :: r :: rest) ∧ l.freq ≤ r.freq ∧ (∀ x ∈ rest, r.freq ≤ x.freq) ∧
        IsHeap heapCompare heap1 ∧
        heap1.Perm (rest ++ [Node.mk 0 (toInt32 (l.freq + r.freq)) l r]) ∧
        buildHuffmanTreeLoop refStd (fuel + 1) heap = buildHuffmanTreeLoop refStd fuel heap1) ∧
    (∀ f : FreqTable, f.entries ≠ [] →
      (f.entries.map (fun e => e.2.natAbs)).sum < 2147483648 →
      ∃ T, buildHuffmanTree refStd f = .ok T ∧ T.freq = (f.entries.map Prod.snd).sum)) :=
  ⟨refStd_lawful, by decide, by decide, by decide, C24_greedy_merge refStd refStd_lawful⟩

/-! ## Claims on frames of different lengths and on colour channels -/

/-- C27 (amended): for a frame shorter than its previous frame, the previous frame having
fewer than `2^31` cells, with colour channels `≤ 255`, the tree and code table built from
a frequency table that holds every symbol of the frame, and a delta bit string of at most
`2^31 - 8` bits: decoding the delta that `compressFrame` writes, from a copy of the
previous frame, yields a frame of the length of the previous frame whose first `|frame|`
cells are the frame and whose other cells are those of the previous frame; it differs
from the frame. -/
theorem C27_shrinking_frame (S : StdImpl) (hS : S.Lawful) (f : FreqTable) (T : Node)
    (hT : buildHuffmanTree S f = .ok T) (prevFrame frame : Frame)
    (hlt : frame.length < prevFrame.length) (hm : prevFrame.length < 2147483648)
    (hsym : ∀ p ∈ frame, (f p.1).isSome = true)
    (hchan : ∀ p ∈ frame, p.2.c0 ≤ 255 ∧ p.2.c1 ≤ 255 ∧ p.2.c2 ≤ 255)
    (hL : (deltaEncoding (generateCodes T [] (fun _ => none)) prevFrame frame).length + 8 ≤
      2147483648) :
    deltaDecodeLoop T.strip (deltaEncoding (generateCodes T [] (fun _ => none)) prevFrame frame)
        (changedPositions prevFrame frame).length 0 prevFrame =
      .ok (frame ++ prevFrame.drop frame.length,
        ((deltaEncoding (generateCodes T [] (fun _ => none)) prevFrame frame).length : Int)) ∧
    (∃ bytes, compressFrame frame (generateCodes T [] (fun _ => none)) true prevFrame =
        .ok bytes ∧
      ∀ (rest : List Byte) (video : ASCIIVideo) (i : Int), i ≠ 0 →
        ASCIIVideo.find video (i - 1) = some prevFrame →
        decodeFrame T.strip i (bytes ++ rest) video =
          .ok (rest, ASCIIVideo.set video i (frame ++ prevFrame.drop frame.length))) ∧
    (frame ++ prevFrame.drop frame.length).length = prevFrame.length ∧
    (frame ++ prevFrame.drop frame.length).take frame.length = frame ∧
    (frame ++ prevFrame.drop frame.length).drop frame.length = prevFrame.drop frame.length ∧
    frame ++ prevFrame.drop frame.length ≠ frame := by
  have hdec : ∀ p ∈ frame, Decodes T.strip (generateCodes T [] (fun _ => none)) p.1 :=
    fun p hp => (built_decodes S hS f T hT p.1 (hsym p hp)).1
  have hlow : ∀ p ∈ frame, lowByteCell p = p := fun p hp => lowByteCell_of_le p (hchan p hp)
  have hspec := deltaBits_eq_deltaEncoding (generateCodes T [] (fun _ => none)) prevFrame frame
  have hshort := applyDelta_shorter prevFrame frame (by omega) hlow
  rw [← hspec.1] at hL ⊢
  rw [← hspec.2]
  have hlen2 : (frame ++ prevFrame.drop frame.length).length = prevFrame.length := by
    rw [List.length_append, List.length_drop]; omega
  refine ⟨?_, ?_, hlen2, List.take_left _ _, List.drop_left _ _, ?_⟩
  · have := deltaDecodeLoop_eq T.strip (generateCodes T [] (fun _ => none)) prevFrame frame 0
      [] [] prevFrame hdec (by omega) (by omega) (by simp only [List.length_nil]; omega)
    simp only [List.nil_append, List.append_nil, List.length_nil, Nat.cast_zero,
      Nat.zero_add, hshort] at this
    exact this
  · refine ⟨_, compressFrame_delta_eq T.strip _ frame prevFrame hdec hL, ?_⟩
    intro rest video i hi hwork
    have := decodeFrame_delta_eq T.strip _ frame prevFrame prevFrame rest video i hi hwork
      hdec (by omega) (by omega) hL
    rw [hshort] at this
    exact this
  · intro h
    have := congrArg List.length h
    rw [hlen2] at this
    omega

set_option maxRecDepth 1000000 in
/-- C27, witness: the frame `B` after the frame `AAA`, with the table and tree of the
`testSimpleVideo` video: the decoded frame is `BAA`. -/
theorem C27_shrinking_frame_witness :
    refStd.Lawful ∧ buildHuffmanTree refStd simpleTable = .ok simpleTree ∧
    [cellB].length < [cellA, cellA, cellA].length ∧
    [cellA, cellA, cellA].length < 2147483648 ∧
    (∀ p ∈ [cellB], (simpleTable p.1).isSome = true) ∧
    (∀ p ∈ [cellB], p.2.c0 ≤ 255 ∧ p.2.c1 ≤ 255 ∧ p.2.c2 ≤ 255) ∧
    (deltaEncoding (generateCodes simpleTree [] (fun _ => none)) [cellA, cellA, cellA]
      [cellB]).length + 8 ≤ 2147483648 ∧
    [cellB] ++ [cellA, cellA, cellA].drop [cellB].length = [cellB, cellA, cellA] ∧
    (deltaDecodeLoop simpleTree.strip
        (deltaEncoding (generateCodes simpleTree [] (fun _ => none)) [cellA, cellA, cellA]
          [cellB])
        (changedPositions [cellA, cellA, cellA] [cellB]).length 0 [cellA, cellA, cellA] =
      .ok ([cellB] ++ [cellA, cellA, cellA].drop [cellB].length,
        ((deltaEncoding (generateCodes simpleTree [] (fun _ => none)) [cellA, cellA, cellA]
          [cellB]).length : Int)) ∧
    (∃ bytes, compressFrame [cellB] (generateCodes simpleTree [] (fun _ => none)) true
        [cellA, cellA, cellA] = .ok bytes ∧
      ∀ (rest : List Byte) (video : ASCIIVideo) (i : Int), i ≠ 0 →
        ASCIIVideo.find video (i - 1) = some [cellA, cellA, cellA] →
        decodeFrame simpleTree.strip i (bytes ++ rest) video =
          .ok (rest, ASCIIVideo.set video i
            ([cellB] ++ [cellA, cellA, cellA].drop [cellB].length))) ∧
    ([cellB] ++ [cellA, cellA, cellA].drop [cellB].length).length =
      [cellA, cellA, cellA].length ∧
    ([cellB] ++ [cellA, cellA, cellA].drop [cellB].length).take [cellB].length = [cellB] ∧
    ([cellB] ++ [cellA, cellA, cellA].drop [cellB].length).drop [cellB].length =
      [cellA, cellA, cellA].drop [cellB].length ∧
    [cellB] ++ [cellA, cellA, cellA].drop [cellB].length ≠ [cellB]) :=
  ⟨refStd_lawful, by decide, by decide, by decide, by decide, by decide, by decide, by decide,
    C27_shrinking_frame refStd refStd_lawful simpleTable simpleTree (by decide)
      [cellA, cellA, cellA] [cellB] (by decide) (by decide) (by decide) (by decide)
      (by decide)⟩

set_option maxRecDepth 1000000 in
/-- C27, counterexample: with the table and tree of the `testSimpleVideo` video (the code
of `'B'` is `"01"`).  (a) A frame of 32,537,631 cells `'B'` after a frame of 32,537,632
cells `'A'`: every cell of the frame changes and takes 66 bits, the delta bit string has
`2,147,483,646` bits, the counter `i += 8` of `writeBitString` overflows and no delta is
written.  (b) The one-cell frame `B` after a frame of `2^31` cells `'A'`: the delta holds
one change, with index 0, but the decoder compares the index with
`static_cast<int>(frame.size())`, which is `-2^31`, and throws `std::out_of_range`. -/
theorem C27_counterexample :
    buildHuffmanTree refStd simpleTable = .ok simpleTree ∧
    ((List.replicate 32537631 cellB).length < (List.replicate 32537632 cellA).length ∧
      (∀ p ∈ List.replicate 32537631 cellB,
        (simpleTable p.1).isSome = true ∧ p.2.c0 ≤ 255 ∧ p.2.c1 ≤ 255 ∧ p.2.c2 ≤ 255) ∧
      compressFrame (List.replicate 32537631 cellB)
        (generateCodes simpleTree [] (fun _ => none)) true (List.replicate 32537632 cellA) =
          .error .undefined_behaviour) ∧
    ([cellB].length < (List.replicate 2147483648 cellA).length ∧
      deltaFrameLoop (generateCodes simpleTree [] (fun _ => none))
          (List.replicate 2147483648 cellA) [cellB] 0 [] 0 =
        .ok (bitsetToString 32 0 ++ cellBits ['0', '1'] cellB, 1) ∧
      deltaDecodeLoop simpleTree.strip (bitsetToString 32 0 ++ cellBits ['0', '1'] cellB) 1 0
          (List.replicate 2147483648 cellA) = .error .out_of_range) := by
  have hq : ∀ j, cellChanged (List.replicate 32537632 cellA) j cellB = true :=
    cellChanged_replicate 32537632 cellA cellB (by decide)
  have hc : (codeOf (generateCodes simpleTree [] (fun _ => none)) cellB.1).length = 2 := by
    decide
  have hcb : codeOf (generateCodes simpleTree [] (fun _ => none)) cellB.1 = ['0', '1'] := by
    decide
  have hlen := deltaBits_all_changed_length (generateCodes simpleTree [] (fun _ => none))
    (List.replicate 32537632 cellA) cellB hq 32537631 0
  rw [hc] at hlen
  have hval : 32537631 * (64 + 2) = 2147483646 := by norm_num
  rw [hval] at hlen
  have hfirst := delta_first_changed_le (generateCodes simpleTree [] (fun _ => none))
    2147483648 0 (by omega) cellA cellB (by decide)
  refine ⟨by decide, ⟨?_, ?_, ?_⟩, ⟨?_, ?_, ?_⟩⟩
  · rw [List.length_replicate, List.length_replicate]; omega
  · intro p hp
    rw [(List.mem_replicate.mp hp).2]
    decide
  · apply compressFrame_delta_overflow
    · intro p hp
      rw [(List.mem_replicate.mp hp).2]
      decide
    · rw [hlen]; omega
    · rw [hlen]; omega
  · rw [List.length_replicate, List.length_singleton]; omega
  · rw [deltaFrameLoop_eq _ _ _ 0 [] 0 (fun p hp => by
      rw [List.mem_singleton.mp hp]; decide)]
    have h1 : deltaBits (generateCodes simpleTree [] (fun _ => none))
        (List.replicate 2147483648 cellA) [cellB] 0 =
        bitsetToString 32 0 ++ cellBits ['0', '1'] cellB := by
      rw [← hcb]; exact hfirst.1
    have h2 : deltaCount (List.replicate 2147483648 cellA) [cellB] 0 = 1 := hfirst.2
    rw [h1, h2]
    rfl
  · exact deltaDecodeLoop_wrapped_size _ _ _ (by rw [List.length_replicate]; decide)

/-! ## Claims on the lookups of the compressor -/

/-- C30 (amended): for a video whose frame indices are exactly `0 .. n-1` and that holds at
least one cell, every symbol of every cell occurs at least once and has an entry in the
code table, so `huffmanCodes.at(ch)` succeeds; `video.at(i)` succeeds for every `i` below
the frame count; `compressASCIIVideo` never ends in `std::out_of_range`; and the count of
a symbol equals its number of occurrences over all frames as long as that number is below
`2^31`. -/
theorem C30_lookups_never_fail (S : StdImpl) (hS : S.Lawful) (V : ASCIIVideo) (n : Nat)
    (hkeys : (V.map Prod.fst).Perm ((List.range n).map Int.ofNat))
    (hcell : ∃ e ∈ V, e.2 ≠ []) :
    (∀ e ∈ V, ∀ p ∈ e.2, 1 ≤ occurrences V p.1 ∧
      ∃ code, CodeTable.at (videoCodes S V) p.1 = .ok code) ∧
    (∀ i : Nat, (i : Int) < toInt32 (V.length : Int) →
      ∃ frame, ASCIIVideo.at V (i : Int) = .ok frame) ∧
    (∀ s, occurrences V s < 2147483648 →
      countChars V (fun _ => none) s =
        if occurrences V s = 0 then none else some ((occurrences V s : Nat) : Int)) ∧
    compressASCIIVideo S V ≠ .error .out_of_range := by
  have hVlen : V.length = n := by
    have := hkeys.length_eq
    simpa using this
  have hat : ∀ i : Nat, (i : Int) < toInt32 (V.length : Int) →
      ASCIIVideo.find V (i : Int) = some (frameAt V i) ∧ ((i : Int), frameAt V i) ∈ V := by
    intro i hi
    have := toInt32_le_self V.length
    exact find_frameAt V n hkeys i (by omega)
  refine ⟨?_, ?_, ?_, ?_⟩
  · intro e he p hp
    obtain ⟨T, _, _, hsome⟩ := video_symbol_has_code S hS V e he p hp
    constructor
    · unfold occurrences
      apply List.count_pos_iff.mpr
      exact List.mem_map.mpr ⟨p, List.mem_flatMap.mpr ⟨e, he, hp⟩, rfl⟩
    · obtain ⟨code, hcode⟩ := Option.isSome_iff_exists.mp hsome
      exact ⟨code, by unfold CodeTable.at; rw [hcode]⟩
  · intro i hi
    exact ⟨frameAt V i, by unfold ASCIIVideo.at; rw [(hat i hi).1]⟩
  · intro s hs
    rw [countChars_eq, toInt32_natCast _ hs]
  · obtain ⟨e0, he0, hne0⟩ := hcell
    obtain ⟨p0, hp0⟩ := List.exists_mem_of_ne_nil _ hne0
    obtain ⟨T, hT, hcodes, _⟩ := video_symbol_has_code S hS V e0 he0 p0 hp0
    intro h
    have hloop := compressFramesLoop_error V (generateCodes T [] (fun _ => none))
      (toInt32 (V.length : Int)).toNat 0 [] (fun j _ hj => by
        obtain ⟨h1, h2⟩ := hat j (by omega)
        refine ⟨frameAt V j, h1, fun p hp => ?_⟩
        obtain ⟨_, _, _, hsome⟩ := video_symbol_has_code S hS V _ h2 p hp
        rw [← hcodes]
        exact hsome)
    rw [Nat.cast_zero] at hloop
    cases hl : compressFramesLoop V (generateCodes T [] (fun _ => none))
        (toInt32 (V.length : Int)).toNat 0 [] with
    | ok frames =>
      rw [compressASCIIVideo_ok S V T hT frames hl] at h
      cases h
    | error e =>
      rw [compressASCIIVideo_error S V T hT e hl] at h
      cases h
      exact hloop _ hl rfl

set_option maxRecDepth 1000000 in
/-- C30, witness: the three-frame video of `testSimpleVideo`, in which `'A'` occurs 6
times. -/
theorem C30_lookups_never_fail_witness :
    refStd.Lawful ∧ (simpleVideo.map Prod.fst).Perm ((List.range 3).map Int.ofNat) ∧
    (∃ e ∈ simpleVideo, e.2 ≠ []) ∧ occurrences simpleVideo 65 = 6 ∧
    countChars simpleVideo (fun _ => none) 65 = some 6 ∧
    ((∀ e ∈ simpleVideo, ∀ p ∈ e.2, 1 ≤ occurrences simpleVideo p.1 ∧
      ∃ code, CodeTable.at (videoCodes refStd simpleVideo) p.1 = .ok code) ∧
    (∀ i : Nat, (i : Int) < toInt32 (simpleVideo.length : Int) →
      ∃ frame, ASCIIVideo.at simpleVideo (i : Int) = .ok frame) ∧
    (∀ s, occurrences simpleVideo s < 2147483648 →
      countChars simpleVideo (fun _ => none) s =
        if occurrences simpleVideo s = 0 then none
        else some ((occurrences simpleVideo s : Nat) : Int)) ∧
    compressASCIIVideo refStd simpleVideo ≠ .error .out_of_range) :=
  ⟨refStd_lawful, by decide, ⟨(0, [cellA, cellA, cellA]), by decide, by decide⟩, by decide,
    by decide,
    C30_lookups_never_fail refStd refStd_lawful simpleVideo 3 (by decide)
      ⟨(0, [cellA, cellA, cellA]), by decide, by decide⟩⟩

/-- C30, counterexample: a video of one frame of `2^31` cells `'A'`: the symbol `'A'`
occurs `2^31` times, but its `int` count has wrapped to `-2^31`, which is neither the
number of occurrences nor `≥ 1`. -/
theorem C30_counterexample :
    ([((0 : Int), List.replicate 2147483648 cellA)].map Prod.fst).Perm
      ((List.range 1).map Int.ofNat) ∧
    occurrences [(0, List.replicate 2147483648 cellA)] 65 = 2147483648 ∧
    countChars [(0, List.replicate 2147483648 cellA)] (fun _ => none) 65 =
      some (-2147483648) := by
  have hocc := occurrences_single_frame 2147483648 65 ⟨255, 0, 0⟩ 0
  refine ⟨List.Perm.refl _, hocc, ?_⟩
  rw [countChars_eq]
  have h2 : occurrences [((0 : Int), List.replicate 2147483648 cellA)] 65 = 2147483648 := hocc
  rw [h2, if_neg (by omega)]
  rfl

/-! ## Claims on growing frames -/

/-- C26 (amended): for a video whose frame indices are exactly `0 .. n-1` with
`n < 2^31`, in which the bit string of every frame has at most `2^31 - 8` bits and some
frame is longer than frame 0: at the first such frame `k` the delta written by
`compressASCIIVideo` holds the index `|frame 0|`, which is the size of the working frame
of the decoder, so `decompressASCIIVideo` of the artifact throws `std::out_of_range` and
returns the empty video. -/
theorem C26_growing_frames (S : StdImpl) (hS : S.Lawful) (V : ASCIIVideo) (n : Nat)
    (hn2 : n < 2147483648)
    (hkeys : (V.map Prod.fst).Perm ((List.range n).map Int.ofNat))
    (hex : ∃ i, i < n ∧ (frameAt V 0).length < (frameAt V i).length)
    (hbits : ∀ i, i < n → (frameBitString S V i).length + 8 ≤ 2147483648) :
    ∃ k bytes, 1 ≤ k ∧ k < n ∧ (frameAt V (k - 1)).length ≤ (frameAt V 0).length ∧
      (frameAt V 0).length < (frameAt V k).length ∧
      (frameAt V 0).length ∈ changedPositions (frameAt V (k - 1)) (frameAt V k) ∧
      compressASCIIVideo S V = .ok bytes ∧
      decompressStream bytes = .error .out_of_range ∧
      decompressASCIIVideo ".bin" (.file bytes) = .ok [] := by
  classical
  have hspec := Nat.find_spec hex
  have hmin : ∀ j, j < Nat.find hex → (frameAt V j).length ≤ (frameAt V 0).length := by
    intro j hj
    have h := Nat.find_min hex hj
    have hjn : j < n := by omega
    by_contra hcon
    exact h ⟨hjn, by omega⟩
  have hk1 : 1 ≤ Nat.find hex := by
    by_contra hcon
    have h0 : Nat.find hex = 0 := by omega
    rw [h0] at hspec
    omega
  obtain ⟨bytes, h1, h2, h3⟩ := growing_video_fails S hS V n (Nat.find hex) hn2 hkeys
    hspec.1 hspec.2 hmin hbits
  have hprev := hmin (Nat.find hex - 1) (by omega)
  refine ⟨Nat.find hex, bytes, hk1, hspec.1, hprev, hspec.2, ?_, h1, h2, h3⟩
  unfold changedPositions
  apply List.mem_filter.mpr
  refine ⟨List.mem_range.mpr hspec.2, ?_⟩
  unfold isChangedAt
  rw [List.get?_eq_none.mpr hprev]
  cases (frameAt V (Nat.find hex)).get? (frameAt V 0).length <;> rfl

set_option maxRecDepth 1000000 in
/-- C26, witness: the frames `A` then `AB`. -/
theorem C26_growing_frames_witness :
    refStd.Lawful ∧ 2 < 2147483648 ∧
    (([(0, [cellA]), (1, [cellA, cellB])] : ASCIIVideo).map Prod.fst).Perm
      ((List.range 2).map Int.ofNat) ∧
    (∃ i, i < 2 ∧ (frameAt [(0, [cellA]), (1, [cellA, cellB])] 0).length <
      (frameAt [(0, [cellA]), (1, [cellA, cellB])] i).length) ∧
    (∀ i, i < 2 →
      (frameBitString refStd [(0, [cellA]), (1, [cellA, cellB])] i).length + 8 ≤ 2147483648) ∧
    ∃ k bytes, 1 ≤ k ∧ k < 2 ∧
      (frameAt [(0, [cellA]), (1, [cellA, cellB])] (k - 1)).length ≤
        (frameAt [(0, [cellA]), (1, [cellA, cellB])] 0).length ∧
      (frameAt [(0, [cellA]), (1, [cellA, cellB])] 0).length <
        (frameAt [(0, [cellA]), (1, [cellA, cellB])] k).length ∧
      (frameAt [(0, [cellA]), (1, [cellA, cellB])] 0).length ∈
        changedPositions (frameAt [(0, [cellA]), (1, [cellA, cellB])] (k - 1))
          (frameAt [(0, [cellA]), (1, [cellA, cellB])] k) ∧
      compressASCIIVideo refStd [(0, [cellA]), (1, [cellA, cellB])] = .ok bytes ∧
      decompressStream bytes = .error .out_of_range ∧
      decompressASCIIVideo ".bin" (.file bytes) = .ok [] :=
  ⟨refStd_lawful, by decide, by decide, ⟨1, by decide, by decide⟩, by decide,
    C26_growing_frames refStd refStd_lawful [(0, [cellA]), (1, [cellA, cellB])] 2 (by decide)
      (by decide) ⟨1, by decide, by decide⟩ (by decide)⟩

set_option maxRecDepth 1000000 in
/-- C26, counterexample: three videos in which a frame is longer than the frame before it.
(a) Frames `AAA`, `A`, `AB`: frame 2 is longer than frame 1 and its delta holds the index
1, but the working frame of the decoder is the decoded frame 1, which has kept the three
cells of frame 0; no check fails and the three frames `AAA`, `AAA`, `ABA` are returned.
(b) A frame of 65,075,262 cells `'A'` followed by one of 65,075,263: the bit string of
frame 0 has `2,147,483,646` bits, the counter of `writeBitString` overflows and no
artifact is completed.  (c) `2^31` frames, the second longer than the first: the frame
count converts to `-2^31`, no frame is written, and decoding ends without any
exception. -/
theorem C26_counterexample :
    (compressASCIIVideo refStd [(0, [cellA, cellA, cellA]), (1, [cellA]), (2, [cellA, cellB])] =
        .ok [3, 0, 0, 0, 0, 1, 66, 1, 65, 3, 0, 0, 0, 99, 0, 0, 0, 1, 255, 128, 0, 0, 255,
          192, 0, 0, 127, 224, 0, 0, 3, 0, 0, 0, 0, 0, 0, 0, 0, 0, 1, 0, 0, 0, 65, 0, 0, 0,
          0, 0, 0, 1, 1, 0, 127, 128, 0, 1] ∧
      decompressASCIIVideo ".bin"
        (.file [3, 0, 0, 0, 0, 1, 66, 1, 65, 3, 0, 0, 0, 99, 0, 0, 0, 1, 255, 128, 0, 0, 255,
          192, 0, 0, 127, 224, 0, 0, 3, 0, 0, 0, 0, 0, 0, 0, 0, 0, 1, 0, 0, 0, 65, 0, 0, 0,
          0, 0, 0, 1, 1, 0, 127, 128, 0, 1]) =
        .ok [(0, [cellA, cellA, cellA]), (1, [cellA, cellA, cellA]),
          (2, [cellA, cellB, cellA])]) ∧
    ((List.replicate 65075262 cellA).length < (List.replicate 65075263 cellA).length ∧
      compressASCIIVideo refStd
        [(0, List.replicate 65075262 cellA), (1, List.replicate 65075263 cellA)] =
          .error .undefined_behaviour) ∧
    ((videoOfFrames ([cellA] :: [cellA, cellA] :: List.replicate 2147483646 [cellA])).length =
        2147483648 ∧
      frameAt (videoOfFrames ([cellA] :: [cellA, cellA] :: List.replicate 2147483646 [cellA]))
        0 = [cellA] ∧
      frameAt (videoOfFrames ([cellA] :: [cellA, cellA] :: List.replicate 2147483646 [cellA]))
        1 = [cellA, cellA] ∧
      compressASCIIVideo refStd
        (videoOfFrames ([cellA] :: [cellA, cellA] :: List.replicate 2147483646 [cellA])) =
          .ok [0, 0, 0, 128, 1, 65] ∧
      decompressStream [0, 0, 0, 128, 1, 65] = .ok []) := by
  have hlenV : (videoOfFrames
      ([cellA] :: [cellA, cellA] :: List.replicate 2147483646 [cellA])).length = 2147483648 := by
    rw [videoOfFrames_length, List.length_cons, List.length_cons, List.length_replicate]
  have hfs : ([cellA] :: [cellA, cellA] :: List.replicate 2147483646 [cellA]).length =
      2147483648 := by
    rw [List.length_cons, List.length_cons, List.length_replicate]
  have hall : ∀ e ∈ videoOfFrames
      ([cellA] :: [cellA, cellA] :: List.replicate 2147483646 [cellA]),
      ∀ p ∈ e.2, p.1 = 65 := by
    intro e he p hp
    have hmem := mem_videoOfFrames _ e he
    rcases List.mem_cons.mp hmem with h | h
    · rw [h] at hp; rw [List.mem_singleton.mp hp]; rfl
    · rcases List.mem_cons.mp h with h2 | h2
      · rw [h2] at hp
        rcases List.mem_cons.mp hp with h3 | h3
        · rw [h3]; rfl
        · rw [List.mem_singleton.mp h3]; rfl
      · rw [(List.mem_replicate.mp h2).2] at hp
        rw [List.mem_singleton.mp hp]; rfl
  have hfA : ∀ (j : Nat) (fr : Frame), j < 2 →
      ([cellA] :: [cellA, cellA] :: List.replicate 2147483646 [cellA]).get? j = some fr →
      frameAt (videoOfFrames ([cellA] :: [cellA, cellA] :: List.replicate 2147483646 [cellA]))
        j = fr := by
    intro j fr hj hget
    unfold frameAt
    rw [videoOfFrames_find, if_pos ⟨by omega, by rw [hfs]; omega⟩]
    have : ((j : Nat) : Int).toNat = j := rfl
    rw [this, hget]
    rfl
  have hw := wrapped_count_video refStd refStd_lawful 65 _ hall
    ⟨((0 : Nat), [cellA]), by
      unfold videoOfFrames
      apply List.mem_map.mpr
      exact ⟨0, List.mem_range.mpr (by rw [hfs]; omega), rfl⟩, by decide⟩
    (by rw [hlenV]; decide)
  rw [hlenV] at hw
  refine ⟨⟨by decide, by decide⟩, ⟨?_, ?_⟩, ⟨hlenV, hfA 0 _ (by omega) rfl,
    hfA 1 _ (by omega) rfl, hw.1, hw.2⟩⟩
  · rw [List.length_replicate, List.length_replicate]; omega
  · apply first_frame_overflow refStd refStd_lawful 65 ⟨255, 0, 0⟩ 65075262
      [(0, List.replicate 65075262 cellA), (1, List.replicate 65075263 cellA)] rfl
    · intro e he p hp
      rcases List.mem_cons.mp he with h | h
      · rw [h] at hp; rw [(List.mem_replicate.mp hp).2]; rfl
      · rw [List.mem_singleton.mp h] at hp; rw [(List.mem_replicate.mp hp).2]; rfl
    · decide
    · omega
    · omega

/-! ## Claims on the optimality of the code -/

/-- C31: for a non-empty frequency table with positive counts whose sum fits an `int` (so
that no sum of two weights overflows), `buildHuffmanTree` returns a tree whose leaves are
exactly the symbols of the table and whose weighted path length is no greater than that of
any tree with exactly those leaves, whatever the order in which the library iterates the
table and arranges the heap; and when the table has two or more symbols, the code table
`generateCodes` makes of that tree is a prefix-free binary code whose total length is that
weighted path length, and no prefix-free binary code for the symbols has a smaller total
length. -/
theorem C31_huffman_optimal (S : StdImpl) (hS : S.Lawful) (f : FreqTable)
    (hf : f.entries ≠ []) (hpos : ∀ e ∈ f.entries, 0 < e.2)
    (hsum : (f.entries.map Prod.snd).sum < 2147483648) :
    ∃ T, buildHuffmanTree S f = .ok T ∧ T.leaves.Perm (f.entries.map Prod.fst) ∧
      (∀ U : Node, U.leaves.Perm (f.entries.map Prod.fst) →
        weightedPathLength f T ≤ weightedPathLength f U) ∧
      (2 ≤ f.entries.length →
        totalCodeLength f (codeOf (generateCodes T [] (fun _ => none))) =
          weightedPathLength f T ∧
        PrefixFreeOn (f.entries.map Prod.fst) (codeOf (generateCodes T [] (fun _ => none))) ∧
        (∀ s ∈ f.entries.map Prod.fst,
          IsBits (codeOf (generateCodes T [] (fun _ => none)) s)) ∧
        ∀ code : Byte → List Char,
          (∀ s ∈ f.entries.map Prod.fst, IsBits (code s)) →
          PrefixFreeOn (f.entries.map Prod.fst) code →
          totalCodeLength f (codeOf (generateCodes T [] (fun _ => none))) ≤
            totalCodeLength f code) := by
  obtain ⟨T, hT1, hT2⟩ := buildHuffmanTree_optimal S hS f hf hpos hsum
  obtain ⟨T0, hT01, hT02, hT03⟩ := buildHuffmanTree_spec S hS f hf
  rw [hT1] at hT01
  cases hT01
  have hnd : T.leaves.Nodup := hT03.nodup_iff.mpr (entries_keys_nodup f)
  refine ⟨T, hT1, hT03, hT2, ?_⟩
  intro h2
  have hgen := generated_code_cost f T hT02 hT03 h2
  have hpf := generated_prefix_free T hT02 hnd
  refine ⟨hgen, ?_, ?_, ?_⟩
  · intro s hs t ht hst
    exact hpf.1 s (hT03.mem_iff.mpr hs) t (hT03.mem_iff.mpr ht) hst
  · intro s hs
    exact hpf.2 s (hT03.mem_iff.mpr hs)
  · intro code hbits hfree
    obtain ⟨U, _, hU2, hU3⟩ := code_cost_ge_tree f hf hpos code hbits hfree
    have := hT2 U hU2
    rw [hgen]
    exact le_trans this hU3

set_option maxRecDepth 100000 in
/-- C31, witness: the reference library and the table of the `testSimpleVideo` video
(A 6, B 2, C 1); the tree built has the leaves C and B at depth 2 and A at depth 1, of
weighted path length 12, and the code table gives A, B and C the codes 1, 01 and 00, of
total length 12. -/
theorem C31_huffman_optimal_witness :
    refStd.Lawful ∧ simpleTable.entries ≠ [] ∧ (∀ e ∈ simpleTable.entries, 0 < e.2) ∧
    (simpleTable.entries.map Prod.snd).sum < 2147483648 ∧
    buildHuffmanTree refStd simpleTable = .ok simpleTree ∧
    weightedPathLength simpleTable simpleTree = 12 ∧
    totalCodeLength simpleTable (codeOf (generateCodes simpleTree [] (fun _ => none))) = 12 ∧
    ∃ T, buildHuffmanTree refStd simpleTable = .ok T ∧
      T.leaves.Perm (simpleTable.entries.map Prod.fst) ∧
      (∀ U : Node, U.leaves.Perm (simpleTable.entries.map Prod.fst) →
        weightedPathLength simpleTable T ≤ weightedPathLength simpleTable U) ∧
      (2 ≤ simpleTable.entries.length →
        totalCodeLength simpleTable (codeOf (generateCodes T [] (fun _ => none))) =
          weightedPathLength simpleTable T ∧
        PrefixFreeOn (simpleTable.entries.map Prod.fst)
          (codeOf (generateCodes T [] (fun _ => none))) ∧
        (∀ s ∈ simpleTable.entries.map Prod.fst,
          IsBits (codeOf (generateCodes T [] (fun _ => none)) s)) ∧
        ∀ code : Byte → List Char,
          (∀ s ∈ simpleTable.entries.map Prod.fst, IsBits (code s)) →
          PrefixFreeOn (simpleTable.entries.map Prod.fst) code →
          totalCodeLength simpleTable (codeOf (generateCodes T [] (fun _ => none))) ≤
            totalCodeLength simpleTable code) :=
  ⟨refStd_lawful, by decide, by decide, by decide, by decide, by decide, by decide,
    C31_huffman_optimal refStd refStd_lawful simpleTable (by decide) (by decide) (by decide)⟩

end Codec
